import Mathlib

/-!
# libanssipki-crypto: DER layer, RSA keys and signature, generator, primes, SHA-1

A shallow embedding of the parts of `src/lib` that the verified claims are about
(`string.cpp`, `asn1.cpp`, `tbs.cpp`, `rsa.cpp`, `prime.cpp`, `sha1.cpp`, the generator and
the headers they use), followed by the theorems.

Conventions of the embedding.

* A byte (`char`, `unsigned char`) is a `Nat` holding its bit pattern `0..255`; a cast to
  `char` is an explicit `% 256`.  `size_t` is 64 bits wide and `int`/`unsigned int` are
  32 bits wide (LP64); arithmetic that can leave these ranges carries an explicit `%`.
* A throwing C++ function returns `Res α = Except Thrown α`.  `Thrown.ANSSIPKIException e`
  is an exception object of the library with error number `e` (the detail text is not
  modelled); `Thrown.fault` is any abnormal termination that is not an
  `ANSSIPKIException` and is therefore never caught by a `catch (ANSSIPKIException&)`
  (`std::bad_alloc`, an invalid memory access, an arithmetic trap of GMP);
  `Thrown.hang` is a loop that never exits.
* Mutable objects are passed and returned explicitly.  When a function throws, the
  cursor position reached in a `const String&` argument is not tracked.
* GMP is an external library: `mpz_t` is `Int` and the few `mpz_*` functions used are
  modelled after the GMP manual.
-/

namespace ANSSIPKI

/-! ## Errors (`anssipki-common.h`) -/

/-- The enumeration `exception_t` of `anssipki-common.h`. -/
inductive exception_t
  | E_OUT_OF_BOUNDS_STRING_OPERATION
  | E_INVALID_HEXA_STRING
  | E_NEGATIVE_BIGNUM
  | E_NO_SLASH_FOUND
  | E_BAD_EXTENSION
  | E_DER_INVALID_FILE
  | E_DER_SEQUENCE_EXPECTED
  | E_DER_SET_EXPECTED
  | E_DER_OID_EXPECTED
  | E_INVALID_CERTIFICATE
  | E_CRYPTO_BAD_PARAMETER
  | E_CRYPTO_PRNG_STATE_ERROR
  | E_CRYPTO_INTERNAL_MAYHEM
  | E_NOT_IMPLEMENTED
  | E_UNEXPECTED_ERROR
  | E_UNKNOWN_ERROR
  deriving DecidableEq

/-- What ends a call abnormally. -/
inductive Thrown
  | ANSSIPKIException (errNo : exception_t)
  | fault
  | hang
  deriving DecidableEq

/-- Result of a call that may throw. -/
abbrev Res (α : Type) := Except Thrown α

instance instDecidableEqRes {α : Type} [DecidableEq α] : DecidableEq (Res α) := by
  intro a b
  cases a with
  | error e =>
    cases b with
    | error f =>
      exact if h : e = f then isTrue (by rw [h]) else isFalse (fun h2 => h (Except.error.inj h2))
    | ok y => exact isFalse (fun h2 => Except.noConfusion h2)
  | ok x =>
    cases b with
    | error f => exact isFalse (fun h2 => Except.noConfusion h2)
    | ok y =>
      exact if h : x = y then isTrue (by rw [h]) else isFalse (fun h2 => h (Except.ok.inj h2))

/-- The statement `throw ANSSIPKIException (e)` (also `throw NotImplemented (..)`,
`throw UnexpectedError (..)`, ... which only fix the error number). -/
def raise {α : Type} (e : exception_t) : Res α :=
  Except.error (Thrown.ANSSIPKIException e)

/-- The handler shared by `getSize`, `decapsulate` and `ASN1_BASIC (const String&)`:
`catch (ANSSIPKIException& e)` turns an out-of-bounds error into `E_DER_INVALID_FILE`
and every other library exception into `UnexpectedError`; anything that is not an
`ANSSIPKIException` passes through. -/
def derCatch {α : Type} (body : Res α) : Res α :=
  match body with
  | Except.ok a => Except.ok a
  | Except.error (Thrown.ANSSIPKIException e) =>
      if e = exception_t.E_OUT_OF_BOUNDS_STRING_OPERATION then
        raise exception_t.E_DER_INVALID_FILE
      else
        raise exception_t.E_UNEXPECTED_ERROR
  | Except.error t => Except.error t

/-! ## Machine integers -/

/-- Number of values of `size_t`. -/
def SIZE_T_RANGE : Nat := 2 ^ 64

/-- Conversion of an `int` whose mathematical value `t` (here always `0 ≤ t < 2^32`, the
result of `byte << 0|8|16|24`) does not fit: the `int` keeps the low 32 bits in two's
complement, and its conversion to `size_t` sign-extends. -/
def int_to_size_t (t : Nat) : Nat :=
  if t % 2 ^ 32 < 2 ^ 31 then t % 2 ^ 32 else t % 2 ^ 32 + (2 ^ 64 - 2 ^ 32)

/-! ## `String` (`string.cpp`) -/

/-- The class `String`: the bytes `_str[0 .. _size)` and the exploration index.  `_size`
is the length of `_str`; a buffer is allocated (`_newUsed`) exactly when `_size > 0`,
except after the two hexadecimal conversions, which allocate even for size 0 (the only
place the model could tell the difference is `getChar` on an empty `String`). -/
structure String where
  _str : List Nat
  _index : Nat
  deriving DecidableEq

namespace String

/-- `String::size`. -/
def size (s : String) : Nat := s._str.length

/-- `String (const char* src, size_t sz)` on the `sz` bytes `src`; also the copy
constructor and `operator=` (a copy has index 0). -/
def ofBytes (src : List Nat) : String := { _str := src, _index := 0 }

/-- `String ()`: the empty String. -/
def empty : String := ofBytes []

/-- `String::resize`: `sz` zero bytes, index 0. -/
def resize (sz : Nat) : String := ofBytes (List.replicate sz 0)

/-- `String::operator+`: `String res (*this); res += src;`. -/
def append (a b : String) : String := ofBytes (a._str ++ b._str)

/-- `String::eof`. -/
def eof (s : String) : Bool := decide (s._index ≥ s.size)

/-- `String::substring`.  `start + len` is computed in `size_t`; when it wraps around and
passes the bounds test, `String (_str+start, len)` is asked for a buffer of `len` bytes
with `len` above the size of the String. -/
def substring (s : String) (start len : Nat) : Res String :=
  if (start + len) % SIZE_T_RANGE > s.size then
    raise exception_t.E_OUT_OF_BOUNDS_STRING_OPERATION
  else if len = 0 then
    Except.ok empty
  else if s.size = 0 then
    raise exception_t.E_UNEXPECTED_ERROR
  else if start + len > s.size then
    Except.error Thrown.fault
  else
    Except.ok (ofBytes ((s._str.drop start).take len))

/-- `String::initIndex`. -/
def initIndex (s : String) (start : Nat) : Res String :=
  if start > s.size then raise exception_t.E_OUT_OF_BOUNDS_STRING_OPERATION
  else Except.ok { s with _index := start }

/-- `String::getChar`.  The test is `_index > _size`, so the index may equal the size: the
byte read is then the terminating zero of the buffer, and for a String without buffer
`_str` is the null pointer. -/
def getChar (s : String) : Res Nat :=
  if s._index > s.size then raise exception_t.E_OUT_OF_BOUNDS_STRING_OPERATION
  else if s._index < s.size then Except.ok (s._str.getD s._index 0)
  else if s.size = 0 then Except.error Thrown.fault
  else Except.ok 0

/-- `String::popChar`: the byte under the index, and the String with the index advanced. -/
def popChar (s : String) : Res (Nat × String) :=
  if s._index ≥ s.size then raise exception_t.E_OUT_OF_BOUNDS_STRING_OPERATION
  else Except.ok (s._str.getD s._index 0, { s with _index := s._index + 1 })

/-- `String::popSubstring`: the substring, and the String with the index advanced. -/
def popSubstring (s : String) (len : Nat) : Res (String × String) :=
  match s.substring s._index len with
  | Except.error t => Except.error t
  | Except.ok res => Except.ok (res, { s with _index := (s._index + len) % SIZE_T_RANGE })

/-- `String::pushChar`. -/
def pushChar (s : String) (c : Nat) : Res String :=
  if s._index ≥ s.size then raise exception_t.E_OUT_OF_BOUNDS_STRING_OPERATION
  else Except.ok { _str := s._str.set s._index c, _index := s._index + 1 }

/-- The loop `while (! s.eof()) pushChar (s.popChar());` of `pushString`, `fuel` bounding
the number of tests of the loop condition. -/
def pushStringLoop : Nat → String → String → Res (String × String)
  | 0, _, _ => Except.error Thrown.hang
  | fuel + 1, dst, s =>
    if s.eof then Except.ok (dst, s)
    else
      match s.popChar with
      | Except.error t => Except.error t
      | Except.ok (c, s1) =>
        match dst.pushChar c with
        | Except.error t => Except.error t
        | Except.ok dst1 => pushStringLoop fuel dst1 s1

/-- `String::pushString`: returns the destination and the source (whose index moved). -/
def pushString (dst s : String) : Res (String × String) :=
  match s.initIndex 0 with
  | Except.error t => Except.error t
  | Except.ok s0 => pushStringLoop (s0.size + 1) dst s0

end String

/-! ## ASN.1 constants and types (`anssipki-asn1.h`) -/

/-- The enumeration `asn1_class`. -/
inductive asn1_class
  | C_UNIV
  | C_APPL
  | C_CSPE
  | C_PRIV
  deriving DecidableEq

/-- The enumeration `asn1_method`. -/
inductive asn1_method
  | M_PRIM
  | M_CONS
  deriving DecidableEq

/-- Integer value of an `asn1_class` enumerator. -/
def asn1_class.toNat : asn1_class → Nat
  | asn1_class.C_UNIV => 0
  | asn1_class.C_APPL => 1
  | asn1_class.C_CSPE => 2
  | asn1_class.C_PRIV => 3

/-- The cast `(asn1_class) n`, used on values `0..3`. -/
def asn1_class.cast (n : Nat) : asn1_class :=
  if n = 0 then asn1_class.C_UNIV
  else if n = 1 then asn1_class.C_APPL
  else if n = 2 then asn1_class.C_CSPE
  else asn1_class.C_PRIV

/-- Integer value of an `asn1_method` enumerator. -/
def asn1_method.toNat : asn1_method → Nat
  | asn1_method.M_PRIM => 0
  | asn1_method.M_CONS => 1

/-- The cast `(asn1_method) n`, used on values `0..1`. -/
def asn1_method.cast (n : Nat) : asn1_method :=
  if n = 0 then asn1_method.M_PRIM else asn1_method.M_CONS

/-! A value of the enumeration `asn1_tagnumber` is kept as its integer, a `Nat`: the code
also casts other integers to it (`(asn1_tagnumber) 0`).  The enumerators are below; the
range of the C++ type is `0..31`. -/

def T_BOOL : Nat := 1
def T_INTG : Nat := 2
def T_BSTR : Nat := 3
def T_OSTR : Nat := 4
def T_NULL : Nat := 5
def T_OIDR : Nat := 6
def T_UTF8 : Nat := 12
def T_SEQU : Nat := 16
def T_SETS : Nat := 17
def T_PRTS : Nat := 19
def T_T61S : Nat := 20
def T_IA5S : Nat := 22
def T_UTCT : Nat := 23
def T_GENT : Nat := 24

/-- The enumeration `tag_expected_t`. -/
inductive tag_expected_t
  | TE_STRING
  | TE_NULL
  | TE_OCTETSTRING
  deriving DecidableEq

/-- The structure `asn1_oid` (the description text `desc` is not modelled; `hoid` lists
the bytes written in the initialiser, the rest of the `char[32]` being zero). -/
structure asn1_oid where
  len : Nat
  hoid : List Nat
  tag_expected : tag_expected_t
  deriving DecidableEq

/-- The enumeration `pubkey_algo` has the single enumerator `PK_ALGO_RSA = 0`. -/
inductive pubkey_algo
  | PK_ALGO_RSA
  deriving DecidableEq

/-- The table `pubKeyAlgoOIDs`, indexed by a `pubkey_algo`: 1.2.840.113549.1.1.1. -/
def pubKeyAlgoOIDs (a : pubkey_algo) : asn1_oid :=
  match a with
  | pubkey_algo.PK_ALGO_RSA =>
    { len := 9
      hoid := [0x2A, 0x86, 0x48, 0x86, 0xF7, 0x0D, 0x01, 0x01, 0x01]
      tag_expected := tag_expected_t.TE_NULL }

/-! ## Free functions of `asn1.cpp` -/

/-- The cases accepted by the `switch` of `getTagNumber` for the universal class. -/
def universalTags : List Nat :=
  [T_BOOL, T_INTG, T_BSTR, T_OSTR, T_NULL, T_OIDR, T_UTF8, T_SEQU, T_SETS, T_PRTS, T_T61S,
   T_IA5S, T_UTCT, T_GENT]

/-- `getTagNumber (const asn1_class c, const char idOctet)`. -/
def getTagNumber (c : asn1_class) (idOctet : Nat) : Res Nat :=
  if idOctet &&& 0x1F = 0x1F then raise exception_t.E_NOT_IMPLEMENTED
  else
    let tmp := idOctet &&& 0x1F
    if c = asn1_class.C_UNIV then
      if tmp ∈ universalTags then Except.ok tmp else raise exception_t.E_NOT_IMPLEMENTED
    else Except.ok tmp

/-- The loop `while (sizeCode) size |= (DERString.popChar() & 0xff) << (8 * (--sizeCode));`
of `getSize`; the recursion is on `sizeCode`.  The shift is done on an `int`. -/
def getSizeLoop : Nat → Nat → String → Res (Nat × String)
  | 0, size, s => Except.ok (size, s)
  | sizeCode + 1, size, s =>
    match s.popChar with
    | Except.error t => Except.error t
    | Except.ok (c, s1) =>
      getSizeLoop sizeCode (size ||| int_to_size_t ((c &&& 0xff) <<< (8 * sizeCode))) s1

/-- The `try` block of `getSize`. -/
def getSizeBody (DERString : String) : Res (Nat × String) :=
  match DERString.getChar with
  | Except.error t => Except.error t
  | Except.ok c =>
    if c &&& 0x80 ≠ 0 then
      match DERString.popChar with
      | Except.error t => Except.error t
      | Except.ok (_, s1) =>
        if c &&& 0x7f ≥ 5 then raise exception_t.E_NOT_IMPLEMENTED
        else getSizeLoop (c &&& 0x7f) 0 s1
    else
      getSizeLoop 1 0 DERString

/-- `getSize (const String& DERString)`: the size read, and the String with its index on
the first byte after the size field. -/
def getSize (DERString : String) : Res (Nat × String) :=
  derCatch (getSizeBody DERString)

/-- The class `ASN1_BASIC`. -/
structure ASN1_BASIC where
  classe : asn1_class
  method : asn1_method
  tagNumber : Nat
  value : String
  deriving DecidableEq

/-- The loop `while (sz > 0 && v.getChar() == 0) { sz--; v.popChar(); }` of the constructor
of `ASN1_BASIC`; the recursion is on `sz`. -/
def stripZeros : Nat → String → Res (Nat × String)
  | 0, v => Except.ok (0, v)
  | sz + 1, v =>
    match v.getChar with
    | Except.error t => Except.error t
    | Except.ok c =>
      if c = 0 then
        match v.popChar with
        | Except.error t => Except.error t
        | Except.ok (_, v1) => stripZeros sz v1
      else Except.ok (sz + 1, v)

/-- The constructor `ASN1_BASIC (asn1_class c, asn1_method m, Nat n,
const String& v)`. -/
def ASN1_BASIC.new (c : asn1_class) (m : asn1_method) (n : Nat) (v : String) :
    Res ASN1_BASIC :=
  if c = asn1_class.C_UNIV ∧ m = asn1_method.M_PRIM ∧ n = T_INTG then
    match v.initIndex 0 with
    | Except.error t => Except.error t
    | Except.ok v0 =>
      match stripZeros v.size v0 with
      | Except.error t => Except.error t
      | Except.ok (sz, v1) =>
        let padding : Res String :=
          if sz > 0 then
            match v1.getChar with
            | Except.error t => Except.error t
            | Except.ok ch => if ch &&& 0x80 ≠ 0 then Except.ok (String.resize 1)
                              else Except.ok String.empty
          else Except.ok String.empty
        match padding with
        | Except.error t => Except.error t
        | Except.ok pad =>
          match v1.popSubstring sz with
          | Except.error t => Except.error t
          | Except.ok (sub, _) =>
            Except.ok { classe := c, method := m, tagNumber := n, value := pad.append sub }
  else
    Except.ok { classe := c, method := m, tagNumber := n, value := String.ofBytes v._str }

/-- The constructor `ASN1_BASIC (const asn1_oid& oid)`. -/
def ASN1_BASIC.ofOid (oid : asn1_oid) : ASN1_BASIC :=
  { classe := asn1_class.C_UNIV, method := asn1_method.M_PRIM, tagNumber := T_OIDR,
    value := String.ofBytes (oid.hoid.take oid.len) }

/-- The constructor `ASN1_BASIC (const String& DERString)`: the element read, and
`DERString` with its index behind the element. -/
def ASN1_BASIC.fromDER (DERString : String) : Res (ASN1_BASIC × String) :=
  derCatch
    (match DERString.popChar with
     | Except.error t => Except.error t
     | Except.ok (idOctet, s1) =>
       let classe := asn1_class.cast ((idOctet &&& 0xC0) >>> 6)
       let method := asn1_method.cast ((idOctet &&& 0x20) >>> 5)
       match getTagNumber classe idOctet with
       | Except.error t => Except.error t
       | Except.ok tagNumber =>
         match getSize s1 with
         | Except.error t => Except.error t
         | Except.ok (sz, s2) =>
           match s2.popSubstring sz with
           | Except.error t => Except.error t
           | Except.ok (value, s3) =>
             Except.ok ({ classe := classe, method := method, tagNumber := tagNumber,
                          value := value }, s3))

/-- The loop `while (tmp) { sizeLen++; tmp >>= 8; }` of `toDER`, `fuel` bounding the number
of iterations. -/
def sizeLenLoop : Nat → Nat → Nat → Nat
  | 0, _, sizeLen => sizeLen
  | fuel + 1, tmp, sizeLen =>
    if tmp ≠ 0 then sizeLenLoop fuel (tmp >>> 8) (sizeLen + 1) else sizeLen

/-- The loop `while (sizeLen) { sizeLen--; res.pushChar ((char)
((valLen >> (8 * sizeLen)) & 0xFF)); }` of `toDER`; the recursion is on `sizeLen`. -/
def pushLenLoop : Nat → Nat → String → Res String
  | 0, _, res => Except.ok res
  | sizeLen + 1, valLen, res =>
    match res.pushChar (((valLen >>> (8 * sizeLen)) &&& 0xFF) % 256) with
    | Except.error t => Except.error t
    | Except.ok res1 => pushLenLoop sizeLen valLen res1

/-- The identifier octet written by `toDER`:
`(char) (((classe & 0x03) << 6) | ((method & 0x01) << 5) | (tagNumber & 0x1F))`. -/
def idOctetOf (x : ASN1_BASIC) : Nat :=
  ((((x.classe.toNat &&& 0x03) <<< 6) ||| ((x.method.toNat &&& 0x01) <<< 5)) |||
    (x.tagNumber &&& 0x1F)) % 256

/-- `ASN1_BASIC::toDER`.  The index of the member `value` is left at its end by
`pushString`; only the String returned is kept.  `1 + sizeLen + valLen` does not wrap
around: `valLen` is the size of an allocated buffer. -/
def ASN1_BASIC.toDER (x : ASN1_BASIC) : Res String :=
  let valLen := x.value.size
  let sizeLen := if valLen < 128 then 1 else sizeLenLoop valLen valLen 1
  match (String.resize (1 + sizeLen + valLen)).initIndex 0 with
  | Except.error t => Except.error t
  | Except.ok res0 =>
    match res0.pushChar (idOctetOf x) with
    | Except.error t => Except.error t
    | Except.ok res1 =>
      let afterSize : Res String :=
        if valLen < 128 then res1.pushChar (valLen % 256)
        else
          match res1.pushChar ((0x80 ||| (sizeLen - 1)) % 256) with
          | Except.error t => Except.error t
          | Except.ok res2 => pushLenLoop (sizeLen - 1) valLen res2
      match afterSize with
      | Except.error t => Except.error t
      | Except.ok res3 =>
        match res3.pushString x.value with
        | Except.error t => Except.error t
        | Except.ok (res4, _) => res4.initIndex 0

/-- `encapsulate (const String& DERString, const Nat t, const asn1_class c)`;
`c` is `C_UNIV` when the caller omits it. -/
def encapsulate (DERString : String) (t : Nat)
    (c : asn1_class := asn1_class.C_UNIV) : Res String :=
  match ASN1_BASIC.new c asn1_method.M_CONS t DERString with
  | Except.error e => Except.error e
  | Except.ok res => res.toDER

/-- `decapsulate (const String& DERString, const Nat t)`: the content, and
`DERString` with its index behind the container. -/
def decapsulate (DERString : String) (t : Nat) : Res (String × String) :=
  derCatch
    (match DERString.popChar with
     | Except.error e => Except.error e
     | Except.ok (idOctet, s1) =>
       match getTagNumber asn1_class.C_UNIV idOctet with
       | Except.error e => Except.error e
       | Except.ok tn =>
         if tn ≠ t then
           if t = T_SETS then raise exception_t.E_DER_SET_EXPECTED
           else if t = T_SEQU then raise exception_t.E_DER_SEQUENCE_EXPECTED
           else raise exception_t.E_NOT_IMPLEMENTED
         else
           match getSize s1 with
           | Except.error e => Except.error e
           | Except.ok (sz, s2) => s2.popSubstring sz)

/-! ## GMP (external library, modelled after its manual) -/

/-- The digits of `n` in base `base`, most significant first, `fuel` bounding the number
of digits; `acc` receives the digits already produced.  Zero has the single digit 0. -/
def toDigitsBE (base : Nat) : Nat → Nat → List Nat → List Nat
  | 0, _, acc => acc
  | fuel + 1, n, acc =>
    if n < base then n :: acc else toDigitsBE base fuel (n / base) (n % base :: acc)

/-- The character written by `mpz_get_str` for the digit `d` in base 16 (lower case). -/
def mpz_digit_char (d : Nat) : Nat := if d < 10 then 48 + d else 87 + d

/-- `mpz_sgn`. -/
def mpz_sgn (n : Int) : Int := Int.sign n

/-- `mpz_get_str (str, 16, n)` for `n ≥ 0`: the digits of `n` in base 16, most significant
first, in lower case (a single `'0'` for zero), without the terminating zero. -/
def mpz_get_str_16 (n : Int) : List Nat :=
  (toDigitsBE 16 (n.toNat + 1) n.toNat []).map mpz_digit_char

/-- `mpz_sizeinbase (n, 16)`: the number of digits of `|n|` in base 16, 1 for zero (the
result is exact for a base that is a power of 2). -/
def mpz_sizeinbase_16 (n : Int) : Nat := (toDigitsBE 16 (n.natAbs + 1) n.natAbs []).length

/-- Value of a character taken as digit by `mpz_set_str` in base 16 (case is ignored). -/
def mpz_char_digit (c : Nat) : Option Nat :=
  if 48 ≤ c ∧ c ≤ 57 then some (c - 48)
  else if 65 ≤ c ∧ c ≤ 70 then some (c + 10 - 65)
  else if 97 ≤ c ∧ c ≤ 102 then some (c + 10 - 97)
  else none

/-- Value of a string of hexadecimal digits read from the left, `acc` being the value of
the digits already read; `none` when a character is not a hexadecimal digit. -/
def mpz_parse_16 : List Nat → Nat → Option Nat
  | [], acc => some acc
  | c :: cs, acc =>
    match mpz_char_digit c with
    | none => none
    | some d => mpz_parse_16 cs (acc * 16 + d)

/-- `mpz_init_set_str (rop, str, 16)`, the value given to `rop`: the value of `str` when it
is a non-empty string of hexadecimal digits.  For any other string the model gives 0, the
value `rop` has after a conversion that failed (the white space and the sign GMP accepts
are not modelled: the callers pass the output of `bignumToAsciiHexa`). -/
def mpz_init_set_str_16 (str : List Nat) : Int :=
  match str with
  | [] => 0
  | _ :: _ =>
    match mpz_parse_16 str 0 with
    | some v => Int.ofNat v
    | none => 0

/-- `mpz_invert (rop, op1, op2)`: `some rop` with `0 ≤ rop < |op2|` and
`op1 * rop ≡ 1 (mod op2)` when the inverse exists (return value non-zero), `none` when it
does not (return value 0).  The manual leaves `op2 = 0` undefined; the model has no
inverse there. -/
def mpz_invert (op1 op2 : Int) : Option Int :=
  (List.find? (fun (r : Nat) => decide ((op1 * Int.ofNat r - 1) % op2 = 0))
    (List.range op2.natAbs)).map Int.ofNat

/-- `mpz_powm (rop, base, exp, mod)`, the value given to `rop`: `base ^ exp` modulo `mod`,
in `[0, |mod|)`.  A zero `mod` is a division by zero, and so is a negative `exp` when
`base` has no inverse modulo `mod`. -/
def mpz_powm (base exp mod : Int) : Res Int :=
  if mod = 0 then Except.error Thrown.fault
  else if 0 ≤ exp then Except.ok ((base ^ exp.toNat) % mod)
  else
    match mpz_invert base mod with
    | none => Except.error Thrown.fault
    | some inv => Except.ok ((inv ^ exp.natAbs) % mod)

/-! ## Hexadecimal conversions and big numbers in `String` (`string.cpp`) -/

/-- The enumeration `String::encode_t`. -/
inductive encode_t
  | ENC_BINARY
  | ENC_DISPLAY
  deriving DecidableEq

/-- The table `hexa`. -/
def hexa (i : Nat) : Nat := if i < 10 then 48 + i else 55 + i

/-- `fromHexa (char c)`. -/
def fromHexa (c : Nat) : Res Nat :=
  if 48 ≤ c ∧ c ≤ 57 then Except.ok (c - 48)
  else if 65 ≤ c ∧ c ≤ 70 then Except.ok (c + 10 - 65)
  else if 97 ≤ c ∧ c ≤ 102 then Except.ok (c + 10 - 97)
  else raise exception_t.E_INVALID_HEXA_STRING

/-- The loop `while (dst_i < new_size) { new_str[dst_i] = (char) ((fromHexa (_str[i]) << 4)
| fromHexa (_str[i+1])); dst_i++; i += 2; }` of `asciiHexaToBignum`: the first argument is
`new_size - dst_i`, the second the bytes of `_str` from position `i` on.  Past its last
byte the buffer holds the terminating zero, which `fromHexa` rejects. -/
def hexPairsLoop : Nat → List Nat → Res (List Nat)
  | 0, _ => Except.ok []
  | n + 1, a :: b :: rest =>
    match fromHexa a with
    | Except.error t => Except.error t
    | Except.ok hi =>
      match fromHexa b with
      | Except.error t => Except.error t
      | Except.ok lo =>
        match hexPairsLoop n rest with
        | Except.error t => Except.error t
        | Except.ok tl => Except.ok (((hi <<< 4) ||| lo) % 256 :: tl)
  | _ + 1, [a] =>
    match fromHexa a with
    | Except.error t => Except.error t
    | Except.ok _ => raise exception_t.E_INVALID_HEXA_STRING
  | _ + 1, [] => raise exception_t.E_INVALID_HEXA_STRING

/-- `String::asciiHexaToBignum`, returning the String after the conversion. -/
def String.asciiHexaToBignum (s : String) : Res String :=
  let new_size := s.size / 2 + s.size % 2
  if s.size % 2 = 1 then
    match s._str with
    | [] => raise exception_t.E_INVALID_HEXA_STRING
    | a :: rest =>
      match fromHexa a with
      | Except.error t => Except.error t
      | Except.ok d =>
        match hexPairsLoop (new_size - 1) rest with
        | Except.error t => Except.error t
        | Except.ok tl => Except.ok (String.ofBytes (d % 256 :: tl))
  else
    match hexPairsLoop new_size s._str with
    | Except.error t => Except.error t
    | Except.ok tl => Except.ok (String.ofBytes tl)

/-- The loop of `bignumToAsciiHexa` over the bytes of `_str`: two characters of `hexa` per
byte and, for a non-zero `delimiter`, the delimiter after every byte but the last. -/
def bignumToAsciiHexaLoop (delimiter : Nat) : List Nat → List Nat
  | [] => []
  | b :: rest =>
    hexa ((b >>> 4) &&& 0xf) :: hexa (b &&& 0xf) ::
      (if delimiter ≠ 0 ∧ rest ≠ [] then delimiter :: bignumToAsciiHexaLoop delimiter rest
       else bignumToAsciiHexaLoop delimiter rest)

/-- `String::toAsciiHexa (delimiter)`: a copy on which `bignumToAsciiHexa (delimiter)` is
run.  On an empty String with a non-zero delimiter `new_size = _size * 3 - 1` wraps around
and the terminating zero is written outside the buffer. -/
def String.toAsciiHexa (s : String) (delimiter : Nat) : Res String :=
  if delimiter ≠ 0 ∧ s.size = 0 then Except.error Thrown.fault
  else Except.ok (String.ofBytes (bignumToAsciiHexaLoop delimiter s._str))

/-- The constructor `String (const mpz_t n, encode_t encoding)`: `pr_init` allocates
`mpz_sizeinbase (n, 16)` bytes, which `mpz_get_str (_str, 16, n)` fills with the digits. -/
def String.ofMpz (n : Int) (encoding : encode_t) : Res String :=
  if mpz_sgn n < 0 then raise exception_t.E_NEGATIVE_BIGNUM
  else
    let s0 := String.resize (mpz_sizeinbase_16 n)
    let s := { s0 with _str := mpz_get_str_16 n }
    match encoding with
    | encode_t.ENC_BINARY => s.asciiHexaToBignum
    | encode_t.ENC_DISPLAY => Except.ok s

/-! ## Typed ASN.1 wrappers (`asn1.cpp`) -/

/-- The constructor `ASN1_INTEGER (const mpz_t n)`. -/
def ASN1_INTEGER.ofMpz (n : Int) : Res ASN1_BASIC :=
  match ASN1_BASIC.new asn1_class.C_UNIV asn1_method.M_PRIM T_INTG String.empty with
  | Except.error t => Except.error t
  | Except.ok base =>
    match String.ofMpz n encode_t.ENC_BINARY with
    | Except.error t => Except.error t
    | Except.ok value =>
      match value.initIndex 0 with
      | Except.error t => Except.error t
      | Except.ok value0 =>
        match value0.getChar with
        | Except.error t => Except.error t
        | Except.ok ch =>
          if ch &&& 0x80 ≠ 0 then
            Except.ok { base with value := (String.ofBytes [0]).append value0 }
          else
            Except.ok { base with value := String.ofBytes value0._str }

/-- The class `ASN1_OBJECT`. -/
structure ASN1_OBJECT where
  objectType : ASN1_BASIC
  object : ASN1_BASIC
  deriving DecidableEq

/-- The constructor `ASN1_OBJECT (const asn1_oid& oid, const String& value,
const asn1_tagnumber tag)`. -/
def ASN1_OBJECT.new (oid : asn1_oid) (value : String) (tag : Nat) : Res ASN1_OBJECT :=
  match ASN1_BASIC.new asn1_class.C_UNIV asn1_method.M_PRIM tag value with
  | Except.error t => Except.error t
  | Except.ok object => Except.ok { objectType := ASN1_BASIC.ofOid oid, object := object }

/-- `ASN1_OBJECT::toDER`. -/
def ASN1_OBJECT.toDER (o : ASN1_OBJECT) : Res String :=
  match o.objectType.toDER with
  | Except.error t => Except.error t
  | Except.ok a =>
    match o.object.toDER with
    | Except.error t => Except.error t
    | Except.ok b => Except.ok (a.append b)

/-- The constructor `ASN1_ENCRYPT_ALGO (const pubkey_algo pubkey_algo)`. -/
def ASN1_ENCRYPT_ALGO.new (a : pubkey_algo) : Res ASN1_OBJECT :=
  ASN1_OBJECT.new (pubKeyAlgoOIDs a) String.empty T_NULL

/-! ## Hash identifiers and DigestInfo headers (`anssipki-crypto.h`) -/

/-! A value of the enumeration `ANSSIPKI_HASH::hash_function_t`
(`{invalid, sha1, sha256, sha384, sha512}`) is kept as its integer, a `Nat`: the range of
the C++ type is `0..7`, and `copyDigestInfoHeader` has a `default:` case for the values
that are not enumerators. -/

def ANSSIPKI_HASH.invalid : Nat := 0
def ANSSIPKI_HASH.sha1 : Nat := 1
def ANSSIPKI_HASH.sha256 : Nat := 2
def ANSSIPKI_HASH.sha384 : Nat := 3
def ANSSIPKI_HASH.sha512 : Nat := 4

def ANSSIPKI_HASH.digestInfoHeader_sha1_len : Nat := 15
def ANSSIPKI_HASH.digestInfoHeader_sha1 : List Nat :=
  [0x30, 0x21, 0x30, 0x09, 0x06, 0x05, 0x2b, 0x0e, 0x03, 0x02, 0x1a, 0x05, 0x00, 0x04, 0x14]

def ANSSIPKI_HASH.digestInfoHeader_sha256_len : Nat := 19
def ANSSIPKI_HASH.digestInfoHeader_sha256 : List Nat :=
  [0x30, 0x31, 0x30, 0x0d, 0x06, 0x09, 0x60, 0x86, 0x48, 0x01, 0x65, 0x03, 0x04, 0x02, 0x01,
   0x05, 0x00, 0x04, 0x20]

def ANSSIPKI_HASH.digestInfoHeader_sha384_len : Nat := 19
def ANSSIPKI_HASH.digestInfoHeader_sha384 : List Nat :=
  [0x30, 0x41, 0x30, 0x0d, 0x06, 0x09, 0x60, 0x86, 0x48, 0x01, 0x65, 0x03, 0x04, 0x02, 0x02,
   0x05, 0x00, 0x04, 0x30]

def ANSSIPKI_HASH.digestInfoHeader_sha512_len : Nat := 19
def ANSSIPKI_HASH.digestInfoHeader_sha512 : List Nat :=
  [0x30, 0x51, 0x30, 0x0d, 0x06, 0x09, 0x60, 0x86, 0x48, 0x01, 0x65, 0x03, 0x04, 0x02, 0x03,
   0x05, 0x00, 0x04, 0x40]

/-! ## Raw memory -/

/-- The assignment `buf[i] = x` in a caller's array of `buf.length` bytes; a write outside
the array is a fault. -/
def writeAt (buf : List Nat) (i x : Nat) : Res (List Nat) :=
  if i < buf.length then Except.ok (buf.set i x) else Except.error Thrown.fault

/-- `memcpy (&buf[off], src, n)` with the first `n` bytes of `src`; a write outside the
array is a fault. -/
def memcpy (buf : List Nat) (off : Nat) (src : List Nat) (n : Nat) : Res (List Nat) :=
  if off + n ≤ buf.length then
    Except.ok (buf.take off ++ src.take n ++ buf.drop (off + n))
  else Except.error Thrown.fault

/-! ## `rsa.cpp` -/

/-- `ANSSIPKI_HASH::copyDigestInfoHeader (dst, len, hash)`.  `dst` is `none` for a null
pointer, otherwise the array written to and the offset of `dst` in it; `len` is `none`
for a null pointer, otherwise the value of `*len`.  The result is the value returned, the
array and `*len` after the call. -/
def ANSSIPKI_HASH.copyDigestInfoHeader (dst : Option (List Nat × Nat)) (len : Option Nat)
    (hash : Nat) : Res (Int × Option (List Nat) × Option Nat) :=
  match len with
  | none => Except.ok (-1, dst.map Prod.fst, none)
  | some l =>
    if hash = ANSSIPKI_HASH.invalid then Except.ok (1, dst.map Prod.fst, some 0)
    else
      let src : Option (List Nat × Nat) :=
        if hash = ANSSIPKI_HASH.sha1 then
          some (ANSSIPKI_HASH.digestInfoHeader_sha1, ANSSIPKI_HASH.digestInfoHeader_sha1_len)
        else if hash = ANSSIPKI_HASH.sha256 then
          some (ANSSIPKI_HASH.digestInfoHeader_sha256, ANSSIPKI_HASH.digestInfoHeader_sha256_len)
        else if hash = ANSSIPKI_HASH.sha384 then
          some (ANSSIPKI_HASH.digestInfoHeader_sha384, ANSSIPKI_HASH.digestInfoHeader_sha384_len)
        else if hash = ANSSIPKI_HASH.sha512 then
          some (ANSSIPKI_HASH.digestInfoHeader_sha512, ANSSIPKI_HASH.digestInfoHeader_sha512_len)
        else none
      match src with
      | none => Except.ok (-2, dst.map Prod.fst, some l)
      | some (pSrc, srcLen) =>
        match dst with
        | none => Except.ok (1, none, some srcLen)
        | some (buf, off) =>
          if srcLen > l then Except.ok (-3, some buf, some l)
          else
            match memcpy buf off pSrc srcLen with
            | Except.error t => Except.error t
            | Except.ok buf1 => Except.ok (1, some buf1, some srcLen)

/-- The loop `for (i=2; i<2+psLen; i++) res[i] = 0xFF;` of `pkcs1_v1_5_encode`, entered
with the current `i`; `bound` is `2+psLen` (a `size_t`) and `i` is an `unsigned int`.
`fuel` bounds the number of tests of the condition: after `2^32` successful tests `i` has
taken every value of its type and the loop never exits. -/
def psLoop : Nat → List Nat → Nat → Nat → Res (List Nat × Nat)
  | 0, _, _, _ => Except.error Thrown.hang
  | fuel + 1, res, i, bound =>
    if i < bound then
      match writeAt res i 0xFF with
      | Except.error t => Except.error t
      | Except.ok res1 => psLoop fuel res1 ((i + 1) % 2 ^ 32) bound
    else Except.ok (res, i)

/-- `RSAKey::pkcs1_v1_5_encode (res, emLen, data, dataLen, hashFunc)`.  `res` is the
caller's array, which the code does not test (a null `res` is the empty array); `data` is
`none` for a null pointer, otherwise the `dataLen` bytes.  The result is the value returned
and the array after the call. -/
def pkcs1_v1_5_encode (res : List Nat) (emLen : Nat) (data : Option (List Nat))
    (hashFunc : Nat) : Res (Int × List Nat) :=
  match data with
  | none => Except.ok (-1, res)
  | some d =>
    let dataLen := d.length
    if emLen < (dataLen + 11) % SIZE_T_RANGE then Except.ok (-2, res)
    else
      match ANSSIPKI_HASH.copyDigestInfoHeader none (some 0) hashFunc with
      | Except.error t => Except.error t
      | Except.ok (rv1, _, len1) =>
        if rv1 = 0 then Except.ok (-3, res)
        else
          let dihLen := len1.getD 0
          let tLen := (dataLen + dihLen) % SIZE_T_RANGE
          let psLen := (emLen + (SIZE_T_RANGE - tLen) + (SIZE_T_RANGE - 3)) % SIZE_T_RANGE
          match writeAt res 0 0x00 with
          | Except.error t => Except.error t
          | Except.ok r0 =>
            match writeAt r0 1 0x01 with
            | Except.error t => Except.error t
            | Except.ok r1 =>
              match psLoop (2 ^ 32 + 1) r1 2 ((2 + psLen) % SIZE_T_RANGE) with
              | Except.error t => Except.error t
              | Except.ok (r2, i) =>
                match writeAt r2 i 0x00 with
                | Except.error t => Except.error t
                | Except.ok r3 =>
                  match ANSSIPKI_HASH.copyDigestInfoHeader (some (r3, (i + 1) % 2 ^ 32))
                      (some dihLen) hashFunc with
                  | Except.error t => Except.error t
                  | Except.ok (rv2, buf4, len2) =>
                    if rv2 = 0 then Except.ok (-3, buf4.getD r3)
                    else
                      match memcpy (buf4.getD r3)
                          (((i + 1) % 2 ^ 32 + (len2.getD 0) % 2 ^ 32) % 2 ^ 32) d dataLen with
                      | Except.error t => Except.error t
                      | Except.ok r5 => Except.ok (0, r5)

/-- The class `RSAKey`. -/
structure RSAKey where
  _initialized : Bool
  _n : Int
  _d : Int
  _p : Int
  _q : Int
  _e : Int
  deriving DecidableEq

/-- The constructor `RSAKey ()`. -/
def RSAKey.new : RSAKey :=
  { _initialized := false, _n := 0, _d := 0, _p := 0, _q := 0, _e := 0 }

/-- `RSAKey::setN`. -/
def RSAKey.setN (k : RSAKey) (newN : Int) : RSAKey := { k with _n := newN }

/-- `RSAKey::setE`. -/
def RSAKey.setE (k : RSAKey) (newE : Int) : RSAKey := { k with _e := newE }

/-- `RSAKey::setD`. -/
def RSAKey.setD (k : RSAKey) (newD : Int) : RSAKey := { k with _d := newD }

/-- `RSAKey::setInitialized`. -/
def RSAKey.setInitialized (k : RSAKey) : RSAKey := { k with _initialized := true }

/-- `getNextInt (const String& DERString, mpz_t i)`: the value given to `i`, and
`DERString` with its index behind the element read. -/
def getNextInt (DERString : String) : Res (Int × String) :=
  match ASN1_BASIC.fromDER DERString with
  | Except.error t => Except.error t
  | Except.ok (asn1Integer, s1) =>
    match asn1Integer.value.toAsciiHexa 0 with
    | Except.error t => Except.error t
    | Except.ok n_hexa => Except.ok (mpz_init_set_str_16 n_hexa._str, s1)

/-- `RSAKey::ASN1PublicKey`. -/
def RSAKey.ASN1PublicKey (k : RSAKey) : Res String := do
  let n ← ASN1_INTEGER.ofMpz k._n
  let e ← ASN1_INTEGER.ofMpz k._e
  let nDER ← n.toDER
  let eDER ← e.toDER
  encapsulate (nDER.append eDER) T_SEQU

/-- `RSAKey::ASN1PubKeyInfo`. -/
def RSAKey.ASN1PubKeyInfo (k : RSAKey) : Res String := do
  let algo ← ASN1_ENCRYPT_ALGO.new pubkey_algo.PK_ALGO_RSA
  let n ← ASN1_INTEGER.ofMpz k._n
  let e ← ASN1_INTEGER.ofMpz k._e
  let padding := String.resize 1
  let nDER ← n.toDER
  let eDER ← e.toDER
  let inner ← encapsulate (nDER.append eDER) T_SEQU
  let pubKey ← ASN1_BASIC.new asn1_class.C_UNIV asn1_method.M_PRIM T_BSTR (padding.append inner)
  let algoDER ← algo.toDER
  let algoSeq ← encapsulate algoDER T_SEQU
  let pubKeyDER ← pubKey.toDER
  encapsulate (algoSeq.append pubKeyDER) T_SEQU

/-- `RSAKey::ASN1PrivateKey`. -/
def RSAKey.ASN1PrivateKey (k : RSAKey) : Res String :=
  let p_minus_1 := k._p - 1
  let q_minus_1 := k._q - 1
  match mpz_invert k._e p_minus_1 with
  | none => raise exception_t.E_CRYPTO_INTERNAL_MAYHEM
  | some _d_mod_p_minus_1 =>
    match mpz_invert k._e q_minus_1 with
    | none => raise exception_t.E_CRYPTO_INTERNAL_MAYHEM
    | some _d_mod_q_minus_1 =>
      match mpz_invert k._q k._p with
      | none => raise exception_t.E_CRYPTO_INTERNAL_MAYHEM
      | some _invq => do
        let version ← ASN1_INTEGER.ofMpz 0
        let n ← ASN1_INTEGER.ofMpz k._n
        let e ← ASN1_INTEGER.ofMpz k._e
        let d ← ASN1_INTEGER.ofMpz k._d
        let p ← ASN1_INTEGER.ofMpz k._p
        let q ← ASN1_INTEGER.ofMpz k._q
        let d_mod_p ← ASN1_INTEGER.ofMpz _d_mod_p_minus_1
        let d_mod_q ← ASN1_INTEGER.ofMpz _d_mod_q_minus_1
        let invq ← ASN1_INTEGER.ofMpz _invq
        let versionDER ← version.toDER
        let nDER ← n.toDER
        let eDER ← e.toDER
        let dDER ← d.toDER
        let pDER ← p.toDER
        let qDER ← q.toDER
        let d_mod_pDER ← d_mod_p.toDER
        let d_mod_qDER ← d_mod_q.toDER
        let invqDER ← invq.toDER
        encapsulate
          ((((((((versionDER.append nDER).append eDER).append dDER).append pDER).append
            qDER).append d_mod_pDER).append d_mod_qDER).append invqDER) T_SEQU

/-- One statement of a `try` block followed by `catch (ANSSIPKIException &e) { return
false; }`: `handler` is the result of the function when the statement throws a library
exception, `cont` the rest of the block. -/
def tryStep {α β : Type} (r : Res α) (handler : Res β) (cont : α → Res β) : Res β :=
  match r with
  | Except.ok a => cont a
  | Except.error (Thrown.ANSSIPKIException _) => handler
  | Except.error t => Except.error t

/-- `RSAKey::setFromASN1PrivateKey`: the value returned and the key after the call (when an
exception is caught, the integers read before it stay in the key). -/
def RSAKey.setFromASN1PrivateKey (k : RSAKey) (DERString : String) : Res (Bool × RSAKey) :=
  if k._initialized then Except.ok (false, k)
  else
    tryStep (decapsulate DERString T_SEQU) (Except.ok (false, k)) fun r0 =>
    let content := String.ofBytes r0.1._str
    tryStep (ASN1_BASIC.fromDER content) (Except.ok (false, k)) fun r1 =>
    tryStep (getNextInt r1.2) (Except.ok (false, k)) fun r2 =>
    let k1 := { k with _n := r2.1 }
    tryStep (getNextInt r2.2) (Except.ok (false, k1)) fun r3 =>
    let k2 := { k1 with _e := r3.1 }
    tryStep (getNextInt r3.2) (Except.ok (false, k2)) fun r4 =>
    let k3 := { k2 with _d := r4.1 }
    tryStep (getNextInt r4.2) (Except.ok (false, k3)) fun r5 =>
    let k4 := { k3 with _p := r5.1 }
    tryStep (getNextInt r5.2) (Except.ok (false, k4)) fun r6 =>
    let k5 := { k4 with _q := r6.1 }
    Except.ok (true, { k5 with _initialized := true })

/-- `RSAKey::private_exponentiation (mpz_t *res, mpz_t *data)`.  A pointer is `none` when
null, otherwise the integer it points to.  The result is the value returned, the key and
`*res` after the call. -/
def RSAKey.private_exponentiation (k : RSAKey) (res data : Option Int) :
    Res (Int × RSAKey × Option Int) :=
  match res, data with
  | some r, some d =>
    if d ≥ k._n then Except.ok (-1, k, some r)
    else
      match mpz_powm d k._d k._n with
      | Except.error t => Except.error t
      | Except.ok v => Except.ok (0, k, some v)
  | _, _ => Except.ok (-3, k, res)

/-- `RSAKey::public_exponentiation (mpz_t *res, mpz_t *data)`, with the conventions of
`private_exponentiation`. -/
def RSAKey.public_exponentiation (k : RSAKey) (res data : Option Int) :
    Res (Int × RSAKey × Option Int) :=
  match res, data with
  | some r, some d =>
    if d ≥ k._n then Except.ok (-1, k, some r)
    else
      match mpz_powm d k._e k._n with
      | Except.error t => Except.error t
      | Except.ok v => Except.ok (0, k, some v)
  | _, _ => Except.ok (-3, k, res)

/-! ## Closed forms and specification-level definitions used in the statements -/

/-- The `n` low-order bytes of `v`, most significant first: what `pushLenLoop n v`
writes. -/
def beBytes : Nat → Nat → List Nat
  | 0, _ => []
  | n + 1, v => ((v >>> (8 * n)) &&& 0xFF) % 256 :: beBytes n v

/-- The size field written by `toDER` for a value of `L` bytes. -/
def lengthOctets (L : Nat) : List Nat :=
  if L < 128 then [L % 256]
  else ((0x80 ||| (sizeLenLoop L L 1 - 1)) % 256) :: beBytes (sizeLenLoop L L 1 - 1) L

/-- Specification: the definite length of DER in its shortest form.  One byte `L` when
`L < 128`; otherwise the byte `0x80 | k` followed by the `k` bytes of `L` in base 256,
most significant first, `k` being the number of base-256 digits of `L`. -/
def derLength (L : Nat) : List Nat :=
  if L < 128 then [L]
  else (0x80 ||| (Nat.digits 256 L).length) :: (Nat.digits 256 L).reverse

/-- Specification: the DER encoding identifier octet, shortest length, content. -/
def derTLV (id : Nat) (content : List Nat) : List Nat :=
  id :: (derLength content.length ++ content)

/-- Specification: the bytes left after removing every leading zero byte. -/
def stripLeadingZeros (l : List Nat) : List Nat :=
  l.dropWhile (fun b => decide (b = 0))

/-- Specification: one zero byte when the first byte of `l` has its high bit (bit 7) set,
nothing otherwise, and nothing when `l` is empty. -/
def signPad (l : List Nat) : List Nat :=
  match l with
  | [] => []
  | b :: _ => if b.testBit 7 then [0] else []

/-- Specification: the normalised content of an INTEGER built from the bytes `l`. -/
def normaliseInteger (l : List Nat) : List Nat :=
  signPad (stripLeadingZeros l) ++ stripLeadingZeros l

/-- Specification: the magnitude of `n` as unsigned big-endian bytes without leading zero
byte: the digits of `n` in base 256, most significant first; the single byte 0 for
`n = 0`. -/
def magnitudeBytes (n : Nat) : List Nat :=
  if n = 0 then [0] else (Nat.digits 256 n).reverse

/-- The bytes made by `asciiHexaToBignum` from hexadecimal digit values taken two by two
(the list has even length). -/
def pairBytes : List Nat → List Nat
  | a :: b :: rest => ((a <<< 4) ||| b) % 256 :: pairBytes rest
  | _ => []

/-- The bytes made by `asciiHexaToBignum` from hexadecimal digit values, the first digit
standing alone when their number is odd. -/
def hexToBytes (ds : List Nat) : List Nat :=
  if ds.length % 2 = 1 then
    match ds with
    | [] => []
    | a :: rest => a % 256 :: pairBytes rest
  else pairBytes ds

/-- The content of the INTEGER made by `ASN1_INTEGER (n)` for a natural number `n`: the
magnitude, preceded by a zero byte when its first byte has the high bit set. -/
def intContent (n : Nat) : List Nat :=
  signPad (magnitudeBytes n) ++ magnitudeBytes n

/-- What `toDER` returns for a node with identifier octet `id` and value `content`. -/
def tlv (id : Nat) (content : List Nat) : List Nat :=
  id :: (lengthOctets content.length ++ content)

/-- What `RSAKey::ASN1PrivateKey` returns for natural numbers `n e d p q` and the three
inverses `dp dq qi`. -/
def privateKeyBytes (n e d p q dp dq qi : Nat) : List Nat :=
  tlv 0x30
    (tlv 0x02 (intContent 0) ++ (tlv 0x02 (intContent n) ++ (tlv 0x02 (intContent e) ++
      (tlv 0x02 (intContent d) ++ (tlv 0x02 (intContent p) ++ (tlv 0x02 (intContent q) ++
        (tlv 0x02 (intContent dp) ++ (tlv 0x02 (intContent dq)
          ++ tlv 0x02 (intContent qi)))))))))

/-- The number `256 ^ (2 ^ 32)`: its magnitude is the byte 1 followed by `2 ^ 32` zero
bytes. -/
@[irreducible] def hugeModulus : Nat := 256 ^ 2 ^ 32

/-- A key whose modulus is `256 ^ (2 ^ 32)`, with `e = 1`, `d = 0`, `p = 3`, `q = 5`. -/
def hugeKey : RSAKey :=
  { _initialized := false, _n := (hugeModulus : Int), _d := 0, _p := 3, _q := 5, _e := 1 }

/-- Specification: DER INTEGER holding the natural number `n`: tag `0x02`, content the
minimal two's-complement form (magnitude, preceded by a zero byte when its high bit is
set). -/
def derInteger (n : Nat) : List Nat :=
  derTLV 0x02 (signPad (magnitudeBytes n) ++ magnitudeBytes n)

/-- Specification: a sub-identifier of an OBJECT IDENTIFIER in base 128, most significant
group first, bit 8 set on every byte but the last. -/
def oidSubIdentifier (a : Nat) : List Nat :=
  match (toDigitsBE 128 (a + 1) a []).reverse with
  | [] => []
  | last :: front => (front.reverse.map (fun g => 0x80 ||| g)) ++ [last]

/-- Specification: the content of an OBJECT IDENTIFIER with the arcs `arcs`: the first two
arcs are merged into `40 * first + second`. -/
def derOIDContent (arcs : List Nat) : List Nat :=
  match arcs with
  | a :: b :: rest => oidSubIdentifier (40 * a + b) ++ (rest.map oidSubIdentifier).flatten
  | _ => []

/-- Specification: the arcs of rsaEncryption, 1.2.840.113549.1.1.1. -/
def rsaEncryptionArcs : List Nat := [1, 2, 840, 113549, 1, 1, 1]

/-- Specification: `SEQUENCE { INTEGER n, INTEGER e }` (RSAPublicKey). -/
def derRSAPublicKey (n e : Nat) : List Nat :=
  derTLV 0x30 (derInteger n ++ derInteger e)

/-- Specification: `SEQUENCE { SEQUENCE { OID rsaEncryption, NULL }, BIT STRING }` whose
BIT STRING content is one `0x00` unused-bits byte followed by `publicKey`. -/
def derSubjectPublicKeyInfo (publicKey : List Nat) : List Nat :=
  derTLV 0x30
    (derTLV 0x30 (derTLV 0x06 (derOIDContent rsaEncryptionArcs) ++ derTLV 0x05 [])
      ++ derTLV 0x03 (0x00 :: publicKey))

/-- The SHA-1 digest of "abc", used as a 20-byte `data`. -/
def sha1_abc : List Nat :=
  [0xa9, 0x99, 0x3e, 0x36, 0x47, 0x06, 0x81, 0x6a, 0xba, 0x3e, 0x25, 0x71, 0x78, 0x50, 0xc2,
   0x6c, 0x9c, 0xd0, 0xd8, 0x9d]

/-- A 32-byte `data` (the bytes 1 to 32). -/
def data32 : List Nat := (List.range 32).map (fun i => i + 1)

/-- A key object that was never marked initialised: `RSAKey ()` followed by `setN (15)`,
`setE (3)` and `setD (3)`. -/
def uninitialisedKey : RSAKey := ((RSAKey.new.setN 15).setE 3).setD 3


/-! ## Miller-Rabin iteration counts (`nb_iter_MR.h`) -/

/-- The constant `nb_iter_MR_table_len`. -/
def nb_iter_MR_table_len : Nat := 60

/-- The array `nb_iter_MR_table`: an entry `(k, t)` says that `t` iterations suffice for
integers of at least `k` bits. -/
def nb_iter_MR_table : List (Nat × Nat) :=
  [(0, 200), (50, 60), (54, 59), (61, 58), (67, 57), (74, 56), (80, 55), (86, 54), (93, 53),
   (99, 52), (105, 51), (111, 50), (118, 49), (124, 48), (130, 47), (136, 46), (142, 45),
   (149, 44), (155, 43), (161, 42), (167, 41), (173, 40), (179, 39), (186, 38), (192, 37),
   (198, 36), (204, 35), (210, 34), (216, 33), (222, 32), (229, 31), (235, 30), (241, 29),
   (247, 28), (253, 27), (259, 26), (266, 25), (273, 24), (281, 23), (291, 22), (302, 21),
   (314, 20), (327, 19), (341, 18), (357, 17), (375, 16), (396, 15), (419, 14), (447, 13),
   (479, 12), (517, 11), (563, 10), (620, 9), (691, 8), (782, 7), (906, 6), (1080, 5),
   (1345, 4), (1794, 3), (2719, 2)]

/-- The loop of `nb_iter_MR` on the `unsigned int` variables `a` and `b`; a read outside
the table is a fault. -/
def nb_iter_MR_loop (k : Nat) : Nat → Nat → Nat → Res Nat
  | 0, _, _ => Except.error Thrown.hang
  | fuel + 1, a, b =>
    if (b + 2 ^ 32 - a) % 2 ^ 32 > 1 then
      let i := ((a + b) % 2 ^ 32) / 2
      match nb_iter_MR_table[i]? with
      | none => Except.error Thrown.fault
      | some entry => if k < entry.1 then nb_iter_MR_loop k fuel a i
                      else nb_iter_MR_loop k fuel i b
    else
      match nb_iter_MR_table[a]? with
      | none => Except.error Thrown.fault
      | some entry => Except.ok entry.2

/-- `nb_iter_MR (size_t k)`: the number of Miller-Rabin iterations for an integer of `k`
bits.  The interval `[a, b)` is halved at each turn, so `nb_iter_MR_table_len` turns are more
than the loop can take. -/
def nb_iter_MR (k : Nat) : Res Nat :=
  nb_iter_MR_loop k nb_iter_MR_table_len 0 nb_iter_MR_table_len

/-! ## The Barak-Halevi generator (`barak_halevi.cpp`) -/

/-! `UNDERYLING_HASH_FUNCTION` is `sha256`, an external function `(input, len, output)` that
writes its digest, `BARAK_HALEVI_ONE_BLOCK_SIZE` bytes, at `output`.  It is a parameter
`H : List Nat → List Nat` of the model, from the bytes hashed to the digest.  A local array
is zero-filled when it is declared; the code never reads one before writing it. -/

/-- The constant `BARAK_HALEVI_ONE_BLOCK_SIZE`. -/
def BARAK_HALEVI_ONE_BLOCK_SIZE : Nat := 32

/-- The constant `BARAK_HALEVI_STATE_BYTE_SIZE`. -/
def BARAK_HALEVI_STATE_BYTE_SIZE : Nat := BARAK_HALEVI_ONE_BLOCK_SIZE

/-- `generic_fun (input, input_len, output, x, double_block)`, with `input` the
`input_len` bytes read and `output` the caller's array, which is returned updated:
`output = H ([x] | input)`, followed by `H ([x+1] | input)` when `double_block` is set.
The bytes hashed are copied to `tobehashed` before `output` is written, so `input` and
`output` may be the same array. -/
def generic_fun (H : List Nat → List Nat) (input output : List Nat) (x : Nat)
    (double_block : Bool) : Res (List Nat) :=
  let tobehashed := x :: input
  match memcpy output 0 (H tobehashed) BARAK_HALEVI_ONE_BLOCK_SIZE with
  | Except.error t => Except.error t
  | Except.ok output1 =>
    if double_block then
      let tobehashed1 := ((x + 1) % 256) :: input
      memcpy output1 BARAK_HALEVI_ONE_BLOCK_SIZE (H tobehashed1) BARAK_HALEVI_ONE_BLOCK_SIZE
    else Except.ok output1

/-- `G (state, output)`. -/
def G (H : List Nat → List Nat) (state output : List Nat) : Res (List Nat) :=
  generic_fun H (state.take BARAK_HALEVI_STATE_BYTE_SIZE) output 0 true

/-- `G_prime (state, output)`. -/
def G_prime (H : List Nat → List Nat) (state output : List Nat) : Res (List Nat) :=
  generic_fun H (state.take BARAK_HALEVI_STATE_BYTE_SIZE) output 3 false

/-- `Extract (input, input_len, output)`. -/
def Extract (H : List Nat → List Nat) (input output : List Nat) : Res (List Nat) :=
  generic_fun H input output 2 false

/-- The class `BarakHaleviPRNG`: the array `char _state[BARAK_HALEVI_STATE_BYTE_SIZE]`. -/
structure BarakHaleviPRNG where
  /-- The internal state. -/
  _state : List Nat
  deriving DecidableEq

/-- `BarakHaleviPRNG::BarakHaleviPRNG ()`: `memset (_state, 0, ..)`. -/
def BarakHaleviPRNG.new : BarakHaleviPRNG :=
  { _state := List.replicate BARAK_HALEVI_STATE_BYTE_SIZE 0 }

/-- The loop `for (i=0; i<BARAK_HALEVI_STATE_BYTE_SIZE; i++) _state[i] ^= Ext_result[i];`
of `refresh`, with `todo` iterations left from index `i`. -/
def refreshXorLoop (Ext_result : List Nat) : Nat → Nat → List Nat → Res (List Nat)
  | 0, _, _state => Except.ok _state
  | todo + 1, i, _state =>
    match _state[i]?, Ext_result[i]? with
    | some a, some b => refreshXorLoop Ext_result todo (i + 1) (_state.set i (a ^^^ b))
    | _, _ => Except.error Thrown.fault

/-- `BarakHaleviPRNG::refresh (input_x, input_x_len)`, `input_x` being the `input_x_len`
bytes given.  The function returns nothing; the result is the generator after the call. -/
def BarakHaleviPRNG.refresh (H : List Nat → List Nat) (g : BarakHaleviPRNG)
    (input_x : List Nat) : Res BarakHaleviPRNG :=
  match Extract H input_x (List.replicate BARAK_HALEVI_STATE_BYTE_SIZE 0) with
  | Except.error t => Except.error t
  | Except.ok Ext_result =>
    match refreshXorLoop Ext_result BARAK_HALEVI_STATE_BYTE_SIZE 0 g._state with
    | Except.error t => Except.error t
    | Except.ok xored =>
      match G_prime H xored xored with
      | Except.error t => Except.error t
      | Except.ok st => Except.ok { _state := st }

/-- The `while (output_len > 0)` loop of `getRandomBytes`.  `output` is the caller's array
and `off` the position in it of the moving pointer `output`; `iterations` counts the turns
of the loop (it is not a variable of the code). -/
def getRandomBytesLoop (H : List Nat → List Nat) :
    Nat → BarakHaleviPRNG → List Nat → List Nat → Nat → Nat → Nat →
      Res (BarakHaleviPRNG × List Nat × Nat)
  | 0, _, _, _, _, _, _ => Except.error Thrown.hang
  | fuel + 1, g, G1_result, output, off, output_len, iterations =>
    if output_len > 0 then
      match G H g._state G1_result with
      | Except.error t => Except.error t
      | Except.ok G1_result1 =>
        let howmuch := if output_len > BARAK_HALEVI_STATE_BYTE_SIZE
                       then BARAK_HALEVI_STATE_BYTE_SIZE else output_len
        match memcpy output off G1_result1 howmuch with
        | Except.error t => Except.error t
        | Except.ok output1 =>
          match memcpy g._state 0 (G1_result1.drop BARAK_HALEVI_STATE_BYTE_SIZE)
                  BARAK_HALEVI_STATE_BYTE_SIZE with
          | Except.error t => Except.error t
          | Except.ok st =>
            getRandomBytesLoop H fuel { _state := st } G1_result1 output1 (off + howmuch)
              (output_len - howmuch) (iterations + 1)
    else Except.ok (g, output, iterations)

/-- `BarakHaleviPRNG::getRandomBytes (output, output_len)`: the generator and the caller's
array after the call, and the number of turns of the loop.  Every turn takes at least one
byte off `output_len`, so `output_len + 1` turns of fuel are enough. -/
def BarakHaleviPRNG.getRandomBytes (H : List Nat → List Nat) (g : BarakHaleviPRNG)
    (output : List Nat) (output_len : Nat) : Res (BarakHaleviPRNG × List Nat × Nat) :=
  getRandomBytesLoop H (output_len + 1) g (List.replicate (2 * BARAK_HALEVI_STATE_BYTE_SIZE) 0)
    output 0 output_len 0

/-- Specification: the state that follows `S` in an extraction, `H (0x01 ‖ S)`. -/
def nextState (H : List Nat → List Nat) (S : List Nat) : List Nat := H (1 :: S)

/-- Specification: the state `S_i` reached from `S0` after `i` steps. -/
def stateAfter (H : List Nat → List Nat) (S0 : List Nat) : Nat → List Nat
  | 0 => S0
  | i + 1 => nextState H (stateAfter H S0 i)

/-- Specification: `H (0x00 ‖ S_0) ‖ H (0x00 ‖ S_1) ‖ ... ‖ H (0x00 ‖ S_(k-1))`. -/
def outputBlocks (H : List Nat → List Nat) (S0 : List Nat) (k : Nat) : List Nat :=
  ((List.range k).map (fun i => H (0 :: stateAfter H S0 i))).flatten

/-- Specification: `G (S) = H (0x00 ‖ S) ‖ H (0x01 ‖ S)`. -/
def outputOfG (H : List Nat → List Nat) (S : List Nat) : List Nat := H (0 :: S) ++ H (1 :: S)

/-- Specification: the bytewise exclusive or of two byte strings. -/
def xorBytes (a b : List Nat) : List Nat := List.zipWith (fun x y => x ^^^ y) a b

/-- A stand-in for the hash in examples: 32 bytes computed from the sum and the length of
the input. -/
def toyHash (x : List Nat) : List Nat :=
  (List.range 32).map (fun i => (x.sum + 7 * i + x.length) % 256)

/-! ## Generators in general (`prng.cpp`) -/

/-- The abstract class `PRNG`, for a generator whose state is of type `σ`: the pure virtual
member `getRandomBytes (output, output_len)`, which receives the caller's array and returns
it together with the state after the call. -/
structure PRNG (σ : Type) where
  /-- The virtual member `getRandomBytes`. -/
  getRandomBytes : σ → List Nat → Nat → Res (σ × List Nat)

/-- `BarakHaleviPRNG` as a `PRNG` (it derives from it). -/
def BarakHaleviPRNG.toPRNG (H : List Nat → List Nat) : PRNG BarakHaleviPRNG :=
  { getRandomBytes := fun g output output_len =>
      match g.getRandomBytes H output output_len with
      | Except.error t => Except.error t
      | Except.ok (g1, output1, _) => Except.ok (g1, output1) }

/-- The array `hexa_str`, "0123456789abcdef". -/
def hexa_str : List Nat :=
  [48, 49, 50, 51, 52, 53, 54, 55, 56, 57, 97, 98, 99, 100, 101, 102]

/-- The loop of `getRandomInt` that writes `hexa_output`: two characters of `hexa_str` per
byte of `raw_output` (the mask `0xf` cuts the sign bits that the promotion of a `char` to
`int` brings in). -/
def hexaOutputLoop : List Nat → List Nat
  | [] => []
  | b :: rest =>
    hexa_str.getD ((b >>> 4) &&& 0xf) 0 :: hexa_str.getD (b &&& 0xf) 0 :: hexaOutputLoop rest

/-- `mpz_set_str (rop, str, 16)`, the value given to `rop`: the conversion of
`mpz_init_set_str`. -/
def mpz_set_str_16 (str : List Nat) : Int := mpz_init_set_str_16 str

/-- `mpz_sizeinbase (n, 2)`: the number of binary digits of `|n|`, 1 for zero. -/
def mpz_sizeinbase_2 (n : Int) : Nat := (toDigitsBE 2 (n.natAbs + 1) n.natAbs []).length

/-- `mpz_mod (r, n, d)`, the value given to `r`: the non-negative remainder of `n` by `|d|`;
a zero `d` is a division by zero. -/
def mpz_mod (n d : Int) : Res Int :=
  if d = 0 then Except.error Thrown.fault else Except.ok (n % d)

/-- `PRNG::getRandomInt (output, output_nbits, init_mpz)` for a `size_t` `output_nbits`
(`output_nbits < 2^64`): the state of the generator after the call and the value given to
`output` (`init_mpz` only says whether `output` is initialised first).  `size` and the two
shift counts are computed in `size_t`; `raw_output[0]` of an empty allocation is an invalid
access. -/
def PRNG.getRandomInt {σ : Type} (gen : PRNG σ) (s : σ) (output_nbits : Nat) : Res (σ × Int) :=
  let size := ((output_nbits + 7) % SIZE_T_RANGE) / 8
  match gen.getRandomBytes s (List.replicate size 0) size with
  | Except.error t => Except.error t
  | Except.ok (s1, raw_output) =>
    let shift := (size * 8 + SIZE_T_RANGE - output_nbits) % SIZE_T_RANGE
    match raw_output[0]? with
    | none => Except.error Thrown.fault
    | some c =>
      let c1 := c &&& ((0xff >>> shift) % 256)
      let c2 := c1 ||| ((0x80 >>> shift) % 256)
      Except.ok (s1, mpz_set_str_16 (hexaOutputLoop (raw_output.set 0 c2)))

/-- `PRNG::getRandomIntNB (output, q, init_mpz)`: the state of the generator after the call
and the value given to `output`. -/
def PRNG.getRandomIntNB {σ : Type} (gen : PRNG σ) (s : σ) (q : Int) : Res (σ × Int) :=
  let size := (mpz_sizeinbase_2 q + 64) % SIZE_T_RANGE
  match gen.getRandomInt s size with
  | Except.error t => Except.error t
  | Except.ok (s1, output) =>
    match mpz_mod output q with
    | Except.error t => Except.error t
    | Except.ok r => Except.ok (s1, r)

/-! ## Key generation and self-test (`rsa.cpp`) -/

/-- The constant `trivialSieve_size`. -/
def trivialSieve_size : Nat := 100000

/-- The constant `nEncryptionDecryptionVerif`. -/
def nEncryptionDecryptionVerif : Nat := 10

/-- Subtraction of two `size_t` values. -/
def size_t_sub (a b : Nat) : Nat := (a + SIZE_T_RANGE - b) % SIZE_T_RANGE

/-- `mpz_setbit (rop, bit_index)`: the bit is set in the two's complement representation, which
adds `2^bit_index` when it was clear. -/
def mpz_setbit (rop : Int) (bit_index : Nat) : Int :=
  if (rop / 2 ^ bit_index) % 2 = 1 then rop else rop + 2 ^ bit_index

/-- The inner loop `for (j=2; i*j<trivialSieve_size; j++) pr[i*j] = false;` of
`isSmoothTrivial`. -/
def sieveMarkLoop (i : Nat) : Nat → Nat → List Bool → List Bool
  | 0, _, pr => pr
  | fuel + 1, j, pr =>
    if i * j < trivialSieve_size then sieveMarkLoop i fuel (j + 1) (pr.set (i * j) false)
    else pr

/-- The loop `for (i=2; i<trivialSieve_size; i++) if (pr[i]) ...` of `isSmoothTrivial`, with
`todo` values of `i` left. -/
def sieveLoop : Nat → Nat → List Bool → List Bool
  | 0, _, pr => pr
  | todo + 1, i, pr =>
    sieveLoop todo (i + 1)
      (if pr.getD i false then sieveMarkLoop i trivialSieve_size 2 pr else pr)

/-- The array `pr` of `isSmoothTrivial` once filled (`init` is never set, so it is filled at
every call, always with the same values). -/
def trivialSieve : List Bool :=
  sieveLoop (trivialSieve_size - 2) 2
    (((List.replicate trivialSieve_size true).set 0 false).set 1 false)

/-- The loop `for (i=2; i<trivialSieve_size; i++) if (pr[i] && mpz_fdiv_ui (n, i) == 0)
return true;` of `isSmoothTrivial`, with `todo` values of `i` left. -/
def isSmoothTrivialLoop (n : Int) (pr : List Bool) : Nat → Nat → Bool
  | 0, _ => false
  | todo + 1, i =>
    if pr.getD i false ∧ n % (i : Int) = 0 then true
    else isSmoothTrivialLoop n pr todo (i + 1)

/-- `isSmoothTrivial (n)`. -/
def isSmoothTrivial (n : Int) : Bool :=
  isSmoothTrivialLoop n trivialSieve (trivialSieve_size - 2) 2

/-- The detail text of a `CryptoInternalMayhem` thrown by `checkKey`, in the order of the
`throw` statements of the function. -/
inductive checkKey_details
  /-- Text "le module RSA est négatif". -/
  | negative_modulus
  /-- Text "l'exposant public est négatif". -/
  | negative_public_exponent
  /-- Text "l'exposant public est supérieur à n". -/
  | public_exponent_too_large
  /-- Text "l'exposant privé est négatif". -/
  | negative_private_exponent
  /-- Text "l'exposant privé est supérieur à n". -/
  | private_exponent_too_large
  /-- Text "le module RSA n'a pas la bonne taille". -/
  | wrong_modulus_size
  /-- Text "le module RSA est friable". -/
  | smooth_modulus
  /-- Text "la succession chiffrement / déchiffrement n'est pas l'identité". -/
  | round_trip_failed
  deriving DecidableEq

/-- What ends `checkKey` abnormally: a `CryptoInternalMayhem` with its detail text, or
anything else. -/
inductive checkKey_thrown
  | CryptoInternalMayhem (details : checkKey_details)
  | other (t : Thrown)
  deriving DecidableEq

/-- The loop `for (int i=0; i<nEncryptionDecryptionVerif; i++)` of `checkKey`, with `todo`
turns left.  `urandomm i` is the value given to `m` by the call of `mpz_urandomm` in turn `i`
(GMP's own generator, seeded with `seed`, draws it in `[0, _n)`). -/
def checkKeyLoop (k : RSAKey) (urandomm : Nat → Int) : Nat → Nat → Except checkKey_thrown Unit
  | 0, _ => Except.ok ()
  | todo + 1, i =>
    let m := urandomm i
    match mpz_powm m k._e k._n with
    | Except.error t => Except.error (checkKey_thrown.other t)
    | Except.ok c =>
      match mpz_powm c k._d k._n with
      | Except.error t => Except.error (checkKey_thrown.other t)
      | Except.ok x =>
        if m ≠ x then
          Except.error (checkKey_thrown.CryptoInternalMayhem checkKey_details.round_trip_failed)
        else checkKeyLoop k urandomm todo (i + 1)

/-- `RSAKey::checkKey (nBits, seed)`; `seed` only seeds the generator behind `urandomm`.
`gmp_randinit_lc_2exp_size (.., 128)` does not fail (128 is a size GMP supports). -/
def RSAKey.checkKey (k : RSAKey) (nBits : Nat) (urandomm : Nat → Int) :
    Except checkKey_thrown Unit :=
  if k._n < 0 then
    Except.error (checkKey_thrown.CryptoInternalMayhem checkKey_details.negative_modulus)
  else if k._e < 0 then
    Except.error (checkKey_thrown.CryptoInternalMayhem checkKey_details.negative_public_exponent)
  else if k._e ≥ k._n then
    Except.error (checkKey_thrown.CryptoInternalMayhem checkKey_details.public_exponent_too_large)
  else if k._d < 0 then
    Except.error (checkKey_thrown.CryptoInternalMayhem checkKey_details.negative_private_exponent)
  else if k._d ≥ k._n then
    Except.error (checkKey_thrown.CryptoInternalMayhem checkKey_details.private_exponent_too_large)
  else if mpz_sizeinbase_2 k._n ≠ nBits then
    Except.error (checkKey_thrown.CryptoInternalMayhem checkKey_details.wrong_modulus_size)
  else if isSmoothTrivial k._n then
    Except.error (checkKey_thrown.CryptoInternalMayhem checkKey_details.smooth_modulus)
  else checkKeyLoop k urandomm nEncryptionDecryptionVerif 0

/-- `findRSAFactor (n, nbits, generator, init_mpz)` of `prime.cpp` taken as an oracle: from
`nbits` and the state of the generator, the value given to `n` and the state of the generator
after the call (or the way the call ends abnormally). -/
abbrev FactorSearch (σ : Type) := Nat → σ → Res (Int × σ)

/-- The loop `do { findRSAFactor (p, ..); findRSAFactor (q, ..); diff = |p - q| } while
(diff <= diff_min)` of the generating constructor. -/
def factorPairLoop {σ : Type} (find : FactorSearch σ) (nBits : Nat) (diff_min : Int) :
    Nat → σ → Res (Int × Int × σ)
  | 0, _ => Except.error Thrown.hang
  | fuel + 1, s =>
    match find (nBits / 2) s with
    | Except.error t => Except.error t
    | Except.ok (p, s1) =>
      match find (nBits / 2) s1 with
      | Except.error t => Except.error t
      | Except.ok (q, s2) =>
        let diff : Int := ((p - q).natAbs : Int)
        if diff ≤ diff_min then factorPairLoop find nBits diff_min fuel s2
        else Except.ok (p, q, s2)

/-- The loop `do { prng.getRandomInt (e, nBits, false); mpz_setbit (e, 0); } while (e >= n ||
e <= min || mpz_invert (d, e, phi) == 0 || d <= min)` of the generating constructor; the
result is `(e, d)` and the state of the generator. -/
def exponentLoop {σ : Type} (prng : PRNG σ) (nBits : Nat) (n phi min_exp : Int) :
    Nat → σ → Res (Int × Int × σ)
  | 0, _ => Except.error Thrown.hang
  | fuel + 1, s =>
    match prng.getRandomInt s nBits with
    | Except.error t => Except.error t
    | Except.ok (s1, e0) =>
      let e := mpz_setbit e0 0
      if e ≥ n then exponentLoop prng nBits n phi min_exp fuel s1
      else if e ≤ min_exp then exponentLoop prng nBits n phi min_exp fuel s1
      else
        match mpz_invert e phi with
        | none => exponentLoop prng nBits n phi min_exp fuel s1
        | some d =>
          if d ≤ min_exp then exponentLoop prng nBits n phi min_exp fuel s1
          else Except.ok (e, d, s1)

/-- The loop `while (true)` of `RSAKey::RSAKey (PRNG& prng, const size_t nBits, bool useF4)`
followed by the five `mpz_init_set` that store the key (`_initialized` is still false): the
key object and the state of the generator when the loop is left.  `turns` bounds the turns of
the outer loop and `fuel` those of each inner loop; the exponents of the three bounds are
`size_t` values. -/
def RSAKey.generationLoop {σ : Type} (prng : PRNG σ) (find : FactorSearch σ) (nBits : Nat)
    (useF4 : Bool) (fuel : Nat) : Nat → σ → Res (RSAKey × σ)
  | 0, _ => Except.error Thrown.hang
  | turns + 1, s =>
    let diff_min : Int := 2 ^ size_t_sub (nBits / 2) 20
    let min_d_size_with_F4 : Int := 2 ^ (nBits / 2)
    let min_exp_size_when_not_F4 : Int := 2 ^ size_t_sub nBits 10
    match factorPairLoop find nBits diff_min fuel s with
    | Except.error t => Except.error t
    | Except.ok (p, q, s1) =>
      let n := p * q
      let phi := (p - 1) * (q - 1)
      if useF4 then
        let e : Int := 65537
        match mpz_invert e phi with
        | none => raise exception_t.E_CRYPTO_INTERNAL_MAYHEM
        | some d =>
          if d ≤ min_d_size_with_F4 then
            RSAKey.generationLoop prng find nBits useF4 fuel turns s1
          else
            Except.ok ({ _initialized := false, _n := n, _d := d, _p := p, _q := q, _e := e }, s1)
      else
        match exponentLoop prng nBits n phi min_exp_size_when_not_F4 fuel s1 with
        | Except.error t => Except.error t
        | Except.ok (e, d, s2) =>
          Except.ok ({ _initialized := false, _n := n, _d := d, _p := p, _q := q, _e := e }, s2)

/-! ## Small primes and smoothness (`prime.cpp`) -/

/-! The file is compiled for 64-bit limbs (`GMP_NUMB_BITS == 64`).  The static arrays
`primes`, `primesProductsIndices` and `primesProducts` are lists; a loop that walks an array
by increasing index walks the list of the entries from that index on.  The part of
`initPrimes` that seeds GMP's generator is left out. -/

/-- The constant `NB_PRIMES_IN_SIEVE`. -/
def NB_PRIMES_IN_SIEVE : Nat := 6542

/-- The constant `NB_PRIMES_TO_CHECK_SMOOTHNESS`. -/
def NB_PRIMES_TO_CHECK_SMOOTHNESS : Nat := 6542

/-- The constant `PRIMES_SIZE`, the larger of the two. -/
def PRIMES_SIZE : Nat :=
  if NB_PRIMES_IN_SIEVE > NB_PRIMES_TO_CHECK_SMOOTHNESS then NB_PRIMES_IN_SIEVE
  else NB_PRIMES_TO_CHECK_SMOOTHNESS

/-- The constant `SMOOTH_PART_SIZE_LIMIT`. -/
def SMOOTH_PART_SIZE_LIMIT : Nat := 128

/-- The constant `PP`, `3 x 5 x 7 x 11 x ... x 53`. -/
def PP : Nat := 0xE221F97C30E94E1D

/-- The constant `PP_FIRST_OMITTED`. -/
def PP_FIRST_OMITTED : Nat := 59

/-- The constant `PRIMES_PRODUCTS_SIZE`. -/
def PRIMES_PRODUCTS_SIZE : Nat := 1576

/-- The loop `for (int i = 1; i < bound; i++)` of `isSmallPrime_Sieve (t, bound)`, with
`todo` values of `i` left; the list holds `primes[i]`, `primes[i+1]`, ... up to the last
entry written (the rest of the static array is zero, and `t / 0` is a trap).  Leaving the
loop is the `throw` that ends the function. -/
def isSmallPrime_SieveLoop (t : Nat) : Nat → List Nat → Res Bool
  | 0, _ => raise exception_t.E_CRYPTO_BAD_PARAMETER
  | _ + 1, [] => Except.error Thrown.fault
  | todo + 1, d :: rest =>
    if d = 0 then Except.error Thrown.fault
    else
      let q := t / d
      let r := t - q * d
      if r = 0 then Except.ok false
      else if q < d then Except.ok true
      else isSmallPrime_SieveLoop t todo rest

/-- `isSmallPrime_Sieve (t, bound)` on the table `primes` as filled so far (`bound = 0` is
the default argument). -/
def isSmallPrime_Sieve (primes : List Nat) (t : Nat) (bound : Nat) : Res Bool :=
  let bound1 := if bound = 0 then PRIMES_SIZE else bound
  if t < 3 ∨ t &&& 1 = 0 then Except.ok (decide (t = 2))
  else isSmallPrime_SieveLoop t (bound1 - 1) (primes.drop 1)

/-- The loop `while (i < PRIMES_SIZE)` of `initPrimes` that fills `primes`; `i` is the
number of entries written, `tested_int`, `delta` and `next` are `unsigned int`. -/
def initPrimesLoop : Nat → List Nat → Nat → Nat → Nat → Res (List Nat)
  | 0, _, _, _, _ => Except.error Thrown.hang
  | fuel + 1, primes, i, tested_int, delta =>
    if i < PRIMES_SIZE then
      match isSmallPrime_Sieve primes tested_int 0 with
      | Except.error t => Except.error t
      | Except.ok isPrime =>
        let next := (tested_int + delta) % 2 ^ 32
        if next < tested_int then raise exception_t.E_CRYPTO_BAD_PARAMETER
        else if isPrime then
          initPrimesLoop fuel (primes ++ [tested_int]) (i + 1) next
            ((6 + 2 ^ 32 - delta) % 2 ^ 32)
        else
          initPrimesLoop fuel primes i next ((6 + 2 ^ 32 - delta) % 2 ^ 32)
    else Except.ok primes

/-- The loop `for (i = 0; primes[i] < PP_FIRST_OMITTED; i++) ;` of `initPrimes`: the index
reached and the entries from there on.  Past the last entry the walk has left the array. -/
def firstOmittedLoop : List Nat → Nat → Res (Nat × List Nat)
  | [], _ => Except.error Thrown.fault
  | d :: rest, i =>
    if d < PP_FIRST_OMITTED then firstOmittedLoop rest (i + 1)
    else Except.ok (i, d :: rest)

/-- The inner loop `for (; i < PRIMES_SIZE; i++)` of the computation of the products, the
128-bit product of `umul_ppmm` being split in `p1` and `p0`: the index reached, the entries
from there on and the product `p`. -/
def productLoop : List Nat → Nat → Nat → Nat × List Nat × Nat
  | [], i, p => (i, [], p)
  | q :: rest, i, p =>
    if i < PRIMES_SIZE then
      let p1 := (p * q) / 2 ^ 64
      let p0 := (p * q) % 2 ^ 64
      if p1 ≠ 0 then (i, q :: rest, p)
      else productLoop rest (i + 1) p0
    else (i, q :: rest, p)

/-- The loop `for (j = 0; j < PRIMES_PRODUCTS_SIZE; j++)` of `initPrimes`, with `todo`
values of `j` left: the entries written to `primesProductsIndices` and `primesProducts`. -/
def productsLoop : Nat → List Nat → Nat → List ((Nat × Nat) × Nat)
  | 0, _, _ => []
  | todo + 1, entries, i =>
    match productLoop entries i 1 with
    | (i1, rest, p) => ((i, i1), p) :: productsLoop todo rest i1

/-- The three static tables of `prime.cpp`. -/
structure PrimeTables where
  /-- The array `primes`. -/
  primes : List Nat
  /-- The array `primesProductsIndices`. -/
  primesProductsIndices : List (Nat × Nat)
  /-- The array `primesProducts`. -/
  primesProducts : List Nat

/-- The part of `initPrimes (rng)` that follows the loop filling `primes`, from the comment
`Calcul des produits de nombres premiers` on, `filled` being what the loop ended with: the
tables. -/
def initPrimesProducts (filled : Res (List Nat)) : Res PrimeTables :=
  match filled with
  | Except.error t => Except.error t
  | Except.ok primes =>
    match firstOmittedLoop primes 0 with
    | Except.error t => Except.error t
    | Except.ok (i, entries) =>
      let groups := productsLoop PRIMES_PRODUCTS_SIZE entries i
      Except.ok { primes := primes,
                  primesProductsIndices := groups.map (fun g => g.1),
                  primesProducts := groups.map (fun g => g.2) }

/-- `initPrimes (rng)` at its first call, as far as the tables go.  `tested_int` grows at
every turn of the first loop, which ends at the latest when it wraps around: `2^32` turns are
enough. -/
def initPrimes : Res PrimeTables :=
  initPrimesProducts (initPrimesLoop (2 ^ 32) [2, 3] 2 5 2)

/-- `mpz_scan1 (op, 0)` for `op ≠ 0`, the index of the lowest bit set, found in at most
`fuel` steps (`op` and `-op` have the same lowest bit set). -/
def lowestBitLoop : Nat → Nat → Nat
  | 0, _ => 0
  | fuel + 1, n => if n % 2 = 1 then 0 else lowestBitLoop fuel (n / 2) + 1

/-- `mpz_scan1 (op, 0)`; for `op = 0` no bit is found and the result is `ULONG_MAX`. -/
def mpz_scan1_0 (op : Int) : Nat :=
  if op = 0 then 2 ^ 64 - 1 else lowestBitLoop op.natAbs op.natAbs

/-- The loop `while (mpz_fdiv_q_ui(q, cofac, d) == 0) mpz_swap(cofac, q);` of `isSmooth` for
`cofac ≥ 0`: the value of `cofac` after it.  `mpz_fdiv_q_ui` returns the remainder and traps
on a zero divisor. -/
def stripLoop (d : Nat) : Nat → Nat → Res Nat
  | 0, _ => Except.error Thrown.hang
  | fuel + 1, cofac =>
    if d = 0 then Except.error Thrown.fault
    else if cofac % d = 0 then stripLoop d fuel (cofac / d)
    else Except.ok cofac

/-- The loop `for (; j < stop; j++) if (r % primes[j] == 0) while ...` of `isSmooth`, the
list holding `primes[j]`, `primes[j+1]`, ...: the index reached, the entries from there on
and `cofac`.  A positive `cofac` is divided at most `cofac` times. -/
def smoothGroupLoop (r stop : Nat) : List Nat → Nat → Nat → Res (Nat × List Nat × Nat)
  | [], j, cofac => if j < stop then Except.error Thrown.fault else Except.ok (j, [], cofac)
  | d :: rest, j, cofac =>
    if j < stop then
      if d = 0 then Except.error Thrown.fault
      else if r % d = 0 then
        match stripLoop d (cofac + 1) cofac with
        | Except.error t => Except.error t
        | Except.ok cofac1 => smoothGroupLoop r stop rest (j + 1) cofac1
      else smoothGroupLoop r stop rest (j + 1) cofac
    else Except.ok (j, d :: rest, cofac)

/-- The loop `for (i = 0, j = primesProductsIndices[i][0]; j < NB_PRIMES_TO_CHECK_SMOOTHNESS;
i++)` of `isSmooth`, the first list holding the entries `i`, `i+1`, ... of
`primesProductsIndices` and `primesProducts`: the value of `cofac` after it.  `mpn_mod_1`
traps on a zero divisor. -/
def smoothGroupsLoop : List ((Nat × Nat) × Nat) → List Nat → Nat → Nat → Res Nat
  | [], _, j, cofac =>
    if j < NB_PRIMES_TO_CHECK_SMOOTHNESS then Except.error Thrown.fault else Except.ok cofac
  | ((_, stop), product) :: more, entries, j, cofac =>
    if j < NB_PRIMES_TO_CHECK_SMOOTHNESS then
      if product = 0 then Except.error Thrown.fault
      else
        match smoothGroupLoop (cofac % product) stop entries j cofac with
        | Except.error t => Except.error t
        | Except.ok (j1, rest, cofac1) => smoothGroupsLoop more rest j1 cofac1
    else Except.ok cofac

/-- `isSmooth (n)` on the tables left by `initPrimes`.  For `n < 0` `mpn_mod_1` is given a
negative size. -/
def isSmooth (T : PrimeTables) (n : Int) : Res Bool :=
  if n < 0 then Except.error Thrown.fault
  else
    let s := mpz_scan1_0 n
    let cofac := n.natAbs / 2 ^ s
    match T.primesProductsIndices with
    | [] => Except.error Thrown.fault
    | (first, _) :: _ =>
      match smoothGroupLoop (cofac % PP) first (T.primes.drop 1) 1 cofac with
      | Except.error t => Except.error t
      | Except.ok (_, _, cofac1) =>
        match smoothGroupsLoop (List.zip T.primesProductsIndices T.primesProducts)
            (T.primes.drop first) first cofac1 with
        | Except.error t => Except.error t
        | Except.ok cofac2 =>
          if cofac2 = 1 then Except.ok true
          else if mpz_sizeinbase_2 cofac2 >
              size_t_sub (mpz_sizeinbase_2 n) SMOOTH_PART_SIZE_LIMIT then Except.ok false
          else Except.ok true

/-- Specification: the value of a byte string read big-endian. -/
def beValue (bytes : List Nat) : Nat := bytes.foldl (fun acc b => acc * 256 + b) 0

/-- A generator for examples: it leaves the caller's array as it is. -/
def nullSource : PRNG Nat :=
  { getRandomBytes := fun s output _ => Except.ok (s, output) }

/-- A factor search for examples: the first call gives 1048343, every later call 1048127
(two primes `p` of 20 bits with `(p - 1) / 2` prime); the state counts the calls. -/
def twoFactors : FactorSearch Nat :=
  fun _ s => Except.ok (if s = 0 then 1048343 else 1048127, s + 1)

/-- The key with which the generation loop ends on `twoFactors` for `nBits = 40` and
`useF4`. -/
def exampleKey : RSAKey :=
  { _initialized := false, _n := 1048343 * 1048127, _d := 895758031805, _p := 1048343,
    _q := 1048127, _e := 65537 }

/-- Specification: the primes below `t`, in increasing order. -/
def primesLt (t : Nat) : List Nat := (List.range t).filter (fun n => decide (Nat.Prime n))

/-- Specification helper: `n` has no divisor `k` with `d ≤ k` and `k * k ≤ n` (`fuel` bounds
the search). -/
def noDivisorFrom (n : Nat) : Nat → Nat → Bool
  | 0, _ => true
  | fuel + 1, d =>
    if d * d > n then true
    else if n % d = 0 then false
    else noDivisorFrom n fuel (d + 1)

/-- Specification helper: primality by trial division. -/
def isPrimeTD (n : Nat) : Bool := decide (2 ≤ n) && noDivisorFrom n n 2

/-- Specification helper: the product of the primes below 256. -/
def smallPrimorial : Nat :=
  0x75876a8b2c6d3039b0cd06a3aab1d037bd5fdf2eab001d7b6d95221389e29429d5b3ca94ca545d023e06

/-- Specification helper: a primality test for `n < 257^2`, by trial division below 256 and
above by the greatest common divisor with the product of the primes below 256. -/
def isPrimeGcd (n : Nat) : Bool :=
  cond (Nat.blt n 256) (isPrimeTD n) (Nat.beq (Nat.gcd n smallPrimorial) 1)

/-- Specification helper: the numbers `6 k - 1` and `6 k + 1` that pass `isPrimeGcd`, in
increasing order, over the last `fuel` values of `k` below `top`: the pair of turn `fuel + 1`
is `t = top - 6 * (fuel + 1)` and `t + 2`. -/
def primesWheel (top : Nat) : Nat → List Nat
  | 0 => []
  | Nat.succ fuel =>
    cond (isPrimeGcd (Nat.sub top (Nat.mul 6 (Nat.succ fuel))))
      (Nat.sub top (Nat.mul 6 (Nat.succ fuel)) ::
        cond (isPrimeGcd (Nat.add (Nat.sub top (Nat.mul 6 (Nat.succ fuel))) 2))
          (Nat.add (Nat.sub top (Nat.mul 6 (Nat.succ fuel))) 2 :: primesWheel top fuel)
          (primesWheel top fuel))
      (cond (isPrimeGcd (Nat.add (Nat.sub top (Nat.mul 6 (Nat.succ fuel))) 2))
        (Nat.add (Nat.sub top (Nat.mul 6 (Nat.succ fuel))) 2 :: primesWheel top fuel)
        (primesWheel top fuel))

/-- Specification helper: the entries left by `productLoop` when the walk ends inside the
table. -/
def groupRest : List Nat → Nat → List Nat
  | [], _ => []
  | q :: rest, p => if p * q < 2 ^ 64 then groupRest rest (p * q) else q :: rest

/-- Specification helper: `todo` turns of `productsLoop` use up all the entries. -/
def groupsCover : Nat → List Nat → Bool
  | 0, entries => entries.isEmpty
  | _ + 1, [] => true
  | todo + 1, q :: rest => groupsCover todo (groupRest (q :: rest) 1)

/-- Specification helper: a list has 6540 entries and the 1576 product groups use up its
entries from the fifteenth on. -/
def wheelFacts (W : List Nat) : Bool :=
  Nat.beq W.length 6540 && groupsCover 1576 (W.drop 14)

/-- Specification helper: the odd primes below `PP_FIRST_OMITTED`. -/
def firstGroup : List Nat := [3, 5, 7, 11, 13, 17, 19, 23, 29, 31, 37, 41, 43, 47, 53]

/-! ## More of `String` (`string.cpp`) -/

/-- The loop `while (!eof()) { char c = popChar(); if (c == '\n') return substring (start,
len); else len ++; }` of `popLine` and the `return substring (start, len);` after it, `fuel`
bounding the number of tests of the loop condition: the line, and the String with its index
moved. -/
def String.popLineLoop : Nat → String → Nat → Nat → Res (String × String)
  | 0, _, _, _ => Except.error Thrown.hang
  | fuel + 1, s, start, len =>
    if s.eof then
      match s.substring start len with
      | Except.error t => Except.error t
      | Except.ok line => Except.ok (line, s)
    else
      match s.popChar with
      | Except.error t => Except.error t
      | Except.ok (c, s1) =>
        if c = 10 then
          match s1.substring start len with
          | Except.error t => Except.error t
          | Except.ok line => Except.ok (line, s1)
        else String.popLineLoop fuel s1 start (len + 1)

/-- `String::popLine`: the line, and the String with its index moved. -/
def String.popLine (s : String) : Res (String × String) :=
  if s.eof then raise exception_t.E_OUT_OF_BOUNDS_STRING_OPERATION
  else String.popLineLoop (s.size + 1) s s._index 0

/-! ## Forgetting a key (`util.cpp`, `rsa.cpp`) -/

/-- `mpz_shred (n)`: the limbs of `n` are overwritten and `n` is cleared.  An integer that
has been cleared holds no value; the model keeps 0 for it. -/
def mpz_shred (_n : Int) : Int := 0

/-- `RSAKey::forgetKey`. -/
def RSAKey.forgetKey (k : RSAKey) : RSAKey :=
  { k with _n := mpz_shred k._n, _d := mpz_shred k._d, _e := mpz_shred k._e,
           _initialized := false }

/-! ## Import of a PKCS#8 private key (`rsa.cpp`) -/

/-- `RSAKey::setFromASN1PrivateKeyInfo`: the value returned and the key after the call. -/
def RSAKey.setFromASN1PrivateKeyInfo (k : RSAKey) (DERString : String) : Res (Bool × RSAKey) :=
  if k._initialized then Except.ok (false, k)
  else
    tryStep (decapsulate DERString T_SEQU) (Except.ok (false, k)) fun r0 =>
    let content := String.ofBytes r0.1._str
    tryStep (ASN1_BASIC.fromDER content) (Except.ok (false, k)) fun r1 =>
    tryStep (decapsulate r1.2 T_SEQU) (Except.ok (false, k)) fun r2 =>
    tryStep (decapsulate r2.2 T_OSTR) (Except.ok (false, k)) fun r3 =>
    let prkey := String.ofBytes r3.1._str
    tryStep (k.setFromASN1PrivateKey prkey) (Except.ok (false, k)) fun r4 =>
    Except.ok r4

/-- `String::bignumToAsciiHexa (delimiter)`, returning the String after the conversion.  On
an empty String with a non-zero delimiter `new_size = _size * 3 - 1` wraps around and the
terminating zero is written outside the buffer. -/
def String.bignumToAsciiHexa (s : String) (delimiter : Nat) : Res String :=
  if delimiter ≠ 0 ∧ s.size = 0 then Except.error Thrown.fault
  else Except.ok (String.ofBytes (bignumToAsciiHexaLoop delimiter s._str))

/-! ## Dates (`asn1.cpp`) -/

/-- The `try` block of `dateToString`. -/
def dateToStringBody (date : String) : Res String :=
  match date.initIndex 0 with
  | Except.error t => Except.error t
  | Except.ok d0 =>
    match d0.popSubstring 2 with
    | Except.error t => Except.error t
    | Except.ok (year, d1) =>
      match d1.popSubstring 2 with
      | Except.error t => Except.error t
      | Except.ok (month, d2) =>
        match d2.popSubstring 2 with
        | Except.error t => Except.error t
        | Except.ok (day, d3) =>
          match d3.popSubstring 2 with
          | Except.error t => Except.error t
          | Except.ok (hour, d4) =>
            match d4.popSubstring 2 with
            | Except.error t => Except.error t
            | Except.ok (minute, d5) =>
              match d5.getChar with
              | Except.error t => Except.error t
              | Except.ok c =>
                let seconds : Res (String × String) :=
                  if c ≠ 90 ∧ ¬ d5.eof then d5.popSubstring 2
                  else Except.ok (String.ofBytes [48, 48], d5)
                match seconds with
                | Except.error t => Except.error t
                | Except.ok (second, d6) =>
                  match d6.popChar with
                  | Except.error t => Except.error t
                  | Except.ok (z, d7) =>
                    if z ≠ 90 ∨ ¬ d7.eof then Except.ok (String.ofBytes date._str)
                    else
                      Except.ok ((((((((((((String.ofBytes [108, 101, 32]).append day).append
                        (String.ofBytes [47])).append month).append
                        (String.ofBytes [47, 50, 48])).append year).append
                        (String.ofBytes [32, 0xC3, 0xA0, 32])).append hour).append
                        (String.ofBytes [58])).append minute).append
                        (String.ofBytes [58])).append second)

/-- `dateToString (const String& date)`: the String returned (`'Z'` is 90; the literals are
`"le "`, `"/"`, `"/20"`, `" à "` in UTF-8 and `":"`).  The handler returns a copy of `date`
for every library exception. -/
def dateToString (date : String) : Res String :=
  match dateToStringBody date with
  | Except.ok r => Except.ok r
  | Except.error (Thrown.ANSSIPKIException _) => Except.ok (String.ofBytes date._str)
  | Except.error t => Except.error t

/-- The class `ASN1_VALIDITY`. -/
structure ASN1_VALIDITY where
  startDate : String
  endDate : String
  deriving DecidableEq

/-- The constructor `ASN1_VALIDITY (const String& sd, const String& ed)`; `operator==`
compares the bytes. -/
def ASN1_VALIDITY.new (sd ed : String) : Res ASN1_VALIDITY :=
  match dateToString sd with
  | Except.error t => Except.error t
  | Except.ok r1 =>
    if r1._str = sd._str then raise exception_t.E_UNEXPECTED_ERROR
    else
      match dateToString ed with
      | Except.error t => Except.error t
      | Except.ok r2 =>
        if r2._str = ed._str then raise exception_t.E_UNEXPECTED_ERROR
        else Except.ok { startDate := String.ofBytes sd._str, endDate := String.ofBytes ed._str }

/-! ## Bit strings and flags (`asn1.cpp`) -/

/-- `String::toChar` as the characters found from the pointer returned on: the bytes of the
String and the terminating zero (for a String without buffer, the literal `""`). -/
def String.toChar (s : String) : List Nat := s._str ++ [0]

/-- The `int` `0x01 << n` converted to `unsigned int`, for a shift count below 32. -/
def int_shl1 (n : Nat) : Nat := (0x01 <<< n) % 2 ^ 32

/-- The loop `while ((newLength > 0) && ! (flags & (0x01 << (newLength - 1)))) --newLength;`
of `INTtoASN1_BSTR`; the recursion is on `newLength`. -/
def newLengthLoop (flags : Nat) : Nat → Nat
  | 0 => 0
  | n + 1 => if flags &&& int_shl1 n ≠ 0 then n + 1 else newLengthLoop flags n

/-- The loop `for (size_t i = newLength; i > 0; --i) { unsigned int bit = flags & (0x01 <<
(i - 1)); if (bit) ibstr = ibstr | (0x01 << (paddingLength + newLength - i)); }` of
`INTtoASN1_BSTR`; the recursion is on `i`. -/
def ibstrLoop (flags paddingLength newLength : Nat) : Nat → Nat → Nat
  | 0, ibstr => ibstr
  | i + 1, ibstr =>
    let bit := flags &&& int_shl1 i
    ibstrLoop flags paddingLength newLength i
      (if bit ≠ 0 then ibstr ||| int_shl1 (paddingLength + newLength - (i + 1)) else ibstr)

/-- The loop `for (size_t i = resLength - 1; i > 0; --i) res.pushChar(((unsigned char*)
(&ibstr))[i - 1]);` of `INTtoASN1_BSTR`, the bytes of the `unsigned int` being stored least
significant first; the recursion is on `i`. -/
def pushFlagBytesLoop (ibstr : Nat) : Nat → String → Res String
  | 0, res => Except.ok res
  | i + 1, res =>
    match res.pushChar (((ibstr >>> (8 * i)) &&& 0xFF) % 256) with
    | Except.error t => Except.error t
    | Except.ok res1 => pushFlagBytesLoop ibstr i res1

/-- `INTtoASN1_BSTR (unsigned int flags, size_t length)`.  The index of the String returned
is left where the last `pushChar` set it (a copy made on return would reset it); the callers
and `ASN1_BSTRtoINT` read the bytes only. -/
def INTtoASN1_BSTR (flags length : Nat) : Res String :=
  if length > 32 then raise exception_t.E_UNEXPECTED_ERROR
  else
    let newLength := newLengthLoop flags length
    let paddingLength := ((8 - (newLength % 8)) % 8) % 256
    let ibstr := ibstrLoop flags paddingLength newLength newLength 0
    let resLength := 1 + (newLength + paddingLength) / 8
    match (String.resize resLength).pushChar paddingLength with
    | Except.error t => Except.error t
    | Except.ok res1 => pushFlagBytesLoop ibstr (resLength - 1) res1

/-- The loop `for (size_t i = bfLength; i > 0; --i) { unsigned int bit = c_bstr[(i - 1) / 8]
& (0x01 << ((8 - (i % 8)) % 8)); if (bit) ibstr = ibstr | (0x01 << (i - 1)); }` of
`ASN1_BSTRtoINT`, `c_bstr` pointing behind the first character; the recursion is on `i`. -/
def bitFieldLoop (c_bstr : List Nat) : Nat → Nat → Nat
  | 0, ibstr => ibstr
  | i + 1, ibstr =>
    let bit := c_bstr.getD (i / 8) 0 &&& int_shl1 ((8 - ((i + 1) % 8)) % 8)
    bitFieldLoop c_bstr i (if bit ≠ 0 then ibstr ||| int_shl1 i else ibstr)

/-- `ASN1_BSTRtoINT (const String bstr, size_t& bfLength)`: the value returned and
`bfLength`. -/
def ASN1_BSTRtoINT (bstr : String) : Res (Nat × Nat) :=
  let c_bstr := bstr.toChar
  let paddingLength := c_bstr.getD 0 0
  let bfLength := size_t_sub ((size_t_sub bstr.size 1 * 8) % SIZE_T_RANGE) paddingLength
  if bfLength > 32 then raise exception_t.E_UNEXPECTED_ERROR
  else Except.ok (bitFieldLoop (c_bstr.drop 1) bfLength 0, bfLength)

/-! ## Signature of a block of data (`anssipki-asn1.h`, `asn1.cpp`, `tbs.cpp`, `rsa.cpp`) -/

/-- The enumeration `sign_algo`; `nSignAlgos` is its last enumerator, the number of the
others. -/
inductive sign_algo
  | S_ALGO_SHA1RSA
  | S_ALGO_SHA256RSA
  | S_ALGO_SHA512RSA
  | nSignAlgos
  deriving DecidableEq

/-- The enumeration `hash_algo`; `nHashAlgos` is its last enumerator, the number of the
others. -/
inductive hash_algo
  | H_ALGO_SHA1
  | H_ALGO_SHA256
  | H_ALGO_SHA512
  | nHashAlgos
  deriving DecidableEq

/-- Integer value of a `sign_algo` enumerator. -/
def sign_algo.toNat : sign_algo → Nat
  | sign_algo.S_ALGO_SHA1RSA => 0
  | sign_algo.S_ALGO_SHA256RSA => 1
  | sign_algo.S_ALGO_SHA512RSA => 2
  | sign_algo.nSignAlgos => 3

/-- The cast `hash_algo (n)`, used on values `0..3`. -/
def hash_algo.cast (n : Nat) : hash_algo :=
  if n = 0 then hash_algo.H_ALGO_SHA1
  else if n = 1 then hash_algo.H_ALGO_SHA256
  else if n = 2 then hash_algo.H_ALGO_SHA512
  else hash_algo.nHashAlgos

/-- The table `signAlgoOIDs [nSignAlgos]`, indexed by a `sign_algo`; `none` behind its
end. -/
def signAlgoOIDs (a : sign_algo) : Option asn1_oid :=
  match a with
  | sign_algo.S_ALGO_SHA1RSA =>
    some { len := 9
           hoid := [0x2A, 0x86, 0x48, 0x86, 0xF7, 0x0D, 0x01, 0x01, 0x05]
           tag_expected := tag_expected_t.TE_NULL }
  | sign_algo.S_ALGO_SHA256RSA =>
    some { len := 9
           hoid := [0x2A, 0x86, 0x48, 0x86, 0xF7, 0x0D, 0x01, 0x01, 0x0b]
           tag_expected := tag_expected_t.TE_NULL }
  | sign_algo.S_ALGO_SHA512RSA =>
    some { len := 9
           hoid := [0x2A, 0x86, 0x48, 0x86, 0xF7, 0x0D, 0x01, 0x01, 0x0d]
           tag_expected := tag_expected_t.TE_NULL }
  | sign_algo.nSignAlgos => none

/-- The table `hashAlgoOIDs [nHashAlgos]`, indexed by a `hash_algo`; `none` behind its
end. -/
def hashAlgoOIDs (a : hash_algo) : Option asn1_oid :=
  match a with
  | hash_algo.H_ALGO_SHA1 =>
    some { len := 5
           hoid := [0x2B, 0x0E, 0x03, 0x02, 0x1A]
           tag_expected := tag_expected_t.TE_NULL }
  | hash_algo.H_ALGO_SHA256 =>
    some { len := 9
           hoid := [0x60, 0x86, 0x48, 0x01, 0x65, 0x3, 0x04, 0x02, 0x01]
           tag_expected := tag_expected_t.TE_NULL }
  | hash_algo.H_ALGO_SHA512 =>
    some { len := 9
           hoid := [0x60, 0x86, 0x48, 0x01, 0x65, 0x3, 0x04, 0x02, 0x03]
           tag_expected := tag_expected_t.TE_NULL }
  | hash_algo.nHashAlgos => none

/-- The constructor `ASN1_SIGN_ALGO (const sign_algo sign_algo)`; reading the table behind
its end is a fault. -/
def ASN1_SIGN_ALGO.new (a : sign_algo) : Res ASN1_OBJECT :=
  match signAlgoOIDs a with
  | none => Except.error Thrown.fault
  | some oid => ASN1_OBJECT.new oid String.empty T_NULL

/-- The constructor `ASN1_HASH_ALGO (const hash_algo hash_algo)`; reading the table behind
its end is a fault. -/
def ASN1_HASH_ALGO.new (a : hash_algo) : Res ASN1_OBJECT :=
  match hashAlgoOIDs a with
  | none => Except.error Thrown.fault
  | some oid => ASN1_OBJECT.new oid String.empty T_NULL

/-- The abstract class `TBS`, as what its two pure virtual methods used by the signature
return: `toDER ()` and `get_sign_algo ()`. -/
structure TBS where
  toDER : Res String
  get_sign_algo : sign_algo

/-- `TBS::appendSignatureToDER (const String& signature)`. -/
def TBS.appendSignatureToDER (tbs : TBS) (signature : String) : Res String := do
  let padding := String.resize 1
  let sign_bstr ←
    ASN1_BASIC.new asn1_class.C_UNIV asn1_method.M_PRIM T_BSTR (padding.append signature)
  let tbsDER ← tbs.toDER
  let algo ← ASN1_SIGN_ALGO.new tbs.get_sign_algo
  let algoDER ← algo.toDER
  let algoSeq ← encapsulate algoDER T_SEQU
  let bstrDER ← sign_bstr.toDER
  encapsulate ((tbsDER.append algoSeq).append bstrDER) T_SEQU

/-- The digest functions `sha1`, `sha256` and `sha512` of the library, kept abstract: each
maps the data to the bytes it writes at the start of its output buffer (20, 32 and 64 bytes
for the real functions). -/
structure Digests where
  sha1 : List Nat → List Nat
  sha256 : List Nat → List Nat
  sha512 : List Nat → List Nat

/-- The loops `for (uint i = ...; i < ...; i++) tmp.pushChar (c);` of `RSAKey::sign`; the
recursion is on the number of iterations left. -/
def pushCharLoop (c : Nat) : Nat → String → Res String
  | 0, s => Except.ok s
  | n + 1, s =>
    match s.pushChar c with
    | Except.error t => Except.error t
    | Except.ok s1 => pushCharLoop c n s1

/-- The `switch (ha)` of `RSAKey::sign`: the content of the buffer `hash` and `hashlen`. -/
def signDigest (sha : Digests) (ha : hash_algo) (data : List Nat) : Res (List Nat × Nat) :=
  match ha with
  | hash_algo.H_ALGO_SHA1 => Except.ok (sha.sha1 data, 20)
  | hash_algo.H_ALGO_SHA256 => Except.ok (sha.sha256 data, 32)
  | hash_algo.H_ALGO_SHA512 => Except.ok (sha.sha512 data, 64)
  | hash_algo.nHashAlgos => raise exception_t.E_NOT_IMPLEMENTED

/-- `RSAKey::sign (const TBS& tbs)`.  `String (hash, hashlen)` is the first `hashlen` bytes
of the buffer the digest function wrote to; `modulusSize` is an `unsigned int`. -/
def RSAKey.sign (sha : Digests) (k : RSAKey) (tbs : TBS) : Res String := do
  let ha := hash_algo.cast tbs.get_sign_algo.toNat
  let tbsString ← tbs.toDER
  let (hash, hashlen) ← signDigest sha ha tbsString._str
  let hashAlgo ← ASN1_HASH_ALGO.new ha
  let hashAlgoDER ← hashAlgo.toDER
  let hashAlgoSeq ← encapsulate hashAlgoDER T_SEQU
  let digest ←
    ASN1_BASIC.new asn1_class.C_UNIV asn1_method.M_PRIM T_OSTR (String.ofBytes (hash.take hashlen))
  let digestDER ← digest.toDER
  let blockToSign ← encapsulate (hashAlgoSeq.append digestDER) T_SEQU
  let modulusSize := ((mpz_sizeinbase_16 k._n + 1) / 2) % 2 ^ 32
  if blockToSign.size + 11 > modulusSize then raise exception_t.E_UNEXPECTED_ERROR
  else do
    let tmp0 := String.resize modulusSize
    let tmp1 ← tmp0.pushChar 0x00
    let tmp2 ← tmp1.pushChar 0x01
    let tmp3 ←
      pushCharLoop 0xff (size_t_sub (size_t_sub modulusSize blockToSign.size) 1 - 2) tmp2
    let tmp4 ← tmp3.pushChar 0x00
    let (tmp5, _) ← tmp4.pushString blockToSign
    let tmp6 ← tmp5.bignumToAsciiHexa 0
    let msg := mpz_init_set_str_16 tmp6._str
    if msg ≥ k._n then raise exception_t.E_UNEXPECTED_ERROR
    else do
      let sig ← mpz_powm msg k._d k._n
      let res_unpadded ← String.ofMpz sig encode_t.ENC_BINARY
      let res0 := String.resize modulusSize
      let res1 ← pushCharLoop 0x00 (size_t_sub modulusSize res_unpadded.size) res0
      let (res2, _) ← res1.pushString res_unpadded
      tbs.appendSignatureToDER res2

/-- Specification: `c` is the code of a hexadecimal digit, `0-9`, `A-F` or `a-f`. -/
def isHexDigit (c : Nat) : Prop :=
  (48 ≤ c ∧ c ≤ 57) ∨ (65 ≤ c ∧ c ≤ 70) ∨ (97 ≤ c ∧ c ≤ 102)

instance instDecidablePredIsHexDigit : DecidablePred isHexDigit := fun c => by
  unfold isHexDigit
  exact inferInstance

/-- Specification: the value of the hexadecimal digit of code `c`. -/
def hexDigitValue (c : Nat) : Nat :=
  if c ≤ 57 then c - 48 else if c ≤ 70 then c - 55 else c - 87

/-- Specification: the bytes `16 * hi + lo` of nibbles taken two by two. -/
def nibblesToBytes : List Nat → List Nat
  | hi :: lo :: rest => (16 * hi + lo) :: nibblesToBytes rest
  | _ => []

/-- Specification: the byte string denoted by a string of hexadecimal digits, an odd-length
string standing for the string with a zero digit in front. -/
def hexDecode (cs : List Nat) : List Nat :=
  nibblesToBytes
    (if cs.length % 2 = 1 then 0 :: cs.map hexDigitValue else cs.map hexDigitValue)

/-- Specification: the form `YYMMDDhhmmZ` or `YYMMDDhhmmssZ` of a UTCTime, ten or twelve
decimal digits followed by `Z`. -/
def isUTCTime (date : List Nat) : Prop :=
  (date.length = 11 ∨ date.length = 13) ∧ date.getLast? = some 90 ∧
    ∀ d ∈ date.dropLast, 48 ≤ d ∧ d ≤ 57

instance instDecidablePredIsUTCTime : DecidablePred isUTCTime := fun date => by
  unfold isUTCTime
  exact inferInstance

/-- Specification: the dates that `dateToString` reformats: ten bytes and `Z`, or ten bytes,
two bytes that do not start with `Z`, and `Z`. -/
def hasDateShape (date : List Nat) : Prop :=
  (date.length = 11 ∧ date.getD 10 0 = 90) ∨
  (date.length = 13 ∧ date.getD 10 0 ≠ 90 ∧ date.getD 12 0 = 90)

instance instDecidablePredHasDateShape : DecidablePred hasDateShape := fun date => by
  unfold hasDateShape
  exact inferInstance

/-- Specification: the readable form `le DD/MM/20YY à hh:mm:ss` of a date of that shape, the
seconds being `00` when the date has none. -/
def readableDate (date : List Nat) : List Nat :=
  [108, 101, 32] ++ (date.drop 4).take 2 ++ [47] ++ (date.drop 2).take 2 ++ [47, 50, 48]
    ++ date.take 2 ++ [32, 0xC3, 0xA0, 32] ++ (date.drop 6).take 2 ++ [58]
    ++ (date.drop 8).take 2 ++ [58]
    ++ (if date.length = 13 then (date.drop 10).take 2 else [48, 48])

/-- Specification: the number of bytes of the modulus `n`, `ceil (bitlen (n) / 8)`. -/
def modulusBytes (n : Nat) : Nat := (Nat.size n + 7) / 8

/-- Specification: the object identifier of the digest of a signature algorithm. -/
def digestOID : sign_algo → List Nat
  | sign_algo.S_ALGO_SHA1RSA => [0x2B, 0x0E, 0x03, 0x02, 0x1A]
  | sign_algo.S_ALGO_SHA256RSA => [0x60, 0x86, 0x48, 0x01, 0x65, 0x03, 0x04, 0x02, 0x01]
  | sign_algo.S_ALGO_SHA512RSA => [0x60, 0x86, 0x48, 0x01, 0x65, 0x03, 0x04, 0x02, 0x03]
  | sign_algo.nSignAlgos => []

/-- Specification: the object identifier of a signature algorithm. -/
def signatureOID : sign_algo → List Nat
  | sign_algo.S_ALGO_SHA1RSA => [0x2A, 0x86, 0x48, 0x86, 0xF7, 0x0D, 0x01, 0x01, 0x05]
  | sign_algo.S_ALGO_SHA256RSA => [0x2A, 0x86, 0x48, 0x86, 0xF7, 0x0D, 0x01, 0x01, 0x0B]
  | sign_algo.S_ALGO_SHA512RSA => [0x2A, 0x86, 0x48, 0x86, 0xF7, 0x0D, 0x01, 0x01, 0x0D]
  | sign_algo.nSignAlgos => []

/-- Specification: the digest of the data under the digest function of a signature
algorithm. -/
def digestOf (sha : Digests) : sign_algo → List Nat → List Nat
  | sign_algo.S_ALGO_SHA1RSA, data => sha.sha1 data
  | sign_algo.S_ALGO_SHA256RSA, data => sha.sha256 data
  | sign_algo.S_ALGO_SHA512RSA, data => sha.sha512 data
  | sign_algo.nSignAlgos, _ => []

/-- Specification: the length of the digest of a signature algorithm. -/
def digestLength : sign_algo → Nat
  | sign_algo.S_ALGO_SHA1RSA => 20
  | sign_algo.S_ALGO_SHA256RSA => 32
  | sign_algo.S_ALGO_SHA512RSA => 64
  | sign_algo.nSignAlgos => 0

/-- Specification: the DigestInfo block
`SEQUENCE { SEQUENCE { OID hash, NULL }, OCTET STRING digest }`. -/
def digestInfo (oid digest : List Nat) : List Nat :=
  tlv 0x30 (tlv 0x30 (tlv 0x06 oid ++ tlv 0x05 []) ++ tlv 0x04 digest)

/-- Specification: the PKCS#1 v1.5 block of type 1 of `k` bytes around the block `B`. -/
def signatureBlock (k : Nat) (B : List Nat) : List Nat :=
  0x00 :: 0x01 :: (List.replicate (k - B.length - 3) 0xFF ++ 0x00 :: B)

/-- Specification: the signed structure
`SEQUENCE { tbs, SEQUENCE { OID signAlg, NULL }, BIT STRING (0x00 ‖ sig) }`. -/
def signedBytes (tbs oid sig : List Nat) : List Nat :=
  tlv 0x30 (tbs ++ (tlv 0x30 (tlv 0x06 oid ++ tlv 0x05 []) ++ tlv 0x03 (0x00 :: sig)))

/-- A digest function for examples: 20 bytes, each the length of the data modulo 256. -/
def lengthDigest (n : Nat) (data : List Nat) : List Nat := List.replicate n (data.length % 256)

/-- Digest functions for examples. -/
def exampleDigests : Digests :=
  { sha1 := lengthDigest 20, sha256 := lengthDigest 32, sha512 := lengthDigest 64 }

/-- A block of data to sign for examples: the empty SEQUENCE, to be signed with
SHA-256 and RSA. -/
def exampleTBS : TBS :=
  { toDER := Except.ok (String.ofBytes [0x30, 0x00]),
    get_sign_algo := sign_algo.S_ALGO_SHA256RSA }

/-! ## The sieve by the small primes (`prime.cpp`) -/

/-- `mpz_get_ui (op)`: the least significant bits of `|op|` that fit an `unsigned long`. -/
def mpz_get_ui (op : Int) : Nat := op.natAbs % 2 ^ 64

/-- The test `r % 3 == 0 || r % 5 == 0 || ... || r % 53 == 0` of `isPrime_Sieve`
(`GMP_LIMB_BITS >= 64`). -/
def smallOddPrimeDivides (r : Nat) : Bool :=
  r % 3 == 0 || r % 5 == 0 || r % 7 == 0 || r % 11 == 0 || r % 13 == 0 || r % 17 == 0 ||
  r % 19 == 0 || r % 23 == 0 || r % 29 == 0 || r % 31 == 0 || r % 37 == 0 || r % 41 == 0 ||
  r % 43 == 0 || r % 47 == 0 || r % 53 == 0

/-- The entry `primes[j]` of the static array for `j < PRIMES_SIZE`: zero when it is not
written yet. -/
def primesAt (primes : List Nat) (j : Nat) : Res Nat :=
  if j < PRIMES_SIZE then Except.ok (primes.getD j 0) else Except.error Thrown.fault

/-- The loop `for (; j < primesProductsIndices[i][1]; j++) if (r % primes[j] == 0) return
false;` of `isPrime_Sieve`, the list holding `primes[j]`, `primes[j+1]`, ...: `none` when
the function returns `false` there, else the index reached and the entries from there on.
A zero entry is a division by zero. -/
def sieveGroupLoop (r stop : Nat) : List Nat → Nat → Res (Option (Nat × List Nat))
  | [], j => if j < stop then Except.error Thrown.fault else Except.ok (some (j, []))
  | d :: rest, j =>
    if j < stop then
      if d = 0 then Except.error Thrown.fault
      else if r % d = 0 then Except.ok none
      else sieveGroupLoop r stop rest (j + 1)
    else Except.ok (some (j, d :: rest))

/-- The loop `for (i = 0, j = primesProductsIndices[i][0]; primes[j-1] < bound; i++)` of
`isPrime_Sieve` for `n > 0`, the first list holding the entries `i`, `i+1`, ... of
`primesProductsIndices` and `primesProducts`, and the `return true` that follows it.
`j` is an `unsigned int`: `j - 1` leaves the array for `j = 0`; `mpn_mod_1` traps on a
zero divisor. -/
def sieveGroupsLoop (primes : List Nat) (bound n : Nat) :
    List ((Nat × Nat) × Nat) → List Nat → Nat → Res Bool
  | [], _, j =>
    if j = 0 then Except.error Thrown.fault
    else
      match primesAt primes (j - 1) with
      | Except.error t => Except.error t
      | Except.ok pj => if pj < bound then Except.error Thrown.fault else Except.ok true
  | ((_, stop), product) :: more, entries, j =>
    if j = 0 then Except.error Thrown.fault
    else
      match primesAt primes (j - 1) with
      | Except.error t => Except.error t
      | Except.ok pj =>
        if pj < bound then
          if product = 0 then Except.error Thrown.fault
          else
            match sieveGroupLoop (n % product) stop entries j with
            | Except.error t => Except.error t
            | Except.ok none => Except.ok false
            | Except.ok (some (j1, rest)) => sieveGroupsLoop primes bound n more rest j1
        else Except.ok true

/-- `isPrime_Sieve (n, bound)` on the tables left by `initPrimes`, for a `size_t` `bound`
(0 is the default argument).  For `n < 0` `mpn_mod_1` is given a negative size. -/
def isPrime_Sieve (T : PrimeTables) (n : Int) (bound : Nat) : Res Bool :=
  if mpz_get_ui n &&& 1 = 0 then Except.ok false
  else if n < 0 then Except.error Thrown.fault
  else
    let r := n.natAbs % PP
    if smallOddPrimeDivides r then Except.ok false
    else
      let bound1 := if bound = 0 then T.primes.getD (NB_PRIMES_IN_SIEVE - 1) 0 else bound
      if bound1 > T.primes.getD (PRIMES_SIZE - 1) 0 then
        raise exception_t.E_CRYPTO_BAD_PARAMETER
      else
        match T.primesProductsIndices with
        | [] => Except.error Thrown.fault
        | (first, _) :: _ =>
          sieveGroupsLoop T.primes bound1 n.natAbs
            (List.zip T.primesProductsIndices T.primesProducts) (T.primes.drop first) first

/-! ## The cofactor of `isSmooth` (`prime.cpp`) -/

/-- The part of `isSmooth (n)` that computes `cofac`, up to the test
`if (mpz_cmp_ui(cofac, 1) == 0)`: the value of `cofac` there. -/
def isSmoothCofactor (T : PrimeTables) (n : Int) : Res Nat :=
  if n < 0 then Except.error Thrown.fault
  else
    let s := mpz_scan1_0 n
    let cofac := n.natAbs / 2 ^ s
    match T.primesProductsIndices with
    | [] => Except.error Thrown.fault
    | (first, _) :: _ =>
      match smoothGroupLoop (cofac % PP) first (T.primes.drop 1) 1 cofac with
      | Except.error t => Except.error t
      | Except.ok (_, _, cofac1) =>
        smoothGroupsLoop (List.zip T.primesProductsIndices T.primesProducts)
          (T.primes.drop first) first cofac1

/-- The loop written in the comment of `isSmooth` (`The following code does the same as above
but one prime at a time`), for `cofac ≥ 0`: `for (i = 0; i < NB_PRIMES_TO_CHECK_SMOOTHNESS;
i++) { while (mpz_fdiv_q_ui(q, cofac, primes[i]) == 0) mpz_swap(cofac, q); if
(mpz_cmp_ui(cofac, 1) == 0) goto free; }`, the list holding `primes[i]`, `primes[i+1]`, ...
up to the index `NB_PRIMES_TO_CHECK_SMOOTHNESS`: the value of `cofac` after it. -/
def naiveSmoothLoop : List Nat → Nat → Res Nat
  | [], cofac => Except.ok cofac
  | d :: rest, cofac =>
    match stripLoop d (cofac + 1) cofac with
    | Except.error t => Except.error t
    | Except.ok cofac1 =>
      if cofac1 = 1 then Except.ok cofac1 else naiveSmoothLoop rest cofac1

/-- The code in the comment of `isSmooth`, from `mpz_init_set(cofac, n)` on: the value of
`cofac` after its loop. -/
def naiveSmoothCofactor (T : PrimeTables) (n : Int) : Res Nat :=
  if n < 0 then Except.error Thrown.fault
  else naiveSmoothLoop (T.primes.take NB_PRIMES_TO_CHECK_SMOOTHNESS) n.natAbs

/-! ## Generation of primes after Fouque and Tibouchi (`prime.cpp`) -/

/-- The constant `FT_ALGO_PARAM_L`, `GMP_LIMB_BITS` (64-bit limbs). -/
def FT_ALGO_PARAM_L : Nat := 64

/-- `mpz_lcm_ui (rop, op1, op2)`, the value given to `rop`: the least common multiple, never
negative, zero when an operand is zero. -/
def mpz_lcm_ui (op1 : Int) (op2 : Nat) : Int := (Nat.lcm op1.natAbs op2 : Nat)

/-- The loop `while ((k - mpz_sizeinbase(m, 2)) >= wlen && i < PRIMES_SIZE)` of `genParamFT`,
with `todo = PRIMES_SIZE - i` values of `i` left: `m`, `lambda` and `i` after it.  The
subtraction is made in `size_t`, `primes[i] - 1` in `mp_limb_t`; an entry of `primes` that is
not written yet is zero. -/
def genParamFTLoop (primes : List Nat) (k wlen : Nat) : Nat → Int → Int → Nat → Int × Int × Nat
  | 0, m, lambda, i => (m, lambda, i)
  | todo + 1, m, lambda, i =>
    if size_t_sub k (mpz_sizeinbase_2 m) ≥ wlen then
      genParamFTLoop primes k wlen todo (m * (primes.getD i 0 : Nat))
        (mpz_lcm_ui lambda ((primes.getD i 0 + 2 ^ 64 - 1) % 2 ^ 64)) (i + 1)
    else (m, lambda, i)

/-- `genParamFT (m, lambda, wlen, k)` on the table `primes`: the values given to `m` and
`lambda`, and the value returned, `primes[i-1]`.  `i` is an `unsigned int`: for `i = 0` the
index `i - 1` is outside the array. -/
def genParamFT (primes : List Nat) (wlen k : Nat) : Res (Int × Int × Nat) :=
  match genParamFTLoop primes k wlen PRIMES_SIZE 1 1 0 with
  | (m, lambda, i) =>
    if i = 0 then Except.error Thrown.fault
    else Except.ok (m, lambda, primes.getD (i - 1) 0)

/-- Specification: the least common multiple of the `p - 1` for `p` in a list. -/
def lcmPred (l : List Nat) : Nat := l.foldl (fun a p => Nat.lcm a (p - 1)) 1

/-- `mpz_mul_2exp (rop, op1, op2)`, the value given to `rop`: `op1` times `2^op2`. -/
def mpz_mul_2exp (op1 : Int) (op2 : Nat) : Int := op1 * 2 ^ op2

/-- `mpz_cdiv_q (q, n, d)`, the value given to `q`: the quotient rounded up; a zero `d` is a
division by zero. -/
def mpz_cdiv_q (n d : Int) : Res Int :=
  if d = 0 then Except.error Thrown.fault else Except.ok (-(Int.fdiv (-n) d))

/-- `mpz_fdiv_q (q, n, d)`, the value given to `q`: the quotient rounded down; a zero `d` is a
division by zero. -/
def mpz_fdiv_q (n d : Int) : Res Int :=
  if d = 0 then Except.error Thrown.fault else Except.ok (Int.fdiv n d)

/-- The lines of `genPrimeFT` after step 3, up to the loop: the values given to `r` and `l`
from `n`, `b` and `m` (`n - 1` is computed in `size_t`). -/
def genPrimeFT_range (n : Nat) (b m : Int) : Res (Int × Int) :=
  let p := mpz_setbit 0 (size_t_sub n 1)
  match mpz_cdiv_q (p - b) m with
  | Except.error t => Except.error t
  | Except.ok r =>
    let p := mpz_mul_2exp p 1
    match mpz_fdiv_q (p - b) m with
    | Except.error t => Except.error t
    | Except.ok p => Except.ok (r, p - r)

/-- The lines of `findRSAFactorFT` after step 3, up to the loop: the values given to `r` and
`l` from `n`, `b` and `m` (`n - 3` and `n - 1` are computed in `size_t`). -/
def findRSAFactorFT_range (n : Nat) (b m : Int) : Res (Int × Int) :=
  let pdemi := mpz_mul_2exp 3 (size_t_sub n 3)
  match mpz_cdiv_q (pdemi - b) m with
  | Except.error t => Except.error t
  | Except.ok r =>
    let pdemi := mpz_setbit 0 (size_t_sub n 1)
    match mpz_fdiv_q (pdemi - b) m with
    | Except.error t => Except.error t
    | Except.ok pdemi => Except.ok (r, pdemi - r)

/-- The candidate of one turn of the last loop of `genPrimeFT` and of `findRSAFactorFT`:
`getRandomIntNB (a, l)`, `a += r`, then `b + a * m`; with it the state of the generator. -/
def candidateFT {σ : Type} (gen : PRNG σ) (s : σ) (r l b m : Int) : Res (σ × Int) :=
  match gen.getRandomIntNB s l with
  | Except.error t => Except.error t
  | Except.ok (s1, a) => Except.ok (s1, b + (a + r) * m)

/-- The value given to `p` in `findRSAFactorFT` from a candidate `pdemi`:
`mpz_mul_2exp (p, pdemi, 1)`, then `mpz_setbit (p, 0)`. -/
def findRSAFactorFT_p (pdemi : Int) : Int := mpz_setbit (mpz_mul_2exp pdemi 1) 0

/-- Step 2 of `genPrimeFT`: the value given to `u` by `mpz_powm (u, b, lambda, m)`,
`mpz_neg`, `mpz_add_ui (u, u, 1)` and `mpz_mod (u, u, m)`. -/
def genPrimeFT_u (b lambda m : Int) : Res Int :=
  match mpz_powm b lambda m with
  | Except.error t => Except.error t
  | Except.ok u => mpz_mod (-u + 1) m

/-- Steps 2 and 3 of `genPrimeFT`, from the label `step2` to the line after the `if`: the
state of the generator and the value of `b` on leaving.  `fuel` bounds the number of
`goto step2`. -/
def genPrimeFT_step2 {σ : Type} (gen : PRNG σ) (lambda m l : Int) :
    Nat → σ → Int → Res (σ × Int)
  | 0, _, _ => Except.error Thrown.hang
  | fuel + 1, s, b =>
    match genPrimeFT_u b lambda m with
    | Except.error t => Except.error t
    | Except.ok u =>
      if mpz_sgn u ≠ 0 then
        match gen.getRandomIntNB s l with
        | Except.error t => Except.error t
        | Except.ok (s1, r) =>
          match mpz_mod (b + (r + 1) * u) m with
          | Except.error t => Except.error t
          | Except.ok b1 => genPrimeFT_step2 gen lambda m l fuel s1 b1
      else Except.ok (s, b)

/-- Step 2 of `findRSAFactorFT`: `r <- 2b+1`, `u <- b * r`, then the value given to `u` by
`mpz_powm (u, u, lambda, m)`, `mpz_neg`, `mpz_add_ui (u, u, 1)` and `mpz_mod (u, u, m)`. -/
def findRSAFactorFT_u (b lambda m : Int) : Res Int :=
  let r := mpz_setbit (mpz_mul_2exp b 1) 0
  match mpz_powm (b * r) lambda m with
  | Except.error t => Except.error t
  | Except.ok u => mpz_mod (-u + 1) m

/-- Steps 2 and 3 of `findRSAFactorFT`, as `genPrimeFT_step2`. -/
def findRSAFactorFT_step2 {σ : Type} (gen : PRNG σ) (lambda m l : Int) :
    Nat → σ → Int → Res (σ × Int)
  | 0, _, _ => Except.error Thrown.hang
  | fuel + 1, s, b =>
    match findRSAFactorFT_u b lambda m with
    | Except.error t => Except.error t
    | Except.ok u =>
      if mpz_sgn u ≠ 0 then
        match gen.getRandomIntNB s l with
        | Except.error t => Except.error t
        | Except.ok (s1, r) =>
          match mpz_mod (b + (r + 1) * u) m with
          | Except.error t => Except.error t
          | Except.ok b1 => findRSAFactorFT_step2 gen lambda m l fuel s1 b1
      else Except.ok (s, b)

/-- `mpz_fdiv_ui (n, d)`, the value returned: the remainder of the division rounded down, never
negative; a zero `d` is a division by zero. -/
def mpz_fdiv_ui (n : Int) (d : Nat) : Res Nat :=
  if d = 0 then Except.error Thrown.fault else Except.ok (n % (d : Int)).toNat

/-- The lines of `findRSAFactor` from `mpz_setbit (m, nbits-2)` on, for a drawn `m`: the value
of `m` after the adjustment `mpz_add_ui (m, m, 5 - mpz_fdiv_ui (m, 6))` and the candidate
`n = 2m + 1` computed from it (the source computes `n` once `m` has passed the sieve).
`nbits - 2` and `nbits - 3` are computed in `size_t`, `5 - ...` in `unsigned long`. -/
def findRSAFactor_adjust (m : Int) (nbits : Nat) : Res (Int × Int) :=
  let m := mpz_setbit m (size_t_sub nbits 2)
  let m := mpz_setbit m (size_t_sub nbits 3)
  match mpz_fdiv_ui m 6 with
  | Except.error t => Except.error t
  | Except.ok rem =>
    let m := m + (((5 + 2 ^ 64 - rem) % 2 ^ 64 : Nat) : Int)
    Except.ok (m, mpz_mul_2exp m 1 + 1)

/-- One candidate of `findRSAFactor`: `generator.getRandomInt (m, nbits-1, false)`, then the
lines of `findRSAFactor_adjust`; with the state of the generator, `m` and `n`. -/
def findRSAFactor_candidate {σ : Type} (gen : PRNG σ) (s : σ) (nbits : Nat) :
    Res (σ × Int × Int) :=
  match gen.getRandomInt s (size_t_sub nbits 1) with
  | Except.error t => Except.error t
  | Except.ok (s1, m) =>
    match findRSAFactor_adjust m nbits with
    | Except.error t => Except.error t
    | Except.ok (m1, n) => Except.ok (s1, m1, n)

/-- A generator for examples: it fills the caller's array with the byte `0xff`. -/
def onesSource : PRNG Nat :=
  { getRandomBytes := fun s output _ => Except.ok (s, output.map (fun _ => 0xff)) }

/-! ## SHA-1 (`sha1.cpp`), on a little-endian machine -/

/-- The body of the loop of `byteReverse` on one `unsigned int`: the value stored back. -/
def byteReverseValue (w : Nat) : Nat :=
  let value := ((w <<< 16) % 2 ^ 32) ||| (w >>> 16)
  ((value &&& 0xFF00FF00) >>> 8) ||| (((value &&& 0x00FF00FF) <<< 8) % 2 ^ 32)

/-- The member `W[i]` of the union `longbyte`, kept as its 320 bytes: the `u32` made of the
bytes `B[4i]` to `B[4i+3]`, the first one lowest. -/
def longbyte.W (d : List Nat) (i : Nat) : Nat :=
  d.getD (4 * i) 0 + 256 * d.getD (4 * i + 1) 0 + 65536 * d.getD (4 * i + 2) 0
    + 16777216 * d.getD (4 * i + 3) 0

/-- The store `W[i] = v` into the union `longbyte`, for `v < 2^32`. -/
def longbyte.setW (d : List Nat) (i v : Nat) : List Nat :=
  (((d.set (4 * i) (v % 256)).set (4 * i + 1) (v / 256 % 256)).set (4 * i + 2)
    (v / 65536 % 256)).set (4 * i + 3) (v / 16777216 % 256)

/-- The loop `for (count = 0; count < uintCount; count++)` of `byteReverse`, with `todo`
words left. -/
def byteReverseLoop : Nat → Nat → List Nat → List Nat
  | 0, _, buffer => buffer
  | todo + 1, count, buffer =>
    byteReverseLoop todo (count + 1)
      (longbyte.setW buffer count (byteReverseValue (longbyte.W buffer count)))

/-- `byteReverse (buffer, byteCount)`: the buffer after the call. -/
def byteReverse (buffer : List Nat) (byteCount : Nat) : List Nat :=
  byteReverseLoop (byteCount / 4) 0 buffer

/-- The macro `f0`. -/
def f0 (x y z : Nat) : Nat := z ^^^ (x &&& (y ^^^ z))

/-- The macro `f1`. -/
def f1 (x y z : Nat) : Nat := x ^^^ y ^^^ z

/-- The macro `f2`. -/
def f2 (x y z : Nat) : Nat := (x &&& y) ||| (z &&& (x ||| y))

/-- The macro `f3`. -/
def f3 (x y z : Nat) : Nat := x ^^^ y ^^^ z

/-- The constant `K0`. -/
def K0 : Nat := 0x5a827999

/-- The constant `K1`. -/
def K1 : Nat := 0x6ed9eba1

/-- The constant `K2`. -/
def K2 : Nat := 0x8f1bbcdc

/-- The constant `K3`. -/
def K3 : Nat := 0xca62c1d6

/-- The macro `S (n, X)` on a `u32`, for `0 < n < 32`. -/
def S (n X : Nat) : Nat := ((X <<< n) % 2 ^ 32) ||| (X >>> (32 - n))

/-- The variables that the macros `r0` and `r1` of `_sha1` read and write: the union `d`, the
registers `A` to `E` and the pointers `p0` to `p4`, kept as indices into `d.W`. -/
structure sha1Round where
  /-- The union `d`. -/
  d : List Nat
  /-- The register `A`. -/
  A : Nat
  /-- The register `B`. -/
  B : Nat
  /-- The register `C`. -/
  C : Nat
  /-- The register `D`. -/
  D : Nat
  /-- The register `E`. -/
  E : Nat
  /-- The pointer `p0`. -/
  p0 : Nat
  /-- The pointer `p1`. -/
  p1 : Nat
  /-- The pointer `p2`. -/
  p2 : Nat
  /-- The pointer `p3`. -/
  p3 : Nat
  /-- The pointer `p4`. -/
  p4 : Nat

/-- The macro `r0 (f, K)`; the sum is made in `u32`. -/
def r0 (f : Nat → Nat → Nat → Nat) (K : Nat) (st : sha1Round) : sha1Round :=
  let temp := (S 5 st.A + f st.B st.C st.D + st.E + longbyte.W st.d st.p0 + K) % 2 ^ 32
  { st with p0 := st.p0 + 1, E := st.D, D := st.C, C := S 30 st.B, B := st.A, A := temp }

/-- The macro `r1 (f, K)`; the sum is made in `u32`. -/
def r1 (f : Nat → Nat → Nat → Nat) (K : Nat) (st : sha1Round) : sha1Round :=
  let temp := longbyte.W st.d st.p1 ^^^ longbyte.W st.d st.p2 ^^^ longbyte.W st.d st.p3
    ^^^ longbyte.W st.d st.p4
  let w := S 1 temp
  let temp := (S 5 st.A + f st.B st.C st.D + st.E + w + K) % 2 ^ 32
  { d := longbyte.setW st.d st.p0 w, p0 := st.p0 + 1, p1 := st.p1 + 1, p2 := st.p2 + 1,
    p3 := st.p3 + 1, p4 := st.p4 + 1,
    E := st.D, D := st.C, C := S 30 st.B, B := st.A, A := temp }

/-- The accumulators `h0` to `h4` of `_sha1`. -/
structure sha1Accu where
  /-- The accumulator `h0`. -/
  h0 : Nat
  /-- The accumulator `h1`. -/
  h1 : Nat
  /-- The accumulator `h2`. -/
  h2 : Nat
  /-- The accumulator `h3`. -/
  h3 : Nat
  /-- The accumulator `h4`. -/
  h4 : Nat
  deriving DecidableEq

/-- The eighty invocations of the macros in the loop of `_sha1`: sixteen `r0 (f0, K0)`, the
assignments to `p1` ... `p4`, then four `r1 (f0, K0)` and twenty each of `r1 (f1, K1)`,
`r1 (f2, K2)` and `r1 (f3, K3)`. -/
def sha1Macros (st : sha1Round) : sha1Round :=
  let st := Nat.iterate (r0 f0 K0) 16 st
  let st := { st with p1 := 13, p2 := 8, p3 := 2, p4 := 0 }
  let st := Nat.iterate (r1 f0 K0) 4 st
  let st := Nat.iterate (r1 f1 K1) 20 st
  let st := Nat.iterate (r1 f2 K2) 20 st
  Nat.iterate (r1 f3 K3) 20 st

/-- The lines of the loop of `_sha1` from `p0 = d.W` to `h4 += E`: the union and the
accumulators after them; the additions are made in `u32`.  The pointers `p1` to `p4` are not
set before the seventeenth round: they are kept at 0 until then. -/
def sha1Rounds (d : List Nat) (h : sha1Accu) : List Nat × sha1Accu :=
  let st := sha1Macros
    { d := d, A := h.h0, B := h.h1, C := h.h2, D := h.h3, E := h.h4,
      p0 := 0, p1 := 0, p2 := 0, p3 := 0, p4 := 0 }
  (st.d, { h0 := (h.h0 + st.A) % 2 ^ 32, h1 := (h.h1 + st.B) % 2 ^ 32,
           h2 := (h.h2 + st.C) % 2 ^ 32, h3 := (h.h3 + st.D) % 2 ^ 32,
           h4 := (h.h4 + st.E) % 2 ^ 32 })

/-- The loop `for (hi_length = lo_length = 0; ;)` of `_sha1`: the accumulators when it is
left.  `s` is the input from the pointer `s` on, `length` what is left to read; `fuel` bounds
the number of turns.  Reading past the end of the input is an invalid access. -/
def sha1Loop : Nat → List Nat → Nat → List Nat → Nat → Nat → Bool → sha1Accu → Res sha1Accu
  | 0, _, _, _, _, _, _, _ => Except.error Thrown.hang
  | fuel + 1, s, length, d, hi_length, lo_length, padded, h =>
    let nread := if length < 64 then length else 64
    let length := length - nread
    if s.length < nread then Except.error Thrown.fault
    else
      let d := s.take nread ++ d.drop nread
      let s := s.drop nread
      if nread < 64 then
        let nbits := (nread <<< 3) % 2 ^ 32
        let lo_length := (lo_length + nbits) % 2 ^ 32
        let hi_length := if lo_length < nbits then (hi_length + 1) % 2 ^ 32 else hi_length
        let d1 := if nread < 64 ∧ ¬ padded then d.set nread 0x80 else d
        let nread1 := if nread < 64 ∧ ¬ padded then nread + 1 else nread
        let padded1 := if nread < 64 ∧ ¬ padded then true else padded
        let d2 := d1.take nread1 ++ List.replicate (64 - nread1) 0 ++ d1.drop 64
        let d3 :=
          if nread1 ≤ 56 then
            byteReverse (longbyte.setW (longbyte.setW d2 14 hi_length) 15 lo_length) 56
          else byteReverse d2 64
        match sha1Rounds d3 h with
        | (d4, h1) =>
          if nread1 ≤ 56 then Except.ok h1
          else sha1Loop fuel s length d4 hi_length lo_length padded1 h1
      else
        let lo_length := (lo_length + 512) % 2 ^ 32
        let hi_length := if lo_length < 512 then (hi_length + 1) % 2 ^ 32 else hi_length
        let d3 := byteReverse d 64
        match sha1Rounds d3 h with
        | (d4, h1) => sha1Loop fuel s length d4 hi_length lo_length padded h1

/-- The constant `UINT_LEAST32_MAX`. -/
def UINT_LEAST32_MAX : Nat := 4294967295

/-- `_sha1 (mem, _length, buf)`: the array `buf` after the call, five `unsigned int` stored
from its start.  The union `d` is not initialised: `d` is what it holds at first.  A `buf`
shorter than 20 bytes makes the stores invalid. -/
def _sha1 (fuel : Nat) (d : List Nat) (mem : List Nat) (_length : Nat) (buf : List Nat) :
    Res (List Nat) :=
  if _length > UINT_LEAST32_MAX then raise exception_t.E_UNEXPECTED_ERROR
  else
    match sha1Loop fuel mem (_length % 2 ^ 32) d 0 0 false
        { h0 := 0x67452301, h1 := 0xefcdab89, h2 := 0x98badcfe, h3 := 0x10325476,
          h4 := 0xc3d2e1f0 } with
    | Except.error t => Except.error t
    | Except.ok h =>
      if buf.length < 20 then Except.error Thrown.fault
      else
        Except.ok (longbyte.setW (longbyte.setW (longbyte.setW (longbyte.setW
          (longbyte.setW buf 0 h.h0) 1 h.h1) 2 h.h2) 3 h.h3) 4 h.h4)

/-- The constant `SHA1_DIGEST_LENGTH`. -/
def SHA1_DIGEST_LENGTH : Nat := 20

/-- The loop `for (i=0; i<(SHA1_DIGEST_LENGTH / 4); i++)` of `sha1`, with `todo` words
left. -/
def sha1SwapLoop : Nat → Nat → List Nat → List Nat
  | 0, _, result => result
  | todo + 1, i, result =>
    let tmp := longbyte.W result i
    sha1SwapLoop todo (i + 1)
      ((((result.set (3 + 4 * i) (tmp &&& 0xff)).set (2 + 4 * i) ((tmp >>> 8) &&& 0xff)).set
        (1 + 4 * i) ((tmp >>> 16) &&& 0xff)).set (0 + 4 * i) ((tmp >>> 24) &&& 0xff))

/-- `sha1 (string, string_len, result)`: the value returned and the array `result` after the
call; `none` is the null pointer (`errno` is left out).  `fuel` bounds the turns of the loop
of `_sha1` and `d` is what its union holds at first. -/
def sha1 (fuel : Nat) (d : List Nat) (string : Option (List Nat)) (string_len : Nat)
    (result : Option (List Nat)) : Res (Int × Option (List Nat)) :=
  match string, result with
  | some str, some res =>
    match _sha1 fuel d str string_len res with
    | Except.error t => Except.error t
    | Except.ok res1 => Except.ok (0, some (sha1SwapLoop (SHA1_DIGEST_LENGTH / 4) 0 res1))
  | _, _ => Except.ok (-1, result)

/-! ### Specification: SHA-1 after FIPS 180 -/

/-- Specification: the rotation `ROTL^n (x)` of a 32-bit word, `(x << n) ∨ (x >> 32 - n)`,
where `<<` discards the bits that leave the word. -/
def ROTL (n x : Nat) : Nat := ((x <<< n) % 2 ^ 32) ||| (x >>> (32 - n))

/-- Specification: `Ch (x, y, z) = (x ∧ y) ⊕ (¬x ∧ z)` on 32-bit words. -/
def Ch (x y z : Nat) : Nat := (x &&& y) ^^^ ((x ^^^ 0xffffffff) &&& z)

/-- Specification: `Parity (x, y, z) = x ⊕ y ⊕ z`. -/
def Parity (x y z : Nat) : Nat := x ^^^ y ^^^ z

/-- Specification: `Maj (x, y, z) = (x ∧ y) ⊕ (x ∧ z) ⊕ (y ∧ z)`. -/
def Maj (x y z : Nat) : Nat := (x &&& y) ^^^ (x &&& z) ^^^ (y &&& z)

/-- Specification: the function `f_t` of SHA-1. -/
def fipsF (t x y z : Nat) : Nat :=
  if t < 20 then Ch x y z else if t < 40 then Parity x y z
  else if t < 60 then Maj x y z else Parity x y z

/-- Specification: the constant `K_t` of SHA-1. -/
def fipsK (t : Nat) : Nat :=
  if t < 20 then 0x5a827999 else if t < 40 then 0x6ed9eba1
  else if t < 60 then 0x8f1bbcdc else 0xca62c1d6

/-- Specification: the number `k` of zero bits of the padding of a message of `l` bits, the
smallest `k ≥ 0` with `l + 1 + k = 448 mod 512`. -/
def fipsZeroBits (l : Nat) : Nat := (447 + 512 - l % 512) % 512

/-- Specification: an integer as `n` bytes, the highest first. -/
def beBytesN : Nat → Nat → List Nat
  | 0, _ => []
  | n + 1, x => beBytesN n (x / 256) ++ [x % 256]

/-- Specification: the padded message of SHA-1 for a message of bytes: the bit 1 and `k` zero
bits (the byte `0x80` and `(k - 7) / 8` zero bytes), then the length in bits on 64 bits. -/
def fipsPad (M : List Nat) : List Nat :=
  M ++ 0x80 :: List.replicate ((fipsZeroBits (8 * M.length) - 7) / 8) 0
    ++ beBytesN 8 (8 * M.length)

/-- Specification: the 32-bit word made of four bytes, the highest first. -/
def beWord (b : List Nat) : Nat :=
  16777216 * b.getD 0 0 + 65536 * b.getD 1 0 + 256 * b.getD 2 0 + b.getD 3 0

/-- Specification: the sixteen words `M_0 ... M_15` of a block of 64 bytes. -/
def fipsWords (block : List Nat) : List Nat :=
  (List.range 16).map (fun i => beWord ((block.drop (4 * i)).take 4))

/-- Specification: the message schedule, extended by `n` words
`W_t = ROTL^1 (W_(t-3) ⊕ W_(t-8) ⊕ W_(t-14) ⊕ W_(t-16))`. -/
def fipsExtend : Nat → List Nat → List Nat
  | 0, W => W
  | n + 1, W =>
    fipsExtend n (W ++ [ROTL 1 (W.getD (W.length - 3) 0 ^^^ W.getD (W.length - 8) 0
      ^^^ W.getD (W.length - 14) 0 ^^^ W.getD (W.length - 16) 0)])

/-- Specification: the word `W_t` of the message schedule of the block `M`. -/
def fipsW (M : List Nat) (t : Nat) : Nat := (fipsExtend 64 M).getD t 0

/-- Specification: the working variables `a, b, c, d, e` after the rounds `0` to `t - 1`:
`T = ROTL^5 (a) + f_t (b, c, d) + e + K_t + W_t`, `e = d`, `d = c`, `c = ROTL^30 (b)`,
`b = a`, `a = T`. -/
def fipsRounds (M : List Nat) : Nat → sha1Accu → sha1Accu
  | 0, v => v
  | t + 1, v =>
    let u := fipsRounds M t v
    { h0 := (ROTL 5 u.h0 + fipsF t u.h1 u.h2 u.h3 + u.h4 + fipsK t + fipsW M t) % 2 ^ 32,
      h1 := u.h0, h2 := ROTL 30 u.h1, h3 := u.h2, h4 := u.h3 }

/-- Specification: the hash value after one more block `M` of sixteen words. -/
def fipsCompress (M : List Nat) (H : sha1Accu) : sha1Accu :=
  let v := fipsRounds M 80 H
  { h0 := (v.h0 + H.h0) % 2 ^ 32, h1 := (v.h1 + H.h1) % 2 ^ 32, h2 := (v.h2 + H.h2) % 2 ^ 32,
    h3 := (v.h3 + H.h3) % 2 ^ 32, h4 := (v.h4 + H.h4) % 2 ^ 32 }

/-- Specification: the hash value after the first `n` blocks of 64 bytes of `P`. -/
def fipsHash : Nat → List Nat → sha1Accu → sha1Accu
  | 0, _, H => H
  | n + 1, P, H => fipsHash n (P.drop 64) (fipsCompress (fipsWords (P.take 64)) H)

/-- Specification: the initial hash value of SHA-1. -/
def fipsH0 : sha1Accu :=
  { h0 := 0x67452301, h1 := 0xefcdab89, h2 := 0x98badcfe, h3 := 0x10325476, h4 := 0xc3d2e1f0 }

/-- Specification: the SHA-1 digest of a message of bytes, 20 bytes: the five words of the
last hash value, each with its highest byte first. -/
def fipsSHA1 (M : List Nat) : List Nat :=
  let H := fipsHash ((fipsPad M).length / 64) (fipsPad M) fipsH0
  beBytesN 4 H.h0 ++ beBytesN 4 H.h1 ++ beBytesN 4 H.h2 ++ beBytesN 4 H.h3 ++ beBytesN 4 H.h4

/-- Specification: the variables of the macros `r0` and `r1` after `t` rounds on the block
`M` from the hash value `H` agree with FIPS 180: the words `W_j` written so far, the working
variables and the pointer `p0`. -/
def sha1RoundAt (M : List Nat) (H : sha1Accu) (t : Nat) (st : sha1Round) : Prop :=
  st.d.length = 320 ∧ (∀ b ∈ st.d, b < 256) ∧ st.p0 = t ∧
  (∀ j, j < 16 ∨ j < t → longbyte.W st.d j = fipsW M j) ∧
  (st.A = (fipsRounds M t H).h0 ∧ st.B = (fipsRounds M t H).h1 ∧
    st.C = (fipsRounds M t H).h2 ∧ st.D = (fipsRounds M t H).h3 ∧
    st.E = (fipsRounds M t H).h4) ∧
  (st.A < 2 ^ 32 ∧ st.B < 2 ^ 32 ∧ st.C < 2 ^ 32 ∧ st.D < 2 ^ 32 ∧ st.E < 2 ^ 32)

/-- Specification: the pointers `p1` to `p4` of the macro `r1` before round `t`. -/
def sha1PointersAt (t : Nat) (st : sha1Round) : Prop :=
  st.p1 + 3 = t ∧ st.p2 + 8 = t ∧ st.p3 + 14 = t ∧ st.p4 + 16 = t

/-- Specification: the five words of a hash value are 32-bit words. -/
def sha1Accu.isWords (H : sha1Accu) : Prop :=
  H.h0 < 2 ^ 32 ∧ H.h1 < 2 ^ 32 ∧ H.h2 < 2 ^ 32 ∧ H.h3 < 2 ^ 32 ∧ H.h4 < 2 ^ 32

/-! ## The Lucas test (`prime.cpp`) -/

theorem derCatch_ok {α : Type} (a : α) : derCatch (Except.ok a : Res α) = Except.ok a := rfl

/-! ## Cursor writes into a zero-filled buffer -/

theorem String.pushChar_zeros (pre : List Nat) (k c : Nat) :
    String.pushChar { _str := pre ++ List.replicate (k + 1) 0, _index := pre.length } c
      = Except.ok { _str := (pre ++ [c]) ++ List.replicate k 0, _index := pre.length + 1 } := by
  unfold String.pushChar String.size
  have h : ¬ (pre.length ≥ (pre ++ List.replicate (k + 1) 0).length) := by
    simp
  simp only [h, if_false]
  congr 2
  simp [List.replicate_succ, List.set_append]

theorem getD_append_cons (pre : List Nat) (b : Nat) (rest : List Nat) :
    (pre ++ b :: rest).getD pre.length 0 = b := by
  induction pre with
  | nil => rfl
  | cons a pre ih => simpa using ih

theorem String.popChar_at (pre : List Nat) (b : Nat) (rest : List Nat) :
    String.popChar { _str := pre ++ b :: rest, _index := pre.length }
      = Except.ok (b, { _str := pre ++ b :: rest, _index := pre.length + 1 }) := by
  unfold String.popChar String.size
  have h : ¬ (pre.length ≥ (pre ++ b :: rest).length) := by simp
  simp only [h, if_false, getD_append_cons]

theorem String.getChar_at (pre : List Nat) (b : Nat) (rest : List Nat) :
    String.getChar { _str := pre ++ b :: rest, _index := pre.length } = Except.ok b := by
  unfold String.getChar String.size
  have h : ¬ (pre.length > (pre ++ b :: rest).length) := by simp
  have h2 : pre.length < (pre ++ b :: rest).length := by simp
  simp only [h, h2, if_false, if_true, getD_append_cons]

/-- Copying the unread part of `s` into a zero-filled destination. -/
theorem String.pushStringLoop_zeros (sb : List Nat) (k : Nat) :
    ∀ (fuel : Nat) (rem done pre : List Nat), sb = done ++ rem → rem.length < fuel →
      String.pushStringLoop fuel
          { _str := pre ++ List.replicate (rem.length + k) 0, _index := pre.length }
          { _str := sb, _index := done.length }
        = Except.ok ({ _str := (pre ++ rem) ++ List.replicate k 0,
                       _index := pre.length + rem.length },
                     { _str := sb, _index := sb.length }) := by
  intro fuel
  induction fuel with
  | zero => intro rem done pre _ h; omega
  | succ fuel ih =>
    intro rem done pre hsb hlt
    cases rem with
    | nil =>
      subst hsb
      simp [String.pushStringLoop, String.eof, String.size]
    | cons b rem =>
      have heof : String.eof { _str := sb, _index := done.length } = false := by
        subst hsb
        simp [String.eof, String.size]
      have hpop := String.popChar_at done b rem
      rw [← hsb] at hpop
      have hpush := String.pushChar_zeros pre (rem.length + k) b
      have hlen : (b :: rem).length + k = rem.length + k + 1 := by simp; omega
      rw [String.pushStringLoop, heof]
      simp only [Bool.false_eq_true, if_false, hpop, hlen, hpush]
      have hsb2 : sb = (done ++ [b]) ++ rem := by simp [hsb]
      have := ih rem (done ++ [b]) (pre ++ [b]) hsb2 (by simp at hlt; omega)
      simp only [List.length_append, List.length_singleton] at this
      rw [this]
      simp
      omega

theorem String.pushString_zeros (pre : List Nat) (s : String) (k : Nat) :
    String.pushString { _str := pre ++ List.replicate (s.size + k) 0, _index := pre.length } s
      = Except.ok ({ _str := (pre ++ s._str) ++ List.replicate k 0,
                     _index := pre.length + s.size },
                   { _str := s._str, _index := s.size }) := by
  unfold String.pushString String.initIndex
  simp only [Nat.not_lt_zero, gt_iff_lt, if_false]
  have := String.pushStringLoop_zeros s._str k (s.size + 1) s._str [] pre (by simp)
    (by simp [String.size])
  simpa [String.size] using this

/-! ## `toDER` in closed form -/

theorem pushLenLoop_zeros (v k : Nat) :
    ∀ (n : Nat) (pre : List Nat),
      pushLenLoop n v { _str := pre ++ List.replicate (n + k) 0, _index := pre.length }
        = Except.ok { _str := (pre ++ beBytes n v) ++ List.replicate k 0,
                      _index := pre.length + n } := by
  intro n
  induction n with
  | zero => intro pre; simp [pushLenLoop, beBytes]
  | succ n ih =>
    intro pre
    have hlen : n + 1 + k = (n + k) + 1 := by omega
    rw [pushLenLoop, hlen, String.pushChar_zeros]
    have := ih (pre ++ [((v >>> (8 * n)) &&& 0xFF) % 256])
    simp only [List.length_append, List.length_singleton] at this
    simp only [this, beBytes]
    simp
    omega

theorem sizeLenLoop_ge : ∀ (fuel tmp s : Nat), s ≤ sizeLenLoop fuel tmp s := by
  intro fuel
  induction fuel with
  | zero => intro tmp s; simp [sizeLenLoop]
  | succ fuel ih =>
    intro tmp s
    rw [sizeLenLoop]
    split
    · exact Nat.le_trans (Nat.le_succ s) (ih _ _)
    · exact Nat.le_refl s

theorem beBytes_length : ∀ (n v : Nat), (beBytes n v).length = n := by
  intro n
  induction n with
  | zero => intro v; rfl
  | succ n ih => intro v; simp [beBytes, ih]

theorem lengthOctets_length_pos (L : Nat) : 0 < (lengthOctets L).length := by
  unfold lengthOctets
  split <;> simp

/-- `toDER` never throws, and its result is the identifier octet, the size field and the
value, with the index at 0. -/
theorem toDER_eq (x : ASN1_BASIC) :
    x.toDER = Except.ok (String.ofBytes
      (idOctetOf x :: (lengthOctets x.value.size ++ x.value._str))) := by
  unfold ASN1_BASIC.toDER lengthOctets
  by_cases hL : x.value.size < 128
  · simp only [hL, if_true]
    have h0 : (String.resize (1 + 1 + x.value.size)).initIndex 0
        = Except.ok { _str := [] ++ List.replicate ((1 + x.value.size) + 1) 0,
                      _index := ([] : List Nat).length } := by
      simp [String.resize, String.initIndex, String.ofBytes, String.size]
      omega
    rw [h0]
    simp only [String.pushChar_zeros]
    have h1 : ([] ++ [idOctetOf x]) ++ List.replicate (1 + x.value.size) 0
        = [idOctetOf x] ++ List.replicate (x.value.size + 1) 0 := by
      simp; omega
    have h1b : ([] : List Nat).length + 1 = [idOctetOf x].length := rfl
    rw [h1, h1b]
    simp only [String.pushChar_zeros]
    have h2 : ([idOctetOf x] ++ [x.value.size % 256]) ++ List.replicate x.value.size 0
        = [idOctetOf x, x.value.size % 256] ++ List.replicate (x.value.size + 0) 0 := by
      simp
    have h2b : [idOctetOf x].length + 1 = [idOctetOf x, x.value.size % 256].length := rfl
    rw [h2, h2b]
    simp only [String.pushString_zeros]
    simp [String.initIndex, String.ofBytes]
  · simp only [hL, if_false]
    have hge := sizeLenLoop_ge x.value.size x.value.size 1
    obtain ⟨n, hn⟩ : ∃ n, sizeLenLoop x.value.size x.value.size 1 = n + 1 :=
      ⟨sizeLenLoop x.value.size x.value.size 1 - 1, by omega⟩
    rw [hn]
    simp only [Nat.add_sub_cancel]
    have h0 : (String.resize (1 + (n + 1) + x.value.size)).initIndex 0
        = Except.ok { _str := [] ++ List.replicate ((n + 1 + x.value.size) + 1) 0,
                      _index := ([] : List Nat).length } := by
      simp [String.resize, String.initIndex, String.ofBytes, String.size]
      omega
    rw [h0]
    simp only [String.pushChar_zeros]
    have h1 : ([] ++ [idOctetOf x]) ++ List.replicate (n + 1 + x.value.size) 0
        = [idOctetOf x] ++ List.replicate ((n + x.value.size) + 1) 0 := by
      simp; omega
    have h1b : ([] : List Nat).length + 1 = [idOctetOf x].length := rfl
    rw [h1, h1b]
    simp only [String.pushChar_zeros]
    have h2b : [idOctetOf x].length + 1 = ([idOctetOf x] ++ [(0x80 ||| n) % 256]).length := rfl
    rw [h2b]
    simp only [pushLenLoop_zeros]
    have h3 : (([idOctetOf x] ++ [(0x80 ||| n) % 256]) ++ beBytes n x.value.size)
          ++ List.replicate x.value.size 0
        = ([idOctetOf x] ++ [(0x80 ||| n) % 256] ++ beBytes n x.value.size)
          ++ List.replicate (x.value.size + 0) 0 := by
      simp
    have h3b : ([idOctetOf x] ++ [(0x80 ||| n) % 256]).length + n
        = ([idOctetOf x] ++ [(0x80 ||| n) % 256] ++ beBytes n x.value.size).length := by
      simp [beBytes_length]
      omega
    rw [h3, h3b]
    simp only [String.pushString_zeros]
    simp [String.initIndex, String.ofBytes]

/-! ## The size field is the shortest DER length -/

theorem sizeLenLoop_digits :
    ∀ (fuel tmp s : Nat), tmp ≤ fuel → sizeLenLoop fuel tmp s = s + (Nat.digits 256 tmp).length := by
  intro fuel
  induction fuel with
  | zero =>
    intro tmp s h
    have : tmp = 0 := by omega
    subst this
    simp [sizeLenLoop]
  | succ fuel ih =>
    intro tmp s h
    rw [sizeLenLoop]
    by_cases h0 : tmp = 0
    · subst h0; simp
    · have hpos : 0 < tmp := Nat.pos_of_ne_zero h0
      simp only [h0, ne_eq, not_false_eq_true, if_true]
      have hdiv : tmp >>> 8 = tmp / 256 := by
        rw [Nat.shiftRight_eq_div_pow]
      have hlt : tmp / 256 < tmp := Nat.div_lt_self hpos (by decide)
      rw [hdiv, ih (tmp / 256) (s + 1) (by omega)]
      rw [Nat.digits_def' (by decide : 1 < 256) hpos]
      simp
      omega

theorem and_0xFF (v : Nat) : v &&& 0xFF = v % 256 := by
  have := Nat.and_pow_two_sub_one_eq_mod v 8
  simpa using this

theorem beBytes_reverse_succ : ∀ (n v : Nat),
    (beBytes (n + 1) v).reverse = (v % 256) :: (beBytes n (v / 256)).reverse := by
  intro n
  induction n with
  | zero =>
    intro v
    simp [beBytes, and_0xFF]
  | succ n ih =>
    intro v
    have hstep : beBytes (n + 1 + 1) v
        = ((v >>> (8 * (n + 1))) &&& 0xFF) % 256 :: beBytes (n + 1) v := rfl
    have hstep2 : beBytes (n + 1) (v / 256)
        = (((v / 256) >>> (8 * n)) &&& 0xFF) % 256 :: beBytes n (v / 256) := rfl
    have hshift : v >>> (8 * (n + 1)) = (v / 256) >>> (8 * n) := by
      rw [Nat.shiftRight_eq_div_pow, Nat.shiftRight_eq_div_pow, Nat.div_div_eq_div_mul]
      congr 1
      rw [Nat.mul_add, Nat.pow_add, Nat.mul_comm]
    rw [hstep, List.reverse_cons, ih v, hstep2, List.reverse_cons, hshift]
    simp

theorem beBytes_digits : ∀ (n v : Nat), (Nat.digits 256 v).length = n →
    beBytes n v = (Nat.digits 256 v).reverse := by
  intro n
  induction n with
  | zero =>
    intro v h
    have : Nat.digits 256 v = [] := List.eq_nil_of_length_eq_zero h
    simp [beBytes, this]
  | succ n ih =>
    intro v h
    have hv : v ≠ 0 := by
      intro h0; subst h0; simp at h
    have hpos : 0 < v := Nat.pos_of_ne_zero hv
    have hd := Nat.digits_def' (by decide : 1 < 256) hpos
    rw [hd] at h
    have hlen : (Nat.digits 256 (v / 256)).length = n := by simpa using h
    have := beBytes_reverse_succ n v
    rw [ih (v / 256) hlen, List.reverse_reverse] at this
    rw [← List.reverse_reverse (beBytes (n + 1) v), this, hd]

theorem digits256_length_le (L k : Nat) (h : L < 256 ^ k) : (Nat.digits 256 L).length ≤ k := by
  by_cases h0 : L = 0
  · subst h0; simp
  · have h1 := Nat.base_pow_length_digits_le 256 L (by decide) h0
    have h2 : 256 ^ (Nat.digits 256 L).length < 256 ^ (k + 1) := by
      rw [Nat.pow_succ]
      generalize 256 ^ k = X at h
      generalize 256 ^ (Nat.digits 256 L).length = Y at h1
      omega
    have := (Nat.pow_lt_pow_iff_right (by decide : 1 < 256)).mp h2
    omega

theorem or_0x80_small (k : Nat) (h : k < 128) : (0x80 ||| k) % 256 = 0x80 ||| k := by
  have : (0x80 ||| k) < 256 := by
    have := @Nat.or_lt_two_pow 0x80 k 8 (by decide) (by omega)
    simpa using this
  exact Nat.mod_eq_of_lt this

/-- For a size in the range of `size_t`, the size field of `toDER` is the shortest DER
length. -/
theorem lengthOctets_eq_derLength (L : Nat) (h : L < 2 ^ 64) : lengthOctets L = derLength L := by
  unfold lengthOctets derLength
  by_cases hL : L < 128
  · simp only [hL, if_true]
    rw [Nat.mod_eq_of_lt (by omega)]
  · simp only [hL, if_false]
    have hk := sizeLenLoop_digits L L 1 (Nat.le_refl L)
    have hk2 : sizeLenLoop L L 1 - 1 = (Nat.digits 256 L).length := by omega
    have hle := digits256_length_le L 8 (by simpa using h)
    rw [hk2, beBytes_digits _ L rfl, or_0x80_small _ (by omega)]

/-! ## Reading back what `toDER` wrote -/

theorem int_to_size_t_small (t : Nat) (h : t < 2 ^ 31) : int_to_size_t t = t := by
  unfold int_to_size_t
  have h1 : t % 2 ^ 32 = t := Nat.mod_eq_of_lt (by omega)
  rw [h1, if_pos h]

theorem getSizeLoop_step_arith (L j : Nat) (hL : L < 2 ^ 31) :
    ((L >>> (8 * (j + 1))) <<< (8 * (j + 1)))
        ||| int_to_size_t (((((L >>> (8 * j)) &&& 0xFF) % 256) &&& 0xff) <<< (8 * j))
      = (L >>> (8 * j)) <<< (8 * j) := by
  have hb : (((L >>> (8 * j)) &&& 0xFF) % 256) &&& 0xff = (L / 2 ^ (8 * j)) % 256 := by
    rw [and_0xFF, and_0xFF, Nat.shiftRight_eq_div_pow]
    simp
  rw [hb]
  simp only [Nat.shiftLeft_eq, Nat.shiftRight_eq_div_pow]
  have hpow : 2 ^ (8 * (j + 1)) = 2 ^ (8 * j) * 256 := by
    rw [Nat.mul_add, Nat.pow_add]
  rw [hpow, ← Nat.div_div_eq_div_mul]
  have hXpos : 0 < 2 ^ (8 * j) := Nat.pow_pos (by decide)
  generalize hX : 2 ^ (8 * j) = X at *
  generalize hP : L / X = P
  have hPle : P * X ≤ L := by
    rw [← hP]; exact Nat.div_mul_le_self L X
  have hdm : 256 * (P / 256) + P % 256 = P := Nat.div_add_mod P 256
  have ht_le : P % 256 * X ≤ P * X := Nat.mul_le_mul_right X (Nat.mod_le P 256)
  rw [int_to_size_t_small _ (by omega)]
  have hlt : P % 256 * X < 2 ^ 8 * X := by
    have : P % 256 < 256 := Nat.mod_lt P (by decide)
    exact Nat.mul_lt_mul_of_pos_right this hXpos
  have hsum : P / 256 * (X * 256) + P % 256 * X = P * X := by
    calc P / 256 * (X * 256) + P % 256 * X = (256 * (P / 256) + P % 256) * X := by ring
      _ = P * X := by rw [hdm]
  rw [← hsum]
  subst hX
  have hlt2 : P % 256 * 2 ^ (8 * j) < 2 ^ (8 * j + 8) := by
    rw [Nat.pow_add, Nat.mul_comm (2 ^ (8 * j)) (2 ^ 8)]; exact hlt
  have := Nat.mul_add_lt_is_or hlt2 (P / 256)
  have hre : P / 256 * (2 ^ (8 * j) * 256) = 2 ^ (8 * j + 8) * (P / 256) := by
    rw [Nat.pow_add]; ring
  rw [hre, this]

theorem getSizeLoop_spec (L : Nat) (hL : L < 2 ^ 31) (rest : List Nat) :
    ∀ (k : Nat) (pre : List Nat),
      getSizeLoop k ((L >>> (8 * k)) <<< (8 * k))
          { _str := pre ++ (beBytes k L ++ rest), _index := pre.length }
        = Except.ok (L, { _str := pre ++ (beBytes k L ++ rest), _index := pre.length + k }) := by
  intro k
  induction k with
  | zero =>
    intro pre
    simp [getSizeLoop]
  | succ j ih =>
    intro pre
    have hb : beBytes (j + 1) L = ((L >>> (8 * j)) &&& 0xFF) % 256 :: beBytes j L := rfl
    rw [hb, getSizeLoop]
    simp only [List.cons_append, String.popChar_at, getSizeLoop_step_arith L j hL]
    have := ih (pre ++ [((L >>> (8 * j)) &&& 0xFF) % 256])
    simp only [List.length_append, List.length_singleton, List.append_assoc,
      List.singleton_append] at this
    rw [this]
    congr 3
    omega

theorem and_0x80_of_lt (L : Nat) (h : L < 128) : L &&& 0x80 = 0 := by
  interval_cases L <;> rfl

theorem lengthOctets_short (L : Nat) (h : L < 128) : lengthOctets L = [L] := by
  unfold lengthOctets
  rw [if_pos h, Nat.mod_eq_of_lt (by omega)]

theorem lengthOctets_long (L : Nat) (h : ¬ L < 128) (h31 : L < 2 ^ 31) :
    ∃ k, 1 ≤ k ∧ k ≤ 4 ∧ L < 256 ^ k ∧ lengthOctets L = (0x80 ||| k) :: beBytes k L := by
  have hk := sizeLenLoop_digits L L 1 (Nat.le_refl L)
  have hk2 : sizeLenLoop L L 1 - 1 = (Nat.digits 256 L).length := by omega
  have hle := digits256_length_le L 4 (by
    have : (256 : Nat) ^ 4 = 2 ^ 32 := by decide
    omega)
  have hpos : 1 ≤ (Nat.digits 256 L).length := by
    have hne : L ≠ 0 := by omega
    have hnil : Nat.digits 256 L ≠ [] := Nat.digits_ne_nil_iff_ne_zero.mpr hne
    exact List.length_pos.mpr hnil
  refine ⟨(Nat.digits 256 L).length, hpos, hle, Nat.lt_base_pow_length_digits (by decide), ?_⟩
  unfold lengthOctets
  rw [if_neg h, hk2, or_0x80_small _ (by omega)]

theorem getSize_spec (L : Nat) (hL : L < 2 ^ 31) (pre rest : List Nat) :
    getSize { _str := pre ++ (lengthOctets L ++ rest), _index := pre.length }
      = Except.ok (L, { _str := pre ++ (lengthOctets L ++ rest),
                        _index := pre.length + (lengthOctets L).length }) := by
  unfold getSize getSizeBody
  by_cases h : L < 128
  · rw [lengthOctets_short L h]
    simp only [List.singleton_append, String.getChar_at, and_0x80_of_lt L h, ne_eq,
      not_true_eq_false, if_false, getSizeLoop, String.popChar_at]
    have h1 : (L &&& 0xff) <<< (8 * 0) = L := by
      rw [and_0xFF, Nat.mod_eq_of_lt (by omega)]; simp
    rw [h1, int_to_size_t_small L hL]
    simp [derCatch]
  · obtain ⟨k, hk1, hk4, hlt, hlo⟩ := lengthOctets_long L h hL
    rw [hlo]
    simp only [List.cons_append, String.getChar_at, String.popChar_at]
    have hbits : (0x80 ||| k) &&& 0x80 ≠ 0 ∧ (0x80 ||| k) &&& 0x7f = k := by
      interval_cases k <;> decide
    have hacc : (L >>> (8 * k)) <<< (8 * k) = 0 := by
      rw [Nat.shiftRight_eq_div_pow]
      have : L / 2 ^ (8 * k) = 0 := by
        apply Nat.div_eq_of_lt
        have : (256 : Nat) ^ k = 2 ^ (8 * k) := by
          rw [Nat.pow_mul]
        omega
      rw [this]; simp
    rw [if_pos hbits.1, hbits.2, if_neg (by omega)]
    have := getSizeLoop_spec L hL rest k (pre ++ [0x80 ||| k])
    rw [hacc] at this
    simp only [List.length_append, List.length_singleton, List.append_assoc,
      List.singleton_append] at this
    rw [this]
    simp [derCatch, beBytes_length]
    omega

theorem String.popSubstring_at (pre v rest : List Nat)
    (hsz : (pre ++ (v ++ rest)).length < 2 ^ 64) :
    String.popSubstring { _str := pre ++ (v ++ rest), _index := pre.length } v.length
      = Except.ok (String.ofBytes v,
                   { _str := pre ++ (v ++ rest), _index := pre.length + v.length }) := by
  unfold String.popSubstring String.substring String.size SIZE_T_RANGE
  simp only [List.length_append] at hsz
  have hmod : (pre.length + v.length) % 2 ^ 64 = pre.length + v.length :=
    Nat.mod_eq_of_lt (by omega)
  simp only [hmod, List.length_append]
  rw [if_neg (by omega)]
  by_cases hv : v.length = 0
  · have : v = [] := List.eq_nil_of_length_eq_zero hv
    subst this
    simp [String.empty]
  · rw [if_neg hv, if_neg (by omega), if_neg (by omega)]
    simp

theorem idOctet_fields (c : asn1_class) (m : asn1_method) (t : Nat) (v : String)
    (ht : t ≤ 30) :
    asn1_class.cast ((idOctetOf ⟨c, m, t, v⟩ &&& 0xC0) >>> 6) = c
    ∧ asn1_method.cast ((idOctetOf ⟨c, m, t, v⟩ &&& 0x20) >>> 5) = m
    ∧ idOctetOf ⟨c, m, t, v⟩ &&& 0x1F = t := by
  unfold idOctetOf
  simp only
  interval_cases t <;> cases c <;> cases m <;> decide

/-- Reading with `ASN1_BASIC (const String&)` an element written by `toDER`, wherever it
stands in the input. -/
theorem fromDER_spec (x : ASN1_BASIC) (pre rest : List Nat)
    (ht : x.tagNumber ≤ 30)
    (hu : x.classe = asn1_class.C_UNIV → x.tagNumber ∈ universalTags)
    (hL : x.value.size < 2 ^ 31)
    (hsz : (pre ++ (idOctetOf x :: (lengthOctets x.value.size ++ x.value._str)) ++ rest).length
            < 2 ^ 64) :
    ASN1_BASIC.fromDER
        { _str := pre ++ (idOctetOf x :: (lengthOctets x.value.size ++ x.value._str)) ++ rest,
          _index := pre.length }
      = Except.ok
          ({ classe := x.classe, method := x.method, tagNumber := x.tagNumber,
             value := String.ofBytes x.value._str },
           { _str := pre ++ (idOctetOf x :: (lengthOctets x.value.size ++ x.value._str)) ++ rest,
             _index := pre.length
               + (idOctetOf x :: (lengthOctets x.value.size ++ x.value._str)).length }) := by
  obtain ⟨c, m, t, v⟩ := x
  simp only at ht hu hL
  obtain ⟨hc, hm, htag⟩ := idOctet_fields c m t v ht
  generalize hid : idOctetOf ⟨c, m, t, v⟩ = id at *
  have hstr : pre ++ (id :: (lengthOctets v.size ++ v._str)) ++ rest
      = pre ++ id :: (lengthOctets v.size ++ (v._str ++ rest)) := by simp
  rw [hstr] at hsz ⊢
  unfold ASN1_BASIC.fromDER
  rw [String.popChar_at]
  simp only [hc, hm]
  have hgt : getTagNumber c id = Except.ok t := by
    unfold getTagNumber
    rw [htag, if_neg (show ¬ (t = 0x1F) by omega)]
    by_cases hcu : c = asn1_class.C_UNIV
    · simp only [hcu, if_true, hu hcu]
    · simp only [hcu, if_false]
  rw [hgt]
  simp only
  have hgs := getSize_spec v.size hL (pre ++ [id]) (v._str ++ rest)
  simp only [List.length_append, List.length_singleton, List.append_assoc,
    List.singleton_append] at hgs
  have hvs : v.size = v._str.length := rfl
  rw [hvs] at hgs hsz ⊢
  have hps : String.popSubstring
      { _str := pre ++ id :: (lengthOctets v._str.length ++ (v._str ++ rest)),
        _index := pre.length + 1 + (lengthOctets v._str.length).length } v._str.length
      = Except.ok (String.ofBytes v._str,
          { _str := pre ++ id :: (lengthOctets v._str.length ++ (v._str ++ rest)),
            _index := pre.length + 1 + (lengthOctets v._str.length).length
              + v._str.length }) := by
    have := String.popSubstring_at (pre ++ id :: lengthOctets v._str.length) v._str rest
      (by simpa using hsz)
    simpa [Nat.add_assoc, Nat.add_comm, Nat.add_left_comm] using this
  rw [hgs]
  simp only
  rw [hps]
  simp only [derCatch, List.length_cons, List.length_append]
  congr 3
  omega

/-! ## The constructor of `ASN1_BASIC` -/

theorem and_0x80_ne_zero_iff (b : Nat) : (b &&& 0x80 ≠ 0) ↔ b.testBit 7 = true := by
  have h := Nat.and_two_pow b 7
  have h128 : (0x80 : Nat) = 2 ^ 7 := by decide
  rw [h128, h]
  cases b.testBit 7 <;> simp

theorem stripZeros_spec :
    ∀ (sz : Nat) (done rem : List Nat), rem.length = sz →
      stripZeros sz { _str := done ++ rem, _index := done.length }
        = Except.ok ((stripLeadingZeros rem).length,
            { _str := done ++ rem,
              _index := (done ++ rem).length - (stripLeadingZeros rem).length }) := by
  intro sz
  induction sz with
  | zero =>
    intro done rem h
    have : rem = [] := List.eq_nil_of_length_eq_zero h
    subst this
    simp [stripZeros, stripLeadingZeros]
  | succ sz ih =>
    intro done rem h
    cases rem with
    | nil => simp at h
    | cons b rem =>
      rw [stripZeros, String.getChar_at]
      simp only
      by_cases hb : b = 0
      · subst hb
        simp only [if_true, String.popChar_at]
        have := ih (done ++ [0]) rem (by simpa using h)
        simp only [List.length_append, List.length_singleton, List.append_assoc,
          List.singleton_append] at this
        rw [this]
        simp [stripLeadingZeros]
      · simp only [hb, if_false]
        have hs : stripLeadingZeros (b :: rem) = b :: rem := by
          simp [stripLeadingZeros, hb]
        rw [hs]
        simp at h
        simp
        omega

theorem stripLeadingZeros_suffix (l : List Nat) :
    ∃ z, l = z ++ stripLeadingZeros l := by
  refine ⟨l.takeWhile (fun b => decide (b = 0)), ?_⟩
  unfold stripLeadingZeros
  exact (List.takeWhile_append_dropWhile _ l).symm

/-- The constructor on an INTEGER: it never throws and stores the normalised bytes. -/
theorem ASN1_BASIC_new_integer (v : String) (hsz : v.size < 2 ^ 64) :
    ASN1_BASIC.new asn1_class.C_UNIV asn1_method.M_PRIM T_INTG v
      = Except.ok { classe := asn1_class.C_UNIV, method := asn1_method.M_PRIM,
                    tagNumber := T_INTG,
                    value := String.ofBytes (normaliseInteger v._str) } := by
  unfold ASN1_BASIC.new
  simp only [and_self, if_true]
  have hinit : v.initIndex 0 = Except.ok { _str := [] ++ v._str, _index := ([] : List Nat).length } := by
    simp [String.initIndex]
  rw [hinit]
  simp only
  have hstrip := stripZeros_spec v.size [] v._str rfl
  rw [hstrip]
  simp only
  obtain ⟨z, hz⟩ := stripLeadingZeros_suffix v._str
  generalize hS : stripLeadingZeros v._str = S at *
  have hlen : v._str.length = z.length + S.length := by rw [hz]; simp
  have hidx : ([] ++ v._str).length - S.length = z.length := by simp; omega
  rw [hidx]
  have hstr : [] ++ v._str = z ++ (S ++ []) := by simpa using hz
  rw [hstr]
  have hsz2 : (z ++ (S ++ [])).length < 2 ^ 64 := by
    have : v.size = v._str.length := rfl
    simp; omega
  rw [String.popSubstring_at z S [] hsz2]
  cases S with
  | nil => simp [normaliseInteger, hS, signPad, String.append, String.empty, String.ofBytes]
  | cons b S =>
    simp only [List.length_cons, Nat.succ_pos, gt_iff_lt, Nat.zero_lt_succ, if_true,
      List.cons_append, String.getChar_at]
    by_cases hb : b &&& 0x80 ≠ 0
    · have ht := (and_0x80_ne_zero_iff b).mp hb
      simp [hb, normaliseInteger, hS, signPad, ht, String.append, String.resize,
        String.ofBytes]
    · have ht : b.testBit 7 = false := by
        cases h7 : b.testBit 7
        · rfl
        · exact absurd ((and_0x80_ne_zero_iff b).mpr h7) hb
      simp [hb, normaliseInteger, hS, signPad, ht, String.append, String.empty,
        String.ofBytes]

/-! ## Big numbers as bytes: `String (const mpz_t, encode_t)` -/

theorem toDigitsBE_spec :
    ∀ (fuel n : Nat) (acc : List Nat), n < fuel → 0 < n →
      toDigitsBE 16 fuel n acc = (Nat.digits 16 n).reverse ++ acc := by
  intro fuel
  induction fuel with
  | zero => intro n acc h; omega
  | succ fuel ih =>
    intro n acc hlt hpos
    rw [toDigitsBE]
    have hd := Nat.digits_def' (by decide : 1 < 16) hpos
    by_cases h16 : n < 16
    · rw [if_pos h16, hd]
      have h1 : n % 16 = n := Nat.mod_eq_of_lt h16
      have h2 : n / 16 = 0 := Nat.div_eq_of_lt h16
      simp [h1, h2]
    · rw [if_neg h16]
      have hq : 0 < n / 16 := Nat.div_pos (by omega) (by decide)
      have hq2 : n / 16 < fuel := by
        have := Nat.div_lt_self hpos (by decide : 1 < 16)
        omega
      rw [ih (n / 16) _ hq2 hq, hd]
      simp

theorem toDigitsBE_zero (acc : List Nat) : toDigitsBE 16 1 0 acc = 0 :: acc := by
  simp [toDigitsBE]

theorem fromHexa_digit_char (d : Nat) (h : d < 16) : fromHexa (mpz_digit_char d) = Except.ok d := by
  interval_cases d <;> rfl

theorem hexPairsLoop_spec :
    ∀ (ds : List Nat) (n : Nat), (∀ d ∈ ds, d < 16) → ds.length = 2 * n →
      hexPairsLoop n (ds.map mpz_digit_char) = Except.ok (pairBytes ds)
  | [], n, _, hl => by
    have : n = 0 := by simp at hl; omega
    subst this
    rfl
  | [a], n, _, hl => by simp at hl; omega
  | a :: b :: rest, n, hd, hl => by
    obtain ⟨m, rfl⟩ : ∃ m, n = m + 1 := ⟨n - 1, by simp at hl; omega⟩
    have ha : a < 16 := hd a (by simp)
    have hb : b < 16 := hd b (by simp)
    have hrest := hexPairsLoop_spec rest m (fun d hd2 => hd d (by simp [hd2]))
      (by simp at hl; omega)
    simp only [List.map_cons, hexPairsLoop, fromHexa_digit_char a ha, fromHexa_digit_char b hb,
      hrest, pairBytes]

theorem asciiHexaToBignum_digits (ds : List Nat) (hd : ∀ d ∈ ds, d < 16) :
    String.asciiHexaToBignum (String.ofBytes (ds.map mpz_digit_char))
      = Except.ok (String.ofBytes (hexToBytes ds)) := by
  unfold String.asciiHexaToBignum hexToBytes
  have hsz : (String.ofBytes (ds.map mpz_digit_char)).size = ds.length := by
    simp [String.size, String.ofBytes]
  have hstr : (String.ofBytes (ds.map mpz_digit_char))._str = ds.map mpz_digit_char := rfl
  simp only [hsz, hstr]
  by_cases hodd : ds.length % 2 = 1
  · simp only [hodd, if_true]
    cases ds with
    | nil => simp at hodd
    | cons a rest =>
      have ha : a < 16 := hd a (by simp)
      have hlen : rest.length = 2 * ((a :: rest).length / 2 + 1 - 1) := by
        simp at hodd ⊢; omega
      have := hexPairsLoop_spec rest _ (fun d hd2 => hd d (by simp [hd2])) hlen
      simp only [List.map_cons, fromHexa_digit_char a ha, this]
  · simp only [hodd, if_false]
    have hlen : ds.length = 2 * (ds.length / 2 + ds.length % 2) := by omega
    rw [hexPairsLoop_spec ds _ hd hlen]

theorem pair_byte_value (a b : Nat) (ha : a < 16) (hb : b < 16) :
    ((a <<< 4) ||| b) % 256 = a * 16 + b := by
  interval_cases a <;> interval_cases b <;> rfl

theorem foldl_eq_ofDigits (b : Nat) :
    ∀ (l : List Nat) (acc : Nat),
      l.foldl (fun x d => x * b + d) acc = acc * b ^ l.length + Nat.ofDigits b l.reverse := by
  intro l
  induction l with
  | nil => intro acc; simp
  | cons a l ih =>
    intro acc
    rw [List.foldl_cons, ih, List.reverse_cons, Nat.ofDigits_append, List.length_cons,
      List.length_reverse, Nat.ofDigits_singleton]
    ring

theorem foldl_pairBytes :
    ∀ (ds : List Nat) (acc : Nat), (∀ d ∈ ds, d < 16) → ds.length % 2 = 0 →
      (pairBytes ds).foldl (fun x d => x * 256 + d) acc
        = ds.foldl (fun x d => x * 16 + d) acc
  | [], acc, _, _ => rfl
  | [a], acc, _, hl => by simp at hl
  | a :: b :: rest, acc, hd, hl => by
    have ha : a < 16 := hd a (by simp)
    have hb : b < 16 := hd b (by simp)
    have hrest := foldl_pairBytes rest (acc * 256 + (a * 16 + b))
      (fun d hd2 => hd d (by simp [hd2])) (by simp at hl; omega)
    simp only [pairBytes, List.foldl_cons, pair_byte_value a b ha hb, hrest]
    congr 1
    ring

theorem pairBytes_lt : ∀ (ds : List Nat), ∀ x ∈ pairBytes ds, x < 256
  | [], x, hx => by simp [pairBytes] at hx
  | [a], x, hx => by simp [pairBytes] at hx
  | a :: b :: rest, x, hx => by
    simp only [pairBytes, List.mem_cons] at hx
    rcases hx with h | h
    · rw [h]; exact Nat.mod_lt _ (by decide)
    · exact pairBytes_lt rest x h

theorem hexToBytes_lt (ds : List Nat) : ∀ x ∈ hexToBytes ds, x < 256 := by
  intro x hx
  unfold hexToBytes at hx
  split at hx
  · cases ds with
    | nil => simp at hx
    | cons a rest =>
      simp only [List.mem_cons] at hx
      rcases hx with h | h
      · rw [h]; exact Nat.mod_lt _ (by decide)
      · exact pairBytes_lt rest x h
  · exact pairBytes_lt ds x hx

theorem hexToBytes_foldl (ds : List Nat) (hd : ∀ d ∈ ds, d < 16) :
    (hexToBytes ds).foldl (fun x d => x * 256 + d) 0 = ds.foldl (fun x d => x * 16 + d) 0 := by
  unfold hexToBytes
  by_cases hodd : ds.length % 2 = 1
  · rw [if_pos hodd]
    cases ds with
    | nil => rfl
    | cons a rest =>
      have ha : a < 16 := hd a (by simp)
      have hm : a % 256 = a := Nat.mod_eq_of_lt (by omega)
      simp only [List.foldl_cons, hm]
      exact foldl_pairBytes rest _ (fun d hd2 => hd d (by simp [hd2]))
        (by simp at hodd; omega)
  · rw [if_neg hodd]
    exact foldl_pairBytes ds 0 hd (by omega)

theorem hexToBytes_head_ne_zero (ds : List Nat) (hd : ∀ d ∈ ds, d < 16)
    (hne : ds ≠ []) (hhead : ds.head? ≠ some 0) :
    hexToBytes ds ≠ [] ∧ (hexToBytes ds).head? ≠ some 0 := by
  unfold hexToBytes
  cases ds with
  | nil => exact absurd rfl hne
  | cons a rest =>
    have ha : a < 16 := hd a (by simp)
    have ha0 : a ≠ 0 := by
      intro h; apply hhead; simp [h]
    by_cases hodd : (a :: rest).length % 2 = 1
    · rw [if_pos hodd]
      have hm : a % 256 = a := Nat.mod_eq_of_lt (by omega)
      simp [hm, ha0]
    · rw [if_neg hodd]
      cases rest with
      | nil => simp at hodd
      | cons b rest =>
        have hb : b < 16 := hd b (by simp)
        simp only [pairBytes, pair_byte_value a b ha hb]
        constructor
        · simp
        · simp; omega

/-- The bytes `asciiHexaToBignum` makes of the hexadecimal digits of `n > 0` are the
digits of `n` in base 256, most significant first. -/
theorem hexToBytes_digits (n : Nat) (hn : 0 < n) :
    hexToBytes (Nat.digits 16 n).reverse = (Nat.digits 256 n).reverse := by
  have hn0 : n ≠ 0 := by omega
  have hd : ∀ d ∈ (Nat.digits 16 n).reverse, d < 16 := fun d h =>
    Nat.digits_lt_base (by decide) (List.mem_reverse.mp h)
  have hnil : Nat.digits 16 n ≠ [] := Nat.digits_ne_nil_iff_ne_zero.mpr hn0
  have hne : (Nat.digits 16 n).reverse ≠ [] := by simpa using hnil
  have hhead : (Nat.digits 16 n).reverse.head? ≠ some 0 := by
    rw [List.head?_reverse, List.getLast?_eq_getLast _ hnil]
    intro h0
    exact Nat.getLast_digit_ne_zero 16 hn0 (Option.some.inj h0)
  obtain ⟨hBne, hBhead⟩ := hexToBytes_head_ne_zero _ hd hne hhead
  have hval : Nat.ofDigits 256 (hexToBytes (Nat.digits 16 n).reverse).reverse = n := by
    have h1 := foldl_eq_ofDigits 256 (hexToBytes (Nat.digits 16 n).reverse) 0
    have h2 := foldl_eq_ofDigits 16 (Nat.digits 16 n).reverse 0
    rw [hexToBytes_foldl _ hd, h2] at h1
    simp only [Nat.zero_mul, Nat.zero_add, List.reverse_reverse, Nat.ofDigits_digits] at h1
    exact h1.symm
  have hlast : ∀ (h : (hexToBytes (Nat.digits 16 n).reverse).reverse ≠ []),
      (hexToBytes (Nat.digits 16 n).reverse).reverse.getLast h ≠ 0 := by
    intro h h0
    apply hBhead
    rw [← List.getLast?_reverse, List.getLast?_eq_getLast _ h, h0]
  have := Nat.digits_ofDigits 256 (by decide) (hexToBytes (Nat.digits 16 n).reverse).reverse
    (fun l hl => hexToBytes_lt _ l (List.mem_reverse.mp hl)) hlast
  rw [hval] at this
  rw [this, List.reverse_reverse]

/-- `String (n, ENC_BINARY)` for `n ≥ 0` does not throw and holds the magnitude of `n`. -/
theorem String_ofMpz_binary (n : Nat) :
    String.ofMpz (n : Int) encode_t.ENC_BINARY
      = Except.ok (String.ofBytes (magnitudeBytes n)) := by
  unfold String.ofMpz mpz_sgn mpz_get_str_16 magnitudeBytes
  have hs : ¬ (Int.sign (n : Int) < 0) := by
    have := Int.sign_nonneg.mpr (Int.ofNat_nonneg n)
    omega
  rw [if_neg hs]
  simp only [Int.toNat_ofNat, String.resize, String.ofBytes]
  by_cases h0 : n = 0
  · subst h0
    rfl
  · rw [if_neg h0, toDigitsBE_spec (n + 1) n [] (by omega) (by omega), List.append_nil]
    have hd : ∀ d ∈ (Nat.digits 16 n).reverse, d < 16 := fun d h =>
      Nat.digits_lt_base (by decide) (List.mem_reverse.mp h)
    have h := asciiHexaToBignum_digits _ hd
    rw [hexToBytes_digits n (by omega)] at h
    exact h

/-! ## `ASN1_INTEGER (const mpz_t)` -/

theorem magnitudeBytes_ne_nil (n : Nat) : magnitudeBytes n ≠ [] := by
  unfold magnitudeBytes
  by_cases h0 : n = 0
  · rw [if_pos h0]; simp
  · rw [if_neg h0]
    have hnil : Nat.digits 256 n ≠ [] := Nat.digits_ne_nil_iff_ne_zero.mpr h0
    simpa using hnil

theorem magnitudeBytes_lt (n : Nat) : ∀ b ∈ magnitudeBytes n, b < 256 := by
  intro b hb
  unfold magnitudeBytes at hb
  by_cases h0 : n = 0
  · rw [if_pos h0] at hb
    simp at hb
    omega
  · rw [if_neg h0] at hb
    exact Nat.digits_lt_base (by decide) (List.mem_reverse.mp hb)

theorem magnitudeBytes_value (n : Nat) : Nat.ofDigits 256 (magnitudeBytes n).reverse = n := by
  unfold magnitudeBytes
  by_cases h0 : n = 0
  · rw [if_pos h0, h0]; simp
  · rw [if_neg h0, List.reverse_reverse, Nat.ofDigits_digits]

theorem magnitudeBytes_head (n : Nat) (hn : n ≠ 0) : (magnitudeBytes n).head? ≠ some 0 := by
  unfold magnitudeBytes
  rw [if_neg hn]
  have hnil : Nat.digits 256 n ≠ [] := Nat.digits_ne_nil_iff_ne_zero.mpr hn
  rw [List.head?_reverse, List.getLast?_eq_getLast _ hnil]
  intro h0
  exact Nat.getLast_digit_ne_zero 256 hn (Option.some.inj h0)

theorem ASN1_BASIC_new_empty_integer :
    ASN1_BASIC.new asn1_class.C_UNIV asn1_method.M_PRIM T_INTG String.empty
      = Except.ok { classe := asn1_class.C_UNIV, method := asn1_method.M_PRIM,
                    tagNumber := T_INTG, value := String.ofBytes [] } := by
  decide

/-- The node built by `ASN1_INTEGER (n)` for `n ≥ 0`. -/
theorem ASN1_INTEGER_ofMpz_nat (n : Nat) :
    ASN1_INTEGER.ofMpz (n : Int)
      = Except.ok { classe := asn1_class.C_UNIV, method := asn1_method.M_PRIM,
                    tagNumber := T_INTG,
                    value := String.ofBytes (signPad (magnitudeBytes n) ++ magnitudeBytes n) } := by
  unfold ASN1_INTEGER.ofMpz
  rw [ASN1_BASIC_new_empty_integer, String_ofMpz_binary]
  simp only
  have hne := magnitudeBytes_ne_nil n
  generalize magnitudeBytes n = mag at *
  cases mag with
  | nil => exact absurd rfl hne
  | cons b rest =>
    have hinit : (String.ofBytes (b :: rest)).initIndex 0
        = Except.ok { _str := [] ++ b :: rest, _index := ([] : List Nat).length } := by
      simp [String.initIndex, String.ofBytes]
    rw [hinit]
    simp only [String.getChar_at]
    by_cases hb : b &&& 0x80 ≠ 0
    · have ht := (and_0x80_ne_zero_iff b).mp hb
      simp [hb, signPad, ht, String.append, String.ofBytes]
    · have ht : b.testBit 7 = false := by
        cases h7 : b.testBit 7
        · rfl
        · exact absurd ((and_0x80_ne_zero_iff b).mpr h7) hb
      simp [hb, signPad, ht, String.ofBytes]

theorem ASN1_INTEGER_ofMpz_neg (n : Int) (hn : n < 0) :
    ASN1_INTEGER.ofMpz n = raise exception_t.E_NEGATIVE_BIGNUM := by
  unfold ASN1_INTEGER.ofMpz
  rw [ASN1_BASIC_new_empty_integer]
  simp only
  have hs : mpz_sgn n < 0 := by
    unfold mpz_sgn
    rw [Int.sign_eq_neg_one_of_neg hn]
    decide
  unfold String.ofMpz
  rw [if_pos hs]
  rfl

/-! ## Reading an INTEGER back into a big number: `getNextInt` -/

theorem mpz_char_digit_hexa (i : Nat) (h : i < 16) : mpz_char_digit (hexa i) = some i := by
  interval_cases i <;> rfl

theorem byte_nibbles (b : Nat) (h : b < 256) :
    (b >>> 4) &&& 0xf = b / 16 ∧ b &&& 0xf = b % 16 := by
  have h1 := Nat.and_pow_two_sub_one_eq_mod (b >>> 4) 4
  have h2 := Nat.and_pow_two_sub_one_eq_mod b 4
  have h3 : b >>> 4 = b / 16 := by rw [Nat.shiftRight_eq_div_pow]
  have e1 : (b >>> 4) &&& 0xf = (b >>> 4) % 16 := by simpa using h1
  have e2 : b &&& 0xf = b % 16 := by simpa using h2
  rw [e1, e2, h3]
  constructor
  · exact Nat.mod_eq_of_lt (by omega)
  · rfl

theorem mpz_parse_16_hexa :
    ∀ (bs : List Nat) (acc : Nat), (∀ b ∈ bs, b < 256) →
      mpz_parse_16 (bignumToAsciiHexaLoop 0 bs) acc
        = some (bs.foldl (fun x d => x * 256 + d) acc) := by
  intro bs
  induction bs with
  | nil => intro acc _; rfl
  | cons b rest ih =>
    intro acc hb
    have hlt : b < 256 := hb b (by simp)
    obtain ⟨hhi, hlo⟩ := byte_nibbles b hlt
    have hrest := ih ((acc * 16 + b / 16) * 16 + b % 16) (fun x hx => hb x (by simp [hx]))
    simp only [bignumToAsciiHexaLoop, ne_eq, not_true_eq_false, false_and, if_false, hhi, hlo,
      mpz_parse_16, mpz_char_digit_hexa (b / 16) (by omega),
      mpz_char_digit_hexa (b % 16) (by omega), hrest, List.foldl_cons]
    congr 2
    omega

theorem intContent_ne_nil (n : Nat) : intContent n ≠ [] := by
  unfold intContent
  simp [magnitudeBytes_ne_nil]

theorem signPad_lt (l : List Nat) : ∀ b ∈ signPad l, b < 256 := by
  intro b h
  unfold signPad at h
  split at h
  · simp at h
  · split at h <;> simp at h
    omega

theorem signPad_foldl (l : List Nat) :
    (signPad l).foldl (fun x d => x * 256 + d) 0 = 0 := by
  unfold signPad
  split
  · rfl
  · split <;> rfl

theorem intContent_lt (n : Nat) : ∀ b ∈ intContent n, b < 256 := by
  intro b hb
  unfold intContent at hb
  rcases List.mem_append.mp hb with h | h
  · exact signPad_lt _ b h
  · exact magnitudeBytes_lt n b h

theorem intContent_foldl (n : Nat) :
    (intContent n).foldl (fun x d => x * 256 + d) 0 = n := by
  unfold intContent
  rw [List.foldl_append, signPad_foldl _, foldl_eq_ofDigits, magnitudeBytes_value]
  simp

theorem mpz_init_set_str_16_hexa (n : Nat) :
    mpz_init_set_str_16 (bignumToAsciiHexaLoop 0 (intContent n)) = (n : Int) := by
  have hne := intContent_ne_nil n
  have hp := mpz_parse_16_hexa (intContent n) 0 (intContent_lt n)
  rw [intContent_foldl] at hp
  unfold mpz_init_set_str_16
  cases hc : intContent n with
  | nil => exact absurd hc hne
  | cons b rest =>
    rw [hc] at hp
    have : bignumToAsciiHexaLoop 0 (b :: rest)
        = hexa ((b >>> 4) &&& 0xf) :: hexa (b &&& 0xf) :: bignumToAsciiHexaLoop 0 rest := by
      simp [bignumToAsciiHexaLoop]
    rw [this] at hp ⊢
    simp only [hp]
    rfl

theorem idOctetOf_integer (v : String) :
    idOctetOf ⟨asn1_class.C_UNIV, asn1_method.M_PRIM, T_INTG, v⟩ = 0x02 := by
  unfold idOctetOf
  simp only
  decide

theorem idOctetOf_sequence (v : String) :
    idOctetOf ⟨asn1_class.C_UNIV, asn1_method.M_CONS, T_SEQU, v⟩ = 0x30 := by
  unfold idOctetOf
  simp only
  decide

/-- `getNextInt` on an INTEGER written by `ASN1_INTEGER (n)` and `toDER`, standing at the
index. -/
theorem getNextInt_spec (S : List Nat) (i n : Nat) (pre rest : List Nat)
    (hS : S = pre ++ (tlv 0x02 (intContent n) ++ rest)) (hi : i = pre.length)
    (hlen : S.length < 2 ^ 31) :
    getNextInt { _str := S, _index := i }
      = Except.ok ((n : Int), { _str := S, _index := i + (tlv 0x02 (intContent n)).length }) := by
  subst hi
  have hS2 : S = pre ++ (idOctetOf ⟨asn1_class.C_UNIV, asn1_method.M_PRIM, T_INTG,
        String.ofBytes (intContent n)⟩
      :: (lengthOctets (String.ofBytes (intContent n)).size
          ++ (String.ofBytes (intContent n))._str)) ++ rest := by
    rw [hS]; simp [tlv, idOctetOf_integer, String.size, String.ofBytes]
  have hL : (intContent n).length < 2 ^ 31 := by
    have : S.length = pre.length + (tlv 0x02 (intContent n)).length + rest.length := by
      rw [hS]; simp; omega
    simp [tlv] at this
    omega
  have hspec := fromDER_spec ⟨asn1_class.C_UNIV, asn1_method.M_PRIM, T_INTG,
      String.ofBytes (intContent n)⟩ pre rest (show T_INTG ≤ 30 by decide)
      (fun _ => (show T_INTG ∈ universalTags by decide))
      (by simpa [String.size, String.ofBytes] using hL)
      (by rw [← hS2]; omega)
  rw [← hS2] at hspec
  unfold getNextInt
  rw [hspec]
  simp only [String.toAsciiHexa, ne_eq, not_true_eq_false, false_and, if_false]
  have hv : (String.ofBytes (String.ofBytes (intContent n))._str)._str = intContent n := rfl
  have hv2 : (String.ofBytes (bignumToAsciiHexaLoop 0 (intContent n)))._str
      = bignumToAsciiHexaLoop 0 (intContent n) := rfl
  simp only [hv, hv2, mpz_init_set_str_16_hexa]
  congr 3

/-! ## The serialisations of `RSAKey` in closed form -/

theorem encapsulate_sequence (s : String) :
    encapsulate s T_SEQU = Except.ok (String.ofBytes (tlv 0x30 s._str)) := by
  unfold encapsulate ASN1_BASIC.new
  rw [if_neg (by decide)]
  simp only
  rw [toDER_eq, idOctetOf_sequence]
  rfl

theorem integer_toDER (n : Nat) :
    ASN1_BASIC.toDER { classe := asn1_class.C_UNIV, method := asn1_method.M_PRIM,
                       tagNumber := T_INTG,
                       value := String.ofBytes (signPad (magnitudeBytes n) ++ magnitudeBytes n) }
      = Except.ok (String.ofBytes (tlv 0x02 (intContent n))) := by
  rw [toDER_eq, idOctetOf_integer]
  rfl

theorem ASN1_INTEGER_ofMpz_zero :
    ASN1_INTEGER.ofMpz 0
      = Except.ok { classe := asn1_class.C_UNIV, method := asn1_method.M_PRIM,
                    tagNumber := T_INTG,
                    value := String.ofBytes (signPad (magnitudeBytes 0) ++ magnitudeBytes 0) } :=
  ASN1_INTEGER_ofMpz_nat 0

theorem ok_bind {α β : Type} (a : α) (f : α → Res β) : (Except.ok a >>= f) = f a := rfl

theorem mpz_invert_nat (a m x : Int) (h : mpz_invert a m = some x) : ∃ r : Nat, x = (r : Int) := by
  unfold mpz_invert at h
  cases hf : List.find? (fun (r : Nat) => decide ((a * Int.ofNat r - 1) % m = 0))
      (List.range m.natAbs) with
  | none => rw [hf] at h; simp at h
  | some r =>
    rw [hf] at h
    simp at h
    exact ⟨r, h.symm⟩

theorem ASN1PrivateKey_eq (n e d p q dp dq qi : Nat) (b : Bool)
    (h1 : mpz_invert (e : Int) ((p : Int) - 1) = some (dp : Int))
    (h2 : mpz_invert (e : Int) ((q : Int) - 1) = some (dq : Int))
    (h3 : mpz_invert (q : Int) (p : Int) = some (qi : Int)) :
    RSAKey.ASN1PrivateKey
        { _initialized := b, _n := (n : Int), _d := (d : Int), _p := (p : Int), _q := (q : Int),
          _e := (e : Int) }
      = Except.ok (String.ofBytes (privateKeyBytes n e d p q dp dq qi)) := by
  unfold RSAKey.ASN1PrivateKey
  simp only [h1, h2, h3, ASN1_INTEGER_ofMpz_nat, ASN1_INTEGER_ofMpz_zero, integer_toDER, ok_bind,
    encapsulate_sequence]
  simp [privateKeyBytes, String.append, String.ofBytes]

theorem ASN1PublicKey_eq (n e d p q : Int) (b : Bool) (n' e' : Nat)
    (hn : n = (n' : Int)) (he : e = (e' : Int)) :
    RSAKey.ASN1PublicKey { _initialized := b, _n := n, _d := d, _p := p, _q := q, _e := e }
      = Except.ok (String.ofBytes
          (tlv 0x30 (tlv 0x02 (intContent n') ++ tlv 0x02 (intContent e')))) := by
  subst hn he
  unfold RSAKey.ASN1PublicKey
  simp only [ASN1_INTEGER_ofMpz_nat, integer_toDER, ok_bind, encapsulate_sequence]
  simp [String.append, String.ofBytes]

/-! ## Reading a private key back: `setFromASN1PrivateKey` -/

theorem tlv_length (id : Nat) (content : List Nat) :
    (tlv id content).length = 1 + (lengthOctets content.length).length + content.length := by
  simp [tlv]
  omega

theorem fromDER_integer_spec (S : List Nat) (i n : Nat) (pre rest t : List Nat)
    (ht : t = tlv 0x02 (intContent n))
    (hS : S = pre ++ (t ++ rest)) (hi : i = pre.length)
    (hlen : S.length < 2 ^ 31) :
    ASN1_BASIC.fromDER { _str := S, _index := i }
      = Except.ok ({ classe := asn1_class.C_UNIV, method := asn1_method.M_PRIM,
                     tagNumber := T_INTG, value := String.ofBytes (intContent n) },
                   { _str := S, _index := i + t.length }) := by
  subst hi ht
  have hS2 : S = pre ++ (idOctetOf ⟨asn1_class.C_UNIV, asn1_method.M_PRIM, T_INTG,
        String.ofBytes (intContent n)⟩
      :: (lengthOctets (String.ofBytes (intContent n)).size
          ++ (String.ofBytes (intContent n))._str)) ++ rest := by
    rw [hS]; simp [tlv, idOctetOf_integer, String.size, String.ofBytes]
  have hL : (intContent n).length < 2 ^ 31 := by
    have : S.length = pre.length + (tlv 0x02 (intContent n)).length + rest.length := by
      rw [hS]; simp; omega
    rw [tlv_length] at this
    omega
  have hspec := fromDER_spec ⟨asn1_class.C_UNIV, asn1_method.M_PRIM, T_INTG,
      String.ofBytes (intContent n)⟩ pre rest (show T_INTG ≤ 30 by decide)
      (fun _ => (show T_INTG ∈ universalTags by decide))
      (by simpa [String.size, String.ofBytes] using hL)
      (by rw [← hS2]; omega)
  rw [← hS2] at hspec
  rw [hspec]
  congr 3

theorem getNextInt_spec2 (S : List Nat) (i n : Nat) (pre rest t : List Nat)
    (ht : t = tlv 0x02 (intContent n))
    (hS : S = pre ++ (t ++ rest)) (hi : i = pre.length)
    (hlen : S.length < 2 ^ 31) :
    getNextInt { _str := S, _index := i }
      = Except.ok ((n : Int), { _str := S, _index := i + t.length }) := by
  subst ht
  exact getNextInt_spec S i n pre rest hS hi hlen

theorem decapsulate_sequence_spec (S : List Nat) (i : Nat) (pre content rest : List Nat)
    (hS : S = pre ++ (tlv 0x30 content ++ rest)) (hi : i = pre.length)
    (hL : content.length < 2 ^ 31) (hlen : S.length < 2 ^ 64) :
    decapsulate { _str := S, _index := i } T_SEQU
      = Except.ok (String.ofBytes content,
                   { _str := S, _index := i + (tlv 0x30 content).length }) := by
  subst hi
  have hS1 : S = pre ++ 0x30 :: (lengthOctets content.length ++ (content ++ rest)) := by
    rw [hS]; simp [tlv]
  unfold decapsulate
  rw [hS1, String.popChar_at]
  have hgt : getTagNumber asn1_class.C_UNIV 0x30 = Except.ok T_SEQU := by decide
  simp only [hgt, ne_eq, not_true_eq_false, if_false]
  have hgs := getSize_spec content.length hL (pre ++ [0x30]) (content ++ rest)
  simp only [List.length_append, List.length_singleton, List.append_assoc,
    List.singleton_append] at hgs
  rw [hgs]
  simp only
  have hps : String.popSubstring
      { _str := pre ++ 0x30 :: (lengthOctets content.length ++ (content ++ rest)),
        _index := pre.length + 1 + (lengthOctets content.length).length } content.length
      = Except.ok (String.ofBytes content,
          { _str := pre ++ 0x30 :: (lengthOctets content.length ++ (content ++ rest)),
            _index := pre.length + 1 + (lengthOctets content.length).length
              + content.length }) := by
    have := String.popSubstring_at (pre ++ 0x30 :: lengthOctets content.length) content rest
      (by rw [hS1] at hlen; simpa using hlen)
    simpa [Nat.add_assoc, Nat.add_comm, Nat.add_left_comm] using this
  rw [hps]
  simp only [derCatch, tlv_length]
  congr 3
  omega

theorem setFromASN1PrivateKey_privateKeyBytes (n e d p q dp dq qi : Nat)
    (hlen : (privateKeyBytes n e d p q dp dq qi).length < 2 ^ 31) :
    RSAKey.setFromASN1PrivateKey RSAKey.new (String.ofBytes (privateKeyBytes n e d p q dp dq qi))
      = Except.ok (true, { _initialized := true, _n := (n : Int), _d := (d : Int),
                           _p := (p : Int), _q := (q : Int), _e := (e : Int) }) := by
  unfold privateKeyBytes at hlen ⊢
  generalize ht0 : tlv 0x02 (intContent 0) = t0 at hlen ⊢
  generalize ht1 : tlv 0x02 (intContent n) = t1 at hlen ⊢
  generalize ht2 : tlv 0x02 (intContent e) = t2 at hlen ⊢
  generalize ht3 : tlv 0x02 (intContent d) = t3 at hlen ⊢
  generalize ht4 : tlv 0x02 (intContent p) = t4 at hlen ⊢
  generalize ht5 : tlv 0x02 (intContent q) = t5 at hlen ⊢
  generalize hR : tlv 0x02 (intContent dp) ++ (tlv 0x02 (intContent dq)
    ++ tlv 0x02 (intContent qi)) = R at hlen ⊢
  generalize hC : t0 ++ (t1 ++ (t2 ++ (t3 ++ (t4 ++ (t5 ++ R))))) = C at hlen ⊢
  have hCl : C.length < 2 ^ 31 := by
    rw [tlv_length] at hlen
    omega
  unfold RSAKey.setFromASN1PrivateKey
  have hdec := decapsulate_sequence_spec (tlv 0x30 C) 0 [] C [] (by simp) rfl hCl (by omega)
  have hof : String.ofBytes (tlv 0x30 C) = { _str := tlv 0x30 C, _index := 0 } := rfl
  rw [hof, hdec]
  simp only [RSAKey.new, Bool.false_eq_true, if_false, tryStep]
  have hcont : String.ofBytes (String.ofBytes C)._str = { _str := C, _index := 0 } := rfl
  rw [hcont]
  rw [fromDER_integer_spec C 0 0 [] (t1 ++ (t2 ++ (t3 ++ (t4 ++ (t5 ++ R))))) t0 ht0.symm
    (by rw [← hC]; simp) rfl hCl]
  simp only
  rw [getNextInt_spec2 C (0 + t0.length) n t0 (t2 ++ (t3 ++ (t4 ++ (t5 ++ R)))) t1 ht1.symm
    (by rw [← hC]) (by simp) hCl]
  simp only
  rw [getNextInt_spec2 C (0 + t0.length + t1.length) e (t0 ++ t1) (t3 ++ (t4 ++ (t5 ++ R))) t2
    ht2.symm (by rw [← hC]; simp) (by simp) hCl]
  simp only
  rw [getNextInt_spec2 C (0 + t0.length + t1.length + t2.length) d (t0 ++ (t1 ++ t2))
    (t4 ++ (t5 ++ R)) t3 ht3.symm (by rw [← hC]; simp) (by simp; omega) hCl]
  simp only
  rw [getNextInt_spec2 C (0 + t0.length + t1.length + t2.length + t3.length) p
    (t0 ++ (t1 ++ (t2 ++ t3))) (t5 ++ R) t4 ht4.symm (by rw [← hC]; simp) (by simp; omega) hCl]
  simp only
  rw [getNextInt_spec2 C (0 + t0.length + t1.length + t2.length + t3.length + t4.length) q
    (t0 ++ (t1 ++ (t2 ++ (t3 ++ t4)))) R t5 ht5.symm (by rw [← hC]; simp) (by simp; omega) hCl]

/-! ## A key too large for the size field that `getSize` accepts -/

theorem lengthOctets_length_le (L : Nat) (h : L < 2 ^ 64) : (lengthOctets L).length ≤ 9 := by
  rw [lengthOctets_eq_derLength L h]
  unfold derLength
  split
  · simp
  · have := digits256_length_le L 8 (by simpa using h)
    simp
    omega

theorem lengthOctets_five (L : Nat) (h1 : 2 ^ 32 ≤ L) (h2 : L < 2 ^ 40) :
    ∃ bs, lengthOctets L = 0x85 :: bs := by
  rw [lengthOctets_eq_derLength L (by omega)]
  unfold derLength
  rw [if_neg (by omega)]
  have hle := digits256_length_le L 5 (by
    have : (256 : Nat) ^ 5 = 2 ^ 40 := by decide
    omega)
  have hge : 5 ≤ (Nat.digits 256 L).length := by
    by_contra hc
    have hlt := Nat.lt_base_pow_length_digits (b := 256) (m := L) (by decide)
    have hpow : 256 ^ (Nat.digits 256 L).length ≤ 256 ^ 4 :=
      Nat.pow_le_pow_right (by decide) (by omega)
    have : (256 : Nat) ^ 4 = 2 ^ 32 := by decide
    omega
  have heq : (Nat.digits 256 L).length = 5 := by omega
  rw [heq]
  exact ⟨_, rfl⟩

theorem signPad_length_le (l : List Nat) : (signPad l).length ≤ 1 := by
  unfold signPad
  split
  · simp
  · split <;> simp

theorem intContent_length_small (m : Nat) (h : m < 256) : (intContent m).length ≤ 2 := by
  unfold intContent magnitudeBytes
  have h1 := signPad_length_le (if m = 0 then [0] else (Nat.digits 256 m).reverse)
  have h2 : (if m = 0 then [0] else (Nat.digits 256 m).reverse).length ≤ 1 := by
    split
    · simp
    · have := digits256_length_le m 1 (by simpa using h)
      simpa using this
  rw [List.length_append]
  omega

theorem tlv_small_length (m : Nat) (h : m < 256) :
    3 ≤ (tlv 0x02 (intContent m)).length ∧ (tlv 0x02 (intContent m)).length ≤ 4 := by
  have h2 := intContent_length_small m h
  have h0 : 0 < (intContent m).length := List.length_pos.mpr (intContent_ne_nil m)
  rw [tlv_length, lengthOctets_short _ (by omega)]
  simp
  omega

theorem magnitudeBytes_hugeModulus_length : (magnitudeBytes hugeModulus).length = 2 ^ 32 + 1 := by
  have hN : hugeModulus = 256 ^ 2 ^ 32 * 1 := by
    rw [hugeModulus, Nat.mul_one]
  have hpos : hugeModulus ≠ 0 := by
    rw [hugeModulus]
    exact Nat.pos_iff_ne_zero.mp (Nat.pow_pos (by decide))
  have hone : Nat.digits 256 1 = [1] := Nat.digits_of_lt 256 1 (by decide) (by decide)
  unfold magnitudeBytes
  rw [if_neg hpos, List.length_reverse, hN,
    Nat.digits_base_pow_mul (by decide : 1 < 256) (by decide : 0 < 1), hone,
    List.length_append, List.length_replicate]
  rfl

theorem privateKeyBytes_huge_header :
    ∃ rest, privateKeyBytes hugeModulus 1 0 3 5 1 1 2 = 0x30 :: 0x85 :: rest := by
  have hmag := magnitudeBytes_hugeModulus_length
  have hpad := signPad_length_le (magnitudeBytes hugeModulus)
  have hc : (intContent hugeModulus).length = (signPad (magnitudeBytes hugeModulus)).length
      + (magnitudeBytes hugeModulus).length := by
    unfold intContent; rw [List.length_append]
  have hlo := lengthOctets_length_le (intContent hugeModulus).length (by omega)
  have hlp := lengthOctets_length_pos (intContent hugeModulus).length
  have htN := tlv_length 0x02 (intContent hugeModulus)
  have h0 := tlv_small_length 0 (by decide)
  have h1 := tlv_small_length 1 (by decide)
  have h2 := tlv_small_length 2 (by decide)
  have h3 := tlv_small_length 3 (by decide)
  have h5 := tlv_small_length 5 (by decide)
  unfold privateKeyBytes
  generalize hC : tlv 0x02 (intContent 0) ++ (tlv 0x02 (intContent hugeModulus)
      ++ (tlv 0x02 (intContent 1) ++ (tlv 0x02 (intContent 0) ++ (tlv 0x02 (intContent 3)
      ++ (tlv 0x02 (intContent 5) ++ (tlv 0x02 (intContent 1) ++ (tlv 0x02 (intContent 1)
      ++ tlv 0x02 (intContent 2)))))))) = C
  have hCl : C.length = (tlv 0x02 (intContent 0)).length
      + ((tlv 0x02 (intContent hugeModulus)).length
      + ((tlv 0x02 (intContent 1)).length + ((tlv 0x02 (intContent 0)).length
      + ((tlv 0x02 (intContent 3)).length + ((tlv 0x02 (intContent 5)).length
      + ((tlv 0x02 (intContent 1)).length + ((tlv 0x02 (intContent 1)).length
      + (tlv 0x02 (intContent 2)).length))))))) := by
    rw [← hC]
    simp only [List.length_append]
  obtain ⟨bs, hbs⟩ := lengthOctets_five C.length (by omega) (by omega)
  unfold tlv
  rw [hbs]
  exact ⟨_, rfl⟩

theorem hugeKey_eq :
    hugeKey = { _initialized := false, _n := ((hugeModulus : Nat) : Int), _d := ((0 : Nat) : Int),
                _p := ((3 : Nat) : Int), _q := ((5 : Nat) : Int), _e := ((1 : Nat) : Int) } := rfl

theorem setFromASN1PrivateKey_long_size (rest : List Nat) :
    RSAKey.setFromASN1PrivateKey RSAKey.new (String.ofBytes (0x30 :: 0x85 :: rest))
      = Except.ok (false, RSAKey.new) := by
  have hdec : decapsulate (String.ofBytes (0x30 :: 0x85 :: rest)) T_SEQU
      = raise exception_t.E_UNEXPECTED_ERROR := by
    have hof : String.ofBytes (0x30 :: 0x85 :: rest)
        = { _str := [] ++ 0x30 :: (0x85 :: rest), _index := ([] : List Nat).length } := rfl
    unfold decapsulate
    rw [hof, String.popChar_at]
    have hgt : getTagNumber asn1_class.C_UNIV 0x30 = Except.ok T_SEQU := by decide
    simp only [hgt, ne_eq, not_true_eq_false, if_false]
    have hof2 : ({ _str := [] ++ 0x30 :: (0x85 :: rest), _index := ([] : List Nat).length + 1 }
        : String) = { _str := [0x30] ++ 0x85 :: rest, _index := [0x30].length } := rfl
    have hgs : getSize { _str := [0x30] ++ 0x85 :: rest, _index := [0x30].length }
        = raise exception_t.E_UNEXPECTED_ERROR := by
      unfold getSize getSizeBody
      rw [String.getChar_at, String.popChar_at]
      rfl
    rw [hof2, hgs]
    rfl
  unfold RSAKey.setFromASN1PrivateKey
  rw [hdec]
  rfl

/-! ## `ASN1PubKeyInfo` -/

theorem tlv_eq_derTLV (id : Nat) (content : List Nat) (h : content.length < 2 ^ 64) :
    tlv id content = derTLV id content := by
  unfold tlv derTLV
  rw [lengthOctets_eq_derLength _ h]

theorem algo_toDER :
    (match ASN1_ENCRYPT_ALGO.new pubkey_algo.PK_ALGO_RSA with
     | Except.error t => Except.error t
     | Except.ok algo => algo.toDER)
      = Except.ok (String.ofBytes
          (derTLV 0x06 (derOIDContent rsaEncryptionArcs) ++ derTLV 0x05 [])) := by
  decide

theorem algo_new_ok :
    ∃ algo, ASN1_ENCRYPT_ALGO.new pubkey_algo.PK_ALGO_RSA = Except.ok algo ∧
      algo.toDER = Except.ok (String.ofBytes
          (derTLV 0x06 (derOIDContent rsaEncryptionArcs) ++ derTLV 0x05 [])) := by
  have h := algo_toDER
  cases hc : ASN1_ENCRYPT_ALGO.new pubkey_algo.PK_ALGO_RSA with
  | error t => rw [hc] at h; exact absurd h (by simp)
  | ok algo => rw [hc] at h; exact ⟨algo, rfl, h⟩

theorem idOctetOf_bitstring (v : String) :
    idOctetOf ⟨asn1_class.C_UNIV, asn1_method.M_PRIM, T_BSTR, v⟩ = 0x03 := by
  unfold idOctetOf
  simp only
  decide

theorem bitstring_toDER (c : List Nat) :
    ASN1_BASIC.toDER { classe := asn1_class.C_UNIV, method := asn1_method.M_PRIM,
                       tagNumber := T_BSTR, value := String.ofBytes c }
      = Except.ok (String.ofBytes (tlv 0x03 c)) := by
  rw [toDER_eq, idOctetOf_bitstring]
  rfl

theorem ofBytes_str (l : List Nat) : (String.ofBytes l)._str = l := rfl

theorem ASN1PubKeyInfo_eq (n e : Nat) (d p q : Int) (b : Bool) :
    RSAKey.ASN1PubKeyInfo { _initialized := b, _n := (n : Int), _d := d, _p := p, _q := q,
                            _e := (e : Int) }
      = Except.ok (String.ofBytes
          (tlv 0x30
            (tlv 0x30 (derTLV 0x06 (derOIDContent rsaEncryptionArcs) ++ derTLV 0x05 [])
              ++ tlv 0x03
                  (0x00 :: tlv 0x30 (tlv 0x02 (intContent n) ++ tlv 0x02 (intContent e)))))) := by
  obtain ⟨algo, halgo, hder⟩ := algo_new_ok
  unfold RSAKey.ASN1PubKeyInfo
  have hbs : ∀ s : String,
      ASN1_BASIC.new asn1_class.C_UNIV asn1_method.M_PRIM T_BSTR s
        = Except.ok { classe := asn1_class.C_UNIV, method := asn1_method.M_PRIM,
                      tagNumber := T_BSTR, value := String.ofBytes s._str } := by
    intro s
    unfold ASN1_BASIC.new
    rw [if_neg (by decide)]
  simp only [halgo, hder, ASN1_INTEGER_ofMpz_nat, integer_toDER, ok_bind, encapsulate_sequence,
    hbs, bitstring_toDER, String.append, ofBytes_str, String.resize, List.replicate,
    List.singleton_append]

/-! ## The Barak-Halevi generator -/

theorem memcpy_mid (pre mid post src : List Nat) (n : Nat) (hn : n ≤ mid.length) :
    memcpy (pre ++ (mid ++ post)) pre.length src n
      = Except.ok (pre ++ (src.take n ++ (mid.drop n ++ post))) := by
  unfold memcpy
  have hle : pre.length + n ≤ (pre ++ (mid ++ post)).length := by
    simp only [List.length_append]; omega
  rw [if_pos hle]
  congr 1
  rw [List.take_left, List.drop_append, List.drop_append_of_le_length hn, List.append_assoc]

theorem memcpy_whole (buf src : List Nat) (n : Nat) (hb : buf.length = n)
    (hs : src.length = n) : memcpy buf 0 src n = Except.ok src := by
  have h := memcpy_mid [] buf [] src n (by omega)
  simp only [List.nil_append, List.append_nil, List.length_nil] at h
  rw [h, ← hs, List.take_length, ← hb.trans hs.symm, List.drop_length, List.append_nil]

theorem generic_fun_single (H : List Nat → List Nat) (hH : ∀ x, (H x).length = 32)
    (input output : List Nat) (x : Nat) (ho : output.length = 32) :
    generic_fun H input output x false = Except.ok (H (x :: input)) := by
  unfold generic_fun
  simp only [BARAK_HALEVI_ONE_BLOCK_SIZE]
  rw [memcpy_whole output _ 32 ho (hH _)]
  rfl

theorem generic_fun_double (H : List Nat → List Nat) (hH : ∀ x, (H x).length = 32)
    (input output : List Nat) (x : Nat) (ho : output.length = 64) :
    generic_fun H input output x true
      = Except.ok (H (x :: input) ++ H (((x + 1) % 256) :: input)) := by
  unfold generic_fun
  simp only [BARAK_HALEVI_ONE_BLOCK_SIZE]
  have h1 := memcpy_mid [] (output.take 32) (output.drop 32) (H (x :: input)) 32
    (by rw [List.length_take]; omega)
  rw [List.nil_append, List.take_append_drop] at h1
  have hd : List.drop 32 (List.take 32 output) = [] := by
    apply List.drop_eq_nil_of_le; rw [List.length_take]; omega
  have ht : ∀ y, List.take 32 (H y) = H y := by
    intro y; rw [← hH y, List.take_length]
  simp only [List.length_nil, List.nil_append, hd, ht] at h1
  rw [h1]
  have h2 := memcpy_mid (H (x :: input)) (output.drop 32) [] (H (((x + 1) % 256) :: input)) 32
    (by rw [List.length_drop]; omega)
  have hd2 : List.drop 32 (List.drop 32 output) = [] := by
    apply List.drop_eq_nil_of_le; rw [List.length_drop]; omega
  simp only [List.append_nil, hd2, ht, hH] at h2
  simp only [if_true]
  exact h2

theorem G_eq (H : List Nat → List Nat) (hH : ∀ x, (H x).length = 32)
    (state output : List Nat) (hs : state.length = 32) (ho : output.length = 64) :
    G H state output = Except.ok (outputOfG H state) := by
  unfold G
  rw [generic_fun_double H hH _ _ _ ho]
  have ht : List.take BARAK_HALEVI_STATE_BYTE_SIZE state = state := by
    show List.take 32 state = state
    rw [← hs]; exact List.take_length _
  rw [ht]
  rfl

theorem refreshXorLoop_eq (E st pre epre : List Nat) (hl : st.length = E.length)
    (hp : pre.length = epre.length) :
    refreshXorLoop (epre ++ E) st.length pre.length (pre ++ st)
      = Except.ok (pre ++ xorBytes st E) := by
  induction st generalizing E pre epre with
  | nil => simp [refreshXorLoop, xorBytes]
  | cons a st ih =>
    cases E with
    | nil => simp at hl
    | cons b E =>
      have hl2 : st.length = E.length := by simpa using hl
      simp only [List.length_cons, refreshXorLoop]
      have h1 : (pre ++ a :: st)[pre.length]? = some a := by
        rw [List.getElem?_append_right (le_refl _)]; simp
      have h2 : (epre ++ b :: E)[pre.length]? = some b := by
        rw [hp, List.getElem?_append_right (le_refl _)]; simp
      rw [h1, h2]
      simp only
      have hset : (pre ++ a :: st).set pre.length (a ^^^ b) = (pre ++ [a ^^^ b]) ++ st := by
        rw [List.set_append_right _ _ (le_refl _)]; simp
      have he : epre ++ b :: E = (epre ++ [b]) ++ E := by simp
      rw [hset, he]
      have hlen : pre.length + 1 = (pre ++ [a ^^^ b]).length := by simp
      rw [hlen, ih E (pre ++ [a ^^^ b]) (epre ++ [b]) hl2 (by simp [hp])]
      simp [xorBytes]

theorem stateAfter_shift (H : List Nat → List Nat) (S : List Nat) (k : Nat) :
    stateAfter H (nextState H S) k = stateAfter H S (k + 1) := by
  induction k with
  | zero => rfl
  | succ k ih => simp only [stateAfter, ih]

theorem outputBlocks_shift (H : List Nat → List Nat) (S : List Nat) (k : Nat) :
    outputBlocks H S (k + 1) = H (0 :: S) ++ outputBlocks H (nextState H S) k := by
  unfold outputBlocks
  rw [List.range_succ_eq_map, List.map_cons, List.flatten_cons, List.map_map]
  congr 2
  apply List.map_congr_left
  intro i _
  simp only [Function.comp, stateAfter_shift]


theorem refresh_eq (H : List Nat → List Nat) (hH : ∀ x, (H x).length = 32)
    (S x : List Nat) (hS : S.length = 32) :
    BarakHaleviPRNG.refresh H { _state := S } x
      = Except.ok { _state := H (3 :: xorBytes S (H (2 :: x))) } := by
  unfold BarakHaleviPRNG.refresh Extract
  rw [generic_fun_single H hH _ _ _ (by simp [BARAK_HALEVI_STATE_BYTE_SIZE,
    BARAK_HALEVI_ONE_BLOCK_SIZE])]
  simp only
  have hx := refreshXorLoop_eq (H (2 :: x)) S [] [] (by rw [hS, hH]) rfl
  simp only [List.nil_append, List.length_nil, hS] at hx
  have h32 : BARAK_HALEVI_STATE_BYTE_SIZE = 32 := rfl
  rw [h32, hx]
  simp only
  have hxl : (xorBytes S (H (2 :: x))).length = 32 := by
    simp [xorBytes, hS, hH]
  unfold G_prime
  rw [generic_fun_single H hH _ _ _ hxl, h32]
  have ht : List.take 32 (xorBytes S (H (2 :: x))) = xorBytes S (H (2 :: x)) := by
    rw [← hxl]; exact List.take_length _
  rw [ht]

theorem getRandomBytesLoop_eq (H : List Nat → List Nat) (hH : ∀ x, (H x).length = 32) :
    ∀ (len fuel : Nat) (S G1 pre mid post : List Nat) (it : Nat),
      len + 1 ≤ fuel → S.length = 32 → G1.length = 64 → mid.length = len →
      getRandomBytesLoop H fuel { _state := S } G1 (pre ++ (mid ++ post)) pre.length len it
        = Except.ok ({ _state := stateAfter H S ((len + 31) / 32) },
            pre ++ ((outputBlocks H S ((len + 31) / 32)).take len ++ post),
            it + (len + 31) / 32) := by
  intro len
  induction len using Nat.strong_induction_on with
  | _ len ih =>
    intro fuel S G1 pre mid post it hfuel hS hG1 hmid
    obtain ⟨f, rfl⟩ : ∃ f, fuel = f + 1 := ⟨fuel - 1, by omega⟩
    unfold getRandomBytesLoop
    by_cases hpos : len > 0
    · rw [if_pos hpos]
      have h32 : BARAK_HALEVI_STATE_BYTE_SIZE = 32 := rfl
      simp only [G_eq H hH S G1 hS hG1, h32]
      have hH0 : (H (0 :: S)).length = 32 := hH _
      have hH1 : (H (1 :: S)).length = 32 := hH _
      have hdrop : List.drop 32 (outputOfG H S) = nextState H S := by
        unfold outputOfG nextState
        rw [← hH0]; exact List.drop_left _ _
      have hst : memcpy S 0 (List.drop 32 (outputOfG H S)) 32
          = Except.ok (nextState H S) := by
        rw [hdrop]; exact memcpy_whole S _ 32 hS (hH _)
      have hnl : (nextState H S).length = 32 := hH _
      have hGl : (outputOfG H S).length = 64 := by
        unfold outputOfG; rw [List.length_append, hH0, hH1]
      by_cases hbig : len > 32
      · simp only [if_pos hbig]
        rw [memcpy_mid pre mid post _ 32 (by omega)]
        simp only [hst]
        have htake : List.take 32 (outputOfG H S) = H (0 :: S) := by
          unfold outputOfG
          rw [← hH0]; exact List.take_left _ _
        rw [htake]
        have hre : pre ++ (H (0 :: S) ++ (List.drop 32 mid ++ post))
            = (pre ++ H (0 :: S)) ++ (List.drop 32 mid ++ post) := by
          rw [List.append_assoc]
        have hoff : pre.length + 32 = (pre ++ H (0 :: S)).length := by
          rw [List.length_append, hH0]
        rw [hre, hoff]
        rw [ih (len - 32) (by omega) f (nextState H S) (outputOfG H S) (pre ++ H (0 :: S))
          (List.drop 32 mid) post (it + 1) (by omega) hnl hGl (by rw [List.length_drop]; omega)]
        have hk : (len + 31) / 32 = (len - 32 + 31) / 32 + 1 := by omega
        have ht0 : List.take len (H (0 :: S)) = H (0 :: S) :=
          List.take_of_length_le (by omega)
        have hit : it + 1 + (len - 32 + 31) / 32 = it + ((len - 32 + 31) / 32 + 1) := by omega
        rw [hk, stateAfter_shift, outputBlocks_shift, List.take_append_eq_append_take,
          ht0, hH0, hit, List.append_assoc, List.append_assoc]
      · simp only [if_neg hbig]
        rw [memcpy_mid pre mid post _ len (by omega)]
        simp only [hst]
        have htake : List.take len (outputOfG H S) = List.take len (H (0 :: S)) := by
          unfold outputOfG
          rw [List.take_append_eq_append_take, hH0]
          have : len - 32 = 0 := by omega
          rw [this, List.take_zero, List.append_nil]
        have hdm : List.drop len mid = [] := List.drop_eq_nil_of_le (by omega)
        rw [htake, hdm]
        have hre : pre ++ (List.take len (H (0 :: S)) ++ ([] ++ post))
            = (pre ++ List.take len (H (0 :: S))) ++ ([] ++ post) := by
          rw [List.append_assoc]
        have hoff : pre.length + len = (pre ++ List.take len (H (0 :: S))).length := by
          rw [List.length_append, List.length_take, hH0]; omega
        have hz : len - len = 0 := by omega
        rw [hre, hoff, hz]
        rw [ih 0 (by omega) f (nextState H S) (outputOfG H S)
          (pre ++ List.take len (H (0 :: S))) [] post (it + 1) (by omega) hnl hGl rfl]
        have hk : (len + 31) / 32 = 1 := by omega
        have hk0 : (0 + 31) / 32 = 0 := by decide
        have hone : outputBlocks H S 1 = H (0 :: S) := by
          rw [outputBlocks_shift]
          simp [outputBlocks]
        rw [hk, hk0, hone]
        simp [stateAfter, outputBlocks]
    · have hz : len = 0 := by omega
      subst hz
      have hm : mid = [] := List.length_eq_zero.mp hmid
      subst hm
      simp [stateAfter, outputBlocks]

theorem outputBlocks_length (H : List Nat → List Nat) (hH : ∀ x, (H x).length = 32)
    (k : Nat) : ∀ S, (outputBlocks H S k).length = 32 * k := by
  induction k with
  | zero => intro S; simp [outputBlocks]
  | succ k ih =>
    intro S
    rw [outputBlocks_shift, List.length_append, hH, ih]
    omega

theorem toyHash_length (x : List Nat) : (toyHash x).length = 32 := by
  simp [toyHash]


/-! ## Generators in general -/

theorem toDigitsBE_digits (b : Nat) (hb : 1 < b) :
    ∀ (fuel n : Nat) (acc : List Nat), n < fuel → 0 < n →
      toDigitsBE b fuel n acc = (Nat.digits b n).reverse ++ acc := by
  intro fuel
  induction fuel with
  | zero => intro n acc h; omega
  | succ fuel ih =>
    intro n acc hlt hpos
    rw [toDigitsBE]
    have hd := Nat.digits_def' hb hpos
    by_cases hsmall : n < b
    · rw [if_pos hsmall, hd]
      have h1 : n % b = n := Nat.mod_eq_of_lt hsmall
      have h2 : n / b = 0 := Nat.div_eq_of_lt hsmall
      simp [h1, h2]
    · rw [if_neg hsmall]
      have hq : 0 < n / b := Nat.div_pos (by omega) (by omega)
      have hq2 : n / b < fuel := by
        have := Nat.div_lt_self hpos hb
        omega
      rw [ih (n / b) _ hq2 hq, hd]
      simp

theorem mpz_sizeinbase_2_pos (n : Nat) (hn : 0 < n) :
    mpz_sizeinbase_2 (n : Int) = (Nat.digits 2 n).length := by
  unfold mpz_sizeinbase_2
  rw [Int.natAbs_ofNat, toDigitsBE_digits 2 (by decide) _ _ _ (by omega) hn]
  simp

/-- The number of binary digits `L` of a positive `n` is the `L` with `2^(L-1) ≤ n < 2^L`. -/
theorem mpz_sizeinbase_2_bounds (n : Nat) (hn : 0 < n) :
    1 ≤ mpz_sizeinbase_2 (n : Int) ∧ 2 ^ (mpz_sizeinbase_2 (n : Int) - 1) ≤ n ∧
      n < 2 ^ mpz_sizeinbase_2 (n : Int) := by
  rw [mpz_sizeinbase_2_pos n hn]
  have h1 := Nat.lt_base_pow_length_digits (b := 2) (m := n) (by decide)
  have h2 := Nat.base_pow_length_digits_le 2 n (by decide) (by omega)
  have hne : Nat.digits 2 n ≠ [] := Nat.digits_ne_nil_iff_ne_zero.mpr (by omega)
  have hpos : 1 ≤ (Nat.digits 2 n).length := by
    cases h : Nat.digits 2 n with
    | nil => exact absurd h hne
    | cons a l => simp
  refine ⟨hpos, ?_, h1⟩
  obtain ⟨k, hk⟩ : ∃ k, (Nat.digits 2 n).length = k + 1 := ⟨_, (Nat.sub_add_cancel hpos).symm⟩
  rw [hk] at h2 ⊢
  rw [Nat.add_sub_cancel]
  rw [pow_succ] at h2
  omega

theorem mpz_sizeinbase_2_unique (n L : Nat) (h1 : 2 ^ (L - 1) ≤ n) (h2 : n < 2 ^ L)
    (hL : 1 ≤ L) : mpz_sizeinbase_2 (n : Int) = L := by
  have hn : 0 < n := lt_of_lt_of_le (Nat.pow_pos (by decide)) h1
  obtain ⟨hp, hlo, hhi⟩ := mpz_sizeinbase_2_bounds n hn
  have ha : mpz_sizeinbase_2 (n : Int) - 1 < L :=
    (Nat.pow_lt_pow_iff_right (by decide : 1 < 2)).mp (lt_of_le_of_lt hlo h2)
  have hb : L - 1 < mpz_sizeinbase_2 (n : Int) :=
    (Nat.pow_lt_pow_iff_right (by decide : 1 < 2)).mp (lt_of_le_of_lt h1 hhi)
  omega

theorem mpz_char_digit_hexa_str (i : Nat) (h : i < 16) :
    mpz_char_digit (hexa_str.getD i 0) = some i := by
  interval_cases i <;> rfl

theorem mpz_parse_16_hexaOutput :
    ∀ (bs : List Nat) (acc : Nat), (∀ b ∈ bs, b < 256) →
      mpz_parse_16 (hexaOutputLoop bs) acc
        = some (bs.foldl (fun x d => x * 256 + d) acc) := by
  intro bs
  induction bs with
  | nil => intro acc _; rfl
  | cons b rest ih =>
    intro acc hb
    have hlt : b < 256 := hb b (by simp)
    obtain ⟨hhi, hlo⟩ := byte_nibbles b hlt
    have hrest := ih ((acc * 16 + b / 16) * 16 + b % 16) (fun x hx => hb x (by simp [hx]))
    simp only [hexaOutputLoop, hhi, hlo, mpz_parse_16,
      mpz_char_digit_hexa_str (b / 16) (by omega),
      mpz_char_digit_hexa_str (b % 16) (by omega), hrest, List.foldl_cons]
    congr 2
    omega

theorem mpz_set_str_16_hexaOutput (b : Nat) (rest : List Nat)
    (hb : ∀ x ∈ b :: rest, x < 256) :
    mpz_set_str_16 (hexaOutputLoop (b :: rest)) = ((beValue (b :: rest) : Nat) : Int) := by
  have hp := mpz_parse_16_hexaOutput (b :: rest) 0 hb
  unfold mpz_set_str_16 mpz_init_set_str_16 beValue
  have : hexaOutputLoop (b :: rest)
      = hexa_str.getD ((b >>> 4) &&& 0xf) 0 :: hexa_str.getD (b &&& 0xf) 0
          :: hexaOutputLoop rest := rfl
  rw [this] at hp ⊢
  simp only [hp]
  rfl

theorem beValue_lt : ∀ (l : List Nat), (∀ b ∈ l, b < 256) → beValue l < 256 ^ l.length := by
  intro l hl
  unfold beValue
  rw [foldl_eq_ofDigits, Nat.zero_mul, Nat.zero_add]
  have := Nat.ofDigits_lt_base_pow_length (b := 256) (l := l.reverse) (by decide)
    (fun x hx => hl x (List.mem_reverse.mp hx))
  simpa using this

theorem beValue_cons (c : Nat) (rest : List Nat) :
    beValue (c :: rest) = c * 256 ^ rest.length + beValue rest := by
  unfold beValue
  rw [List.foldl_cons, foldl_eq_ofDigits, foldl_eq_ofDigits]
  simp

set_option maxRecDepth 100000 in
theorem top_byte_value : ∀ k : Fin 8, ∀ c : Fin 256,
    ((c.val &&& ((0xff >>> k.val) % 256)) ||| ((0x80 >>> k.val) % 256))
      = 2 ^ (7 - k.val) + c.val % 2 ^ (7 - k.val) := by
  decide


theorem top_byte_arith (P M c R : Nat) (hP : 0 < P) (hR : R < M) :
    P * M ≤ (P + c % P) * M + R ∧ (P + c % P) * M + R < 2 * (P * M) ∧
      ((P + c % P) * M + R) % (P * M) = (c * M + R) % (P * M) := by
  have hx : c % P < P := Nat.mod_lt _ hP
  have hM : 0 < M := by omega
  have hlt : c % P * M + R < P * M := by
    have h1 : (c % P + 1) * M ≤ P * M := Nat.mul_le_mul_right M hx
    have h2 : (c % P + 1) * M = c % P * M + M := by ring
    omega
  have e1 : (P + c % P) * M + R = P * M + (c % P * M + R) := by ring
  refine ⟨by rw [e1]; omega, by rw [e1]; omega, ?_⟩
  have e2 : c * M + R = (c % P * M + R) + (P * M) * (c / P) := by
    have hc : c = P * (c / P) + c % P := (Nat.div_add_mod c P).symm
    calc c * M + R = (P * (c / P) + c % P) * M + R := by rw [← hc]
      _ = (c % P * M + R) + (P * M) * (c / P) := by ring
  have e3 : (P + c % P) * M + R = (c % P * M + R) + (P * M) * 1 := by ring
  rw [e2, e3, Nat.add_mul_mod_self_left, Nat.add_mul_mod_self_left]

theorem getRandomInt_eq {σ : Type} (gen : PRNG σ) (s s1 : σ) (n c : Nat) (rest : List Nat)
    (hn1 : 1 ≤ n) (hn2 : n + 7 < 2 ^ 64)
    (hgen : gen.getRandomBytes s (List.replicate ((n + 7) / 8) 0) ((n + 7) / 8)
      = Except.ok (s1, c :: rest))
    (hb : ∀ b ∈ c :: rest, b < 256) :
    gen.getRandomInt s n
      = Except.ok (s1, ((beValue ((2 ^ ((n - 1) % 8) + c % 2 ^ ((n - 1) % 8)) :: rest) : Nat)
          : Int)) := by
  unfold PRNG.getRandomInt
  have hsize : ((n + 7) % SIZE_T_RANGE) / 8 = (n + 7) / 8 := by
    rw [Nat.mod_eq_of_lt (by unfold SIZE_T_RANGE; omega)]
  have hshift : ((n + 7) / 8 * 8 + SIZE_T_RANGE - n) % SIZE_T_RANGE = 7 - (n - 1) % 8 := by
    unfold SIZE_T_RANGE
    omega
  simp only [hsize, hgen, hshift]
  have hk : 7 - (n - 1) % 8 < 8 := by omega
  have hc : c < 256 := hb c (by simp)
  have htop := top_byte_value ⟨7 - (n - 1) % 8, hk⟩ ⟨c, hc⟩
  simp only at htop
  have hj : 7 - (7 - (n - 1) % 8) = (n - 1) % 8 := by omega
  rw [hj] at htop
  have h0 : (c :: rest)[0]? = some c := by simp
  simp only [h0, htop, List.set_cons_zero]
  rw [mpz_set_str_16_hexaOutput]
  intro x hx
  rcases List.mem_cons.mp hx with h | h
  · subst h
    have hp : 2 ^ ((n - 1) % 8) ≤ 128 := by
      have : (n - 1) % 8 ≤ 7 := by omega
      calc 2 ^ ((n - 1) % 8) ≤ 2 ^ 7 := Nat.pow_le_pow_right (by decide) this
        _ = 128 := by decide
    have := Nat.mod_lt c (Nat.pow_pos (by decide : 0 < 2) : 0 < 2 ^ ((n - 1) % 8))
    omega
  · exact hb x (by simp [h])


/-! ## The self-test `checkKey` -/

theorem checkKeyLoop_ne_size (k : RSAKey) (urandomm : Nat → Int) :
    ∀ (todo i : Nat), checkKeyLoop k urandomm todo i
      ≠ Except.error (checkKey_thrown.CryptoInternalMayhem checkKey_details.wrong_modulus_size) := by
  intro todo
  induction todo with
  | zero => intro i h; simp [checkKeyLoop] at h
  | succ todo ih =>
    intro i
    unfold checkKeyLoop
    simp only
    split
    · intro h; simp at h
    · split
      · intro h; simp at h
      · split
        · intro h; simp at h
        · exact ih (i + 1)

theorem factor_product_bounds (h : Nat) (h2 : 2 ≤ h) (p q : Int)
    (hp1 : 3 * 2 ^ (h - 2) ≤ p) (hp2 : p < 2 ^ h)
    (hq1 : 3 * 2 ^ (h - 2) ≤ q) (hq2 : q < 2 ^ h) :
    (2 : Int) ^ (2 * h - 1) < p * q ∧ p * q < 2 ^ (2 * h) := by
  have hA : (0 : Int) < 2 ^ (h - 2) := pow_pos (by decide) _
  have hp0 : 0 ≤ p := by omega
  have hq0 : 0 ≤ q := by omega
  constructor
  · have e1 : (2 : Int) ^ (2 * h - 1) = 8 * (2 ^ (h - 2) * 2 ^ (h - 2)) := by
      rw [← pow_add]
      have : (8 : Int) = 2 ^ 3 := by norm_num
      rw [this, ← pow_add]
      congr 1
      omega
    have hmul : (3 * 2 ^ (h - 2)) * (3 * 2 ^ (h - 2)) ≤ p * q :=
      mul_le_mul hp1 hq1 (by omega) hp0
    have e3 : (3 * (2 : Int) ^ (h - 2)) * (3 * 2 ^ (h - 2)) = 9 * (2 ^ (h - 2) * 2 ^ (h - 2)) := by
      ring
    have hAA := Int.mul_pos hA hA
    rw [e3] at hmul
    rw [e1]
    omega
  · have e2 : (2 : Int) ^ (2 * h) = 2 ^ h * 2 ^ h := by
      rw [← pow_add]; congr 1; omega
    rw [e2]
    have e3 : p * q ≤ p * 2 ^ h := Int.mul_le_mul_of_nonneg_left (Int.le_of_lt hq2) hp0
    have e4 : p * 2 ^ h < 2 ^ h * 2 ^ h := Int.mul_lt_mul_of_pos_right hp2 (by omega)
    omega


theorem pow_modEq_self_of_prime (p : Nat) (hp : p.Prime) (k m : Nat)
    (hk : k % (p - 1) = 1 % (p - 1)) (hk1 : 1 ≤ k) : m ^ k ≡ m [MOD p] := by
  haveI : Fact p.Prime := ⟨hp⟩
  have hdvd : (p - 1) ∣ (k - 1) := (Nat.modEq_iff_dvd' hk1).mp (Nat.ModEq.symm hk)
  obtain ⟨t, ht⟩ := hdvd
  have hkeq : k = (p - 1) * t + 1 := by omega
  rw [← ZMod.eq_iff_modEq_nat]
  push_cast
  by_cases hm : (m : ZMod p) = 0
  · rw [hm, zero_pow (by omega)]
  · rw [hkeq, pow_succ, pow_mul, ZMod.pow_card_sub_one_eq_one hm, one_pow, one_mul]

theorem rsa_round_trip (p q : Nat) (hp : p.Prime) (hq : q.Prime) (hpq : p ≠ q) (e d : Nat)
    (hed : e * d ≡ 1 [MOD (p - 1) * (q - 1)]) (m : Nat) (hm : m < p * q) :
    (m ^ e % (p * q)) ^ d % (p * q) = m := by
  have hp2 := hp.two_le
  have hq2 := hq.two_le
  have hphi : 2 ≤ (p - 1) * (q - 1) := by
    rcases Nat.lt_or_ge p 3 with h | h
    · have hp' : p = 2 := by omega
      have hq' : 3 ≤ q := by omega
      subst hp'
      simp only [Nat.add_one_sub_one, Nat.one_mul]
      omega
    · have h1 : 2 ≤ p - 1 := by omega
      have h2 : 1 ≤ q - 1 := by omega
      calc 2 = 2 * 1 := by norm_num
        _ ≤ (p - 1) * (q - 1) := Nat.mul_le_mul h1 h2
  have hk1 : 1 ≤ e * d := by
    by_contra hlt
    have hz : e * d = 0 := by omega
    have := hed
    rw [hz] at this
    have h0 : (0 : Nat) % ((p - 1) * (q - 1)) = 0 := Nat.zero_mod _
    have h1 : (1 : Nat) % ((p - 1) * (q - 1)) = 1 := Nat.mod_eq_of_lt (by omega)
    unfold Nat.ModEq at this
    omega
  have hmp : m ^ (e * d) ≡ m [MOD p] :=
    pow_modEq_self_of_prime p hp (e * d) m (Nat.ModEq.of_mul_right _ hed) hk1
  have hmq : m ^ (e * d) ≡ m [MOD q] :=
    pow_modEq_self_of_prime q hq (e * d) m (Nat.ModEq.of_mul_left _ hed) hk1
  have hcop : Nat.Coprime p q := (Nat.coprime_primes hp hq).mpr hpq
  have hn : m ^ (e * d) ≡ m [MOD p * q] :=
    (Nat.modEq_and_modEq_iff_modEq_mul hcop).mp ⟨hmp, hmq⟩
  rw [← Nat.pow_mod, ← pow_mul]
  unfold Nat.ModEq at hn
  rw [hn, Nat.mod_eq_of_lt hm]

theorem mpz_powm_nat (m e n : Nat) (hn : n ≠ 0) :
    mpz_powm (m : Int) (e : Int) (n : Int) = Except.ok (((m ^ e % n : Nat)) : Int) := by
  unfold mpz_powm
  have hn' : (n : Int) ≠ 0 := by exact_mod_cast hn
  have he : (0 : Int) ≤ (e : Int) := Int.ofNat_nonneg e
  simp only [hn', if_false, he, if_true, Int.toNat_ofNat]
  congr 1
  push_cast
  rfl

theorem checkKeyLoop_ok (k : RSAKey) (p q e d : Nat) (hp : p.Prime) (hq : q.Prime)
    (hpq : p ≠ q) (hed : e * d ≡ 1 [MOD (p - 1) * (q - 1)])
    (hn : k._n = ((p * q : Nat) : Int)) (he : k._e = (e : Int)) (hd : k._d = (d : Int))
    (urandomm : Nat → Int) (hu : ∀ i, 0 ≤ urandomm i ∧ urandomm i < k._n) :
    ∀ (todo i : Nat), checkKeyLoop k urandomm todo i = Except.ok () := by
  intro todo
  induction todo with
  | zero => intro i; rfl
  | succ todo ih =>
    intro i
    obtain ⟨h0, h1⟩ := hu i
    obtain ⟨m, hm⟩ := Int.eq_ofNat_of_zero_le h0
    have hmlt : m < p * q := by
      rw [hm, hn] at h1
      exact_mod_cast h1
    have hn0 : p * q ≠ 0 := by omega
    unfold checkKeyLoop
    simp only [hm, hn, he, hd, mpz_powm_nat _ _ _ hn0, rsa_round_trip p q hp hq hpq e d hed m hmlt,
      ne_eq, not_true_eq_false, if_false]
    exact ih (i + 1)


/-! ## The generation loop -/

theorem mpz_invert_spec (a m x : Int) (h : mpz_invert a m = some x) :
    a * x ≡ 1 [ZMOD m] ∧ 0 ≤ x := by
  unfold mpz_invert at h
  cases hf : List.find? (fun (r : Nat) => decide ((a * Int.ofNat r - 1) % m = 0))
      (List.range m.natAbs) with
  | none => rw [hf] at h; simp at h
  | some r =>
    rw [hf] at h
    simp only [Option.map_some', Option.some.injEq] at h
    have hr := List.find?_some hf
    simp only [decide_eq_true_eq] at hr
    subst h
    refine ⟨?_, Int.ofNat_nonneg r⟩
    have hdvd : m ∣ a * Int.ofNat r - 1 := Int.dvd_of_emod_eq_zero hr
    exact (Int.modEq_iff_dvd.mpr hdvd).symm

theorem mpz_setbit_zero_odd (x : Int) : mpz_setbit x 0 % 2 = 1 := by
  unfold mpz_setbit
  simp only [pow_zero, Int.ediv_one]
  split_ifs with h
  · exact h
  · omega

theorem le_size_t_sub (a b : Nat) (ha : a < 2 ^ 64) : a - b ≤ size_t_sub a b := by
  unfold size_t_sub SIZE_T_RANGE
  omega

theorem factorPairLoop_exit {σ : Type} (find : FactorSearch σ) (nBits : Nat) (diff_min : Int) :
    ∀ (fuel : Nat) (s s' : σ) (p q : Int),
      factorPairLoop find nBits diff_min fuel s = Except.ok (p, q, s') →
      diff_min < |p - q| := by
  intro fuel
  induction fuel with
  | zero => intro s s' p q h; simp [factorPairLoop] at h
  | succ fuel ih =>
    intro s s' p q h
    unfold factorPairLoop at h
    split at h
    · simp at h
    · rename_i p1 s1 _
      split at h
      · simp at h
      · rename_i q1 s2 _
        simp only at h
        split_ifs at h with hle
        · exact ih _ _ _ _ h
        · simp only [Except.ok.injEq, Prod.mk.injEq] at h
          obtain ⟨rfl, rfl, _⟩ := h
          rw [Int.natCast_natAbs] at hle
          omega

theorem exponentLoop_exit {σ : Type} (prng : PRNG σ) (nBits : Nat) (n phi min_exp : Int) :
    ∀ (fuel : Nat) (s s' : σ) (e d : Int),
      exponentLoop prng nBits n phi min_exp fuel s = Except.ok (e, d, s') →
      e % 2 = 1 ∧ e < n ∧ min_exp < e ∧ mpz_invert e phi = some d ∧ min_exp < d := by
  intro fuel
  induction fuel with
  | zero => intro s s' e d h; simp [exponentLoop] at h
  | succ fuel ih =>
    intro s s' e d h
    unfold exponentLoop at h
    split at h
    · simp at h
    · rename_i s1 e0 _
      simp only at h
      split_ifs at h with h1 h2
      · exact ih _ _ _ _ h
      · exact ih _ _ _ _ h
      · split at h
        · exact ih _ _ _ _ h
        · rename_i d1 hinv
          split_ifs at h with h3
          · exact ih _ _ _ _ h
          · simp only [Except.ok.injEq, Prod.mk.injEq] at h
            obtain ⟨rfl, rfl, _⟩ := h
            exact ⟨mpz_setbit_zero_odd e0, by omega, by omega, hinv, by omega⟩


theorem mpz_invert_eq (a m : Int) (d : Nat) (hm : 0 < m) (hd : (d : Int) < m)
    (h : (a * (d : Int) - 1) % m = 0) : mpz_invert a m = some (d : Int) := by
  have hdr : d ∈ List.range m.natAbs := by
    rw [List.mem_range]; omega
  cases hf : List.find? (fun (r : Nat) => decide ((a * Int.ofNat r - 1) % m = 0))
      (List.range m.natAbs) with
  | none =>
    have := List.find?_eq_none.mp hf d hdr
    simp only [decide_eq_true_eq] at this
    exact absurd h this
  | some r =>
    have hr := List.find?_some hf
    simp only [decide_eq_true_eq] at hr
    have hrmem := List.mem_of_find?_eq_some hf
    rw [List.mem_range] at hrmem
    have e1 : a * (r : Int) ≡ 1 [ZMOD m] :=
      (Int.modEq_iff_dvd.mpr (Int.dvd_of_emod_eq_zero hr)).symm
    have e2 : a * (d : Int) ≡ 1 [ZMOD m] :=
      (Int.modEq_iff_dvd.mpr (Int.dvd_of_emod_eq_zero h)).symm
    have e3 : (r : Int) ≡ (d : Int) [ZMOD m] := by
      have s1 : (r : Int) * (a * (d : Int)) ≡ (r : Int) * 1 [ZMOD m] := Int.ModEq.mul_left _ e2
      have s2 : (a * (r : Int)) * (d : Int) ≡ 1 * (d : Int) [ZMOD m] := Int.ModEq.mul_right _ e1
      have s3 : (r : Int) * (a * (d : Int)) = (a * (r : Int)) * (d : Int) := by ring
      rw [s3] at s1
      simpa using s1.symm.trans s2
    have hrlt : (r : Int) < m := by omega
    unfold Int.ModEq at e3
    rw [Int.emod_eq_of_lt (Int.ofNat_nonneg r) hrlt, Int.emod_eq_of_lt (Int.ofNat_nonneg d) hd]
      at e3
    unfold mpz_invert
    rw [hf]
    simp only [Option.map_some', Option.some.injEq]
    exact e3

theorem generationLoop_exit {σ : Type} (prng : PRNG σ) (find : FactorSearch σ) (nBits : Nat)
    (useF4 : Bool) (fuel : Nat) (hsz : nBits < 2 ^ 64) :
    ∀ (turns : Nat) (s s' : σ) (key : RSAKey),
      RSAKey.generationLoop prng find nBits useF4 fuel turns s = Except.ok (key, s') →
      key._n = key._p * key._q ∧
      key._e * key._d ≡ 1 [ZMOD (key._p - 1) * (key._q - 1)] ∧
      2 ^ (nBits / 2 - 20) < |key._p - key._q| ∧
      (useF4 = true → key._e = 65537 ∧ 2 ^ (nBits / 2) < key._d) ∧
      (useF4 = false → key._e % 2 = 1 ∧ key._e < key._n ∧ 2 ^ (nBits - 10) < key._e ∧
        2 ^ (nBits - 10) < key._d) := by
  intro turns
  induction turns with
  | zero => intro s s' key h; simp [RSAKey.generationLoop] at h
  | succ turns ih =>
    intro s s' key h
    unfold RSAKey.generationLoop at h
    simp only at h
    have hdiff : ∀ p q : Int, (2 : Int) ^ size_t_sub (nBits / 2) 20 < |p - q| →
        (2 : Int) ^ (nBits / 2 - 20) < |p - q| := by
      intro p q hlt
      have hle : (2 : Int) ^ (nBits / 2 - 20) ≤ 2 ^ size_t_sub (nBits / 2) 20 :=
        pow_le_pow_right₀ (by norm_num) (le_size_t_sub _ _ (by omega))
      omega
    have hexp : ∀ x : Int, (2 : Int) ^ size_t_sub nBits 10 < x → (2 : Int) ^ (nBits - 10) < x := by
      intro x hlt
      have hle : (2 : Int) ^ (nBits - 10) ≤ 2 ^ size_t_sub nBits 10 :=
        pow_le_pow_right₀ (by norm_num) (le_size_t_sub _ _ hsz)
      omega
    split at h
    · simp at h
    · rename_i p q s1 hpair
      have hd := factorPairLoop_exit find nBits _ fuel s s1 p q hpair
      cases useF4 with
      | true =>
        simp only [if_true] at h
        split at h
        · simp [raise] at h
        · rename_i d hinv
          split_ifs at h with hsmall
          · have := ih _ _ _ h
            simpa using this
          · simp only [Except.ok.injEq, Prod.mk.injEq] at h
            obtain ⟨rfl, _⟩ := h
            refine ⟨rfl, (mpz_invert_spec _ _ _ hinv).1, hdiff _ _ hd, ?_, ?_⟩
            · intro _; exact ⟨rfl, not_le.mp hsmall⟩
            · intro hc; simp at hc
      | false =>
        simp only [Bool.false_eq_true, if_false] at h
        split at h
        · simp at h
        · rename_i e d s2 hexpl
          simp only [Except.ok.injEq, Prod.mk.injEq] at h
          obtain ⟨rfl, _⟩ := h
          obtain ⟨hodd, hlt, hmin, hinv, hdmin⟩ := exponentLoop_exit prng nBits _ _ _ fuel _ _ _ _ hexpl
          refine ⟨rfl, (mpz_invert_spec _ _ _ hinv).1, hdiff _ _ hd, ?_, ?_⟩
          · intro hc; simp at hc
          · intro _; exact ⟨hodd, hlt, hexp _ hmin, hexp _ hdmin⟩

theorem generationLoop_F4_exit {σ : Type} (prng : PRNG σ) (find : FactorSearch σ)
    (nBits fuel turns : Nat) (s s1 : σ) (p q d : Int)
    (hpair : factorPairLoop find nBits (2 ^ size_t_sub (nBits / 2) 20) fuel s
      = Except.ok (p, q, s1))
    (hinv : mpz_invert 65537 ((p - 1) * (q - 1)) = some d) (hd : 2 ^ (nBits / 2) < d) :
    RSAKey.generationLoop prng find nBits true fuel (turns + 1) s
      = Except.ok ({ _initialized := false, _n := p * q, _d := d, _p := p, _q := q,
                     _e := 65537 }, s1) := by
  unfold RSAKey.generationLoop
  simp only [hpair, hinv, if_true]
  rw [if_neg (not_le.mpr hd)]

theorem generationLoop_example :
    RSAKey.generationLoop nullSource twoFactors 40 true 1 1 0
      = Except.ok ({ _initialized := false, _n := 1048343 * 1048127, _d := 895758031805,
                     _p := 1048343, _q := 1048127, _e := 65537 }, 2) :=
  generationLoop_F4_exit nullSource twoFactors 40 1 0 0 2 1048343 1048127 895758031805
    (by decide)
    (mpz_invert_eq 65537 ((1048343 - 1) * (1048127 - 1)) 895758031805 (by decide) (by decide)
      (by decide))
    (by decide)

/-! ## Small primes and smoothness -/

theorem mem_primesLt (t p : Nat) : p ∈ primesLt t ↔ p < t ∧ p.Prime := by
  simp [primesLt]

theorem primesLt_succ (t : Nat) :
    primesLt (t + 1) = if t.Prime then primesLt t ++ [t] else primesLt t := by
  unfold primesLt
  rw [List.range_succ, List.filter_append]
  by_cases h : t.Prime <;> simp [h]

theorem primesLt_sorted (t : Nat) : (primesLt t).Pairwise (· < ·) :=
  List.Pairwise.filter _ (List.pairwise_lt_range t)

theorem primesLt_five : primesLt 5 = [2, 3] := by
  have h0 : primesLt 0 = [] := rfl
  have h1 : primesLt 1 = [] := by rw [primesLt_succ, if_neg (by norm_num), h0]
  have h2 : primesLt 2 = [] := by rw [primesLt_succ, if_neg (by norm_num), h1]
  have h3 : primesLt 3 = [2] := by rw [primesLt_succ, if_pos (by norm_num), h2]; rfl
  have h4 : primesLt 4 = [2, 3] := by rw [primesLt_succ, if_pos (by norm_num), h3]; rfl
  rw [primesLt_succ, if_neg (by norm_num), h4]

theorem primesLt_add (a b : Nat) : ∃ l, primesLt (a + b) = primesLt a ++ l ∧
    ∀ p, p ∈ l ↔ (a ≤ p ∧ p < a + b ∧ p.Prime) := by
  induction b with
  | zero => exact ⟨[], by simp, by intro p; simp; intro h1 h2; omega⟩
  | succ b ih =>
    obtain ⟨l, hl, hm⟩ := ih
    rw [← Nat.add_assoc, primesLt_succ]
    by_cases hp : (a + b).Prime
    · refine ⟨l ++ [a + b], by rw [if_pos hp, hl, List.append_assoc], ?_⟩
      intro p
      rw [List.mem_append, hm, List.mem_singleton]
      constructor
      · rintro (⟨h1, h2, h3⟩ | rfl)
        · exact ⟨h1, by omega, h3⟩
        · exact ⟨by omega, by omega, hp⟩
      · rintro ⟨h1, h2, h3⟩
        by_cases he : p = a + b
        · right; exact he
        · left; exact ⟨h1, by omega, h3⟩
    · refine ⟨l, by rw [if_neg hp, hl], ?_⟩
      intro p
      rw [hm]
      constructor
      · rintro ⟨h1, h2, h3⟩; exact ⟨h1, by omega, h3⟩
      · rintro ⟨h1, h2, h3⟩
        refine ⟨h1, ?_, h3⟩
        by_contra hc
        have : p = a + b := by omega
        rw [this] at h3
        exact hp h3


theorem primesLt_head (t : Nat) (ht : 3 ≤ t) : ∃ odd, primesLt t = 2 :: odd ∧
    (∀ p, p ∈ odd ↔ (3 ≤ p ∧ p < t ∧ p.Prime)) ∧ odd.Pairwise (· < ·) := by
  obtain ⟨l, hl, hm⟩ := primesLt_add 3 (t - 3)
  have h3 : primesLt 3 = [2] := by
    have h0 : primesLt 0 = [] := rfl
    have h1 : primesLt 1 = [] := by rw [primesLt_succ, if_neg (by norm_num), h0]
    have h2 : primesLt 2 = [] := by rw [primesLt_succ, if_neg (by norm_num), h1]
    rw [primesLt_succ, if_pos (by norm_num), h2]; rfl
  have ht3 : 3 + (t - 3) = t := by omega
  rw [ht3, h3] at hl
  rw [ht3] at hm
  refine ⟨l, hl, hm, ?_⟩
  have hs := primesLt_sorted t
  rw [hl] at hs
  exact (List.pairwise_cons.mp hs).2

theorem sub_div_mul_eq_zero_iff (t d : Nat) : t - t / d * d = 0 ↔ d ∣ t := by
  have hle : t / d * d ≤ t := Nat.div_mul_le_self t d
  constructor
  · intro h
    have : t / d * d = t := by omega
    exact (Nat.dvd_iff_div_mul_eq t d).mpr this
  · intro h
    have : t / d * d = t := (Nat.dvd_iff_div_mul_eq t d).mp h
    omega

theorem exists_prime_sq_gt (t : Nat) (ht : 5 ≤ t) (ht2 : t ≤ 65525) :
    ∃ p : Nat, p.Prime ∧ 3 ≤ p ∧ p < t ∧ t < p * p := by
  by_cases h1 : t < 9
  · exact ⟨3, by norm_num, by omega, by omega, by omega⟩
  by_cases h2 : t < 25
  · exact ⟨5, by norm_num, by omega, by omega, by omega⟩
  by_cases h3 : t < 529
  · exact ⟨23, by norm_num, by omega, by omega, by omega⟩
  · exact ⟨257, by norm_num, by omega, by omega, by omega⟩

theorem sieveLoop_correct (t : Nat) (ht : 5 ≤ t) (ht2 : t ≤ 65525) (hodd : t % 2 = 1)
    (odd : List Nat)
    (hmem : ∀ p, p ∈ odd ↔ (3 ≤ p ∧ p < t ∧ p.Prime)) (hs : odd.Pairwise (· < ·)) :
    ∀ (S pre : List Nat) (todo : Nat), odd = pre ++ S →
      (∀ p ∈ pre, ¬ p ∣ t ∧ p ≤ t / p) → S.length ≤ todo →
      isSmallPrime_SieveLoop t todo S = Except.ok (decide t.Prime) := by
  intro S
  induction S with
  | nil =>
    intro pre todo hsplit hpre _
    exfalso
    obtain ⟨p0, hp0, h3, h1, h2⟩ := exists_prime_sq_gt t ht ht2
    have hmem0 : p0 ∈ odd := (hmem p0).mpr ⟨h3, h1, hp0⟩
    rw [hsplit, List.append_nil] at hmem0
    have hq := (hpre p0 hmem0).2
    have hsq : p0 * p0 ≤ t := (Nat.le_div_iff_mul_le hp0.pos).mp hq
    omega
  | cons d rest ih =>
    intro pre todo hsplit hpre hlen
    obtain ⟨k, rfl⟩ : ∃ k, todo = k + 1 := ⟨todo - 1, by simp at hlen; omega⟩
    have hdmem : d ∈ odd := by rw [hsplit]; simp
    obtain ⟨hd3, hdt, hdp⟩ := (hmem d).mp hdmem
    have hd0 : d ≠ 0 := by omega
    simp only [isSmallPrime_SieveLoop, hd0, if_false]
    by_cases hr : t - t / d * d = 0
    · rw [if_pos hr]
      have hdvd : d ∣ t := (sub_div_mul_eq_zero_iff t d).mp hr
      have hnp : ¬ t.Prime := by
        intro hp
        rcases (Nat.dvd_prime hp).mp hdvd with h | h <;> omega
      simp [hnp]
    · rw [if_neg hr]
      have hndvd : ¬ d ∣ t := fun h => hr ((sub_div_mul_eq_zero_iff t d).mpr h)
      by_cases hq : t / d < d
      · rw [if_pos hq]
        have hlt : t < d * d := (Nat.div_lt_iff_lt_mul hdp.pos).mp hq
        have hp : t.Prime := by
          by_contra hnp
          have hsq := Nat.minFac_sq_le_self (by omega : 0 < t) hnp
          have hfp : (Nat.minFac t).Prime := Nat.minFac_prime (by omega)
          have hfd : Nat.minFac t ∣ t := Nat.minFac_dvd t
          have hf2 : Nat.minFac t ≠ 2 := by
            intro h2
            rw [h2] at hfd
            omega
          have hf3 : 3 ≤ Nat.minFac t := by
            have := hfp.two_le
            omega
          have hflt : Nat.minFac t < t := by
            have : Nat.minFac t ≤ t := Nat.minFac_le (by omega)
            rcases Nat.lt_or_ge (Nat.minFac t) t with h | h
            · exact h
            · have he : Nat.minFac t = t := by omega
              rw [he] at hfp
              exact absurd hfp hnp
          have hfm : Nat.minFac t ∈ odd := (hmem _).mpr ⟨hf3, hflt, hfp⟩
          rw [hsplit, List.mem_append, List.mem_cons] at hfm
          rcases hfm with h | h | h
          · exact (hpre _ h).1 hfd
          · rw [h] at hfd; exact hndvd hfd
          · rw [hsplit] at hs
            have hs2 := (List.pairwise_append.mp hs).2.1
            have hdf : d < Nat.minFac t := (List.pairwise_cons.mp hs2).1 _ h
            have : d * d < Nat.minFac t ^ 2 := by
              rw [pow_two]; exact Nat.mul_lt_mul'' hdf hdf
            omega
        simp [hp]
      · rw [if_neg hq]
        apply ih (pre ++ [d]) k
        · rw [hsplit]; simp
        · intro p hp
          rw [List.mem_append, List.mem_singleton] at hp
          rcases hp with h | h
          · exact hpre p h
          · rw [h]; exact ⟨hndvd, by omega⟩
        · simp at hlen; omega


theorem isSmallPrime_Sieve_correct (t : Nat) (ht : 5 ≤ t) (ht2 : t ≤ 65525) (hodd : t % 2 = 1)
    (hlen : (primesLt t).length ≤ 6542) :
    isSmallPrime_Sieve (primesLt t) t 0 = Except.ok (decide t.Prime) := by
  obtain ⟨odd, hhead, hmem, hs⟩ := primesLt_head t (by omega)
  unfold isSmallPrime_Sieve
  have hb : (if (0 : Nat) = 0 then PRIMES_SIZE else 0) - 1 = 6541 := by decide
  have hc : ¬ (t < 3 ∨ t &&& 1 = 0) := by
    rw [Nat.and_one_is_mod]; omega
  simp only [hb, hc, if_false, hhead, List.drop_one, List.tail_cons]
  apply sieveLoop_correct t ht ht2 hodd odd hmem hs odd [] 6541 rfl
  · intro p hp; simp at hp
  · rw [hhead] at hlen; simp at hlen; omega

theorem not_prime_of_dvd_lt (n d : Nat) (hd : d ∣ n) (h1 : 1 < d) (h2 : d < n) : ¬ n.Prime := by
  intro hp
  rcases (Nat.dvd_prime hp).mp hd with h | h <;> omega

theorem primesLt_step (t delta : Nat) (ht : 5 ≤ t)
    (hpat : (t % 6 = 5 ∧ delta = 2) ∨ (t % 6 = 1 ∧ delta = 4)) :
    primesLt (t + delta) = if t.Prime then primesLt t ++ [t] else primesLt t := by
  have h1 : ¬ (t + 1).Prime :=
    not_prime_of_dvd_lt _ 2 (by omega) (by omega) (by omega)
  rcases hpat with ⟨hm, rfl⟩ | ⟨hm, rfl⟩
  · rw [show t + 2 = (t + 1) + 1 by omega, primesLt_succ, if_neg h1, primesLt_succ]
  · have h2 : ¬ (t + 2).Prime :=
      not_prime_of_dvd_lt _ 3 (by omega) (by omega) (by omega)
    have h3 : ¬ (t + 3).Prime :=
      not_prime_of_dvd_lt _ 2 (by omega) (by omega) (by omega)
    rw [show t + 4 = (t + 3) + 1 by omega, primesLt_succ, if_neg h3,
      show t + 3 = (t + 2) + 1 by omega, primesLt_succ, if_neg h2,
      show t + 2 = (t + 1) + 1 by omega, primesLt_succ, if_neg h1, primesLt_succ]

theorem primesLt_length_lt (hcount : (primesLt 65522).length = 6542) (t : Nat)
    (ht : t ≤ 65521) : (primesLt t).length < 6542 := by
  obtain ⟨l, hl, hm⟩ := primesLt_add t (65522 - t)
  have ht2 : t + (65522 - t) = 65522 := by omega
  rw [ht2] at hl hm
  have hin : 65521 ∈ l := (hm 65521).mpr ⟨ht, by omega, by norm_num⟩
  have hpos : 0 < l.length := List.length_pos_of_mem hin
  rw [hl, List.length_append] at hcount
  omega

theorem primesLt_65525 : primesLt 65525 = primesLt 65522 := by
  rw [show (65525 : Nat) = 65524 + 1 by rfl, primesLt_succ, if_neg (by norm_num),
    show (65524 : Nat) = 65523 + 1 by rfl, primesLt_succ, if_neg (by norm_num),
    show (65523 : Nat) = 65522 + 1 by rfl, primesLt_succ, if_neg (by norm_num)]

theorem initPrimesLoop_correct (hcount : (primesLt 65522).length = 6542) :
    ∀ (fuel t delta : Nat), 5 ≤ t → t ≤ 65525 →
      ((t % 6 = 5 ∧ delta = 2) ∨ (t % 6 = 1 ∧ delta = 4)) → 65526 ≤ fuel + t →
      initPrimesLoop fuel (primesLt t) (primesLt t).length t delta
        = Except.ok (primesLt 65522) := by
  intro fuel
  induction fuel with
  | zero => intro t delta h5 ht _ hf; omega
  | succ fuel ih =>
    intro t delta h5 ht hpat hf
    have hsize : PRIMES_SIZE = 6542 := by decide
    unfold initPrimesLoop
    rw [hsize]
    by_cases hlast : t ≤ 65521
    · have hlt := primesLt_length_lt hcount t hlast
      have hodd : t % 2 = 1 := by omega
      have hdelta : delta = 2 ∨ delta = 4 := by omega
      have hnext : (t + delta) % 2 ^ 32 = t + delta := Nat.mod_eq_of_lt (by omega)
      have hnd : (6 + 2 ^ 32 - delta) % 2 ^ 32 = 6 - delta := by omega
      have hpat2 : ((t + delta) % 6 = 5 ∧ 6 - delta = 2) ∨ ((t + delta) % 6 = 1 ∧ 6 - delta = 4) := by
        omega
      simp only [if_pos hlt, isSmallPrime_Sieve_correct t h5 ht hodd (by omega), hnext, hnd]
      rw [if_neg (by omega)]
      have hstep := primesLt_step t delta h5 hpat
      have hrec := ih (t + delta) (6 - delta) (by omega) (by omega) hpat2 (by omega)
      by_cases hp : t.Prime
      · simp only [hp, decide_True, if_true]
        rw [if_pos hp] at hstep
        rw [hstep, List.length_append, List.length_singleton] at hrec
        rw [← hstep] at hrec ⊢
        rw [hstep]
        rw [hstep] at hrec
        exact hrec
      · simp only [hp, decide_False, Bool.false_eq_true, if_false]
        rw [if_neg hp] at hstep
        rw [hstep] at hrec
        exact hrec
    · have h25 : t = 65525 := by omega
      subst h25
      rw [primesLt_65525, hcount, if_neg (by omega)]

theorem initPrimes_primes_eq (hcount : (primesLt 65522).length = 6542) :
    initPrimesLoop (2 ^ 32) [2, 3] 2 5 2 = Except.ok (primesLt 65522) := by
  have h := initPrimesLoop_correct hcount (2 ^ 32) 5 2 (by omega) (by omega)
    (Or.inl ⟨by decide, rfl⟩) (by norm_num)
  rw [primesLt_five] at h
  exact h

theorem noDivisorFrom_iff (n : Nat) : ∀ (fuel d : Nat), n < fuel + d → 1 ≤ d →
    (noDivisorFrom n fuel d = true ↔ ∀ k, d ≤ k → k * k ≤ n → ¬ k ∣ n) := by
  intro fuel
  induction fuel with
  | zero =>
    intro d hf hd
    simp only [noDivisorFrom, true_iff]
    intro k hk hkk
    have : k ≤ k * k := Nat.le_mul_self k
    omega
  | succ fuel ih =>
    intro d hf hd
    unfold noDivisorFrom
    by_cases h1 : d * d > n
    · simp only [h1, if_true, true_iff]
      intro k hk hkk
      have : d * d ≤ k * k := Nat.mul_le_mul hk hk
      omega
    · simp only [h1, if_false]
      by_cases h2 : n % d = 0
      · simp only [h2, if_true, Bool.false_eq_true, false_iff]
        intro hall
        exact hall d (le_refl d) (by omega) (Nat.dvd_of_mod_eq_zero h2)
      · simp only [h2, if_false]
        rw [ih (d + 1) (by omega) (by omega)]
        constructor
        · intro hall k hk hkk
          rcases Nat.eq_or_lt_of_le hk with h | h
          · subst h
            intro hdvd
            exact h2 (Nat.mod_eq_zero_of_dvd hdvd)
          · exact hall k (by omega) hkk
        · intro hall k hk hkk
          exact hall k (by omega) hkk

theorem isPrimeTD_iff (n : Nat) : isPrimeTD n = true ↔ n.Prime := by
  unfold isPrimeTD
  rw [Bool.and_eq_true, decide_eq_true_eq]
  constructor
  · rintro ⟨h2, hnd⟩
    rw [noDivisorFrom_iff n n 2 (by omega) (by omega)] at hnd
    by_contra hnp
    have hsq := Nat.minFac_sq_le_self (by omega : 0 < n) hnp
    have hfp : (Nat.minFac n).Prime := Nat.minFac_prime (by omega)
    exact hnd (Nat.minFac n) hfp.two_le (by rw [← pow_two]; exact hsq) (Nat.minFac_dvd n)
  · intro hp
    refine ⟨hp.two_le, ?_⟩
    rw [noDivisorFrom_iff n n 2 (by omega) (by omega)]
    intro k hk hkk hdvd
    have h2 := hp.two_le
    have hlt : k < n := by
      have : k * 2 ≤ k * k := Nat.mul_le_mul_left k hk
      omega
    rcases (Nat.dvd_prime hp).mp hdvd with h | h <;> omega

theorem smallPrimorial_eq : smallPrimorial = ((List.range 256).filter isPrimeTD).prod := by
  decide

theorem prime_dvd_smallPrimorial (f : Nat) (hf : f.Prime) (h : f < 256) : f ∣ smallPrimorial := by
  rw [smallPrimorial_eq]
  apply List.dvd_prod
  rw [List.mem_filter, List.mem_range]
  exact ⟨h, (isPrimeTD_iff f).mpr hf⟩

theorem isPrimeGcd_iff (n : Nat) (hn : n < 65522) : isPrimeGcd n = true ↔ n.Prime := by
  unfold isPrimeGcd
  by_cases hsmall : n < 256
  · have : Nat.blt n 256 = true := by simpa [Nat.blt_eq] using hsmall
    rw [this, cond_true, isPrimeTD_iff]
  · have : Nat.blt n 256 = false := by
      cases h : Nat.blt n 256
      · rfl
      · rw [Nat.blt_eq] at h; exact absurd h hsmall
    rw [this, cond_false, Nat.beq_eq]
    constructor
    · intro hg
      by_contra hnp
      have hsq := Nat.minFac_sq_le_self (by omega : 0 < n) hnp
      have hfp : (Nat.minFac n).Prime := Nat.minFac_prime (by omega)
      have hflt : Nat.minFac n < 256 := by
        by_contra hge
        have h256 : 256 ≤ Nat.minFac n := by omega
        have : 256 * 256 ≤ Nat.minFac n ^ 2 := by
          rw [pow_two]; exact Nat.mul_le_mul h256 h256
        omega
      have hd1 : Nat.minFac n ∣ Nat.gcd n smallPrimorial :=
        Nat.dvd_gcd (Nat.minFac_dvd n) (prime_dvd_smallPrimorial _ hfp hflt)
      rw [hg] at hd1
      have := hfp.two_le
      have := Nat.le_of_dvd (by omega) hd1
      omega
    · intro hp
      rw [smallPrimorial_eq]
      apply Nat.Coprime.gcd_eq_one
      rw [Nat.coprime_list_prod_right_iff]
      intro q hq
      rw [List.mem_filter, List.mem_range] at hq
      have hqp : q.Prime := (isPrimeTD_iff q).mp hq.2
      exact (Nat.coprime_primes hp hqp).mpr (by omega)

theorem isPrimeGcd_eq_decide (n : Nat) (hn : n < 65522) : isPrimeGcd n = decide n.Prime := by
  by_cases hp : n.Prime
  · rw [(isPrimeGcd_iff n hn).mpr hp, decide_eq_true hp]
  · rw [decide_eq_false hp]
    cases h : isPrimeGcd n
    · rfl
    · exact absurd ((isPrimeGcd_iff n hn).mp h) hp

theorem primesWheel_succ (top fuel : Nat) :
    primesWheel top (fuel + 1)
      = (if isPrimeGcd (top - 6 * (fuel + 1)) = true then [top - 6 * (fuel + 1)] else [])
        ++ ((if isPrimeGcd (top - 6 * (fuel + 1) + 2) = true then [top - 6 * (fuel + 1) + 2]
            else [])
          ++ primesWheel top fuel) := by
  rw [primesWheel]
  simp only [Nat.sub_eq, Nat.mul_eq, Nat.add_eq, Nat.succ_eq_add_one]
  cases isPrimeGcd (top - 6 * (fuel + 1)) <;> cases isPrimeGcd (top - 6 * (fuel + 1) + 2) <;> rfl

theorem primesWheel_spec (top : Nat) (htop : top % 6 = 5) (hle : top ≤ 65525) :
    ∀ fuel : Nat, 6 * fuel + 5 ≤ top →
      primesLt top = primesLt (top - 6 * fuel) ++ primesWheel top fuel := by
  intro fuel
  induction fuel with
  | zero => intro _; rw [primesWheel, List.append_nil]; rfl
  | succ fuel ih =>
    intro hf
    have h1 := primesLt_step (top - 6 * (fuel + 1)) 2 (by omega) (Or.inl ⟨by omega, rfl⟩)
    have h2 := primesLt_step (top - 6 * (fuel + 1) + 2) 4 (by omega) (Or.inr ⟨by omega, rfl⟩)
    have e : top - 6 * (fuel + 1) + 2 + 4 = top - 6 * fuel := by omega
    rw [e] at h2
    rw [ih (by omega), h2, h1, primesWheel_succ,
      isPrimeGcd_eq_decide (top - 6 * (fuel + 1)) (by omega),
      isPrimeGcd_eq_decide (top - 6 * (fuel + 1) + 2) (by omega)]
    by_cases hp : (top - 6 * (fuel + 1)).Prime <;>
      by_cases hq : (top - 6 * (fuel + 1) + 2).Prime <;>
      simp only [hp, hq, decide_True, decide_False, if_true, if_false, List.append_assoc,
        List.nil_append, List.cons_append, Bool.false_eq_true]

theorem primesWheel_eq : primesLt 65522 = 2 :: 3 :: primesWheel 65525 10920 := by
  rw [← primesLt_65525, primesWheel_spec 65525 (by decide) (by decide) 10920 (by decide),
    show 65525 - 6 * 10920 = 5 from rfl, primesLt_five]
  rfl

set_option maxRecDepth 1000000 in
theorem primesWheel_facts : wheelFacts (primesWheel 65525 10920) = true := by decide!

theorem primesLt_count : (primesLt 65522).length = 6542 := by
  have h := primesWheel_facts
  rw [wheelFacts, Bool.and_eq_true, Nat.beq_eq] at h
  rw [primesWheel_eq, List.length_cons, List.length_cons, h.1]

theorem groupsCover_primesLt : groupsCover 1576 ((primesLt 65522).drop 16) = true := by
  have h := primesWheel_facts
  rw [wheelFacts, Bool.and_eq_true] at h
  rw [primesWheel_eq]
  exact h.2

theorem lowestBitLoop_spec : ∀ (fuel n : Nat), 1 ≤ n → n ≤ fuel →
    n = n / 2 ^ lowestBitLoop fuel n * 2 ^ lowestBitLoop fuel n ∧
      (n / 2 ^ lowestBitLoop fuel n) % 2 = 1 := by
  intro fuel
  induction fuel with
  | zero => intro n h1 h2; omega
  | succ fuel ih =>
    intro n h1 h2
    rw [lowestBitLoop]
    by_cases hodd : n % 2 = 1
    · rw [if_pos hodd]; simp [hodd]
    · rw [if_neg hodd]
      obtain ⟨h3, h4⟩ := ih (n / 2) (by omega) (by omega)
      have hdiv : n / 2 ^ (lowestBitLoop fuel (n / 2) + 1)
          = n / 2 / 2 ^ lowestBitLoop fuel (n / 2) := by
        rw [pow_succ, mul_comm, Nat.div_div_eq_div_mul]
      rw [hdiv]
      refine ⟨?_, h4⟩
      rw [pow_succ, ← mul_assoc, ← h3]
      omega

theorem stripLoop_spec (d : Nat) (hd : 2 ≤ d) : ∀ (fuel cofac : Nat), 1 ≤ cofac →
    cofac < fuel →
    ∃ c1 k, stripLoop d fuel cofac = Except.ok c1 ∧ cofac = c1 * d ^ k ∧ 1 ≤ c1 ∧ ¬ d ∣ c1 := by
  intro fuel
  induction fuel with
  | zero => intro c h1 h2; omega
  | succ fuel ih =>
    intro c h1 h2
    rw [stripLoop, if_neg (by omega)]
    by_cases hdiv : c % d = 0
    · rw [if_pos hdiv]
      obtain ⟨m, hm⟩ := Nat.dvd_of_mod_eq_zero hdiv
      have hmpos : 1 ≤ m := by
        rcases Nat.eq_zero_or_pos m with h | h
        · subst h; omega
        · exact h
      have hq : c / d = m := by rw [hm]; exact Nat.mul_div_cancel_left m (by omega)
      have hlt : m < c := by
        have h2 : 2 * m ≤ d * m := Nat.mul_le_mul_right m hd
        rw [hm]; omega
      obtain ⟨c1, k, he, hc, hp, hn⟩ := ih (c / d) (by omega) (by omega)
      refine ⟨c1, k + 1, he, ?_, hp, hn⟩
      rw [hq] at hc
      rw [hm, hc]; ring
    · rw [if_neg hdiv]
      refine ⟨c, 0, rfl, by simp, h1, ?_⟩
      intro h
      obtain ⟨m, hm⟩ := h
      exact hdiv (by rw [hm]; exact Nat.mul_mod_right d m)

theorem smoothGroupLoop_spec (r stop cofac0 : Nat) (rest : List Nat) :
    ∀ (grp : List Nat) (j cofac b : Nat), stop = j + grp.length →
      (∀ d ∈ grp, d.Prime) → grp.Nodup → (∀ d ∈ grp, r % d = 0 ↔ d ∣ cofac0) →
      cofac0 = cofac * b → (∀ d ∈ grp, ¬ d ∣ b) → 1 ≤ cofac →
      ∃ c1 b1, smoothGroupLoop r stop (grp ++ rest) j cofac = Except.ok (stop, rest, c1) ∧
        cofac = c1 * b1 ∧ 1 ≤ c1 ∧ (∀ d ∈ grp, ¬ d ∣ c1) ∧
        (∀ q : Nat, q.Prime → q ∣ b1 → q ∈ grp) := by
  intro grp
  induction grp with
  | nil =>
    intro j cofac b hstop _ _ _ _ _ h1
    simp only [List.length_nil, Nat.add_zero] at hstop
    refine ⟨cofac, 1, ?_, by simp, h1, by simp, ?_⟩
    · subst hstop
      cases rest with
      | nil => simp [smoothGroupLoop]
      | cons e rest => simp [smoothGroupLoop]
    · intro q hq hdvd
      exact absurd (Nat.dvd_one.mp hdvd) hq.ne_one
  | cons d grp ih =>
    intro j cofac b hstop hprime hnodup hr hcof hb h1
    have hdp : d.Prime := hprime d (List.mem_cons_self _ _)
    have hd2 : 2 ≤ d := hdp.two_le
    have hlen : stop = j + 1 + grp.length := by
      rw [hstop, List.length_cons]; omega
    have hdiv : d ∣ cofac0 ↔ d ∣ cofac := by
      rw [hcof]
      constructor
      · intro h
        rcases (Nat.Prime.dvd_mul hdp).mp h with h | h
        · exact h
        · exact absurd h (hb d (List.mem_cons_self _ _))
      · intro h; exact dvd_mul_of_dvd_left h b
    have hnodup2 := List.nodup_cons.mp hnodup
    have key : ∀ c1 k, cofac = c1 * d ^ k → 1 ≤ c1 → ¬ d ∣ c1 →
        ∃ c2 b2, smoothGroupLoop r stop (grp ++ rest) (j + 1) c1
            = Except.ok (stop, rest, c2) ∧ cofac = c2 * b2 ∧ 1 ≤ c2 ∧
          (∀ e ∈ d :: grp, ¬ e ∣ c2) ∧ (∀ q : Nat, q.Prime → q ∣ b2 → q ∈ d :: grp) := by
      intro c1 k hc1 hpos hnd
      obtain ⟨c2, b2, he, hc2, hp2, hn2, hq2⟩ := ih (j + 1) c1 (d ^ k * b) hlen
        (fun e he => hprime e (List.mem_cons_of_mem _ he)) hnodup2.2
        (fun e he => hr e (List.mem_cons_of_mem _ he)) (by rw [hcof, hc1]; ring)
        (by
          intro e he hdvd
          have hep := hprime e (List.mem_cons_of_mem _ he)
          rcases (Nat.Prime.dvd_mul hep).mp hdvd with h | h
          · have h3 := hep.dvd_of_dvd_pow h
            have heq : e = d := (Nat.prime_dvd_prime_iff_eq hep hdp).mp h3
            exact hnodup2.1 (heq ▸ he)
          · exact hb e (List.mem_cons_of_mem _ he) h) hpos
      refine ⟨c2, b2 * d ^ k, he, by rw [hc1, hc2]; ring, hp2, ?_, ?_⟩
      · intro e he
        rcases List.mem_cons.mp he with h | h
        · rw [h]
          intro hdvd
          exact hnd (hc2 ▸ Dvd.dvd.mul_right hdvd b2)
        · exact hn2 e h
      · intro q hq hdvd
        rcases (Nat.Prime.dvd_mul hq).mp hdvd with h | h
        · exact List.mem_cons_of_mem _ (hq2 q hq h)
        · have h3 := hq.dvd_of_dvd_pow h
          have heq : q = d := (Nat.prime_dvd_prime_iff_eq hq hdp).mp h3
          rw [heq]; exact List.mem_cons_self _ _
    rw [List.cons_append, smoothGroupLoop, if_pos (by omega), if_neg (by omega)]
    by_cases hrd : r % d = 0
    · rw [if_pos hrd]
      obtain ⟨c1, k, he, hc1, hpos, hnd⟩ := stripLoop_spec d hd2 (cofac + 1) cofac h1 (by omega)
      rw [he]
      exact key c1 k hc1 hpos hnd
    · rw [if_neg hrd]
      have hnd : ¬ d ∣ cofac := fun h => hrd ((hr d (List.mem_cons_self _ _)).mpr (hdiv.mpr h))
      exact key cofac 0 (by simp) h1 hnd

theorem productLoop_spec : ∀ (Q : List Nat) (i p : Nat), i + Q.length = PRIMES_SIZE →
    ∃ grp, Q = grp ++ groupRest Q p ∧
      productLoop Q i p = (i + grp.length, groupRest Q p, p * grp.prod) := by
  intro Q
  induction Q with
  | nil => intro i p _; exact ⟨[], by simp [groupRest], by simp [productLoop, groupRest]⟩
  | cons q rest ih =>
    intro i p h
    have hi : i < PRIMES_SIZE := by rw [List.length_cons] at h; omega
    rw [productLoop, if_pos hi, groupRest]
    by_cases hs : p * q < 2 ^ 64
    · have h1 : p * q / 2 ^ 64 = 0 := Nat.div_eq_of_lt hs
      have h0 : p * q % 2 ^ 64 = p * q := Nat.mod_eq_of_lt hs
      simp only [h1, h0, ne_eq, not_true_eq_false, if_false, if_pos hs]
      obtain ⟨grp, hQ, hp⟩ := ih (i + 1) (p * q) (by rw [List.length_cons] at h; omega)
      refine ⟨q :: grp, ?_, ?_⟩
      · rw [List.cons_append, ← hQ]
      · rw [hp, List.length_cons, List.prod_cons, mul_assoc]
        have : i + 1 + grp.length = i + (grp.length + 1) := by omega
        rw [this]
    · have h1 : p * q / 2 ^ 64 ≠ 0 := by
        have := Nat.div_pos (not_lt.mp hs) (by norm_num : 0 < 2 ^ 64)
        omega
      simp only [h1, ne_eq, not_false_eq_true, if_true, if_neg hs]
      exact ⟨[], by simp, by simp⟩

theorem productsLoop_succ (todo : Nat) (Q : List Nat) (i : Nat) :
    productsLoop (todo + 1) Q i
      = ((i, (productLoop Q i 1).1), (productLoop Q i 1).2.2)
        :: productsLoop todo (productLoop Q i 1).2.1 (productLoop Q i 1).1 := rfl

theorem zip_map_fst_snd {α β : Type} (l : List (α × β)) :
    List.zip (l.map (fun g => g.1)) (l.map (fun g => g.2)) = l := by
  induction l with
  | nil => rfl
  | cons a l ih => simp [ih]

theorem smoothGroupsLoop_spec : ∀ (todo : Nat) (Q : List Nat) (i cofac : Nat),
    i + Q.length = PRIMES_SIZE → (∀ d ∈ Q, d.Prime) → Q.Nodup → groupsCover todo Q = true →
    1 ≤ cofac →
    ∃ c1 b1, smoothGroupsLoop (productsLoop todo Q i) Q i cofac = Except.ok c1 ∧
      cofac = c1 * b1 ∧ 1 ≤ c1 ∧ (∀ d ∈ Q, ¬ d ∣ c1) ∧
      (∀ q : Nat, q.Prime → q ∣ b1 → q ∈ Q) := by
  intro todo
  induction todo with
  | zero =>
    intro Q i cofac hlen _ _ hcover h1
    have hQ : Q = [] := by
      cases Q with
      | nil => rfl
      | cons a l => simp [groupsCover] at hcover
    subst hQ
    have hi : ¬ i < NB_PRIMES_TO_CHECK_SMOOTHNESS := by
      simp [PRIMES_SIZE, NB_PRIMES_IN_SIEVE, NB_PRIMES_TO_CHECK_SMOOTHNESS] at hlen ⊢
      omega
    refine ⟨cofac, 1, ?_, by simp, h1, by simp, ?_⟩
    · rw [productsLoop, smoothGroupsLoop, if_neg hi]
    · intro q hq hdvd
      exact absurd (Nat.dvd_one.mp hdvd) hq.ne_one
  | succ todo ih =>
    intro Q i cofac hlen hprime hnodup hcover h1
    cases Q with
    | nil =>
      have hi : ¬ i < NB_PRIMES_TO_CHECK_SMOOTHNESS := by
        simp [PRIMES_SIZE, NB_PRIMES_IN_SIEVE, NB_PRIMES_TO_CHECK_SMOOTHNESS] at hlen ⊢
        omega
      refine ⟨cofac, 1, ?_, by simp, h1, by simp, ?_⟩
      · rw [productsLoop_succ, smoothGroupsLoop, if_neg hi]
      · intro q hq hdvd
        exact absurd (Nat.dvd_one.mp hdvd) hq.ne_one
    | cons q0 rest0 =>
      have hi : i < NB_PRIMES_TO_CHECK_SMOOTHNESS := by
        simp [PRIMES_SIZE, NB_PRIMES_IN_SIEVE, NB_PRIMES_TO_CHECK_SMOOTHNESS] at hlen ⊢
        omega
      rw [groupsCover] at hcover
      obtain ⟨grp, hQ, hp⟩ := productLoop_spec (q0 :: rest0) i 1 hlen
      rw [productsLoop_succ, hp]
      generalize groupRest (q0 :: rest0) 1 = R at hQ hcover ⊢
      generalize q0 :: rest0 = Q at hQ hlen hprime hnodup ⊢
      subst hQ
      have hgp : ∀ d ∈ grp, d.Prime := fun d hd => hprime d (List.mem_append_left _ hd)
      have hRp : ∀ d ∈ R, d.Prime := fun d hd => hprime d (List.mem_append_right _ hd)
      have hnd := List.nodup_append.mp hnodup
      have hprod : 1 * grp.prod ≠ 0 := by
        rw [one_mul]
        apply List.prod_ne_zero
        intro h0
        exact Nat.not_prime_zero (hgp 0 h0)
      obtain ⟨c1, b1, he1, hc1, hp1, hn1, hq1⟩ :=
        smoothGroupLoop_spec (cofac % (1 * grp.prod)) (i + grp.length) cofac R grp i cofac 1 rfl
          hgp hnd.1
          (by
            intro d hd
            have hdvd : d ∣ 1 * grp.prod := by rw [one_mul]; exact List.dvd_prod hd
            rw [Nat.mod_mod_of_dvd _ hdvd]
            exact (Nat.dvd_iff_mod_eq_zero ..).symm)
          (by simp)
          (fun d hd h => (hgp d hd).ne_one (Nat.dvd_one.mp h)) h1
      obtain ⟨c2, b2, he2, hc2, hp2, hn2, hq2⟩ := ih R (i + grp.length) c1
        (by rw [List.length_append] at hlen; omega) hRp hnd.2.1 hcover hp1
      refine ⟨c2, b2 * b1, ?_, by rw [hc1, hc2]; ring, hp2, ?_, ?_⟩
      · rw [smoothGroupsLoop, if_pos hi, if_neg hprod, he1]
        exact he2
      · intro d hd
        rcases List.mem_append.mp hd with h | h
        · intro hdvd
          exact hn1 d h (hc2 ▸ Dvd.dvd.mul_right hdvd b2)
        · exact hn2 d h
      · intro q hq hdvd
        rcases (Nat.Prime.dvd_mul hq).mp hdvd with h | h
        · exact List.mem_append_right _ (hq2 q hq h)
        · exact List.mem_append_left _ (hq1 q hq h)

theorem primesLt_59 : primesLt 59 = 2 :: firstGroup := by
  have h : primesLt 59 = (List.range 59).filter isPrimeTD := by
    unfold primesLt
    apply List.filter_congr
    intro n _
    by_cases hp : n.Prime
    · rw [decide_eq_true hp, (isPrimeTD_iff n).mpr hp]
    · rw [decide_eq_false hp]
      cases hb : isPrimeTD n with
      | false => rfl
      | true => exact absurd ((isPrimeTD_iff n).mp hb) hp
  rw [h]
  decide

theorem firstOmittedLoop_spec (e : Nat) (l : List Nat) (he : PP_FIRST_OMITTED ≤ e) :
    ∀ (pre : List Nat) (i : Nat), (∀ d ∈ pre, d < PP_FIRST_OMITTED) →
      firstOmittedLoop (pre ++ e :: l) i = Except.ok (i + pre.length, e :: l) := by
  intro pre
  induction pre with
  | nil =>
    intro i _
    rw [List.nil_append, firstOmittedLoop, if_neg (by omega)]
    rfl
  | cons d pre ih =>
    intro i h
    rw [List.cons_append, firstOmittedLoop, if_pos (h d (List.mem_cons_self _ _)),
      ih (i + 1) (fun x hx => h x (List.mem_cons_of_mem _ hx)), List.length_cons]
    have : i + 1 + pre.length = i + (pre.length + 1) := by omega
    rw [this]

/-- The table `primes` left by `initPrimes`: 2, the primes of the first group and the
primes from 59 to 65521, which the 1576 product groups use up. -/
theorem primes_split : ∃ Q, primesLt 65522 = 2 :: firstGroup ++ Q ∧
    16 + Q.length = PRIMES_SIZE ∧ (∀ d ∈ Q, d.Prime ∧ 59 ≤ d ∧ d ≤ 65521) ∧ Q.Nodup ∧
    groupsCover PRIMES_PRODUCTS_SIZE Q = true ∧
    (∀ p : Nat, p.Prime → p ≤ 65521 → p = 2 ∨ p ∈ firstGroup ∨ p ∈ Q) := by
  obtain ⟨Q, hQ, hmem⟩ := primesLt_add 59 65463
  rw [show 59 + 65463 = 65522 from rfl, primesLt_59] at hQ
  have hlen := primesLt_count
  have hdrop : (primesLt 65522).drop 16 = Q := by
    rw [hQ]
    exact List.drop_left' (by decide)
  refine ⟨Q, hQ, ?_, ?_, ?_, ?_, ?_⟩
  · rw [hQ, List.length_append] at hlen
    have h16 : (2 :: firstGroup).length = 16 := by decide
    rw [h16] at hlen
    exact hlen
  · intro d hd
    have := (hmem d).mp hd
    exact ⟨this.2.2, this.1, by omega⟩
  · have hs := primesLt_sorted 65522
    rw [hQ] at hs
    exact (List.pairwise_append.mp hs).2.1.imp (fun h => Nat.ne_of_lt h)
  · have h := groupsCover_primesLt
    rw [hdrop] at h
    exact h
  · intro p hp hle
    have hin : p ∈ primesLt 65522 := (mem_primesLt 65522 p).mpr ⟨by omega, hp⟩
    rw [hQ] at hin
    rcases List.mem_append.mp hin with h | h
    · rcases List.mem_cons.mp h with h2 | h2
      · exact Or.inl h2
      · exact Or.inr (Or.inl h2)
    · exact Or.inr (Or.inr h)

theorem initPrimes_spec : ∃ Q, primesLt 65522 = 2 :: firstGroup ++ Q ∧
    16 + Q.length = PRIMES_SIZE ∧ (∀ d ∈ Q, d.Prime ∧ 59 ≤ d ∧ d ≤ 65521) ∧ Q.Nodup ∧
    groupsCover PRIMES_PRODUCTS_SIZE Q = true ∧
    (∀ p : Nat, p.Prime → p ≤ 65521 → p = 2 ∨ p ∈ firstGroup ∨ p ∈ Q) ∧
    initPrimes = Except.ok
      { primes := 2 :: firstGroup ++ Q,
        primesProductsIndices := (productsLoop PRIMES_PRODUCTS_SIZE Q 16).map (fun g => g.1),
        primesProducts := (productsLoop PRIMES_PRODUCTS_SIZE Q 16).map (fun g => g.2) } := by
  obtain ⟨Q, hQ, hlen, hprime, hnodup, hcover, hall⟩ := primes_split
  refine ⟨Q, hQ, hlen, hprime, hnodup, hcover, hall, ?_⟩
  have hne : ∃ e l, Q = e :: l := by
    cases Q with
    | nil => simp [PRIMES_SIZE, NB_PRIMES_IN_SIEVE, NB_PRIMES_TO_CHECK_SMOOTHNESS] at hlen
    | cons e l => exact ⟨e, l, rfl⟩
  obtain ⟨e, l, hel⟩ := hne
  have hfirst : firstOmittedLoop (2 :: firstGroup ++ Q) 0 = Except.ok (16, Q) := by
    rw [hel]
    have h := firstOmittedLoop_spec e l
      (by have := (hprime e (by rw [hel]; exact List.mem_cons_self _ _)).2.1
          unfold PP_FIRST_OMITTED; exact this)
      (2 :: firstGroup) 0 (by decide)
    exact h
  have h1 := initPrimes_primes_eq primesLt_count
  rw [hQ] at h1
  rw [initPrimes, h1]
  simp only [initPrimesProducts, hfirst]

theorem firstGroup_prime : ∀ d ∈ firstGroup, d.Prime := by
  intro d hd
  simp only [firstGroup, List.mem_cons, List.mem_singleton, List.not_mem_nil, or_false] at hd
  rcases hd with h | h | h | h | h | h | h | h | h | h | h | h | h | h | h <;>
    (rw [h]; norm_num)

theorem firstGroup_dvd_PP : ∀ d ∈ firstGroup, d ∣ PP := by
  have h : PP = firstGroup.prod := by decide
  intro d hd
  rw [h]
  exact List.dvd_prod hd

/-- What `isSmooth` leaves in `cofac` is the part of `n` without prime factor up to 65521. -/
theorem isSmooth_spec (n : Nat) (hn : 1 ≤ n) :
    ∃ T c m, initPrimes = Except.ok T ∧ n = c * m ∧ 1 ≤ c ∧
      (∀ p : Nat, p.Prime → p ∣ m → p ≤ 65521) ∧
      (∀ p : Nat, p.Prime → p ∣ c → 65521 < p) ∧
      isSmooth T (n : Int)
        = if c = 1 then Except.ok true
          else if mpz_sizeinbase_2 (c : Int)
              > size_t_sub (mpz_sizeinbase_2 (n : Int)) SMOOTH_PART_SIZE_LIMIT
          then Except.ok false else Except.ok true := by
  obtain ⟨Q, hQ, hlen, hprime, hnodup, hcover, hall, hinit⟩ := initPrimes_spec
  obtain ⟨hs1, hs2⟩ := lowestBitLoop_spec n n hn (le_refl n)
  generalize hs : lowestBitLoop n n = s at hs1 hs2
  generalize hcof : n / 2 ^ s = cofac at hs1 hs2
  have hcpos : 1 ≤ cofac := by omega
  obtain ⟨c1, b1, he1, hc1, hp1, hn1, hq1⟩ :=
    smoothGroupLoop_spec (cofac % PP) 16 cofac Q firstGroup 1 cofac 1 (by decide)
      firstGroup_prime (by decide)
      (by
        intro d hd
        rw [Nat.mod_mod_of_dvd _ (firstGroup_dvd_PP d hd)]
        exact (Nat.dvd_iff_mod_eq_zero ..).symm)
      (by simp)
      (fun d hd h => (firstGroup_prime d hd).ne_one (Nat.dvd_one.mp h)) hcpos
  obtain ⟨c2, b2, he2, hc2, hp2, hn2, hq2⟩ := smoothGroupsLoop_spec PRIMES_PRODUCTS_SIZE Q 16 c1
    hlen (fun d hd => (hprime d hd).1) hnodup hcover hp1
  refine ⟨_, c2, b2 * b1 * 2 ^ s, hinit, ?_, hp2, ?_, ?_, ?_⟩
  · rw [hs1, hc1, hc2]; ring
  · intro p hp hdvd
    rcases (Nat.Prime.dvd_mul hp).mp hdvd with h | h
    · rcases (Nat.Prime.dvd_mul hp).mp h with h | h
      · exact (hprime p (hq2 p hp h)).2.2
      · have hm := hq1 p hp h
        have h53 : ∀ d ∈ firstGroup, d ≤ 65521 := by decide
        exact h53 p hm
    · have h2 : p = 2 := (Nat.prime_dvd_prime_iff_eq hp Nat.prime_two).mp (hp.dvd_of_dvd_pow h)
      omega
  · intro p hp hdvd
    by_contra hle
    rcases hall p hp (by omega) with h | h | h
    · have h2 : 2 ∣ cofac := by
        rw [hc1, hc2, ← h]
        exact Dvd.dvd.mul_right (Dvd.dvd.mul_right hdvd b2) b1
      omega
    · exact hn1 p h (hc2 ▸ Dvd.dvd.mul_right hdvd b2)
    · exact hn2 p h hdvd
  · have hnn : ¬ ((n : Int) < 0) := by omega
    have hn0 : (n : Int) ≠ 0 := by omega
    have hgroups : productsLoop PRIMES_PRODUCTS_SIZE Q 16
        = ((16, (productLoop Q 16 1).1), (productLoop Q 16 1).2.2)
          :: productsLoop 1575 (productLoop Q 16 1).2.1 (productLoop Q 16 1).1 :=
      productsLoop_succ 1575 Q 16
    have hdrop1 : List.drop 1 (2 :: firstGroup ++ Q) = firstGroup ++ Q := rfl
    have hdrop16 : List.drop 16 (2 :: firstGroup ++ Q) = Q :=
      @List.drop_left' Nat (2 :: firstGroup) Q 16 (by decide)
    unfold isSmooth
    simp only [if_neg hnn, mpz_scan1_0, if_neg hn0, Int.natAbs_ofNat, hs, hcof]
    rw [hgroups]
    simp only [List.map_cons, hdrop1, hdrop16, he1]
    have hz := zip_map_fst_snd (productsLoop PRIMES_PRODUCTS_SIZE Q 16)
    rw [hgroups] at hz
    simp only [List.map_cons] at hz
    rw [hz, ← hgroups, he2]

/-- The part of `n` without prime factor up to `B` is unique. -/
theorem cofactor_unique (B c m c2 m2 : Nat) (h : c * m = c2 * m2)
    (hm : ∀ p : Nat, p.Prime → p ∣ m → p ≤ B) (hc : ∀ p : Nat, p.Prime → p ∣ c → B < p)
    (hm2 : ∀ p : Nat, p.Prime → p ∣ m2 → p ≤ B)
    (hc2 : ∀ p : Nat, p.Prime → p ∣ c2 → B < p) : c = c2 := by
  have h1 : Nat.Coprime c m2 :=
    (Nat.coprime_of_dvd (fun k hk hkm hkc => by
      have := hm2 k hk hkm
      have := hc k hk hkc
      omega)).symm
  have h2 : Nat.Coprime c2 m :=
    (Nat.coprime_of_dvd (fun k hk hkm hkc => by
      have := hm k hk hkm
      have := hc2 k hk hkc
      omega)).symm
  have d1 : c ∣ c2 := h1.dvd_of_dvd_mul_right (h ▸ Dvd.intro m rfl)
  have d2 : c2 ∣ c := h2.dvd_of_dvd_mul_right (h.symm ▸ Dvd.intro m2 rfl)
  exact Nat.dvd_antisymm d1 d2

/-- The result of `isSmooth (n)` in terms of any cofactor `c` of `n` without prime factor up
to 65521. -/
theorem isSmooth_of_cofactor (n c m : Nat) (hn : 1 ≤ n) (hnc : n = c * m)
    (hm : ∀ p : Nat, p.Prime → p ∣ m → p ≤ 65521)
    (hc : ∀ p : Nat, p.Prime → p ∣ c → 65521 < p) :
    ∃ T, initPrimes = Except.ok T ∧
      isSmooth T (n : Int)
        = if c = 1 then Except.ok true
          else if mpz_sizeinbase_2 (c : Int)
              > size_t_sub (mpz_sizeinbase_2 (n : Int)) SMOOTH_PART_SIZE_LIMIT
          then Except.ok false else Except.ok true := by
  obtain ⟨T, c0, m0, hT, hn0, _, hm0, hc0, hres⟩ := isSmooth_spec n hn
  have heq : c0 = c := cofactor_unique 65521 c0 m0 c m (by rw [← hn0, ← hnc]) hm0 hc0 hm hc
  rw [heq] at hres
  exact ⟨T, hT, hres⟩

/-- For an input of fewer than 128 bits the subtraction `mpz_sizeinbase (n, 2) -
SMOOTH_PART_SIZE_LIMIT` wraps around in `size_t`, and `isSmooth` answers `true` whatever the
cofactor: so for the prime 65537. -/
theorem isSmooth_short_input : ∃ T, initPrimes = Except.ok T ∧
    isSmooth T 65537 = Except.ok true := by
  have hp : Nat.Prime 65537 := by norm_num
  obtain ⟨T, hT, h⟩ := isSmooth_of_cofactor 65537 65537 1 (by norm_num) (by norm_num)
    (fun p hp h => absurd (Nat.dvd_one.mp h) hp.ne_one)
    (fun p hq h => by
      have := (Nat.prime_dvd_prime_iff_eq hq hp).mp h
      omega)
  refine ⟨T, hT, ?_⟩
  have hbits : mpz_sizeinbase_2 ((65537 : Nat) : Int) = 17 :=
    mpz_sizeinbase_2_unique 65537 17 (by norm_num) (by norm_num) (by norm_num)
  rw [hbits] at h
  rw [show ((65537 : Nat) : Int) = 65537 from rfl] at h
  rw [h, if_neg (by norm_num), if_neg (by decide)]

/-! ## The cursor of a `String` -/

theorem String.substring_in_range (s : String) (start len : Nat)
    (h : start + len ≤ s.size) (hsz : s.size < 2 ^ 64) :
    s.substring start len = Except.ok (String.ofBytes ((s._str.drop start).take len)) := by
  unfold String.substring SIZE_T_RANGE
  rw [Nat.mod_eq_of_lt (by omega), if_neg (by omega)]
  by_cases hl : len = 0
  · rw [if_pos hl, hl]
    simp [String.empty]
  · rw [if_neg hl, if_neg (by omega), if_neg (by omega)]

theorem String.substring_out_of_range (s : String) (start len : Nat)
    (h : s.size < start + len) (hw : start + len < 2 ^ 64) :
    s.substring start len = raise exception_t.E_OUT_OF_BOUNDS_STRING_OPERATION := by
  unfold String.substring SIZE_T_RANGE
  rw [Nat.mod_eq_of_lt hw, if_pos h]

/-- A call of `substring` that returns leaves `start + len` (reduced to `size_t`) within the
String. -/
theorem String.substring_ok_bound (s : String) (start len : Nat) (r : String)
    (h : s.substring start len = Except.ok r) : (start + len) % SIZE_T_RANGE ≤ s.size := by
  unfold String.substring at h
  by_cases hb : (start + len) % SIZE_T_RANGE > s.size
  · rw [if_pos hb] at h
    exact absurd h (by simp [raise])
  · omega

theorem String.popLineLoop_index : ∀ (fuel : Nat) (s : String) (start len : Nat)
    (line s1 : String), s._index ≤ s.size →
    String.popLineLoop fuel s start len = Except.ok (line, s1) →
    s1._str = s._str ∧ s1._index ≤ s1.size := by
  intro fuel
  induction fuel with
  | zero => intro s start len line s1 _ h; simp [String.popLineLoop] at h
  | succ fuel ih =>
    intro s start len line s1 hinv h
    rw [String.popLineLoop] at h
    by_cases he : s.eof = true
    · rw [if_pos he] at h
      cases hs : s.substring start len with
      | error t => rw [hs] at h; simp at h
      | ok l =>
        rw [hs] at h
        simp only [Except.ok.injEq, Prod.mk.injEq] at h
        rw [← h.2]
        exact ⟨rfl, hinv⟩
    · rw [if_neg he] at h
      have hlt : s._index < s.size := by
        simp only [String.eof, decide_eq_true_eq] at he
        omega
      have hpop : s.popChar
          = Except.ok (s._str.getD s._index 0, { s with _index := s._index + 1 }) := by
        unfold String.popChar
        rw [if_neg (by omega)]
      rw [hpop] at h
      simp only at h
      by_cases hc : s._str.getD s._index 0 = 10
      · rw [if_pos hc] at h
        cases hs : String.substring { s with _index := s._index + 1 } start len with
        | error t => rw [hs] at h; simp at h
        | ok l =>
          rw [hs] at h
          simp only [Except.ok.injEq, Prod.mk.injEq] at h
          rw [← h.2]
          exact ⟨rfl, hlt⟩
      · rw [if_neg hc] at h
        have := ih { s with _index := s._index + 1 } start (len + 1) line s1 hlt h
        exact this

theorem String.pushStringLoop_index : ∀ (fuel : Nat) (dst s dst1 s1 : String),
    dst._index ≤ dst.size →
    String.pushStringLoop fuel dst s = Except.ok (dst1, s1) →
    dst1.size = dst.size ∧ dst1._index ≤ dst1.size := by
  intro fuel
  induction fuel with
  | zero => intro dst s dst1 s1 _ h; simp [String.pushStringLoop] at h
  | succ fuel ih =>
    intro dst s dst1 s1 hinv h
    rw [String.pushStringLoop] at h
    by_cases he : s.eof = true
    · rw [if_pos he] at h
      simp only [Except.ok.injEq, Prod.mk.injEq] at h
      rw [← h.1]
      exact ⟨rfl, hinv⟩
    · rw [if_neg he] at h
      cases hp : s.popChar with
      | error t => rw [hp] at h; simp at h
      | ok r =>
        rw [hp] at h
        simp only at h
        cases hq : dst.pushChar r.1 with
        | error t => rw [hq] at h; simp at h
        | ok d1 =>
          rw [hq] at h
          simp only at h
          unfold String.pushChar at hq
          by_cases hb : dst._index ≥ dst.size
          · rw [if_pos hb] at hq
            simp [raise] at hq
          · rw [if_neg hb] at hq
            simp only [Except.ok.injEq] at hq
            have hsz : d1.size = dst.size := by
              rw [← hq]; simp [String.size]
            have hi : d1._index ≤ d1.size := by
              rw [hsz, ← hq]
              simp only
              omega
            obtain ⟨h1, h2⟩ := ih d1 r.2 dst1 s1 hi h
            exact ⟨by rw [h1, hsz], h2⟩

/-! ## The header of a DER element -/

set_option maxRecDepth 100000 in
theorem idOctet_bits : ∀ id : Nat, id < 256 →
    id &&& 0x1F = id % 32 ∧ (id &&& 0xC0) >>> 6 = id / 64 ∧ (id &&& 0x20) >>> 5 = id / 32 % 2 := by
  decide

/-- `getTagNumber` on the class and identifier octet read by the DER parser. -/
theorem getTagNumber_eq (id : Nat) (hid : id < 256) :
    getTagNumber (asn1_class.cast ((id &&& 0xC0) >>> 6)) id
      = if id % 32 = 31 ∨ (id / 64 = 0 ∧ id % 32 ∉ universalTags)
        then raise exception_t.E_NOT_IMPLEMENTED else Except.ok (id % 32) := by
  obtain ⟨h1, h2, _⟩ := idOctet_bits id hid
  unfold getTagNumber
  rw [h1, h2]
  have hc : asn1_class.cast (id / 64) = asn1_class.C_UNIV ↔ id / 64 = 0 := by
    have h4 : id / 64 < 4 := by omega
    interval_cases (id / 64) <;> decide
  by_cases h31 : id % 32 = 31
  · rw [if_pos h31, if_pos (Or.inl h31)]
  · rw [if_neg h31]
    simp only
    by_cases hu : id / 64 = 0
    · rw [if_pos (hc.mpr hu)]
      by_cases hm : id % 32 ∈ universalTags
      · rw [if_pos hm, if_neg (by tauto)]
      · rw [if_neg hm, if_pos (Or.inr ⟨hu, hm⟩)]
    · rw [if_neg (fun h => hu (hc.mp h)), if_neg (by tauto)]

/-- The constructor `ASN1_BASIC (const String&)` once the identifier octet is read. -/
theorem fromDER_step (pre rest : List Nat) (id : Nat) :
    ASN1_BASIC.fromDER { _str := pre ++ id :: rest, _index := pre.length }
      = derCatch
          (match getTagNumber (asn1_class.cast ((id &&& 0xC0) >>> 6)) id with
           | Except.error t => Except.error t
           | Except.ok tagNumber =>
             match getSize { _str := pre ++ id :: rest, _index := pre.length + 1 } with
             | Except.error t => Except.error t
             | Except.ok (sz, s2) =>
               match s2.popSubstring sz with
               | Except.error t => Except.error t
               | Except.ok (value, s3) =>
                 Except.ok ({ classe := asn1_class.cast ((id &&& 0xC0) >>> 6),
                              method := asn1_method.cast ((id &&& 0x20) >>> 5),
                              tagNumber := tagNumber, value := value }, s3)) := by
  unfold ASN1_BASIC.fromDER
  rw [String.popChar_at]

theorem derCatch_ok_iff {α : Type} (body : Res α) (a : α) :
    derCatch body = Except.ok a ↔ body = Except.ok a := by
  unfold derCatch
  cases body with
  | ok b => simp
  | error t =>
    cases t with
    | ANSSIPKIException e =>
      by_cases h : e = exception_t.E_OUT_OF_BOUNDS_STRING_OPERATION <;> simp [h, raise]
    | fault => simp
    | hang => simp

theorem fromDER_rejected_tag (pre rest : List Nat) (id : Nat) (hid : id < 256)
    (h : id % 32 = 31 ∨ (id / 64 = 0 ∧ id % 32 ∉ universalTags)) :
    ASN1_BASIC.fromDER { _str := pre ++ id :: rest, _index := pre.length }
      = raise exception_t.E_UNEXPECTED_ERROR := by
  rw [fromDER_step, getTagNumber_eq id hid, if_pos h]
  rfl

theorem fromDER_fields (pre rest : List Nat) (id : Nat) (hid : id < 256)
    (x : ASN1_BASIC) (s : String)
    (h : ASN1_BASIC.fromDER { _str := pre ++ id :: rest, _index := pre.length }
      = Except.ok (x, s)) :
    x.classe = asn1_class.cast (id / 64) ∧ x.method = asn1_method.cast (id / 32 % 2) ∧
      x.tagNumber = id % 32 := by
  obtain ⟨_, h2, h3⟩ := idOctet_bits id hid
  rw [fromDER_step, derCatch_ok_iff, getTagNumber_eq id hid, h2, h3] at h
  by_cases hbad : id % 32 = 31 ∨ (id / 64 = 0 ∧ id % 32 ∉ universalTags)
  · rw [if_pos hbad] at h
    simp [raise] at h
  · rw [if_neg hbad] at h
    simp only at h
    cases hs : getSize { _str := pre ++ id :: rest, _index := pre.length + 1 } with
    | error t => rw [hs] at h; simp at h
    | ok r =>
      rw [hs] at h
      simp only at h
      cases hp : r.2.popSubstring r.1 with
      | error t => rw [hp] at h; simp at h
      | ok v =>
        rw [hp] at h
        simp only [Except.ok.injEq, Prod.mk.injEq] at h
        rw [← h.1]
        exact ⟨rfl, rfl, rfl⟩

set_option maxRecDepth 100000 in
theorem idOctetOf_cast : ∀ id : Nat, id < 256 → id % 32 ≠ 31 → ∀ v : String,
    idOctetOf ⟨asn1_class.cast (id / 64), asn1_method.cast (id / 32 % 2), id % 32, v⟩ = id := by
  have h : ∀ id : Nat, id < 256 →
      ((((asn1_class.cast (id / 64)).toNat &&& 0x03) <<< 6)
        ||| (((asn1_method.cast (id / 32 % 2)).toNat &&& 0x01) <<< 5)
        ||| (id % 32 &&& 0x1F)) % 256 = id := by decide
  intro id hid _ v
  exact h id hid

theorem String.popChar_ok (s : String) (c : Nat) (s1 : String)
    (h : s.popChar = Except.ok (c, s1)) :
    s._index < s.size ∧ c = s._str.getD s._index 0 ∧ s1 = { s with _index := s._index + 1 } := by
  unfold String.popChar at h
  by_cases hb : s._index ≥ s.size
  · rw [if_pos hb] at h
    simp [raise] at h
  · rw [if_neg hb] at h
    simp only [Except.ok.injEq, Prod.mk.injEq] at h
    exact ⟨by omega, h.1.symm, h.2.symm⟩

theorem getSizeLoop_str_index : ∀ (k size : Nat) (s : String) (L : Nat) (s2 : String),
    s._index ≤ s.size → getSizeLoop k size s = Except.ok (L, s2) →
    s2._str = s._str ∧ s2._index ≤ s2.size := by
  intro k
  induction k with
  | zero =>
    intro size s L s2 hinv h
    simp only [getSizeLoop, Except.ok.injEq, Prod.mk.injEq] at h
    rw [← h.2]
    exact ⟨rfl, hinv⟩
  | succ k ih =>
    intro size s L s2 _ h
    rw [getSizeLoop] at h
    cases hp : s.popChar with
    | error t => rw [hp] at h; simp at h
    | ok r =>
      rw [hp] at h
      simp only at h
      obtain ⟨hlt, _, hs1⟩ := String.popChar_ok s r.1 r.2 hp
      have hinv1 : r.2._index ≤ r.2.size := by
        rw [hs1]
        exact hlt
      obtain ⟨h1, h2⟩ := ih _ r.2 L s2 hinv1 h
      exact ⟨by rw [h1, hs1], h2⟩

/-- `getSize` moves the index only, and not beyond the end. -/
theorem getSize_str_index (s : String) (L : Nat) (s2 : String) (hinv : s._index ≤ s.size)
    (h : getSize s = Except.ok (L, s2)) : s2._str = s._str ∧ s2._index ≤ s2.size := by
  unfold getSize at h
  rw [derCatch_ok_iff] at h
  unfold getSizeBody at h
  cases hg : s.getChar with
  | error t => rw [hg] at h; simp at h
  | ok c =>
    rw [hg] at h
    simp only at h
    by_cases hc : c &&& 0x80 ≠ 0
    · rw [if_pos hc] at h
      cases hp : s.popChar with
      | error t => rw [hp] at h; simp at h
      | ok r =>
        rw [hp] at h
        simp only at h
        obtain ⟨hlt, _, hs1⟩ := String.popChar_ok s r.1 r.2 hp
        by_cases h5 : c &&& 0x7f ≥ 5
        · rw [if_pos h5] at h
          simp [raise] at h
        · rw [if_neg h5] at h
          have hinv1 : r.2._index ≤ r.2.size := by
            rw [hs1]
            exact hlt
          obtain ⟨h1, h2⟩ := getSizeLoop_str_index _ 0 r.2 L s2 hinv1 h
          exact ⟨by rw [h1, hs1], h2⟩
    · rw [if_neg hc] at h
      exact getSizeLoop_str_index 1 0 s L s2 hinv h

theorem getSize_indefinite (pre rest : List Nat) :
    getSize { _str := pre ++ 0x80 :: rest, _index := pre.length }
      = Except.ok (0, { _str := pre ++ 0x80 :: rest, _index := pre.length + 1 }) := by
  unfold getSize getSizeBody
  rw [String.getChar_at]
  simp only
  rw [if_pos (by decide), String.popChar_at]
  simp only
  rw [if_neg (by decide)]
  rfl

set_option maxRecDepth 100000 in
theorem long_form_bits : ∀ c : Nat, c < 256 → 0x85 ≤ c → c &&& 0x80 ≠ 0 ∧ c &&& 0x7f ≥ 5 := by
  decide

theorem getSize_too_long (pre rest : List Nat) (c : Nat) (h1 : 0x85 ≤ c) (h2 : c < 256) :
    getSize { _str := pre ++ c :: rest, _index := pre.length }
      = raise exception_t.E_UNEXPECTED_ERROR := by
  have hbits := long_form_bits
  obtain ⟨hb1, hb2⟩ := hbits c h2 h1
  unfold getSize getSizeBody
  rw [String.getChar_at]
  simp only
  rw [if_pos hb1, String.popChar_at]
  simp only
  rw [if_pos hb2]
  rfl

theorem fromDER_at_end (S : List Nat) :
    ASN1_BASIC.fromDER { _str := S, _index := S.length }
      = raise exception_t.E_DER_INVALID_FILE := by
  unfold ASN1_BASIC.fromDER String.popChar String.size
  rw [if_pos (by simp)]
  rfl

theorem fromDER_indefinite (pre tail : List Nat) (id : Nat) (hid : id < 256)
    (htag : ¬ (id % 32 = 31 ∨ (id / 64 = 0 ∧ id % 32 ∉ universalTags)))
    (hsz : (pre ++ id :: 0x80 :: tail).length < 2 ^ 64) :
    ASN1_BASIC.fromDER { _str := pre ++ id :: 0x80 :: tail, _index := pre.length }
      = Except.ok ({ classe := asn1_class.cast (id / 64),
                     method := asn1_method.cast (id / 32 % 2), tagNumber := id % 32,
                     value := String.empty },
                   { _str := pre ++ id :: 0x80 :: tail, _index := pre.length + 2 }) := by
  obtain ⟨_, h2, h3⟩ := idOctet_bits id hid
  rw [fromDER_step, getTagNumber_eq id hid, if_neg htag, h2, h3]
  simp only
  have hg := getSize_indefinite (pre ++ [id]) tail
  simp only [List.append_assoc, List.singleton_append, List.length_append,
    List.length_singleton] at hg
  rw [hg]
  simp only
  have hp := String.popSubstring_at (pre ++ [id, 0x80]) [] tail
    (by simpa using hsz)
  simp only [List.append_assoc, List.cons_append, List.nil_append, List.length_append,
    List.length_cons, List.length_nil, List.length_singleton, Nat.add_zero] at hp
  rw [show pre.length + (0 + 1 + 1) = pre.length + 1 + 1 by omega] at hp
  rw [hp]
  rfl

theorem fromDER_too_long (pre tail : List Nat) (id c : Nat) (hid : id < 256)
    (h1 : 0x85 ≤ c) (h2 : c < 256) :
    ASN1_BASIC.fromDER { _str := pre ++ id :: c :: tail, _index := pre.length }
      = raise exception_t.E_UNEXPECTED_ERROR := by
  rw [fromDER_step, getTagNumber_eq id hid]
  by_cases hbad : id % 32 = 31 ∨ (id / 64 = 0 ∧ id % 32 ∉ universalTags)
  · rw [if_pos hbad]
    rfl
  · rw [if_neg hbad]
    simp only
    have hg := getSize_too_long (pre ++ [id]) tail c h1 h2
    simp only [List.append_assoc, List.singleton_append, List.length_append,
      List.length_singleton] at hg
    rw [hg]
    rfl

theorem fromDER_truncated_content (pre rest : List Nat) (id : Nat) (hid : id < 256)
    (htag : ¬ (id % 32 = 31 ∨ (id / 64 = 0 ∧ id % 32 ∉ universalTags)))
    (hsz : (pre ++ id :: rest).length < 2 ^ 63) (L : Nat) (s2 : String)
    (hg : getSize { _str := pre ++ id :: rest, _index := pre.length + 1 } = Except.ok (L, s2))
    (hL : L < 2 ^ 31) (hshort : (pre ++ id :: rest).length < s2._index + L) :
    ASN1_BASIC.fromDER { _str := pre ++ id :: rest, _index := pre.length }
      = raise exception_t.E_DER_INVALID_FILE := by
  obtain ⟨hstr, hidx⟩ := getSize_str_index _ L s2 (by simp [String.size]) hg
  rw [fromDER_step, getTagNumber_eq id hid, if_neg htag]
  simp only
  rw [hg]
  simp only
  have hsize : s2.size = (pre ++ id :: rest).length := by
    unfold String.size
    rw [hstr]
  have hsub : s2.substring s2._index L = raise exception_t.E_OUT_OF_BOUNDS_STRING_OPERATION :=
    String.substring_out_of_range s2 s2._index L (by omega) (by omega)
  unfold String.popSubstring
  rw [hsub]
  rfl

/-- The parts of the cursor contract that the code keeps: `popChar` and `pushChar` raise
`OutOfBoundsStringOperation` when the index is at or past the end, `getChar` when it is past
the end; within bounds the three do what their documentation says. -/
theorem String.cursor_rules (s : String) :
    (s._index ≥ s.size →
      s.popChar = raise exception_t.E_OUT_OF_BOUNDS_STRING_OPERATION ∧
      ∀ c, s.pushChar c = raise exception_t.E_OUT_OF_BOUNDS_STRING_OPERATION) ∧
    (s._index > s.size → s.getChar = raise exception_t.E_OUT_OF_BOUNDS_STRING_OPERATION) ∧
    (s._index < s.size →
      s.getChar = Except.ok (s._str.getD s._index 0) ∧
      s.popChar = Except.ok (s._str.getD s._index 0, { s with _index := s._index + 1 }) ∧
      ∀ c, s.pushChar c
        = Except.ok { _str := s._str.set s._index c, _index := s._index + 1 }) := by
  refine ⟨fun h => ⟨?_, fun c => ?_⟩, fun h => ?_, fun h => ⟨?_, ?_, fun c => ?_⟩⟩
  · unfold String.popChar; rw [if_pos h]
  · unfold String.pushChar; rw [if_pos h]
  · unfold String.getChar; rw [if_pos h]
  · unfold String.getChar; rw [if_neg (by omega), if_pos h]
  · unfold String.popChar; rw [if_neg (by omega)]
  · unfold String.pushChar; rw [if_neg (by omega)]

/-- The invariant `_index ≤ _size` is kept by every exploration function that returns. -/
theorem String.cursor_invariant (s : String) (hinv : s._index ≤ s.size) :
    (∀ start s1, s.initIndex start = Except.ok s1 → s1._index ≤ s1.size) ∧
    (∀ c s1, s.popChar = Except.ok (c, s1) → s1._index ≤ s1.size) ∧
    (∀ len r s1, s.popSubstring len = Except.ok (r, s1) → s1._index ≤ s1.size) ∧
    (∀ line s1, s.popLine = Except.ok (line, s1) → s1._index ≤ s1.size) ∧
    (∀ c s1, s.pushChar c = Except.ok s1 → s1._index ≤ s1.size) ∧
    (∀ src s1 src1, s.pushString src = Except.ok (s1, src1) → s1._index ≤ s1.size) := by
  refine ⟨?_, ?_, ?_, ?_, ?_, ?_⟩
  · intro start s1 h
    unfold String.initIndex at h
    by_cases hb : start > s.size
    · rw [if_pos hb] at h; simp [raise] at h
    · rw [if_neg hb] at h
      simp only [Except.ok.injEq] at h
      rw [← h]
      exact not_lt.mp hb
  · intro c s1 h
    obtain ⟨hlt, _, hs1⟩ := String.popChar_ok s c s1 h
    rw [hs1]
    exact hlt
  · intro len r s1 h
    unfold String.popSubstring at h
    cases hs : s.substring s._index len with
    | error t => rw [hs] at h; simp at h
    | ok sub =>
      rw [hs] at h
      simp only [Except.ok.injEq, Prod.mk.injEq] at h
      rw [← h.2]
      exact String.substring_ok_bound s s._index len sub hs
  · intro line s1 h
    unfold String.popLine at h
    by_cases he : s.eof = true
    · rw [if_pos he] at h; simp [raise] at h
    · rw [if_neg he] at h
      exact (String.popLineLoop_index _ s _ _ line s1 hinv h).2
  · intro c s1 h
    unfold String.pushChar at h
    by_cases hb : s._index ≥ s.size
    · rw [if_pos hb] at h; simp [raise] at h
    · rw [if_neg hb] at h
      simp only [Except.ok.injEq] at h
      rw [← h]
      simp only [String.size, List.length_set]
      unfold String.size at hb
      omega
  · intro src s1 src1 h
    unfold String.pushString at h
    cases hi : src.initIndex 0 with
    | error t => rw [hi] at h; simp at h
    | ok s0 =>
      rw [hi] at h
      exact (String.pushStringLoop_index _ s s0 s1 src1 hinv h).2

/-! ## Import of a private key -/

/-- A `try` statement whose handler returns `false` ends with `true` only when the statement
did not throw. -/
theorem tryStep_true {α : Type} (r : Res α) (k0 : RSAKey) (cont : α → Res (Bool × RSAKey))
    (k1 : RSAKey) (h : tryStep r (Except.ok (false, k0)) cont = Except.ok (true, k1)) :
    ∃ a, r = Except.ok a ∧ cont a = Except.ok (true, k1) := by
  unfold tryStep at h
  cases r with
  | ok a => exact ⟨a, rfl, h⟩
  | error t =>
    cases t with
    | ANSSIPKIException e => simp at h
    | fault => simp at h
    | hang => simp at h

/-- A `try` statement whose handler returns does not let a library exception out, when the
rest of the block does not. -/
theorem tryStep_no_exception {α β : Type} (r : Res α) (b : β) (cont : α → Res β)
    (e : exception_t) (hc : ∀ a, cont a ≠ Except.error (Thrown.ANSSIPKIException e)) :
    tryStep r (Except.ok b) cont ≠ Except.error (Thrown.ANSSIPKIException e) := by
  unfold tryStep
  cases r with
  | ok a => exact hc a
  | error t =>
    cases t with
    | ANSSIPKIException e2 => simp
    | fault => simp
    | hang => simp

theorem setFromASN1PrivateKey_no_exception (k : RSAKey) (DERString : String)
    (e : exception_t) :
    k.setFromASN1PrivateKey DERString ≠ Except.error (Thrown.ANSSIPKIException e) := by
  unfold RSAKey.setFromASN1PrivateKey
  by_cases hi : k._initialized = true
  · rw [if_pos hi]; simp
  · rw [if_neg hi]
    refine tryStep_no_exception _ _ _ e (fun r0 => ?_)
    refine tryStep_no_exception _ _ _ e (fun r1 => ?_)
    refine tryStep_no_exception _ _ _ e (fun r2 => ?_)
    refine tryStep_no_exception _ _ _ e (fun r3 => ?_)
    refine tryStep_no_exception _ _ _ e (fun r4 => ?_)
    refine tryStep_no_exception _ _ _ e (fun r5 => ?_)
    refine tryStep_no_exception _ _ _ e (fun r6 => ?_)
    simp

theorem setFromASN1PrivateKeyInfo_no_exception (k : RSAKey) (DERString : String)
    (e : exception_t) :
    k.setFromASN1PrivateKeyInfo DERString ≠ Except.error (Thrown.ANSSIPKIException e) := by
  unfold RSAKey.setFromASN1PrivateKeyInfo
  by_cases hi : k._initialized = true
  · rw [if_pos hi]; simp
  · rw [if_neg hi]
    refine tryStep_no_exception _ _ _ e (fun r0 => ?_)
    refine tryStep_no_exception _ _ _ e (fun r1 => ?_)
    refine tryStep_no_exception _ _ _ e (fun r2 => ?_)
    refine tryStep_no_exception _ _ _ e (fun r3 => ?_)
    refine tryStep_no_exception _ _ _ e (fun r4 => ?_)
    simp

theorem setFromASN1PrivateKey_true (k k1 : RSAKey) (DERString : String)
    (hk : k._initialized = false)
    (h : k.setFromASN1PrivateKey DERString = Except.ok (true, k1)) :
    ∃ (content s0 : String) (version : ASN1_BASIC) (c1 : String) (n : Int) (c2 : String)
      (e : Int) (c3 : String) (d : Int) (c4 : String) (p : Int) (c5 : String) (q : Int)
      (c6 : String),
      decapsulate DERString T_SEQU = Except.ok (content, s0) ∧
      ASN1_BASIC.fromDER (String.ofBytes content._str) = Except.ok (version, c1) ∧
      getNextInt c1 = Except.ok (n, c2) ∧ getNextInt c2 = Except.ok (e, c3) ∧
      getNextInt c3 = Except.ok (d, c4) ∧ getNextInt c4 = Except.ok (p, c5) ∧
      getNextInt c5 = Except.ok (q, c6) ∧
      k1 = { _initialized := true, _n := n, _d := d, _p := p, _q := q, _e := e } := by
  unfold RSAKey.setFromASN1PrivateKey at h
  rw [hk] at h
  simp only [Bool.false_eq_true, if_false] at h
  obtain ⟨r0, h0, h⟩ := tryStep_true _ _ _ _ h
  obtain ⟨r1, h1, h⟩ := tryStep_true _ _ _ _ h
  obtain ⟨r2, h2, h⟩ := tryStep_true _ _ _ _ h
  obtain ⟨r3, h3, h⟩ := tryStep_true _ _ _ _ h
  obtain ⟨r4, h4, h⟩ := tryStep_true _ _ _ _ h
  obtain ⟨r5, h5, h⟩ := tryStep_true _ _ _ _ h
  obtain ⟨r6, h6, h⟩ := tryStep_true _ _ _ _ h
  simp only [Except.ok.injEq, Prod.mk.injEq, true_and] at h
  exact ⟨r0.1, r0.2, r1.1, r1.2, r2.1, r2.2, r3.1, r3.2, r4.1, r4.2, r5.1, r5.2, r6.1, r6.2,
    h0, h1, h2, h3, h4, h5, h6, h.symm⟩

theorem setFromASN1PrivateKeyInfo_true (k k1 : RSAKey) (DERString : String)
    (hk : k._initialized = false)
    (h : k.setFromASN1PrivateKeyInfo DERString = Except.ok (true, k1)) :
    ∃ (content s0 : String) (version : ASN1_BASIC) (c1 oid c2 prkey c3 : String),
      decapsulate DERString T_SEQU = Except.ok (content, s0) ∧
      ASN1_BASIC.fromDER (String.ofBytes content._str) = Except.ok (version, c1) ∧
      decapsulate c1 T_SEQU = Except.ok (oid, c2) ∧
      decapsulate c2 T_OSTR = Except.ok (prkey, c3) ∧
      k.setFromASN1PrivateKey (String.ofBytes prkey._str) = Except.ok (true, k1) := by
  unfold RSAKey.setFromASN1PrivateKeyInfo at h
  rw [hk] at h
  simp only [Bool.false_eq_true, if_false] at h
  obtain ⟨r0, h0, h⟩ := tryStep_true _ _ _ _ h
  obtain ⟨r1, h1, h⟩ := tryStep_true _ _ _ _ h
  obtain ⟨r2, h2, h⟩ := tryStep_true _ _ _ _ h
  obtain ⟨r3, h3, h⟩ := tryStep_true _ _ _ _ h
  obtain ⟨r4, h4, h⟩ := tryStep_true _ _ _ _ h
  simp only [Except.ok.injEq] at h
  rw [h] at h4
  exact ⟨r0.1, r0.2, r1.1, r1.2, r2.1, r2.2, r3.1, r3.2, h0, h1, h2, h3, h4⟩

/-- An announced length of `2^32 - 1` bytes is sign-extended by `getSize` (the shift is done
on an `int`), `start + len` wraps around in `substring`, and the import ends in an invalid
memory access, which `catch (ANSSIPKIException &e)` does not catch. -/
theorem setFromASN1PrivateKey_wrapping_length :
    RSAKey.new.setFromASN1PrivateKey (String.ofBytes [0x30, 0x84, 0xFF, 0xFF, 0xFF, 0xFF])
      = Except.error Thrown.fault := by
  decide

/-- An import through `setFromASN1PrivateKeyInfo` that succeeds. -/
theorem setFromASN1PrivateKeyInfo_example :
    RSAKey.new.setFromASN1PrivateKeyInfo
        (String.ofBytes [0x30, 0x1B, 0x02, 0x01, 0x00, 0x30, 0x00, 0x04, 0x14,
          0x30, 0x12, 0x02, 0x01, 0x00, 0x02, 0x01, 0x0F, 0x02, 0x01, 0x03, 0x02, 0x01, 0x03,
          0x02, 0x01, 0x03, 0x02, 0x01, 0x05])
      = Except.ok (true, { _initialized := true, _n := 15, _d := 3, _p := 3, _q := 5, _e := 3 }) := by
  decide

/-! ## Hexadecimal conversions -/

theorem fromHexa_of_isHexDigit (c : Nat) (h : isHexDigit c) :
    fromHexa c = Except.ok (hexDigitValue c) ∧ hexDigitValue c < 16 := by
  unfold isHexDigit at h
  unfold fromHexa hexDigitValue
  rcases h with h | h | h
  · rw [if_pos h, if_pos h.2]
    exact ⟨rfl, by omega⟩
  · rw [if_neg (by omega), if_pos h, if_neg (by omega), if_pos h.2]
    have he : c + 10 - 65 = c - 55 := by omega
    rw [he]
    exact ⟨rfl, by omega⟩
  · rw [if_neg (by omega), if_neg (by omega), if_pos h, if_neg (by omega), if_neg (by omega)]
    have he : c + 10 - 97 = c - 87 := by omega
    rw [he]
    exact ⟨rfl, by omega⟩

theorem fromHexa_of_not_isHexDigit (c : Nat) (h : ¬ isHexDigit c) :
    fromHexa c = raise exception_t.E_INVALID_HEXA_STRING := by
  unfold isHexDigit at h
  unfold fromHexa
  rw [if_neg (by tauto), if_neg (by tauto), if_neg (by tauto)]

theorem fromHexa_cases (c : Nat) :
    (∃ v, fromHexa c = Except.ok v) ∨ fromHexa c = raise exception_t.E_INVALID_HEXA_STRING := by
  by_cases h : isHexDigit c
  · exact Or.inl ⟨_, (fromHexa_of_isHexDigit c h).1⟩
  · exact Or.inr (fromHexa_of_not_isHexDigit c h)

theorem nibble_pair (a b : Nat) (ha : a < 16) (hb : b < 16) :
    ((a <<< 4) ||| b) % 256 = 16 * a + b := by
  have h : ∀ a : Nat, a < 16 → ∀ b : Nat, b < 16 → ((a <<< 4) ||| b) % 256 = 16 * a + b := by
    decide
  exact h a ha b hb

theorem pairBytes_eq_nibblesToBytes : ∀ (ds : List Nat), (∀ d ∈ ds, d < 16) →
    pairBytes ds = nibblesToBytes ds
  | [], _ => rfl
  | [_], _ => rfl
  | a :: b :: rest, h => by
    rw [pairBytes, nibblesToBytes, nibble_pair a b (h a (by simp)) (h b (by simp)),
      pairBytes_eq_nibblesToBytes rest (fun d hd => h d (by simp [hd]))]

/-- The loop of `asciiHexaToBignum` on hexadecimal digits. -/
theorem hexPairsLoop_digits : ∀ (cs : List Nat) (n : Nat), (∀ c ∈ cs, isHexDigit c) →
    cs.length = 2 * n →
    hexPairsLoop n cs = Except.ok (nibblesToBytes (cs.map hexDigitValue))
  | [], n, _, hl => by
    have : n = 0 := by simp at hl; omega
    subst this
    rfl
  | [a], n, _, hl => by simp at hl; omega
  | a :: b :: rest, n, hd, hl => by
    obtain ⟨m, rfl⟩ : ∃ m, n = m + 1 := ⟨n - 1, by simp at hl; omega⟩
    obtain ⟨ha, ha2⟩ := fromHexa_of_isHexDigit a (hd a (by simp))
    obtain ⟨hb, hb2⟩ := fromHexa_of_isHexDigit b (hd b (by simp))
    have hrest := hexPairsLoop_digits rest m (fun d hd2 => hd d (by simp [hd2]))
      (by simp at hl; omega)
    rw [hexPairsLoop, ha, hb]
    simp only [hrest, List.map_cons, nibblesToBytes, nibble_pair _ _ ha2 hb2]

/-- The loop of `asciiHexaToBignum` when some character is not a hexadecimal digit. -/
theorem hexPairsLoop_invalid : ∀ (cs : List Nat) (n : Nat), (∃ c ∈ cs, ¬ isHexDigit c) →
    cs.length = 2 * n →
    hexPairsLoop n cs = raise exception_t.E_INVALID_HEXA_STRING
  | [], _, hd, _ => by simp at hd
  | [a], n, _, hl => by simp at hl; omega
  | a :: b :: rest, n, hd, hl => by
    obtain ⟨m, rfl⟩ : ∃ m, n = m + 1 := ⟨n - 1, by simp at hl; omega⟩
    rw [hexPairsLoop]
    by_cases ha : isHexDigit a
    · rw [(fromHexa_of_isHexDigit a ha).1]
      simp only
      by_cases hb : isHexDigit b
      · rw [(fromHexa_of_isHexDigit b hb).1]
        simp only
        have hrest : ∃ c ∈ rest, ¬ isHexDigit c := by
          obtain ⟨c, hc, hn⟩ := hd
          simp only [List.mem_cons] at hc
          rcases hc with h | h | h
          · exact absurd (h ▸ ha) hn
          · exact absurd (h ▸ hb) hn
          · exact ⟨c, h, hn⟩
        rw [hexPairsLoop_invalid rest m hrest (by simp at hl; omega)]
        rfl
      · rw [fromHexa_of_not_isHexDigit b hb]
        rfl
    · rw [fromHexa_of_not_isHexDigit a ha]
      rfl

theorem asciiHexaToBignum_valid (cs : List Nat) (h : ∀ c ∈ cs, isHexDigit c) :
    String.asciiHexaToBignum (String.ofBytes cs) = Except.ok (String.ofBytes (hexDecode cs)) := by
  unfold String.asciiHexaToBignum hexDecode
  simp only [String.size, String.ofBytes]
  by_cases hodd : cs.length % 2 = 1
  · rw [if_pos hodd, if_pos hodd]
    cases cs with
    | nil => simp at hodd
    | cons a rest =>
      obtain ⟨ha, ha2⟩ := fromHexa_of_isHexDigit a (h a (by simp))
      simp only [ha]
      have hlen : rest.length = 2 * ((a :: rest).length / 2 + (a :: rest).length % 2 - 1) := by
        simp only [List.length_cons] at hodd ⊢
        omega
      rw [hexPairsLoop_digits rest _ (fun c hc => h c (by simp [hc])) hlen]
      simp only [List.map_cons, nibblesToBytes]
      rw [Nat.mod_eq_of_lt (by omega)]
      simp
  · rw [if_neg hodd, if_neg hodd]
    have hlen : cs.length = 2 * (cs.length / 2 + cs.length % 2) := by omega
    rw [hexPairsLoop_digits cs _ h hlen]

theorem asciiHexaToBignum_invalid (cs : List Nat) (h : ∃ c ∈ cs, ¬ isHexDigit c) :
    String.asciiHexaToBignum (String.ofBytes cs)
      = raise exception_t.E_INVALID_HEXA_STRING := by
  unfold String.asciiHexaToBignum
  simp only [String.size, String.ofBytes]
  by_cases hodd : cs.length % 2 = 1
  · rw [if_pos hodd]
    cases cs with
    | nil => simp at hodd
    | cons a rest =>
      simp only
      by_cases ha : isHexDigit a
      · rw [(fromHexa_of_isHexDigit a ha).1]
        simp only
        have hrest : ∃ c ∈ rest, ¬ isHexDigit c := by
          obtain ⟨c, hc, hn⟩ := h
          simp only [List.mem_cons] at hc
          rcases hc with h1 | h1
          · exact absurd (h1 ▸ ha) hn
          · exact ⟨c, h1, hn⟩
        have hlen : rest.length
            = 2 * ((a :: rest).length / 2 + (a :: rest).length % 2 - 1) := by
          simp only [List.length_cons] at hodd ⊢
          omega
        rw [hexPairsLoop_invalid rest _ hrest hlen]
        rfl
      · rw [fromHexa_of_not_isHexDigit a ha]
        rfl
  · rw [if_neg hodd]
    have hlen : cs.length = 2 * (cs.length / 2 + cs.length % 2) := by omega
    rw [hexPairsLoop_invalid cs _ h hlen]
    rfl

theorem hexa_upper (d : Nat) (h : d < 16) :
    ((48 ≤ hexa d ∧ hexa d ≤ 57) ∨ (65 ≤ hexa d ∧ hexa d ≤ 70)) ∧ hexDigitValue (hexa d) = d := by
  have : ∀ d : Nat, d < 16 →
      ((48 ≤ hexa d ∧ hexa d ≤ 57) ∨ (65 ≤ hexa d ∧ hexa d ≤ 70)) ∧ hexDigitValue (hexa d) = d := by
    decide
  exact this d h

/-- What `bignumToAsciiHexa ()` writes: two upper-case digits per byte, which denote the
byte. -/
theorem bignumToAsciiHexaLoop_spec : ∀ (bs : List Nat), (∀ b ∈ bs, b < 256) →
    (bignumToAsciiHexaLoop 0 bs).length = 2 * bs.length ∧
    (∀ c ∈ bignumToAsciiHexaLoop 0 bs, (48 ≤ c ∧ c ≤ 57) ∨ (65 ≤ c ∧ c ≤ 70)) ∧
    nibblesToBytes ((bignumToAsciiHexaLoop 0 bs).map hexDigitValue) = bs
  | [], _ => by simp [bignumToAsciiHexaLoop, nibblesToBytes]
  | b :: rest, h => by
    have hb : b < 256 := h b (by simp)
    obtain ⟨hhi, hlo⟩ := byte_nibbles b hb
    obtain ⟨h1, h2, h3⟩ := bignumToAsciiHexaLoop_spec rest (fun x hx => h x (by simp [hx]))
    obtain ⟨u1, v1⟩ := hexa_upper (b / 16) (by omega)
    obtain ⟨u2, v2⟩ := hexa_upper (b % 16) (by omega)
    have hstep : bignumToAsciiHexaLoop 0 (b :: rest)
        = hexa (b / 16) :: hexa (b % 16) :: bignumToAsciiHexaLoop 0 rest := by
      simp [bignumToAsciiHexaLoop, hhi, hlo]
    rw [hstep]
    refine ⟨by simp [h1]; omega, ?_, ?_⟩
    · intro c hc
      simp only [List.mem_cons] at hc
      rcases hc with hc | hc | hc
      · rw [hc]; exact u1
      · rw [hc]; exact u2
      · exact h2 c hc
    · simp only [List.map_cons, nibblesToBytes, v1, v2, h3]
      congr 1
      omega

/-! ## Dates -/

theorem String.popSubstring_ok (S : List Nat) (i len : Nat) (h : i + len ≤ S.length)
    (hsz : S.length < 2 ^ 64) :
    String.popSubstring { _str := S, _index := i } len
      = Except.ok (String.ofBytes ((S.drop i).take len), { _str := S, _index := i + len }) := by
  unfold String.popSubstring
  rw [String.substring_in_range _ i len (by simpa [String.size] using h)
    (by simpa [String.size] using hsz)]
  simp only [SIZE_T_RANGE]
  rw [Nat.mod_eq_of_lt (by omega)]

theorem String.popSubstring_oob (S : List Nat) (i len : Nat) (h : S.length < i + len)
    (hw : i + len < 2 ^ 64) :
    String.popSubstring { _str := S, _index := i } len
      = raise exception_t.E_OUT_OF_BOUNDS_STRING_OPERATION := by
  unfold String.popSubstring
  rw [String.substring_out_of_range _ i len (by simpa [String.size] using h) hw]
  rfl

/-- A date of fewer than ten bytes: one of the five `popSubstring (2)` is out of bounds. -/
theorem dateToStringBody_short (S : List Nat) (i : Nat) (h : S.length < 10) :
    dateToStringBody { _str := S, _index := i }
      = raise exception_t.E_OUT_OF_BOUNDS_STRING_OPERATION := by
  unfold dateToStringBody String.initIndex
  rw [if_neg (by omega)]
  simp only
  by_cases h2 : S.length < 2
  · rw [String.popSubstring_oob S 0 2 (by omega) (by omega)]; rfl
  rw [String.popSubstring_ok S 0 2 (by omega) (by omega)]
  simp only
  by_cases h4 : S.length < 4
  · rw [String.popSubstring_oob S (0 + 2) 2 (by omega) (by omega)]; rfl
  rw [String.popSubstring_ok S (0 + 2) 2 (by omega) (by omega)]
  simp only
  by_cases h6 : S.length < 6
  · rw [String.popSubstring_oob S (0 + 2 + 2) 2 (by omega) (by omega)]; rfl
  rw [String.popSubstring_ok S (0 + 2 + 2) 2 (by omega) (by omega)]
  simp only
  by_cases h8 : S.length < 8
  · rw [String.popSubstring_oob S (0 + 2 + 2 + 2) 2 (by omega) (by omega)]; rfl
  rw [String.popSubstring_ok S (0 + 2 + 2 + 2) 2 (by omega) (by omega)]
  simp only
  rw [String.popSubstring_oob S (0 + 2 + 2 + 2 + 2) 2 (by omega) (by omega)]
  rfl

/-- The `try` block of `dateToString` once the five fields are read. -/
theorem dateToStringBody_long (S : List Nat) (i : Nat) (h : 10 ≤ S.length)
    (hsz : S.length < 2 ^ 64) :
    dateToStringBody { _str := S, _index := i }
      = match String.getChar { _str := S, _index := 10 } with
        | Except.error t => Except.error t
        | Except.ok c =>
          match (if c ≠ 90 ∧ ¬ String.eof { _str := S, _index := 10 } = true then
                   String.popSubstring { _str := S, _index := 10 } 2
                 else Except.ok (String.ofBytes [48, 48], { _str := S, _index := 10 })) with
          | Except.error t => Except.error t
          | Except.ok (second, d6) =>
            match d6.popChar with
            | Except.error t => Except.error t
            | Except.ok (z, d7) =>
              if z ≠ 90 ∨ ¬ d7.eof = true then Except.ok (String.ofBytes S)
              else
                Except.ok (String.ofBytes ([108, 101, 32] ++ (S.drop 4).take 2 ++ [47]
                  ++ (S.drop 2).take 2 ++ [47, 50, 48] ++ S.take 2 ++ [32, 0xC3, 0xA0, 32]
                  ++ (S.drop 6).take 2 ++ [58] ++ (S.drop 8).take 2 ++ [58] ++ second._str)) := by
  unfold dateToStringBody String.initIndex
  rw [if_neg (by omega)]
  simp only
  rw [String.popSubstring_ok S 0 2 (by omega) hsz]
  simp only
  rw [String.popSubstring_ok S (0 + 2) 2 (by omega) hsz]
  simp only
  rw [String.popSubstring_ok S (0 + 2 + 2) 2 (by omega) hsz]
  simp only
  rw [String.popSubstring_ok S (0 + 2 + 2 + 2) 2 (by omega) hsz]
  simp only
  rw [String.popSubstring_ok S (0 + 2 + 2 + 2 + 2) 2 (by omega) hsz]
  simp only [List.drop_zero, Nat.zero_add, Nat.reduceAdd, String.append, String.ofBytes,
    List.append_assoc]

theorem String.getChar_in (S : List Nat) (i : Nat) (h : i < S.length) :
    String.getChar { _str := S, _index := i } = Except.ok (S.getD i 0) := by
  unfold String.getChar String.size
  rw [if_neg (by simp only; omega), if_pos h]

theorem String.popChar_in (S : List Nat) (i : Nat) (h : i < S.length) :
    String.popChar { _str := S, _index := i }
      = Except.ok (S.getD i 0, { _str := S, _index := i + 1 }) := by
  unfold String.popChar String.size
  rw [if_neg (by simp only; omega)]

theorem String.popChar_end (S : List Nat) (i : Nat) (h : S.length ≤ i) :
    String.popChar { _str := S, _index := i }
      = raise exception_t.E_OUT_OF_BOUNDS_STRING_OPERATION := by
  unfold String.popChar String.size
  rw [if_pos h]

theorem readableDate_length (S : List Nat) (h : 11 ≤ S.length) :
    (readableDate S).length = 25 := by
  unfold readableDate
  by_cases h13 : S.length = 13
  · rw [if_pos h13]
    simp only [List.length_append, List.length_take, List.length_drop, List.length_cons,
      List.length_nil]
    omega
  · rw [if_neg h13]
    simp only [List.length_append, List.length_take, List.length_drop, List.length_cons,
      List.length_nil]
    omega

/-- What `dateToString` returns: the readable form for the dates of the shape it looks for,
a copy of the date for every other one. -/
theorem dateToString_eq (S : List Nat) (i : Nat) (hsz : S.length < 2 ^ 64) :
    dateToString { _str := S, _index := i }
      = Except.ok (String.ofBytes (if hasDateShape S then readableDate S else S)) := by
  unfold dateToString
  by_cases h10 : S.length < 10
  · rw [dateToStringBody_short S i h10, if_neg (by unfold hasDateShape; omega)]
    rfl
  rw [dateToStringBody_long S i (by omega) hsz]
  by_cases h11 : S.length = 10
  · have hg : String.getChar { _str := S, _index := 10 } = Except.ok 0 := by
      unfold String.getChar String.size
      rw [if_neg (by simp only; omega), if_neg (by simp only; omega),
        if_neg (by simp only; omega)]
    have he : String.eof { _str := S, _index := 10 } = true := by
      simp [String.eof, String.size, h11]
    rw [hg]
    simp only [he, not_true_eq_false, and_false, if_false]
    rw [String.popChar_end S 10 (by omega), if_neg (by unfold hasDateShape; omega)]
    rfl
  have hlen : 11 ≤ S.length := by omega
  have he : String.eof { _str := S, _index := 10 } = false := by
    simp [String.eof, String.size]; omega
  rw [String.getChar_in S 10 (by omega)]
  simp only [he, Bool.false_eq_true, not_false_eq_true, and_true]
  by_cases hz : S.getD 10 0 = 90
  · rw [if_neg (fun h => h hz)]
    simp only
    rw [String.popChar_in S 10 (by omega)]
    simp only
    by_cases hn : S.length = 11
    · have he2 : String.eof { _str := S, _index := 10 + 1 } = true := by
        simp [String.eof, String.size, hn]
      have hshape : hasDateShape S := Or.inl ⟨hn, hz⟩
      rw [if_neg (fun h => h.elim (fun h1 => h1 hz) (fun h2 => h2 he2)), if_pos hshape]
      unfold readableDate
      rw [if_neg (by omega)]
      rfl
    · have he2 : String.eof { _str := S, _index := 10 + 1 } = false := by
        simp [String.eof, String.size]; omega
      have hnshape : ¬ hasDateShape S := by unfold hasDateShape; omega
      rw [if_pos (Or.inr (by rw [he2]; decide)), if_neg hnshape]
  · rw [if_pos hz]
    by_cases h12 : S.length < 12
    · rw [String.popSubstring_oob S 10 2 (by omega) (by omega),
        if_neg (by unfold hasDateShape; omega)]
      rfl
    rw [String.popSubstring_ok S 10 2 (by omega) hsz]
    simp only
    by_cases h13 : S.length < 13
    · rw [String.popChar_end S (10 + 2) (by omega), if_neg (by unfold hasDateShape; omega)]
      rfl
    rw [String.popChar_in S (10 + 2) (by omega)]
    simp only
    by_cases hz2 : S.getD (10 + 2) 0 = 90
    · by_cases hn : S.length = 13
      · have he2 : String.eof { _str := S, _index := 10 + 2 + 1 } = true := by
          simp [String.eof, String.size, hn]
        have hshape : hasDateShape S := Or.inr ⟨hn, hz, hz2⟩
        rw [if_neg (fun h => h.elim (fun h1 => h1 hz2) (fun h2 => h2 he2)), if_pos hshape]
        unfold readableDate
        rw [if_pos hn]
        rfl
      · have he2 : String.eof { _str := S, _index := 10 + 2 + 1 } = false := by
          simp [String.eof, String.size]; omega
        have hnshape : ¬ hasDateShape S := by unfold hasDateShape; omega
        rw [if_pos (Or.inr (by rw [he2]; decide)), if_neg hnshape]
    · have hnshape : ¬ hasDateShape S := by
        unfold hasDateShape
        intro h
        rcases h with h | h
        · exact hz h.2
        · exact hz2 h.2.2
      rw [if_pos (Or.inl hz2), if_neg hnshape]

theorem ASN1_VALIDITY_new_eq (sd ed : String) (hsd : sd.size < 2 ^ 64) (hed : ed.size < 2 ^ 64) :
    ASN1_VALIDITY.new sd ed
      = if hasDateShape sd._str ∧ hasDateShape ed._str then
          Except.ok { startDate := String.ofBytes sd._str, endDate := String.ofBytes ed._str }
        else raise exception_t.E_UNEXPECTED_ERROR := by
  have hne : ∀ S : List Nat, hasDateShape S → readableDate S ≠ S := by
    intro S h heq
    have hl : 11 ≤ S.length := by unfold hasDateShape at h; omega
    have := readableDate_length S hl
    rw [heq] at this
    unfold hasDateShape at h
    omega
  unfold ASN1_VALIDITY.new
  rw [dateToString_eq sd._str sd._index hsd, dateToString_eq ed._str ed._index hed]
  simp only [String.ofBytes]
  by_cases h1 : hasDateShape sd._str
  · rw [if_pos h1, if_neg (hne _ h1)]
    by_cases h2 : hasDateShape ed._str
    · rw [if_pos h2, if_neg (hne _ h2), if_pos ⟨h1, h2⟩]
    · rw [if_neg h2, if_pos rfl, if_neg (fun h => h2 h.2)]
  · rw [if_neg h1, if_pos rfl, if_neg (fun h => h1 h.1)]

theorem hasDateShape_of_isUTCTime (S : List Nat) (h : isUTCTime S) : hasDateShape S := by
  obtain ⟨hlen, hlast, hdig⟩ := h
  have hne : S ≠ [] := by
    intro h0; rw [h0] at hlen; simp at hlen
  have hl : S.getD (S.length - 1) 0 = 90 := by
    rw [List.getLast?_eq_getElem?] at hlast
    rw [List.getD_eq_getElem?_getD, hlast]
    rfl
  rcases hlen with h11 | h13
  · left
    rw [h11] at hl
    exact ⟨h11, hl⟩
  · right
    rw [h13] at hl
    refine ⟨h13, ?_, hl⟩
    have hmem : S.getD 10 0 ∈ S.dropLast := by
      have hi : 10 < S.dropLast.length := by rw [List.length_dropLast]; omega
      have : S.dropLast[10] = S.getD 10 0 := by
        rw [List.getElem_dropLast, List.getD_eq_getElem?_getD, List.getElem?_eq_getElem (by omega)]
        rfl
      rw [← this]
      exact List.getElem_mem _
    have := hdig _ hmem
    omega

/-! ## Bit strings and flags -/

theorem int_shl1_eq (n : Nat) (h : n < 32) : int_shl1 n = 2 ^ n := by
  unfold int_shl1
  rw [Nat.one_shiftLeft]
  exact Nat.mod_eq_of_lt (Nat.pow_lt_pow_right (by decide) h)

theorem and_two_pow_ne_zero (x n : Nat) : x &&& 2 ^ n ≠ 0 ↔ x.testBit n = true := by
  rw [Nat.and_two_pow]
  cases h : x.testBit n
  · simp
  · simp

theorem newLengthLoop_spec (flags : Nat) : ∀ (length : Nat), length ≤ 32 →
    newLengthLoop flags length ≤ length ∧
    (newLengthLoop flags length ≠ 0 → flags.testBit (newLengthLoop flags length - 1) = true) ∧
    (∀ j, newLengthLoop flags length ≤ j → j < length → flags.testBit j = false) := by
  intro length
  induction length with
  | zero => intro _; exact ⟨le_refl 0, fun h => absurd rfl h, fun j _ h => absurd h (by omega)⟩
  | succ n ih =>
    intro hn
    rw [newLengthLoop, int_shl1_eq n (by omega)]
    by_cases hb : flags &&& 2 ^ n ≠ 0
    · rw [if_pos hb]
      exact ⟨le_refl _, fun _ => (and_two_pow_ne_zero flags n).mp hb,
        fun j h1 h2 => absurd h2 (by omega)⟩
    · rw [if_neg hb]
      obtain ⟨h1, h2, h3⟩ := ih (by omega)
      refine ⟨by omega, h2, ?_⟩
      intro j hj1 hj2
      by_cases hjn : j = n
      · rw [hjn]
        cases ht : flags.testBit n
        · rfl
        · exact absurd ((and_two_pow_ne_zero flags n).mpr ht) hb
      · exact h3 j hj1 (by omega)

/-- The bits of the `unsigned int` built by `INTtoASN1_BSTR`: bit `j` of the flags goes to
bit `p + L - 1 - j`. -/
theorem ibstrLoop_testBit (flags p L : Nat) (hpl : p + L ≤ 32) :
    ∀ (n acc k : Nat), n ≤ L →
      (ibstrLoop flags p L n acc).testBit k
        = (acc.testBit k ||
            (decide (p + L - n ≤ k ∧ k < p + L) && flags.testBit (p + L - 1 - k))) := by
  intro n
  induction n with
  | zero =>
    intro acc k _
    rw [ibstrLoop]
    have c : ¬ (p + L - 0 ≤ k ∧ k < p + L) := by omega
    rw [decide_eq_false c]
    cases acc.testBit k <;> rfl
  | succ n ih =>
    intro acc k hn
    rw [ibstrLoop]
    rw [int_shl1_eq n (by omega), int_shl1_eq (p + L - (n + 1)) (by omega)]
    rw [ih _ k (by omega)]
    by_cases hb : flags &&& 2 ^ n ≠ 0
    · have ht := (and_two_pow_ne_zero flags n).mp hb
      rw [if_pos hb, Nat.testBit_or, Nat.testBit_two_pow]
      by_cases hk : p + L - (n + 1) = k
      · have e : p + L - 1 - k = n := by omega
        have c1 : p + L - (n + 1) ≤ k ∧ k < p + L := by omega
        have c2 : ¬ (p + L - n ≤ k ∧ k < p + L) := by omega
        rw [decide_eq_true hk, decide_eq_true c1, decide_eq_false c2, e, ht]
        cases acc.testBit k <;> rfl
      · by_cases c2 : p + L - n ≤ k ∧ k < p + L
        · have c1 : p + L - (n + 1) ≤ k ∧ k < p + L := by omega
          rw [decide_eq_false hk, decide_eq_true c1, decide_eq_true c2]
          cases acc.testBit k <;> cases flags.testBit (p + L - 1 - k) <;> rfl
        · have c1 : ¬ (p + L - (n + 1) ≤ k ∧ k < p + L) := by omega
          rw [decide_eq_false hk, decide_eq_false c1, decide_eq_false c2]
          cases acc.testBit k <;> rfl
    · have ht : flags.testBit n = false := by
        cases h : flags.testBit n
        · rfl
        · exact absurd ((and_two_pow_ne_zero flags n).mpr h) hb
      rw [if_neg hb]
      by_cases hk : p + L - (n + 1) = k
      · have e : p + L - 1 - k = n := by omega
        have c1 : p + L - (n + 1) ≤ k ∧ k < p + L := by omega
        have c2 : ¬ (p + L - n ≤ k ∧ k < p + L) := by omega
        rw [decide_eq_true c1, decide_eq_false c2, e, ht]
        rfl
      · by_cases c2 : p + L - n ≤ k ∧ k < p + L
        · have c1 : p + L - (n + 1) ≤ k ∧ k < p + L := by omega
          rw [decide_eq_true c1, decide_eq_true c2]
        · have c1 : ¬ (p + L - (n + 1) ≤ k ∧ k < p + L) := by omega
          rw [decide_eq_false c1, decide_eq_false c2]

theorem pushFlagBytesLoop_zeros (v k : Nat) :
    ∀ (n : Nat) (pre : List Nat),
      pushFlagBytesLoop v n { _str := pre ++ List.replicate (n + k) 0, _index := pre.length }
        = Except.ok { _str := (pre ++ beBytes n v) ++ List.replicate k 0,
                      _index := pre.length + n } := by
  intro n
  induction n with
  | zero => intro pre; simp [pushFlagBytesLoop, beBytes]
  | succ n ih =>
    intro pre
    have hlen : n + 1 + k = (n + k) + 1 := by omega
    rw [pushFlagBytesLoop, hlen, String.pushChar_zeros]
    have := ih (pre ++ [((v >>> (8 * n)) &&& 0xFF) % 256])
    simp only [List.length_append, List.length_singleton] at this
    simp only
    rw [this]
    simp [beBytes, Nat.add_assoc]
    omega

theorem beBytes_getD (v : Nat) : ∀ (n m : Nat), m < n →
    (beBytes n v).getD m 0 = ((v >>> (8 * (n - 1 - m))) &&& 0xFF) % 256 := by
  intro n
  induction n with
  | zero => intro m h; omega
  | succ n ih =>
    intro m h
    cases m with
    | zero => simp [beBytes]
    | succ m =>
      have := ih m (by omega)
      simp only [beBytes, List.getD_cons_succ]
      rw [this]
      have e : n + 1 - 1 - (m + 1) = n - 1 - m := by omega
      rw [e]

theorem byte_testBit (v s b : Nat) (hb : b < 8) :
    (((v >>> s) &&& 0xFF) % 256).testBit b = v.testBit (s + b) := by
  have h1 : (v >>> s) &&& 0xFF = (v >>> s) % 2 ^ 8 := Nat.and_pow_two_sub_one_eq_mod _ 8
  rw [h1, show (256 : Nat) = 2 ^ 8 from rfl, Nat.mod_mod, Nat.testBit_mod_two_pow,
    Nat.testBit_shiftRight]
  simp [hb]

/-- The bits of the value rebuilt by `ASN1_BSTRtoINT`: bit `j` is bit `7 - j % 8` of the
content byte `j / 8`. -/
theorem bitFieldLoop_testBit (c : List Nat) :
    ∀ (n acc j : Nat), n ≤ 32 →
      (bitFieldLoop c n acc).testBit j
        = (acc.testBit j || (decide (j < n) && (c.getD (j / 8) 0).testBit (7 - j % 8))) := by
  intro n
  induction n with
  | zero =>
    intro acc j _
    rw [bitFieldLoop, decide_eq_false (Nat.not_lt_zero j)]
    cases acc.testBit j <;> rfl
  | succ n ih =>
    intro acc j hn
    rw [bitFieldLoop]
    have hm : (8 - ((n + 1) % 8)) % 8 = 7 - n % 8 := by omega
    rw [hm, int_shl1_eq (7 - n % 8) (by omega), int_shl1_eq n (by omega), ih _ j (by omega)]
    by_cases hb : c.getD (n / 8) 0 &&& 2 ^ (7 - n % 8) ≠ 0
    · have ht := (and_two_pow_ne_zero _ _).mp hb
      rw [if_pos hb, Nat.testBit_or, Nat.testBit_two_pow]
      by_cases hj : n = j
      · subst hj
        have h1 : ¬ n < n := by omega
        have h2 : n < n + 1 := by omega
        rw [decide_eq_true rfl, decide_eq_false h1, decide_eq_true h2, ht]
        cases acc.testBit n <;> rfl
      · by_cases h1 : j < n
        · have h2 : j < n + 1 := by omega
          rw [decide_eq_false hj, decide_eq_true h1, decide_eq_true h2]
          cases acc.testBit j <;> cases (c.getD (j / 8) 0).testBit (7 - j % 8) <;> rfl
        · have h2 : ¬ j < n + 1 := by omega
          rw [decide_eq_false hj, decide_eq_false h1, decide_eq_false h2]
          cases acc.testBit j <;> rfl
    · have ht : (c.getD (n / 8) 0).testBit (7 - n % 8) = false := by
        cases h : (c.getD (n / 8) 0).testBit (7 - n % 8)
        · rfl
        · exact absurd ((and_two_pow_ne_zero _ _).mpr h) hb
      rw [if_neg hb]
      by_cases hj : n = j
      · subst hj
        have h1 : ¬ n < n := by omega
        have h2 : n < n + 1 := by omega
        rw [decide_eq_false h1, decide_eq_true h2, ht]
        rfl
      · by_cases h1 : j < n
        · have h2 : j < n + 1 := by omega
          rw [decide_eq_true h1, decide_eq_true h2]
        · have h2 : ¬ j < n + 1 := by omega
          rw [decide_eq_false h1, decide_eq_false h2]

theorem mod_two_pow_testBit_of_ge (x n j : Nat) (h : n ≤ j) : (x % 2 ^ n).testBit j = false := by
  rw [Nat.testBit_mod_two_pow, decide_eq_false (by omega)]
  rfl

theorem testBit_of_size_le (x j : Nat) (h : x.size ≤ j) : x.testBit j = false :=
  Nat.testBit_eq_false_of_lt
    (lt_of_lt_of_le (Nat.lt_size_self x) (Nat.pow_le_pow_right (by decide) h))

/-- The length kept by `INTtoASN1_BSTR` is the number of bits of the flags restricted to
`length` bits, up to and including the highest one set. -/
theorem newLengthLoop_eq_size (flags length : Nat) (h : length ≤ 32) :
    newLengthLoop flags length = Nat.size (flags % 2 ^ length) := by
  obtain ⟨h1, h2, h3⟩ := newLengthLoop_spec flags length h
  apply Nat.le_antisymm
  · by_cases h0 : newLengthLoop flags length = 0
    · omega
    · have ht := h2 h0
      have hx : (flags % 2 ^ length).testBit (newLengthLoop flags length - 1) = true := by
        rw [Nat.testBit_mod_two_pow, decide_eq_true (by omega), ht]
        rfl
      have := Nat.lt_size.mpr (Nat.testBit_implies_ge hx)
      omega
  · rw [Nat.size_le]
    apply Nat.lt_pow_two_of_testBit
    intro i hi
    by_cases hl : i < length
    · rw [Nat.testBit_mod_two_pow, h3 i hi hl]
      cases decide (i < length) <;> rfl
    · exact mod_two_pow_testBit_of_ge flags length i (by omega)

theorem padding_fills_octets (L : Nat) :
    (8 - L % 8) % 8 < 8 ∧ 8 * ((L + (8 - L % 8) % 8) / 8) = L + (8 - L % 8) % 8 := by
  omega

/-- The String built by `INTtoASN1_BSTR` for a length of at most 32. -/
theorem INTtoASN1_BSTR_eq (flags length : Nat) (h : length ≤ 32) :
    INTtoASN1_BSTR flags length
      = Except.ok
          { _str := (8 - newLengthLoop flags length % 8) % 8
              :: beBytes ((newLengthLoop flags length + (8 - newLengthLoop flags length % 8) % 8) / 8)
                  (ibstrLoop flags ((8 - newLengthLoop flags length % 8) % 8)
                    (newLengthLoop flags length) (newLengthLoop flags length) 0),
            _index := 1 + (newLengthLoop flags length
                            + (8 - newLengthLoop flags length % 8) % 8) / 8 } := by
  unfold INTtoASN1_BSTR
  rw [if_neg (by omega)]
  have hp : ((8 - newLengthLoop flags length % 8) % 8) % 256
      = (8 - newLengthLoop flags length % 8) % 8 := by omega
  simp only [hp]
  generalize (8 - newLengthLoop flags length % 8) % 8 = p
  generalize newLengthLoop flags length = L
  generalize ibstrLoop flags p L L 0 = v
  generalize (L + p) / 8 = nb
  have h0 : String.resize (1 + nb)
      = { _str := ([] : List Nat) ++ List.replicate (nb + 1) 0,
          _index := ([] : List Nat).length } := by
    simp [String.resize, String.ofBytes, Nat.add_comm]
  rw [h0, String.pushChar_zeros]
  simp only
  have h1 := pushFlagBytesLoop_zeros v 0 nb ([] ++ [p])
  simp only [Nat.add_zero, List.replicate_zero, List.append_nil, List.nil_append,
    List.length_singleton, List.singleton_append, Nat.add_sub_cancel_left] at h1 ⊢
  exact h1

/-- The content bits written by `INTtoASN1_BSTR`: bit `7 - j % 8` of content byte `j / 8`
is bit `j` of the flags restricted to `length` bits. -/
theorem INTtoASN1_BSTR_content_bits (flags length j : Nat) (h : length ≤ 32)
    (hj : j < newLengthLoop flags length + (8 - newLengthLoop flags length % 8) % 8) :
    ((beBytes ((newLengthLoop flags length + (8 - newLengthLoop flags length % 8) % 8) / 8)
        (ibstrLoop flags ((8 - newLengthLoop flags length % 8) % 8)
          (newLengthLoop flags length) (newLengthLoop flags length) 0)).getD (j / 8) 0).testBit
        (7 - j % 8)
      = (flags % 2 ^ length).testBit j := by
  have hL := newLengthLoop_spec flags length h
  have hsz := newLengthLoop_eq_size flags length h
  revert hj hL hsz
  generalize newLengthLoop flags length = L
  intro hj hL hsz
  obtain ⟨hL1, _, hL3⟩ := hL
  obtain ⟨hp, hnb⟩ := padding_fills_octets L
  revert hj hp hnb
  generalize (8 - L % 8) % 8 = p
  intro hj hp hnb
  have hm : j / 8 < (L + p) / 8 := by omega
  rw [beBytes_getD _ _ _ hm, byte_testBit _ _ _ (by omega)]
  have hk : 8 * ((L + p) / 8 - 1 - j / 8) + (7 - j % 8) = p + L - 1 - j := by omega
  rw [hk, ibstrLoop_testBit flags p L (by omega) L 0 _ (le_refl L), Nat.zero_testBit,
    Bool.false_or]
  by_cases hjL : j < L
  · have c : p + L - L ≤ p + L - 1 - j ∧ p + L - 1 - j < p + L := by omega
    have e : p + L - 1 - (p + L - 1 - j) = j := by omega
    rw [decide_eq_true c, e, Bool.true_and, Nat.testBit_mod_two_pow, decide_eq_true (by omega),
      Bool.true_and]
  · have c : ¬ (p + L - L ≤ p + L - 1 - j ∧ p + L - 1 - j < p + L) := by omega
    rw [decide_eq_false c, Bool.false_and]
    exact (testBit_of_size_le _ _ (by omega)).symm

theorem beBytes_lt (v : Nat) : ∀ (n : Nat) (b : Nat), b ∈ beBytes n v → b < 256 := by
  intro n
  induction n with
  | zero => intro b hb; simp [beBytes] at hb
  | succ n ih =>
    intro b hb
    simp only [beBytes, List.mem_cons] at hb
    rcases hb with hb | hb
    · rw [hb]; exact Nat.mod_lt _ (by decide)
    · exact ih b hb

/-- `ASN1_BSTRtoINT` on an unused-bit count `p < 8` followed by `nb ≤ 4` content bytes with
`p ≤ 8 * nb`: the bit-field length is `8 * nb - p` and bit `j` of the value is bit
`7 - j % 8` of content byte `j / 8`. -/
theorem ASN1_BSTRtoINT_eq (p index : Nat) (content : List Nat)
    (hlen : 8 * content.length - p ≤ 32) (hc : content.length ≤ 2 ^ 32) (hp : p ≤ 8 * content.length) :
    ASN1_BSTRtoINT { _str := p :: content, _index := index }
      = Except.ok (bitFieldLoop (content ++ [0]) (8 * content.length - p) 0,
                   8 * content.length - p) := by
  unfold ASN1_BSTRtoINT String.toChar String.size size_t_sub SIZE_T_RANGE
  simp only [List.cons_append, List.getD_cons_zero, List.length_cons, List.drop_succ_cons,
    List.drop_zero]
  have e : ((content.length + 1 + 2 ^ 64 - 1) % 2 ^ 64 * 8 % 2 ^ 64 + 2 ^ 64 - p) % 2 ^ 64
      = 8 * content.length - p := by
    have : (2 : Nat) ^ 32 = 4294967296 := by norm_num
    have : (2 : Nat) ^ 64 = 18446744073709551616 := by norm_num
    omega
  rw [e, if_neg (by omega)]

/-- Examples: the flags `0x86` on 9 bits give one content octet `0x61` and no unused bit;
bit 8 alone gives two content octets and 7 unused bits; no flag gives an empty content. -/
theorem INTtoASN1_BSTR_example :
    INTtoASN1_BSTR 0x86 9 = Except.ok { _str := [0, 0x61], _index := 2 } ∧
    INTtoASN1_BSTR 0x100 9 = Except.ok { _str := [7, 0x00, 0x80], _index := 3 } ∧
    INTtoASN1_BSTR 0 9 = Except.ok { _str := [0], _index := 1 } ∧
    ASN1_BSTRtoINT (String.ofBytes [7, 0x00, 0x80]) = Except.ok (0x100, 9) := by
  decide

/-! ## Signature of a block of data -/

theorem String.pushChar_zeros2 (pre : List Nat) (k c : Nat) :
    String.pushChar { _str := pre ++ List.replicate (k + 1) 0, _index := pre.length } c
      = Except.ok { _str := (pre ++ [c]) ++ List.replicate k 0,
                    _index := (pre ++ [c]).length } := by
  rw [String.pushChar_zeros, List.length_append, List.length_singleton]

theorem String.pushString_zeros2 (pre : List Nat) (s : String) (k : Nat) :
    String.pushString { _str := pre ++ List.replicate (s.size + k) 0, _index := pre.length } s
      = Except.ok ({ _str := (pre ++ s._str) ++ List.replicate k 0,
                     _index := (pre ++ s._str).length },
                   { _str := s._str, _index := s.size }) := by
  rw [String.pushString_zeros, List.length_append]
  rfl

theorem String.pushString_full (pre : List Nat) (s : String) :
    String.pushString { _str := pre ++ List.replicate s.size 0, _index := pre.length } s
      = Except.ok ({ _str := pre ++ s._str, _index := (pre ++ s._str).length },
                   { _str := s._str, _index := s.size }) := by
  have h := String.pushString_zeros2 pre s 0
  rw [Nat.add_zero, List.replicate_zero, List.append_nil] at h
  exact h

theorem pushCharLoop_zeros (c k : Nat) :
    ∀ (n : Nat) (pre : List Nat),
      pushCharLoop c n { _str := pre ++ List.replicate (k + n) 0, _index := pre.length }
        = Except.ok { _str := (pre ++ List.replicate n c) ++ List.replicate k 0,
                      _index := (pre ++ List.replicate n c).length } := by
  intro n
  induction n with
  | zero => intro pre; simp [pushCharLoop]
  | succ n ih =>
    intro pre
    have hlen : k + (n + 1) = (k + n) + 1 := by omega
    rw [pushCharLoop, hlen, String.pushChar_zeros2]
    simp only
    rw [ih (pre ++ [c])]
    simp [List.replicate_succ]

theorem String.bignumToAsciiHexa_zero (s : String) :
    s.bignumToAsciiHexa 0 = Except.ok (String.ofBytes (bignumToAsciiHexaLoop 0 s._str)) := by
  unfold String.bignumToAsciiHexa
  rw [if_neg (fun h => h.1 rfl)]

theorem bignumToAsciiHexaLoop_ne_nil (b : Nat) (bs : List Nat) :
    bignumToAsciiHexaLoop 0 (b :: bs) ≠ [] := by
  simp [bignumToAsciiHexaLoop]

/-- The number read by `mpz_init_set_str` from the hexadecimal form of a non-empty byte
string is its big-endian value. -/
theorem mpz_init_set_str_16_bytes (b : Nat) (bs : List Nat) (h : ∀ x ∈ b :: bs, x < 256) :
    mpz_init_set_str_16 (bignumToAsciiHexaLoop 0 (b :: bs)) = ((beValue (b :: bs) : Nat) : Int) := by
  have hp := mpz_parse_16_hexa (b :: bs) 0 h
  unfold mpz_init_set_str_16
  cases hs : bignumToAsciiHexaLoop 0 (b :: bs) with
  | nil => exact absurd hs (bignumToAsciiHexaLoop_ne_nil b bs)
  | cons c cs =>
    rw [hs] at hp
    simp only [hp]
    rfl

theorem octetstring_toDER (c : List Nat) :
    ASN1_BASIC.toDER { classe := asn1_class.C_UNIV, method := asn1_method.M_PRIM,
                       tagNumber := T_OSTR, value := String.ofBytes c }
      = Except.ok (String.ofBytes (tlv 0x04 c)) := by
  have hid : idOctetOf ⟨asn1_class.C_UNIV, asn1_method.M_PRIM, T_OSTR, String.ofBytes c⟩
      = 0x04 := by
    unfold idOctetOf
    simp only
    decide
  rw [toDER_eq, hid]
  rfl

theorem ASN1_BASIC_new_copy (n : Nat) (hn : n ≠ T_INTG) (s : String) :
    ASN1_BASIC.new asn1_class.C_UNIV asn1_method.M_PRIM n s
      = Except.ok { classe := asn1_class.C_UNIV, method := asn1_method.M_PRIM,
                    tagNumber := n, value := String.ofBytes s._str } := by
  unfold ASN1_BASIC.new
  rw [if_neg (fun h => hn h.2.2)]

theorem hash_algo_toDER (sa : sign_algo) (hsa : sa ≠ sign_algo.nSignAlgos) :
    ∃ algo, ASN1_HASH_ALGO.new (hash_algo.cast sa.toNat) = Except.ok algo ∧
      algo.toDER = Except.ok (String.ofBytes (tlv 0x06 (digestOID sa) ++ tlv 0x05 [])) := by
  cases sa with
  | S_ALGO_SHA1RSA => exact ⟨_, rfl, by decide⟩
  | S_ALGO_SHA256RSA => exact ⟨_, rfl, by decide⟩
  | S_ALGO_SHA512RSA => exact ⟨_, rfl, by decide⟩
  | nSignAlgos => exact absurd rfl hsa

theorem sign_algo_toDER (sa : sign_algo) (hsa : sa ≠ sign_algo.nSignAlgos) :
    ∃ algo, ASN1_SIGN_ALGO.new sa = Except.ok algo ∧
      algo.toDER = Except.ok (String.ofBytes (tlv 0x06 (signatureOID sa) ++ tlv 0x05 [])) := by
  cases sa with
  | S_ALGO_SHA1RSA => exact ⟨_, rfl, by decide⟩
  | S_ALGO_SHA256RSA => exact ⟨_, rfl, by decide⟩
  | S_ALGO_SHA512RSA => exact ⟨_, rfl, by decide⟩
  | nSignAlgos => exact absurd rfl hsa

theorem signDigest_eq (sha : Digests) (sa : sign_algo) (hsa : sa ≠ sign_algo.nSignAlgos)
    (data : List Nat) :
    signDigest sha (hash_algo.cast sa.toNat) data
      = Except.ok (digestOf sha sa data, digestLength sa) := by
  cases sa with
  | S_ALGO_SHA1RSA => rfl
  | S_ALGO_SHA256RSA => rfl
  | S_ALGO_SHA512RSA => rfl
  | nSignAlgos => exact absurd rfl hsa

/-- `appendSignatureToDER` returns
`SEQUENCE { tbs, SEQUENCE { OID signAlg, NULL }, BIT STRING (0x00 ‖ signature) }`. -/
theorem appendSignatureToDER_eq (tbs : TBS) (t signature : String)
    (ht : tbs.toDER = Except.ok t) (hsa : tbs.get_sign_algo ≠ sign_algo.nSignAlgos) :
    tbs.appendSignatureToDER signature
      = Except.ok (String.ofBytes
          (signedBytes t._str (signatureOID tbs.get_sign_algo) signature._str)) := by
  obtain ⟨algo, halgo, hder⟩ := sign_algo_toDER tbs.get_sign_algo hsa
  unfold TBS.appendSignatureToDER signedBytes
  simp only [ht, halgo, hder, ASN1_BASIC_new_copy T_BSTR (by decide), ok_bind,
    encapsulate_sequence, bitstring_toDER, String.append, ofBytes_str, String.resize,
    List.replicate, List.singleton_append, List.append_assoc]

theorem lengthOctets_lt (L : Nat) : ∀ x ∈ lengthOctets L, x < 256 := by
  intro x hx
  unfold lengthOctets at hx
  split at hx
  · rw [List.mem_singleton] at hx
    rw [hx]; exact Nat.mod_lt _ (by decide)
  · rw [List.mem_cons] at hx
    rcases hx with hx | hx
    · rw [hx]; exact Nat.mod_lt _ (by decide)
    · exact beBytes_lt _ _ x hx

theorem tlv_lt (id : Nat) (content : List Nat) (hid : id < 256) (hc : ∀ x ∈ content, x < 256) :
    ∀ x ∈ tlv id content, x < 256 := by
  intro x hx
  unfold tlv at hx
  rw [List.mem_cons, List.mem_append] at hx
  rcases hx with hx | hx | hx
  · rw [hx]; exact hid
  · exact lengthOctets_lt _ x hx
  · exact hc x hx

theorem append_lt (a b : List Nat) (ha : ∀ x ∈ a, x < 256) (hb : ∀ x ∈ b, x < 256) :
    ∀ x ∈ a ++ b, x < 256 := by
  intro x hx
  rw [List.mem_append] at hx
  rcases hx with hx | hx
  · exact ha x hx
  · exact hb x hx

theorem digestOID_lt (sa : sign_algo) : ∀ x ∈ digestOID sa, x < 256 := by
  cases sa <;> decide

theorem digestInfo_lt (sa : sign_algo) (digest : List Nat) (hd : ∀ x ∈ digest, x < 256) :
    ∀ x ∈ digestInfo (digestOID sa) digest, x < 256 := by
  unfold digestInfo
  apply tlv_lt _ _ (by decide)
  apply append_lt
  · apply tlv_lt _ _ (by decide)
    apply append_lt
    · exact tlv_lt _ _ (by decide) (digestOID_lt sa)
    · exact tlv_lt _ _ (by decide) (by intro x hx; simp at hx)
  · exact tlv_lt _ _ (by decide) hd

/-- The number of digits of `n > 0` in base `2 ^ w` against its number of bits. -/
theorem digits_length_bounds (w n : Nat) (hw : 0 < w) (hn : 0 < n) :
    w * ((Nat.digits (2 ^ w) n).length - 1) < Nat.size n ∧
    Nat.size n ≤ w * (Nat.digits (2 ^ w) n).length := by
  have hb : 1 < 2 ^ w := Nat.one_lt_two_pow (by omega)
  have h1 := Nat.lt_base_pow_length_digits (m := n) hb
  have h2 := Nat.base_pow_length_digits_le (2 ^ w) n hb (by omega)
  have hL : 0 < (Nat.digits (2 ^ w) n).length := by
    rcases Nat.eq_zero_or_pos (Nat.digits (2 ^ w) n).length with h0 | h0
    · rw [h0, Nat.pow_zero] at h1; omega
    · exact h0
  constructor
  · rw [Nat.lt_size, Nat.pow_mul]
    obtain ⟨m, hm⟩ : ∃ m, (Nat.digits (2 ^ w) n).length = m + 1 := ⟨_, (Nat.succ_pred_eq_of_pos hL).symm⟩
    rw [hm, Nat.pow_succ, Nat.mul_comm] at h2
    rw [hm, Nat.add_sub_cancel]
    exact Nat.le_of_mul_le_mul_left h2 (by omega)
  · rw [Nat.size_le, Nat.pow_mul]
    exact h1

theorem mpz_sizeinbase_16_nat (n : Nat) (hn : 0 < n) :
    mpz_sizeinbase_16 (n : Int) = (Nat.digits 16 n).length := by
  unfold mpz_sizeinbase_16
  rw [Int.natAbs_ofNat, toDigitsBE_spec (n + 1) n [] (by omega) hn, List.append_nil,
    List.length_reverse]

/-- The `modulusSize` of `RSAKey::sign` before its conversion to `unsigned int` is the number
of bytes of the modulus. -/
theorem modulusSize_eq (n : Nat) (hn : 0 < n) :
    (mpz_sizeinbase_16 (n : Int) + 1) / 2 = modulusBytes n := by
  rw [mpz_sizeinbase_16_nat n hn]
  have h := digits_length_bounds 4 n (by decide) hn
  rw [show (2 : Nat) ^ 4 = 16 from rfl] at h
  unfold modulusBytes
  omega

theorem magnitudeBytes_length (n : Nat) (hn : 0 < n) :
    (magnitudeBytes n).length = modulusBytes n := by
  unfold magnitudeBytes
  rw [if_neg (by omega), List.length_reverse]
  have h := digits_length_bounds 8 n (by decide) hn
  rw [show (2 : Nat) ^ 8 = 256 from rfl] at h
  unfold modulusBytes
  omega

theorem magnitudeBytes_length_le (s n : Nat) (h : s < n) :
    (magnitudeBytes s).length ≤ modulusBytes n := by
  rw [← magnitudeBytes_length n (by omega)]
  unfold magnitudeBytes
  rw [if_neg (by omega : ¬ n = 0)]
  by_cases hs : s = 0
  · rw [if_pos hs, List.length_reverse]
    have : 0 < (Nat.digits 256 n).length := by
      rcases Nat.eq_zero_or_pos (Nat.digits 256 n).length with h0 | h0
      · have := Nat.lt_base_pow_length_digits (b := 256) (m := n) (by decide)
        rw [h0] at this
        omega
      · exact h0
    exact this
  · rw [if_neg hs, List.length_reverse, List.length_reverse]
    exact Nat.le_digits_len_le 256 s n (by omega)

theorem pow_modulusBytes_le (n : Nat) (hn : 0 < n) : 256 ^ (modulusBytes n - 1) ≤ n := by
  have h := digits_length_bounds 8 n (by decide) hn
  rw [show (2 : Nat) ^ 8 = 256 from rfl] at h
  have hk : modulusBytes n = (Nat.digits 256 n).length := by
    unfold modulusBytes; omega
  have h2 : 8 * (modulusBytes n - 1) < Nat.size n := by rw [hk]; exact h.1
  have h3 := Nat.lt_size.mp h2
  rw [Nat.pow_mul] at h3
  exact h3

theorem beValue_magnitudeBytes (n : Nat) : beValue (magnitudeBytes n) = n := by
  unfold beValue
  rw [foldl_eq_ofDigits, magnitudeBytes_value]
  omega

theorem beValue_zeros (z : Nat) (l : List Nat) : beValue (List.replicate z 0 ++ l) = beValue l := by
  induction z with
  | zero => rfl
  | succ z ih =>
    rw [List.replicate_succ, List.cons_append, beValue_cons, ih]
    omega

/-- The block of type 1 is below a modulus of as many bytes. -/
theorem signatureBlock_lt (n : Nat) (hn : 0 < n) (B : List Nat) (hB : ∀ x ∈ B, x < 256)
    (hfit : B.length + 11 ≤ modulusBytes n) :
    beValue (signatureBlock (modulusBytes n) B) < n := by
  unfold signatureBlock
  rw [beValue_cons]
  have hlt : ∀ x ∈ (0x01 :: (List.replicate (modulusBytes n - B.length - 3) 0xFF ++ 0x00 :: B)),
      x < 256 := by
    intro x hx
    rw [List.mem_cons, List.mem_append, List.mem_cons] at hx
    rcases hx with hx | hx | hx | hx
    · rw [hx]; decide
    · rw [List.eq_of_mem_replicate hx]; decide
    · rw [hx]; decide
    · exact hB x hx
  have h1 := beValue_lt _ hlt
  have hl : (0x01 :: (List.replicate (modulusBytes n - B.length - 3) 0xFF ++ 0x00 :: B)).length
      = modulusBytes n - 1 := by
    simp only [List.length_cons, List.length_append, List.length_replicate]
    omega
  rw [hl] at h1
  have h2 := pow_modulusBytes_le n hn
  omega

theorem signatureBlock_length (k : Nat) (B : List Nat) (hfit : B.length + 11 ≤ k) :
    (signatureBlock k B).length = k := by
  unfold signatureBlock
  simp only [List.length_cons, List.length_append, List.length_replicate]
  omega

/-- `RSAKey::sign` up to its first test: with a block to sign longer than `modulusSize - 11`
it throws `UnexpectedError`. -/
theorem sign_block_too_long (sha : Digests) (k : RSAKey) (tbs : TBS) (t : String)
    (ht : tbs.toDER = Except.ok t) (hsa : tbs.get_sign_algo ≠ sign_algo.nSignAlgos)
    (hlen : (digestOf sha tbs.get_sign_algo t._str).length = digestLength tbs.get_sign_algo)
    (hlong : (digestInfo (digestOID tbs.get_sign_algo)
                (digestOf sha tbs.get_sign_algo t._str)).length + 11
              > ((mpz_sizeinbase_16 k._n + 1) / 2) % 2 ^ 32) :
    RSAKey.sign sha k tbs = raise exception_t.E_UNEXPECTED_ERROR := by
  obtain ⟨algo, halgo, hder⟩ := hash_algo_toDER tbs.get_sign_algo hsa
  have htake : (digestOf sha tbs.get_sign_algo t._str).take (digestLength tbs.get_sign_algo)
      = digestOf sha tbs.get_sign_algo t._str := by
    rw [← hlen]; exact List.take_length _
  unfold RSAKey.sign
  unfold digestInfo at hlong
  simp only [ht, ok_bind, signDigest_eq sha _ hsa, halgo, hder, encapsulate_sequence, htake,
    ASN1_BASIC_new_copy T_OSTR (by decide), octetstring_toDER, String.append, ofBytes_str]
  exact if_pos hlong

/-- `RSAKey::sign` for natural numbers `n` and `d`, a modulus of fewer than `2 ^ 32` bytes
and a block to sign that fits. -/
theorem sign_eq (sha : Digests) (n d : Nat) (e p q : Int) (b : Bool) (tbs : TBS) (t : String)
    (ht : tbs.toDER = Except.ok t) (hsa : tbs.get_sign_algo ≠ sign_algo.nSignAlgos)
    (hlen : (digestOf sha tbs.get_sign_algo t._str).length = digestLength tbs.get_sign_algo)
    (hbytes : ∀ x ∈ digestOf sha tbs.get_sign_algo t._str, x < 256)
    (hk : modulusBytes n < 2 ^ 32)
    (hfit : (digestInfo (digestOID tbs.get_sign_algo)
                (digestOf sha tbs.get_sign_algo t._str)).length + 11 ≤ modulusBytes n) :
    RSAKey.sign sha { _initialized := b, _n := (n : Int), _d := (d : Int), _p := p, _q := q,
                      _e := e } tbs
      = Except.ok (String.ofBytes
          (signedBytes t._str (signatureOID tbs.get_sign_algo)
            (List.replicate
                (modulusBytes n - (magnitudeBytes
                  (beValue (signatureBlock (modulusBytes n)
                    (digestInfo (digestOID tbs.get_sign_algo)
                      (digestOf sha tbs.get_sign_algo t._str))) ^ d % n)).length) 0
              ++ magnitudeBytes
                  (beValue (signatureBlock (modulusBytes n)
                    (digestInfo (digestOID tbs.get_sign_algo)
                      (digestOf sha tbs.get_sign_algo t._str))) ^ d % n)))) := by
  obtain ⟨algo, halgo, hder⟩ := hash_algo_toDER tbs.get_sign_algo hsa
  have htake : (digestOf sha tbs.get_sign_algo t._str).take (digestLength tbs.get_sign_algo)
      = digestOf sha tbs.get_sign_algo t._str := by
    rw [← hlen]; exact List.take_length _
  have hBlt := digestInfo_lt tbs.get_sign_algo _ hbytes
  have hn : 0 < n := by
    rcases Nat.eq_zero_or_pos n with h0 | h0
    · rw [h0] at hfit
      have : modulusBytes 0 = 0 := by simp [modulusBytes]
      omega
    · exact h0
  have hmsg := signatureBlock_lt n hn _ hBlt hfit
  have hms : ((mpz_sizeinbase_16 (n : Int) + 1) / 2) % 2 ^ 32 = modulusBytes n := by
    rw [modulusSize_eq n hn, Nat.mod_eq_of_lt hk]
  have hsig := magnitudeBytes_length_le _ n
    (Nat.mod_lt (beValue (signatureBlock (modulusBytes n)
      (digestInfo (digestOID tbs.get_sign_algo)
        (digestOf sha tbs.get_sign_algo t._str))) ^ d) hn)
  unfold RSAKey.sign
  revert hfit hBlt hmsg hsig
  unfold digestInfo
  simp only [ht, ok_bind, signDigest_eq sha _ hsa, halgo, hder, encapsulate_sequence, htake,
    ASN1_BASIC_new_copy T_OSTR (by decide), octetstring_toDER, String.append, ofBytes_str, hms]
  generalize tlv 0x30 (tlv 0x30 (tlv 0x06 (digestOID tbs.get_sign_algo) ++ tlv 0x05 [])
    ++ tlv 0x04 (digestOf sha tbs.get_sign_algo t._str)) = B
  generalize modulusBytes n = K at hk ⊢
  intro hfit hBlt hmsg hsig
  have hsize : (String.ofBytes B).size = B.length := rfl
  rw [hsize, if_neg (by omega)]
  have hcount : size_t_sub (size_t_sub K B.length) 1 - 2 = K - B.length - 3 := by
    unfold size_t_sub SIZE_T_RANGE
    have : (2 : Nat) ^ 32 = 4294967296 := by norm_num
    have : (2 : Nat) ^ 64 = 18446744073709551616 := by norm_num
    omega
  have hres : String.resize K
      = { _str := [] ++ List.replicate
                    (((((String.ofBytes B).size + 0) + 1) + (K - B.length - 3)) + 1 + 1) 0,
          _index := ([] : List Nat).length } := by
    have hnum : K = ((((String.ofBytes B).size + 0) + 1) + (K - B.length - 3)) + 1 + 1 := by
      rw [hsize]; omega
    rw [← hnum]
    rfl
  rw [hcount]
  nth_rewrite 1 [hres]
  simp only [String.pushChar_zeros2, pushCharLoop_zeros, String.pushString_full, ok_bind,
    String.bignumToAsciiHexa_zero, ofBytes_str]
  have hEM : [] ++ [0] ++ [1] ++ List.replicate (K - B.length - 3) 255 ++ [0] ++ B
      = signatureBlock K B := by
    simp [signatureBlock]
  rw [hEM]
  have hEMlt : ∀ x ∈ signatureBlock K B, x < 256 := by
    intro x hx
    unfold signatureBlock at hx
    rw [List.mem_cons, List.mem_cons, List.mem_append, List.mem_cons] at hx
    rcases hx with hx | hx | hx | hx | hx
    · rw [hx]; decide
    · rw [hx]; decide
    · rw [List.eq_of_mem_replicate hx]; decide
    · rw [hx]; decide
    · exact hBlt x hx
  have hval : mpz_init_set_str_16 (bignumToAsciiHexaLoop 0 (signatureBlock K B))
      = ((beValue (signatureBlock K B) : Nat) : Int) :=
    mpz_init_set_str_16_bytes _ _ hEMlt
  rw [hval, if_neg (by exact_mod_cast Nat.not_le.mpr hmsg),
    mpz_powm_nat _ _ _ (by omega)]
  simp only [ok_bind, String_ofMpz_binary]
  generalize magnitudeBytes (beValue (signatureBlock K B) ^ d % n) = m at hsig ⊢
  have hsize2 : (String.ofBytes m).size = m.length := rfl
  have hcount2 : size_t_sub K (String.ofBytes m).size = K - m.length := by
    rw [hsize2]
    unfold size_t_sub SIZE_T_RANGE
    have : (2 : Nat) ^ 32 = 4294967296 := by norm_num
    have : (2 : Nat) ^ 64 = 18446744073709551616 := by norm_num
    omega
  have hres2 : String.resize K
      = { _str := [] ++ List.replicate ((String.ofBytes m).size + (K - m.length)) 0,
          _index := ([] : List Nat).length } := by
    have hnum : K = (String.ofBytes m).size + (K - m.length) := by
      rw [hsize2]; omega
    rw [← hnum]
    rfl
  rw [hcount2, hres2]
  simp only [pushCharLoop_zeros, String.pushString_full, ok_bind]
  rw [appendSignatureToDER_eq tbs t _ ht hsa]
  rfl

theorem modulusBytes_hugeModulus : modulusBytes hugeModulus = 2 ^ 32 + 1 := by
  have hpos : 0 < hugeModulus := by
    rw [hugeModulus]
    exact Nat.pow_pos (by decide)
  rw [← magnitudeBytes_length hugeModulus hpos, magnitudeBytes_hugeModulus_length]

/-- The `modulusSize` of `RSAKey::sign` for the modulus `256 ^ (2 ^ 32)` of `2 ^ 32 + 1`
bytes is 1. -/
theorem modulusSize_hugeKey : ((mpz_sizeinbase_16 hugeKey._n + 1) / 2) % 2 ^ 32 = 1 := by
  have hpos : 0 < hugeModulus := by
    rw [hugeModulus]
    exact Nat.pow_pos (by decide)
  have hn : hugeKey._n = ((hugeModulus : Nat) : Int) := rfl
  rw [hn, modulusSize_eq hugeModulus hpos, modulusBytes_hugeModulus]
  norm_num

theorem exampleTBS_digestInfo_length :
    (digestInfo (digestOID exampleTBS.get_sign_algo)
      (digestOf exampleDigests exampleTBS.get_sign_algo
        (String.ofBytes [0x30, 0x00])._str)).length = 51 := by
  decide

theorem modulusBytes_of_size (x s : Nat) (h : Nat.size x = s) :
    modulusBytes x = (s + 7) / 8 := by
  unfold modulusBytes
  rw [h]

theorem modulusBytes_example : modulusBytes (2 ^ 504) = (504 + 1 + 7) / 8 :=
  modulusBytes_of_size (2 ^ 504) (504 + 1) Nat.size_pow

/-! ## The groups of primes and their products -/

theorem productLoop_lt : ∀ (Q : List Nat) (i p : Nat), p < 2 ^ 64 →
    (productLoop Q i p).2.2 < 2 ^ 64 := by
  intro Q
  induction Q with
  | nil => intro i p h; exact h
  | cons q rest ih =>
    intro i p h
    rw [productLoop]
    by_cases hi : i < PRIMES_SIZE
    · rw [if_pos hi]
      by_cases h1 : p * q / 2 ^ 64 ≠ 0
      · rw [if_pos h1]
        exact h
      · rw [if_neg h1]
        exact ih (i + 1) _ (Nat.mod_lt _ (by norm_num))
    · rw [if_neg hi]
      exact h

theorem productsLoop_length : ∀ (todo : Nat) (Q : List Nat) (i : Nat),
    (productsLoop todo Q i).length = todo := by
  intro todo
  induction todo with
  | zero => intro Q i; rfl
  | succ todo ih =>
    intro Q i
    rw [productsLoop_succ, List.length_cons, ih]

/-- Each entry written by `productsLoop` describes a stretch of the entries it was given,
with the product of that stretch, which is below `2^64`. -/
theorem productsLoop_groups : ∀ (todo : Nat) (Q : List Nat) (i : Nat),
    i + Q.length = PRIMES_SIZE → ∀ j, j < todo →
    ∃ pre grp post, Q = pre ++ (grp ++ post) ∧
      (productsLoop todo Q i).getD j ((0, 0), 0)
        = ((i + pre.length, i + pre.length + grp.length), grp.prod) ∧
      grp.prod < 2 ^ 64 := by
  intro todo
  induction todo with
  | zero => intro Q i _ j hj; omega
  | succ todo ih =>
    intro Q i hlen j hj
    obtain ⟨grp, hQ, hp⟩ := productLoop_spec Q i 1 hlen
    have hlt := productLoop_lt Q i 1 (by norm_num)
    rw [productsLoop_succ]
    rw [hp] at hlt ⊢
    simp only [Nat.one_mul] at hlt ⊢
    cases j with
    | zero =>
      refine ⟨[], grp, groupRest Q 1, by rw [List.nil_append]; exact hQ, ?_, hlt⟩
      rw [List.getD_cons_zero, List.length_nil, Nat.add_zero]
    | succ j =>
      have hlen2 : i + grp.length + (groupRest Q 1).length = PRIMES_SIZE := by
        have := congrArg List.length hQ
        rw [List.length_append] at this
        omega
      obtain ⟨pre, g2, post, hR, hG, hlt2⟩ := ih (groupRest Q 1) (i + grp.length) hlen2 j
        (by omega)
      refine ⟨grp ++ pre, g2, post, ?_, ?_, hlt2⟩
      · rw [List.append_assoc, ← hR]; exact hQ
      · rw [List.getD_cons_succ, hG, List.length_append]
        have e : i + grp.length + pre.length = i + (grp.length + pre.length) := by omega
        rw [e]

theorem productsLoop_first (todo : Nat) (Q : List Nat) (i : Nat) :
    ((productsLoop (todo + 1) Q i).getD 0 ((0, 0), 0)).1.1 = i := by
  rw [productsLoop_succ, List.getD_cons_zero]

/-- The entries written by `productsLoop` are contiguous. -/
theorem productsLoop_chain : ∀ (todo : Nat) (Q : List Nat) (i : Nat) (j : Nat),
    j + 1 < todo →
    ((productsLoop todo Q i).getD j ((0, 0), 0)).1.2
      = ((productsLoop todo Q i).getD (j + 1) ((0, 0), 0)).1.1 := by
  intro todo
  induction todo with
  | zero => intro Q i j hj; omega
  | succ todo ih =>
    intro Q i j hj
    rw [productsLoop_succ]
    cases j with
    | zero =>
      rw [List.getD_cons_zero, List.getD_cons_succ]
      obtain ⟨t2, ht2⟩ : ∃ t2, todo = t2 + 1 := ⟨todo - 1, by omega⟩
      rw [ht2, productsLoop_first]
    | succ j =>
      rw [List.getD_cons_succ, List.getD_cons_succ]
      exact ih _ _ j (by omega)

/-- When the turns of `productsLoop` use up the entries, the last entry written ends at the
end of the table. -/
theorem productsLoop_last : ∀ (todo : Nat) (Q : List Nat) (i : Nat),
    i + Q.length = PRIMES_SIZE → groupsCover (todo + 1) Q = true →
    ((productsLoop (todo + 1) Q i).getD todo ((0, 0), 0)).1.2 = PRIMES_SIZE := by
  intro todo
  induction todo with
  | zero =>
    intro Q i hlen hcover
    obtain ⟨grp, hQ, hp⟩ := productLoop_spec Q i 1 hlen
    rw [productsLoop_succ, List.getD_cons_zero, hp]
    have hrest : groupRest Q 1 = [] := by
      cases Q with
      | nil => rfl
      | cons q rest =>
        rw [groupsCover, groupsCover] at hcover
        exact List.isEmpty_iff.mp hcover
    rw [hrest, List.append_nil] at hQ
    rw [← hQ]
    exact hlen
  | succ todo ih =>
    intro Q i hlen hcover
    obtain ⟨grp, hQ, hp⟩ := productLoop_spec Q i 1 hlen
    rw [productsLoop_succ, List.getD_cons_succ, hp]
    have hlen2 : i + grp.length + (groupRest Q 1).length = PRIMES_SIZE := by
      have := congrArg List.length hQ
      rw [List.length_append] at this
      omega
    apply ih _ _ hlen2
    cases Q with
    | nil => rfl
    | cons q rest =>
      rw [groupsCover] at hcover
      exact hcover

/-- The entries of the table from the index 16 on start with 59. -/
theorem primes_split_head (Q : List Nat) (hQ : primesLt 65522 = 2 :: firstGroup ++ Q) :
    ∃ l, Q = 59 :: l := by
  have hs := primesLt_sorted 65522
  have h59 : 59 ∈ primesLt 65522 := (mem_primesLt _ _).mpr ⟨by norm_num, by norm_num⟩
  rw [hQ] at hs h59
  have hnot : 59 ∉ 2 :: firstGroup := by decide
  have hin : 59 ∈ Q := by
    rcases List.mem_append.mp h59 with h | h
    · exact absurd h hnot
    · exact h
  have hge : ∀ d ∈ Q, 59 ≤ d := by
    intro d hd
    have hdm : d ∈ primesLt 65522 := by rw [hQ]; exact List.mem_append_right _ hd
    have hdp := ((mem_primesLt _ _).mp hdm).2
    have h53 : 53 < d := (List.pairwise_append.mp hs).2.2 53 (by decide) d hd
    by_contra hlt
    have hcases : d = 54 ∨ d = 55 ∨ d = 56 ∨ d = 57 ∨ d = 58 := by omega
    rcases hcases with h | h | h | h | h <;> (rw [h] at hdp; norm_num at hdp)
  cases Q with
  | nil => exact absurd hin (List.not_mem_nil _)
  | cons e l =>
    have hsQ := (List.pairwise_append.mp hs).2.1
    have he := hge e (List.mem_cons_self _ _)
    rcases List.mem_cons.mp hin with h | h
    · exact ⟨l, by rw [h]⟩
    · have := (List.pairwise_cons.mp hsQ).1 59 h
      omega

/-! ## The cofactor of `isSmooth` -/

/-- `isSmooth` is `isSmoothCofactor` followed by the tests on `cofac`. -/
theorem isSmooth_eq_cofactor (T : PrimeTables) (n : Int) :
    isSmooth T n
      = match isSmoothCofactor T n with
        | Except.error t => Except.error t
        | Except.ok cofac =>
          if cofac = 1 then Except.ok true
          else if mpz_sizeinbase_2 cofac > size_t_sub (mpz_sizeinbase_2 n) SMOOTH_PART_SIZE_LIMIT
            then Except.ok false
          else Except.ok true := by
  unfold isSmooth isSmoothCofactor
  by_cases hn : n < 0
  · simp only [if_pos hn]
  · simp only [if_neg hn]
    cases T.primesProductsIndices with
    | nil => rfl
    | cons a l =>
      obtain ⟨first, last⟩ := a
      simp only
      cases smoothGroupLoop (n.natAbs / 2 ^ mpz_scan1_0 n % PP) first (List.drop 1 T.primes) 1
          (n.natAbs / 2 ^ mpz_scan1_0 n) with
      | error t => rfl
      | ok r =>
        obtain ⟨j, rest, cofac1⟩ := r
        rfl

/-- What the grouped loops of `isSmooth` leave in `cofac`. -/
theorem isSmoothCofactor_spec (n : Nat) (hn : 1 ≤ n) :
    ∃ T c m, initPrimes = Except.ok T ∧ n = c * m ∧ 1 ≤ c ∧
      (∀ p : Nat, p.Prime → p ∣ m → p ≤ 65521) ∧
      (∀ p : Nat, p.Prime → p ∣ c → 65521 < p) ∧
      T.primes = primesLt 65522 ∧
      isSmoothCofactor T (n : Int) = Except.ok c := by
  obtain ⟨Q, hQ, hlen, hprime, hnodup, hcover, hall, hinit⟩ := initPrimes_spec
  obtain ⟨hs1, hs2⟩ := lowestBitLoop_spec n n hn (le_refl n)
  generalize hs : lowestBitLoop n n = s at hs1 hs2
  generalize hcof : n / 2 ^ s = cofac at hs1 hs2
  have hcpos : 1 ≤ cofac := by omega
  obtain ⟨c1, b1, he1, hc1, hp1, hn1, hq1⟩ :=
    smoothGroupLoop_spec (cofac % PP) 16 cofac Q firstGroup 1 cofac 1 (by decide)
      firstGroup_prime (by decide)
      (by
        intro d hd
        rw [Nat.mod_mod_of_dvd _ (firstGroup_dvd_PP d hd)]
        exact (Nat.dvd_iff_mod_eq_zero ..).symm)
      (by simp)
      (fun d hd h => (firstGroup_prime d hd).ne_one (Nat.dvd_one.mp h)) hcpos
  obtain ⟨c2, b2, he2, hc2, hp2, hn2, hq2⟩ := smoothGroupsLoop_spec PRIMES_PRODUCTS_SIZE Q 16 c1
    hlen (fun d hd => (hprime d hd).1) hnodup hcover hp1
  refine ⟨_, c2, b2 * b1 * 2 ^ s, hinit, ?_, hp2, ?_, ?_, hQ.symm, ?_⟩
  · rw [hs1, hc1, hc2]; ring
  · intro p hp hdvd
    rcases (Nat.Prime.dvd_mul hp).mp hdvd with h | h
    · rcases (Nat.Prime.dvd_mul hp).mp h with h | h
      · exact (hprime p (hq2 p hp h)).2.2
      · have hm := hq1 p hp h
        have h53 : ∀ d ∈ firstGroup, d ≤ 65521 := by decide
        exact h53 p hm
    · have h2 : p = 2 := (Nat.prime_dvd_prime_iff_eq hp Nat.prime_two).mp (hp.dvd_of_dvd_pow h)
      omega
  · intro p hp hdvd
    by_contra hle
    rcases hall p hp (by omega) with h | h | h
    · have h2 : 2 ∣ cofac := by
        rw [hc1, hc2, ← h]
        exact Dvd.dvd.mul_right (Dvd.dvd.mul_right hdvd b2) b1
      omega
    · exact hn1 p h (hc2 ▸ Dvd.dvd.mul_right hdvd b2)
    · exact hn2 p h hdvd
  · have hnn : ¬ ((n : Int) < 0) := by omega
    have hn0 : (n : Int) ≠ 0 := by omega
    have hgroups : productsLoop PRIMES_PRODUCTS_SIZE Q 16
        = ((16, (productLoop Q 16 1).1), (productLoop Q 16 1).2.2)
          :: productsLoop 1575 (productLoop Q 16 1).2.1 (productLoop Q 16 1).1 :=
      productsLoop_succ 1575 Q 16
    have hdrop1 : List.drop 1 (2 :: firstGroup ++ Q) = firstGroup ++ Q := rfl
    have hdrop16 : List.drop 16 (2 :: firstGroup ++ Q) = Q :=
      @List.drop_left' Nat (2 :: firstGroup) Q 16 (by decide)
    unfold isSmoothCofactor
    simp only [if_neg hnn, mpz_scan1_0, if_neg hn0, Int.natAbs_ofNat, hs, hcof]
    rw [hgroups]
    simp only [List.map_cons, hdrop1, hdrop16, he1]
    have hz := zip_map_fst_snd (productsLoop PRIMES_PRODUCTS_SIZE Q 16)
    rw [hgroups] at hz
    simp only [List.map_cons] at hz
    rw [hz, ← hgroups, he2]

/-- What the loop of the comment of `isSmooth` leaves in `cofac`. -/
theorem naiveSmoothLoop_spec : ∀ (L : List Nat) (cofac : Nat), (∀ d ∈ L, d.Prime) →
    1 ≤ cofac →
    ∃ c1 b1, naiveSmoothLoop L cofac = Except.ok c1 ∧ cofac = c1 * b1 ∧ 1 ≤ c1 ∧
      (∀ d ∈ L, ¬ d ∣ c1) ∧ (∀ q : Nat, q.Prime → q ∣ b1 → q ∈ L) := by
  intro L
  induction L with
  | nil =>
    intro cofac _ h1
    exact ⟨cofac, 1, rfl, by simp, h1, by simp,
      fun q hq h => absurd (Nat.dvd_one.mp h) hq.ne_one⟩
  | cons d rest ih =>
    intro cofac hprime h1
    have hdp : d.Prime := hprime d (List.mem_cons_self _ _)
    obtain ⟨c1, k, hstrip, hck, hc1, hnd⟩ :=
      stripLoop_spec d hdp.two_le (cofac + 1) cofac h1 (by omega)
    rw [naiveSmoothLoop, hstrip]
    simp only
    by_cases hone : c1 = 1
    · rw [if_pos hone]
      refine ⟨c1, d ^ k, rfl, hck, hc1, ?_, ?_⟩
      · intro e he h
        rw [hone] at h
        exact (hprime e he).ne_one (Nat.dvd_one.mp h)
      · intro q hq h
        have := (Nat.prime_dvd_prime_iff_eq hq hdp).mp (hq.dvd_of_dvd_pow h)
        rw [this]
        exact List.mem_cons_self _ _
    · rw [if_neg hone]
      obtain ⟨c2, b2, hloop, hcb, hc2, hnd2, hq2⟩ :=
        ih c1 (fun e he => hprime e (List.mem_cons_of_mem _ he)) hc1
      refine ⟨c2, b2 * d ^ k, hloop, ?_, hc2, ?_, ?_⟩
      · rw [hck, hcb]; ring
      · intro e he h
        rcases List.mem_cons.mp he with h2 | h2
        · rw [h2] at h
          exact hnd (hcb ▸ Dvd.dvd.mul_right h b2)
        · exact hnd2 e h2 h
      · intro q hq h
        rcases (Nat.Prime.dvd_mul hq).mp h with h2 | h2
        · exact List.mem_cons_of_mem _ (hq2 q hq h2)
        · have := (Nat.prime_dvd_prime_iff_eq hq hdp).mp (hq.dvd_of_dvd_pow h2)
          rw [this]
          exact List.mem_cons_self _ _

/-! ## The sieve by the small primes -/

theorem smallOddPrimeDivides_iff (n : Nat) :
    smallOddPrimeDivides (n % PP) = true ↔ ∃ d ∈ firstGroup, d ∣ n := by
  have hmod : ∀ d ∈ firstGroup, (n % PP) % d = n % d :=
    fun d hd => Nat.mod_mod_of_dvd _ (firstGroup_dvd_PP d hd)
  have h3 := hmod 3 (by decide)
  have h5 := hmod 5 (by decide)
  have h7 := hmod 7 (by decide)
  have h11 := hmod 11 (by decide)
  have h13 := hmod 13 (by decide)
  have h17 := hmod 17 (by decide)
  have h19 := hmod 19 (by decide)
  have h23 := hmod 23 (by decide)
  have h29 := hmod 29 (by decide)
  have h31 := hmod 31 (by decide)
  have h37 := hmod 37 (by decide)
  have h41 := hmod 41 (by decide)
  have h43 := hmod 43 (by decide)
  have h47 := hmod 47 (by decide)
  have h53 := hmod 53 (by decide)
  unfold smallOddPrimeDivides
  simp only [h3, h5, h7, h11, h13, h17, h19, h23, h29, h31, h37, h41, h43, h47, h53,
    Bool.or_eq_true, beq_iff_eq, firstGroup, List.mem_cons, List.mem_singleton,
    List.not_mem_nil, or_false, exists_eq_or_imp, exists_eq_left, Nat.dvd_iff_mod_eq_zero,
    or_assoc]

/-- The inner loop of `isPrime_Sieve` over a group of primes whose product gave `r`. -/
theorem sieveGroupLoop_spec (r n : Nat) (rest : List Nat) :
    ∀ (grp : List Nat) (j : Nat), (∀ d ∈ grp, d.Prime) → (∀ d ∈ grp, r % d = 0 ↔ d ∣ n) →
      sieveGroupLoop r (j + grp.length) (grp ++ rest) j
        = if ∃ d ∈ grp, d ∣ n then Except.ok none
          else Except.ok (some (j + grp.length, rest)) := by
  intro grp
  induction grp with
  | nil =>
    intro j _ _
    have hno : ¬ ∃ d ∈ ([] : List Nat), d ∣ n := by simp
    rw [if_neg hno, List.length_nil, Nat.add_zero, List.nil_append]
    cases rest with
    | nil => rw [sieveGroupLoop, if_neg (by omega)]
    | cons e rest => rw [sieveGroupLoop, if_neg (by omega)]
  | cons d grp ih =>
    intro j hprime hr
    have hdp := hprime d (List.mem_cons_self _ _)
    rw [List.cons_append, sieveGroupLoop, if_pos (by rw [List.length_cons]; omega),
      if_neg hdp.ne_zero]
    by_cases hrd : r % d = 0
    · rw [if_pos hrd, if_pos ⟨d, List.mem_cons_self _ _, (hr d (List.mem_cons_self _ _)).mp hrd⟩]
    · rw [if_neg hrd]
      have e : j + (d :: grp).length = (j + 1) + grp.length := by
        rw [List.length_cons]; omega
      rw [e, ih (j + 1) (fun e he => hprime e (List.mem_cons_of_mem _ he))
        (fun e he => hr e (List.mem_cons_of_mem _ he))]
      have hiff : (∃ e ∈ grp, e ∣ n) ↔ ∃ e ∈ d :: grp, e ∣ n := by
        constructor
        · rintro ⟨e, he, h⟩; exact ⟨e, List.mem_cons_of_mem _ he, h⟩
        · rintro ⟨e, he, h⟩
          rcases List.mem_cons.mp he with h2 | h2
          · rw [h2] at h
            exact absurd ((hr d (List.mem_cons_self _ _)).mpr h) hrd
          · exact ⟨e, h2, h⟩
      by_cases hex : ∃ e ∈ grp, e ∣ n
      · rw [if_pos hex, if_pos (hiff.mp hex)]
      · rw [if_neg hex, if_neg (fun h => hex (hiff.mpr h))]

/-- The outer loop of `isPrime_Sieve` with the largest prime of the table as bound, on a table
`P` where the entry before the index `i` is below the bound exactly for `i < PRIMES_SIZE`. -/
theorem sieveGroupsLoop_spec (P : List Nat) (B n : Nat)
    (hread : ∀ i, 16 ≤ i → i ≤ PRIMES_SIZE → (P.getD (i - 1) 0 < B ↔ i < PRIMES_SIZE)) :
    ∀ (todo : Nat) (Q : List Nat) (i : Nat), 16 ≤ i →
      i + Q.length = PRIMES_SIZE → (∀ d ∈ Q, d.Prime) → groupsCover todo Q = true →
      sieveGroupsLoop P B n (productsLoop todo Q i) Q i
        = Except.ok (decide (∀ d ∈ Q, ¬ d ∣ n)) := by
  have hps : PRIMES_SIZE = 6542 := rfl
  intro todo
  induction todo with
  | zero =>
    intro Q i h16 hlen _ hcover
    have hQ : Q = [] := by
      cases Q with
      | nil => rfl
      | cons a l => simp [groupsCover] at hcover
    subst hQ
    rw [List.length_nil, Nat.add_zero] at hlen
    have hnlt : ¬ P.getD (i - 1) 0 < B := by
      rw [hread i h16 (by omega)]; omega
    have hat : primesAt P (i - 1) = Except.ok (P.getD (i - 1) 0) := by
      unfold primesAt; rw [if_pos (by omega)]
    rw [productsLoop, sieveGroupsLoop, if_neg (by omega), hat]
    simp only [if_neg hnlt]
    simp
  | succ todo ih =>
    intro Q i h16 hlen hprime hcover
    have hat : primesAt P (i - 1) = Except.ok (P.getD (i - 1) 0) := by
      unfold primesAt; rw [if_pos (by omega)]
    cases Q with
    | nil =>
      rw [List.length_nil, Nat.add_zero] at hlen
      have hnlt : ¬ P.getD (i - 1) 0 < B := by
        rw [hread i h16 (by omega)]; omega
      rw [productsLoop_succ, sieveGroupsLoop, if_neg (by omega), hat]
      simp only [if_neg hnlt]
      simp
    | cons q0 rest0 =>
      have hlt : P.getD (i - 1) 0 < B := by
        rw [hread i h16 (by omega)]
        rw [List.length_cons] at hlen; omega
      rw [groupsCover] at hcover
      obtain ⟨grp, hQ, hp⟩ := productLoop_spec (q0 :: rest0) i 1 hlen
      rw [productsLoop_succ, hp]
      generalize groupRest (q0 :: rest0) 1 = R at hQ hcover ⊢
      generalize q0 :: rest0 = Q at hQ hlen hprime ⊢
      subst hQ
      have hgp : ∀ d ∈ grp, d.Prime := fun d hd => hprime d (List.mem_append_left _ hd)
      have hRp : ∀ d ∈ R, d.Prime := fun d hd => hprime d (List.mem_append_right _ hd)
      have hprod : 1 * grp.prod ≠ 0 := by
        rw [one_mul]
        apply List.prod_ne_zero
        intro h0
        exact Nat.not_prime_zero (hgp 0 h0)
      have hinner := sieveGroupLoop_spec (n % (1 * grp.prod)) n R grp i hgp
        (by
          intro d hd
          have hdvd : d ∣ 1 * grp.prod := by rw [one_mul]; exact List.dvd_prod hd
          rw [Nat.mod_mod_of_dvd _ hdvd]
          exact (Nat.dvd_iff_mod_eq_zero ..).symm)
      rw [sieveGroupsLoop, if_neg (by omega), hat]
      simp only [if_pos hlt, if_neg hprod, hinner]
      by_cases hex : ∃ d ∈ grp, d ∣ n
      · rw [if_pos hex]
        obtain ⟨d, hd, hdvd⟩ := hex
        have : ¬ ∀ e ∈ grp ++ R, ¬ e ∣ n := fun h => h d (List.mem_append_left _ hd) hdvd
        simp only [this, decide_False]
      · rw [if_neg hex]
        simp only
        rw [ih R (i + grp.length) (by omega) (by rw [List.length_append] at hlen; omega) hRp
          hcover]
        congr 1
        apply decide_eq_decide.mpr
        constructor
        · intro h e he
          rcases List.mem_append.mp he with h2 | h2
          · exact fun hd => hex ⟨e, h2, hd⟩
          · exact h e h2
        · intro h e he
          exact h e (List.mem_append_right _ he)

theorem primesLt_65521_length : (primesLt 65521).length = 6541 := by
  have h : primesLt 65522 = primesLt 65521 ++ [65521] := by
    rw [primesLt_succ, if_pos (by norm_num)]
  have hc := primesLt_count
  rw [h, List.length_append, List.length_singleton] at hc
  omega

/-- In the table of the primes below 65522 the entry before the index `i` is below 65521
exactly for `i < 6542`. -/
theorem primesLt_read (i : Nat) (h1 : 1 ≤ i) (h2 : i ≤ PRIMES_SIZE) :
    (primesLt 65522).getD (i - 1) 0 < 65521 ↔ i < PRIMES_SIZE := by
  have hps : PRIMES_SIZE = 6542 := rfl
  have h : primesLt 65522 = primesLt 65521 ++ [65521] := by
    rw [primesLt_succ, if_pos (by norm_num)]
  have hl := primesLt_65521_length
  rw [h]
  by_cases hi : i < PRIMES_SIZE
  · have hlt : i - 1 < (primesLt 65521).length := by omega
    rw [List.getD_append _ _ _ _ hlt, List.getD_eq_getElem _ _ hlt]
    have hm := (mem_primesLt 65521 _).mp (List.getElem_mem hlt)
    exact ⟨fun _ => hi, fun _ => hm.1⟩
  · have hi2 : i - 1 = (primesLt 65521).length := by omega
    rw [hi2, List.getD_append_right _ _ _ _ (le_refl _), Nat.sub_self]
    exact ⟨fun h => absurd h (by decide), fun h => absurd h hi⟩

theorem and_one_eq_zero_iff (n : Int) : mpz_get_ui n &&& 1 = 0 ↔ n.natAbs % 2 = 0 := by
  unfold mpz_get_ui
  rw [Nat.and_one_is_mod]
  have : (2 : Nat) ^ 64 = 2 * 2 ^ 63 := by norm_num
  rw [this, Nat.mod_mul_right_mod]

/-- `isPrime_Sieve` on the tables of `initPrimes`. -/
theorem isPrime_Sieve_spec :
    ∃ T, initPrimes = Except.ok T ∧ (∀ (n bound : Nat),
      isPrime_Sieve T (n : Int) bound
        = if n % 2 = 0 then Except.ok false
          else if ∃ d ∈ firstGroup, d ∣ n then Except.ok false
          else if bound = 0 then Except.ok (decide (∀ d ∈ T.primes.drop 16, ¬ d ∣ n))
          else if 65521 < bound then raise exception_t.E_CRYPTO_BAD_PARAMETER
          else isPrime_Sieve T (n : Int) bound) ∧
      (∀ d, d ∈ T.primes.drop 16 ↔ d.Prime ∧ 59 ≤ d ∧ d ≤ 65521) := by
  obtain ⟨Q, hQ, hlen, hprime, hnodup, hcover, hall, hinit⟩ := initPrimes_spec
  have hdrop16 : List.drop 16 (2 :: firstGroup ++ Q) = Q :=
    @List.drop_left' Nat (2 :: firstGroup) Q 16 (by decide)
  refine ⟨_, hinit, ?_, ?_⟩
  swap
  · intro d
    dsimp only
    rw [hdrop16]
    constructor
    · exact fun hd => hprime d hd
    · rintro ⟨hp, h59, hle⟩
      rcases hall d hp hle with h2 | h2 | h2
      · omega
      · have h53 : ∀ d ∈ firstGroup, d ≤ 53 := by decide
        have := h53 d h2
        omega
      · exact h2
  intro n bound
  dsimp only
  have hlast : (2 :: firstGroup ++ Q).getD 6541 0 = 65521 := by
    rw [← hQ]
    have h : primesLt 65522 = primesLt 65521 ++ [65521] := by
      rw [primesLt_succ, if_pos (by norm_num)]
    have hl := primesLt_65521_length
    rw [h, ← hl, List.getD_append_right _ _ _ _ (le_refl _), Nat.sub_self]
    rfl
  have hb1 : (2 :: firstGroup ++ Q).getD (NB_PRIMES_IN_SIEVE - 1) 0 = 65521 := hlast
  have hb2 : (2 :: firstGroup ++ Q).getD (PRIMES_SIZE - 1) 0 = 65521 := hlast
  by_cases heven : n % 2 = 0
  · rw [if_pos heven]
    unfold isPrime_Sieve
    rw [if_pos ((and_one_eq_zero_iff _).mpr (by rw [Int.natAbs_ofNat]; exact heven))]
  rw [if_neg heven]
  have h1 : ¬ (mpz_get_ui (n : Int) &&& 1 = 0) := by
    rw [and_one_eq_zero_iff, Int.natAbs_ofNat]; exact heven
  have hnn : ¬ ((n : Int) < 0) := by omega
  by_cases hsmall : ∃ d ∈ firstGroup, d ∣ n
  · rw [if_pos hsmall]
    unfold isPrime_Sieve
    rw [if_neg h1, if_neg hnn]
    simp only [Int.natAbs_ofNat]
    rw [if_pos ((smallOddPrimeDivides_iff n).mpr hsmall)]
  rw [if_neg hsmall]
  have hs : ¬ (smallOddPrimeDivides (n % PP) = true) :=
    fun h => hsmall ((smallOddPrimeDivides_iff n).mp h)
  by_cases hb0 : bound = 0
  · rw [if_pos hb0]
    subst hb0
    have hgroups : productsLoop PRIMES_PRODUCTS_SIZE Q 16
        = ((16, (productLoop Q 16 1).1), (productLoop Q 16 1).2.2)
          :: productsLoop 1575 (productLoop Q 16 1).2.1 (productLoop Q 16 1).1 :=
      productsLoop_succ 1575 Q 16
    have hloop := sieveGroupsLoop_spec (2 :: firstGroup ++ Q) 65521 n
      (by
        intro i h16 hle
        rw [← hQ]
        exact primesLt_read i (by omega) hle)
      PRIMES_PRODUCTS_SIZE Q 16 (le_refl 16) hlen (fun d hd => (hprime d hd).1) hcover
    unfold isPrime_Sieve
    rw [if_neg h1, if_neg hnn]
    simp only [Int.natAbs_ofNat, if_neg hs, eq_self_iff_true, if_true, hb1, hb2, gt_iff_lt,
      lt_irrefl, if_false]
    rw [hgroups]
    simp only [List.map_cons, hdrop16]
    have hz := zip_map_fst_snd (productsLoop PRIMES_PRODUCTS_SIZE Q 16)
    rw [hgroups] at hz
    simp only [List.map_cons] at hz
    rw [hz, ← hgroups, hloop]
  rw [if_neg hb0]
  by_cases hbig : 65521 < bound
  · rw [if_pos hbig]
    unfold isPrime_Sieve
    rw [if_neg h1, if_neg hnn]
    simp only [Int.natAbs_ofNat, if_neg hs, if_neg hb0, hb2, gt_iff_lt, if_pos hbig, if_false]
  · rw [if_neg hbig]

theorem firstGroup_complete (p : Nat) (hp : p.Prime) (h3 : 3 ≤ p) (h58 : p < 59) :
    p ∈ firstGroup := by
  obtain ⟨Q, _, _, hprime, _, _, hall, _⟩ := initPrimes_spec
  rcases hall p hp (by omega) with h | h | h
  · omega
  · exact h
  · have := (hprime p h).2.1
    omega

/-! ## Generation of primes after Fouque and Tibouchi -/

theorem mpz_sizeinbase_2_le (n L : Nat) (hn : 0 < n) (h : n < 2 ^ L) :
    mpz_sizeinbase_2 (n : Int) ≤ L := by
  obtain ⟨h1, h2, h3⟩ := mpz_sizeinbase_2_bounds n hn
  by_contra hlt
  have : 2 ^ L ≤ 2 ^ (mpz_sizeinbase_2 (n : Int) - 1) :=
    Nat.pow_le_pow_right (by decide) (by omega)
  omega

/-- The bit length of a product with a number below `2^16`. -/
theorem mpz_sizeinbase_2_mul_le (a p : Nat) (ha : 0 < a) (hp : 0 < p) (hp16 : p < 2 ^ 16) :
    mpz_sizeinbase_2 ((a * p : Nat) : Int) ≤ mpz_sizeinbase_2 (a : Int) + 16 := by
  obtain ⟨_, _, h3⟩ := mpz_sizeinbase_2_bounds a ha
  apply mpz_sizeinbase_2_le _ _ (Nat.mul_pos ha hp)
  rw [Nat.pow_add]
  exact Nat.mul_lt_mul'' h3 hp16

theorem lcmPred_append (l : List Nat) (p : Nat) :
    lcmPred (l ++ [p]) = Nat.lcm (lcmPred l) (p - 1) := by
  unfold lcmPred
  rw [List.foldl_append]
  rfl

theorem take_succ_getD (P : List Nat) (i : Nat) (h : i < P.length) :
    P.take (i + 1) = P.take i ++ [P.getD i 0] := by
  rw [List.take_succ, List.getD_eq_getElem _ _ h, List.getElem?_eq_getElem h]
  rfl

/-- The loop of `genParamFT` from a state reached with the first `i` entries of a table of
`PRIMES_SIZE` numbers between 1 and `2^16`, for `k < 2^64`. -/
theorem genParamFTLoop_spec (P : List Nat) (k : Nat) (hk : k < 2 ^ 64)
    (hP : P.length = PRIMES_SIZE) (hrange : ∀ p ∈ P, 1 ≤ p ∧ p < 2 ^ 16) :
    ∀ (todo i : Nat), i + todo = PRIMES_SIZE →
      mpz_sizeinbase_2 ((P.take i).prod : Nat) ≤ k →
      ∃ i1, i ≤ i1 ∧ i1 ≤ PRIMES_SIZE ∧
        genParamFTLoop P k 64 todo (((P.take i).prod : Nat) : Int)
            ((lcmPred (P.take i) : Nat) : Int) i
          = ((((P.take i1).prod : Nat) : Int), ((lcmPred (P.take i1) : Nat) : Int), i1) ∧
        (i < i1 → mpz_sizeinbase_2 ((P.take (i1 - 1)).prod : Nat) + 64 ≤ k) ∧
        (i1 < PRIMES_SIZE → k < mpz_sizeinbase_2 ((P.take i1).prod : Nat) + 64) := by
  intro todo
  induction todo with
  | zero =>
    intro i hi _
    exact ⟨i, le_refl i, by omega, rfl, fun h => absurd h (lt_irrefl i), fun h => by omega⟩
  | succ todo ih =>
    intro i hi hsize
    have hilt : i < P.length := by omega
    have hsub : size_t_sub k (mpz_sizeinbase_2 ((P.take i).prod : Nat))
        = k - mpz_sizeinbase_2 ((P.take i).prod : Nat) := by
      unfold size_t_sub SIZE_T_RANGE
      have : (2 : Nat) ^ 64 = 18446744073709551616 := by norm_num
      omega
    rw [genParamFTLoop.eq_def]
    dsimp only
    rw [hsub]
    by_cases hgo : k - mpz_sizeinbase_2 ((P.take i).prod : Nat) ≥ 64
    · rw [if_pos hgo]
      have hp := hrange (P.getD i 0) (by
        rw [List.getD_eq_getElem _ _ hilt]; exact List.getElem_mem hilt)
      have hpos : 0 < (P.take i).prod := by
        apply Nat.pos_of_ne_zero
        apply List.prod_ne_zero
        intro h0
        have := hrange 0 (List.mem_of_mem_take h0)
        omega
      have hm : ((P.take i).prod : Int) * ((P.getD i 0 : Nat) : Int)
          = (((P.take (i + 1)).prod : Nat) : Int) := by
        rw [take_succ_getD P i hilt, List.prod_append, List.prod_singleton]
        push_cast
        rfl
      have hl : mpz_lcm_ui ((lcmPred (P.take i) : Nat) : Int) ((P.getD i 0 + 2 ^ 64 - 1) % 2 ^ 64)
          = ((lcmPred (P.take (i + 1)) : Nat) : Int) := by
        have e : (P.getD i 0 + 2 ^ 64 - 1) % 2 ^ 64 = P.getD i 0 - 1 := by
          have : (2 : Nat) ^ 64 = 18446744073709551616 := by norm_num
          have : (2 : Nat) ^ 16 = 65536 := by norm_num
          omega
        rw [take_succ_getD P i hilt, lcmPred_append, e]
        unfold mpz_lcm_ui
        rw [Int.natAbs_ofNat]
      have hnext : mpz_sizeinbase_2 ((P.take (i + 1)).prod : Nat) ≤ k := by
        rw [take_succ_getD P i hilt, List.prod_append, List.prod_singleton]
        have := mpz_sizeinbase_2_mul_le (P.take i).prod (P.getD i 0) hpos (by omega) hp.2
        omega
      rw [hm, hl]
      obtain ⟨i1, h1, h2, h3, h4, h5⟩ := ih (i + 1) (by omega) hnext
      refine ⟨i1, by omega, h2, h3, ?_, h5⟩
      intro _
      by_cases he : i + 1 < i1
      · exact h4 he
      · have : i1 - 1 = i := by omega
        rw [this]
        omega
    · rw [if_neg hgo]
      exact ⟨i, le_refl i, by omega, rfl, fun h => absurd h (lt_irrefl i), fun _ => by omega⟩
theorem genParamFTLoop_small (Q : List Nat) (todo : Nat) :
    genParamFTLoop (2 :: 3 :: 5 :: 7 :: Q) 70 64 (todo + 5) 1 1 0 = (210, 12, 4) := by
  have s1 : size_t_sub 70 (mpz_sizeinbase_2 1) ≥ 64 := by decide
  have s2 : size_t_sub 70 (mpz_sizeinbase_2 2) ≥ 64 := by decide
  have s3 : size_t_sub 70 (mpz_sizeinbase_2 6) ≥ 64 := by decide
  have s4 : size_t_sub 70 (mpz_sizeinbase_2 30) ≥ 64 := by decide
  have s5 : ¬ size_t_sub 70 (mpz_sizeinbase_2 210) ≥ 64 := by decide
  have l1 : mpz_lcm_ui 1 ((2 + 2 ^ 64 - 1) % 2 ^ 64) = 1 := rfl
  have l2 : mpz_lcm_ui 1 ((3 + 2 ^ 64 - 1) % 2 ^ 64) = 2 := rfl
  have l3 : mpz_lcm_ui 2 ((5 + 2 ^ 64 - 1) % 2 ^ 64) = 4 := rfl
  have l4 : mpz_lcm_ui 4 ((7 + 2 ^ 64 - 1) % 2 ^ 64) = 12 := rfl
  have m1 : (1 : Int) * ((2 : Nat) : Int) = 2 := rfl
  have m2 : (2 : Int) * ((3 : Nat) : Int) = 6 := rfl
  have m3 : (6 : Int) * ((5 : Nat) : Int) = 30 := rfl
  have m4 : (30 : Int) * ((7 : Nat) : Int) = 210 := rfl
  rw [genParamFTLoop.eq_def]
  dsimp only [List.getD_cons_zero, List.getD_cons_succ]
  rw [if_pos s1, m1, l1, genParamFTLoop.eq_def]
  dsimp only [List.getD_cons_zero, List.getD_cons_succ]
  rw [if_pos s2, m2, l2, genParamFTLoop.eq_def]
  dsimp only [List.getD_cons_zero, List.getD_cons_succ]
  rw [if_pos s3, m3, l3, genParamFTLoop.eq_def]
  dsimp only [List.getD_cons_zero, List.getD_cons_succ]
  rw [if_pos s4, m4, l4, genParamFTLoop.eq_def]
  dsimp only
  rw [if_neg s5]

theorem genParamFT_of_loop (P : List Nat) (wlen k : Nat) (m lambda : Int) (i : Nat)
    (h : genParamFTLoop P k wlen PRIMES_SIZE 1 1 0 = (m, lambda, i)) (hi : i ≠ 0) :
    genParamFT P wlen k = Except.ok (m, lambda, P.getD (i - 1) 0) := by
  unfold genParamFT
  rw [h]
  dsimp only
  rw [if_neg hi]

/-- `genParamFT` on the table of `initPrimes`, for `65 ≤ k < 2^64`: the number `i` of primes
taken, the result, and the two bounds on the size that the loop gives. -/
theorem genParamFT_spec (k : Nat) (hk1 : 65 ≤ k) (hk : k < 2 ^ 64) :
    ∃ T, initPrimes = Except.ok T ∧ T.primes = primesLt 65522 ∧ ∃ i, 1 ≤ i ∧ i ≤ PRIMES_SIZE ∧
      genParamFT T.primes 64 k
        = Except.ok ((((T.primes.take i).prod : Nat) : Int),
            ((lcmPred (T.primes.take i) : Nat) : Int), T.primes.getD (i - 1) 0) ∧
      mpz_sizeinbase_2 ((T.primes.take (i - 1)).prod : Nat) + 64 ≤ k ∧
      (i < PRIMES_SIZE → k < mpz_sizeinbase_2 ((T.primes.take i).prod : Nat) + 64) := by
  obtain ⟨Q, hQ, hlen, _, _, _, _, hT⟩ := initPrimes_spec
  refine ⟨_, hT, hQ.symm, ?_⟩
  dsimp only
  rw [← hQ]
  have hP : (primesLt 65522).length = PRIMES_SIZE := primesLt_count
  have hrange : ∀ p ∈ primesLt 65522, 1 ≤ p ∧ p < 2 ^ 16 := by
    intro p hp
    have h := (mem_primesLt 65522 p).1 hp
    have := h.2.one_lt
    have : (2 : Nat) ^ 16 = 65536 := by norm_num
    omega
  have h0 : mpz_sizeinbase_2 (((primesLt 65522).take 0).prod : Nat) ≤ k := by
    rw [List.take_zero, List.prod_nil]
    have : mpz_sizeinbase_2 ((1 : Nat) : Int) = 1 := rfl
    omega
  obtain ⟨i1, _, h2, h3, h4, h5⟩ :=
    genParamFTLoop_spec (primesLt 65522) k hk hP hrange PRIMES_SIZE 0 (by omega) h0
  rw [List.take_zero] at h3
  have h3b : genParamFTLoop (primesLt 65522) k 64 PRIMES_SIZE 1 1 0
      = (((((primesLt 65522).take i1).prod : Nat) : Int),
          ((lcmPred ((primesLt 65522).take i1) : Nat) : Int), i1) := h3
  have hi1 : i1 ≠ 0 := by
    intro h
    rw [h] at h5
    have h6 := h5 (by decide)
    rw [List.take_zero, List.prod_nil] at h6
    have : mpz_sizeinbase_2 ((1 : Nat) : Int) = 1 := rfl
    omega
  exact ⟨i1, by omega, h2, genParamFT_of_loop _ _ _ _ _ _ h3b hi1, h4 (by omega), h5⟩

/-- The value drawn by `getRandomIntNB` below a positive `q` is in `[0, q)`. -/
theorem getRandomIntNB_mem {σ : Type} (gen : PRNG σ) (s s1 : σ) (q a : Int) (hq : 0 < q)
    (h : gen.getRandomIntNB s q = Except.ok (s1, a)) : 0 ≤ a ∧ a < q := by
  unfold PRNG.getRandomIntNB at h
  dsimp only at h
  cases hg : gen.getRandomInt s ((mpz_sizeinbase_2 q + 64) % SIZE_T_RANGE) with
  | error t => rw [hg] at h; exact absurd h (by simp)
  | ok v =>
    obtain ⟨s2, output⟩ := v
    rw [hg] at h
    have hne : q ≠ 0 := by omega
    simp only [mpz_mod, hne, if_false] at h
    have h2 : output % q = a := by
      injection h with h
      injection h with _ h
    rw [← h2]
    exact ⟨Int.emod_nonneg _ hne, Int.emod_lt_of_pos _ hq⟩

theorem mpz_setbit_zero (k : Nat) : mpz_setbit 0 k = 2 ^ k := by
  unfold mpz_setbit
  rw [if_neg (by simp)]
  simp

theorem findRSAFactorFT_p_eq (pdemi : Int) : findRSAFactorFT_p pdemi = 2 * pdemi + 1 := by
  unfold findRSAFactorFT_p mpz_setbit mpz_mul_2exp
  rw [if_neg (by simp)]
  ring

/-- The quotient rounded up and the quotient rounded down by a positive `m`. -/
theorem mpz_cdiv_q_spec (x m : Int) (hm : 0 < m) :
    ∃ r, mpz_cdiv_q x m = Except.ok r ∧ x ≤ r * m ∧ (r - 1) * m < x := by
  have hne : m ≠ 0 := by omega
  refine ⟨-((-x) / m), ?_, ?_, ?_⟩
  · unfold mpz_cdiv_q
    rw [if_neg hne, Int.fdiv_eq_ediv _ (le_of_lt hm)]
  · have := Int.ediv_mul_le (-x) hne
    linarith
  · have := Int.lt_ediv_add_one_mul_self (-x) hm
    linarith

theorem mpz_fdiv_q_spec (x m : Int) (hm : 0 < m) :
    ∃ q, mpz_fdiv_q x m = Except.ok q ∧ q * m ≤ x ∧ x < (q + 1) * m := by
  have hne : m ≠ 0 := by omega
  refine ⟨x / m, ?_, Int.ediv_mul_le x hne, Int.lt_ediv_add_one_mul_self x hm⟩
  unfold mpz_fdiv_q
  rw [if_neg hne, Int.fdiv_eq_ediv _ (le_of_lt hm)]

/-- A candidate `b + a * m` with `a` drawn in `[r, r + l)`, where `lo ≤ r * m + b` and
`(r + l) * m + b ≤ hi`. -/
theorem candidateFT_spec {σ : Type} (gen : PRNG σ) (s s1 : σ) (r l b m lo hi p : Int)
    (hm : 0 < m) (hb : 0 ≤ b) (hbm : b < m) (hl : 0 < l)
    (hlo : lo ≤ r * m + b) (hhi : (r + l) * m + b ≤ hi)
    (h : candidateFT gen s r l b m = Except.ok (s1, p)) :
    lo ≤ p ∧ p < hi ∧ p % m = b := by
  unfold candidateFT at h
  cases hg : gen.getRandomIntNB s l with
  | error t => rw [hg] at h; exact absurd h (by simp)
  | ok v =>
    obtain ⟨s2, a⟩ := v
    rw [hg] at h
    obtain ⟨ha0, hal⟩ := getRandomIntNB_mem gen s s2 l a hl hg
    have hp : b + (a + r) * m = p := by
      injection h with h
      injection h with _ h
    rw [← hp]
    refine ⟨?_, ?_, ?_⟩
    · have h0 : 0 ≤ a * m := Int.mul_nonneg ha0 (Int.le_of_lt hm)
      rw [add_mul a r m]
      omega
    · have h1 : (a + r + 1) * m ≤ (r + l) * m :=
        mul_le_mul_of_nonneg_right (by omega) (le_of_lt hm)
      rw [add_mul (a + r) 1 m, one_mul] at h1
      omega
    · rw [Int.add_mul_emod_self]
      exact Int.emod_eq_of_lt hb hbm

theorem mpz_sizeinbase_2_int (p : Int) (n : Nat) (hn : 1 ≤ n) (h1 : 2 ^ (n - 1) ≤ p)
    (h2 : p < 2 ^ n) : mpz_sizeinbase_2 p = n := by
  have hp : 0 ≤ p := le_trans (by positivity) h1
  obtain ⟨k, rfl⟩ := Int.eq_ofNat_of_zero_le hp
  exact mpz_sizeinbase_2_unique k n (by exact_mod_cast h1) (by exact_mod_cast h2) hn

theorem size_t_sub_small (n k : Nat) (hk : k ≤ n) (hn : n < 2 ^ 64) :
    size_t_sub n k = n - k := by
  unfold size_t_sub SIZE_T_RANGE
  have : (2 : Nat) ^ 64 = 18446744073709551616 := by norm_num
  omega

/-- The range of `genPrimeFT`: `r` and `r + l` are the least and the first excluded
multiplier. -/
theorem genPrimeFT_range_spec (n : Nat) (b m : Int) (hn : 1 ≤ n) (hn2 : n < 2 ^ 64)
    (hm : 0 < m) :
    ∃ r l, genPrimeFT_range n b m = Except.ok (r, l) ∧
      2 ^ (n - 1) ≤ r * m + b ∧ (r + l) * m + b ≤ 2 ^ n := by
  obtain ⟨r, hr, hr1, _⟩ := mpz_cdiv_q_spec (2 ^ (n - 1) - b) m hm
  obtain ⟨q, hq, hq1, _⟩ := mpz_fdiv_q_spec (2 ^ n - b) m hm
  have e : (2 : Int) ^ (n - 1) * 2 ^ 1 = 2 ^ n := by
    rw [← pow_add]
    congr 1
    omega
  refine ⟨r, q - r, ?_, by linarith, by linarith⟩
  unfold genPrimeFT_range
  dsimp only
  rw [size_t_sub_small n 1 hn hn2, mpz_setbit_zero, hr]
  dsimp only
  unfold mpz_mul_2exp
  rw [e, hq]

/-- The range of `findRSAFactorFT`. -/
theorem findRSAFactorFT_range_spec (n : Nat) (b m : Int) (hn : 3 ≤ n) (hn2 : n < 2 ^ 64)
    (hm : 0 < m) :
    ∃ r l, findRSAFactorFT_range n b m = Except.ok (r, l) ∧
      3 * 2 ^ (n - 3) ≤ r * m + b ∧ (r + l) * m + b ≤ 2 ^ (n - 1) := by
  obtain ⟨r, hr, hr1, _⟩ := mpz_cdiv_q_spec (3 * 2 ^ (n - 3) - b) m hm
  obtain ⟨q, hq, hq1, _⟩ := mpz_fdiv_q_spec (2 ^ (n - 1) - b) m hm
  refine ⟨r, q - r, ?_, by linarith, by linarith⟩
  unfold findRSAFactorFT_range
  dsimp only
  unfold mpz_mul_2exp
  rw [size_t_sub_small n 3 hn hn2, size_t_sub_small n 1 (by omega) hn2, mpz_setbit_zero, hr]
  dsimp only
  rw [hq]

/-! ## Step 2 of the generation after Fouque and Tibouchi -/

theorem lcmPred_foldl (l : List Nat) (a : Nat) (ha : 0 < a) (hl : ∀ p ∈ l, 2 ≤ p) :
    0 < l.foldl (fun a p => Nat.lcm a (p - 1)) a ∧
    a ∣ l.foldl (fun a p => Nat.lcm a (p - 1)) a ∧
    ∀ p ∈ l, (p - 1) ∣ l.foldl (fun a p => Nat.lcm a (p - 1)) a := by
  induction l generalizing a with
  | nil => exact ⟨ha, dvd_refl a, fun p hp => absurd hp (List.not_mem_nil p)⟩
  | cons q t ih =>
    have hq := hl q (List.mem_cons_self q t)
    have hpos : 0 < Nat.lcm a (q - 1) := Nat.lcm_pos ha (by omega)
    obtain ⟨h1, h2, h3⟩ := ih (Nat.lcm a (q - 1)) hpos
      (fun p hp => hl p (List.mem_cons_of_mem q hp))
    refine ⟨h1, dvd_trans (Nat.dvd_lcm_left a (q - 1)) h2, ?_⟩
    intro p hp
    rcases List.mem_cons.1 hp with rfl | hp
    · exact dvd_trans (Nat.dvd_lcm_right a (p - 1)) h2
    · exact h3 p hp

theorem lcmPred_pos (l : List Nat) (hl : ∀ p ∈ l, p.Prime) : 0 < lcmPred l :=
  (lcmPred_foldl l 1 (by decide) (fun p hp => (hl p hp).two_le)).1

theorem lcmPred_dvd (l : List Nat) (hl : ∀ p ∈ l, p.Prime) (p : Nat) (hp : p ∈ l) :
    (p - 1) ∣ lcmPred l :=
  (lcmPred_foldl l 1 (by decide) (fun p hp => (hl p hp).two_le)).2.2 p hp

/-- Integers divisible by each of a list of distinct primes are divisible by their product. -/
theorem prod_primes_dvd (l : List Nat) (hl : ∀ p ∈ l, p.Prime) (hnodup : l.Nodup) (x : Int)
    (hx : ∀ p ∈ l, ((p : Nat) : Int) ∣ x) : ((l.prod : Nat) : Int) ∣ x := by
  induction l with
  | nil => simp
  | cons q t ih =>
    rw [List.prod_cons, Nat.cast_mul]
    have hq := hl q (List.mem_cons_self q t)
    have hnd := List.nodup_cons.1 hnodup
    apply IsCoprime.mul_dvd
    · rw [Nat.isCoprime_iff_coprime, Nat.coprime_list_prod_right_iff]
      intro p hp
      have hpp := hl p (List.mem_cons_of_mem q hp)
      apply (Nat.coprime_primes hq hpp).2
      rintro rfl
      exact hnd.1 hp
    · exact hx q (List.mem_cons_self q t)
    · exact ih (fun p hp => hl p (List.mem_cons_of_mem q hp)) hnd.2
        (fun p hp => hx p (List.mem_cons_of_mem q hp))

/-- For `m` a product of distinct primes and `lambda` the least common multiple of the
`p - 1`: `b^lambda` is 1 modulo `m` exactly when `b` is coprime to `m`. -/
theorem pow_lcmPred_dvd_iff (l : List Nat) (hl : ∀ p ∈ l, p.Prime) (hnodup : l.Nodup)
    (b : Int) :
    ((l.prod : Nat) : Int) ∣ b ^ lcmPred l - 1 ↔ Int.gcd b ((l.prod : Nat) : Int) = 1 := by
  rw [← Int.isCoprime_iff_gcd_eq_one]
  constructor
  · rintro ⟨k, hk⟩
    have hpos := lcmPred_pos l hl
    obtain ⟨e, he⟩ : ∃ e, lcmPred l = e + 1 := ⟨lcmPred l - 1, by omega⟩
    rw [he, pow_succ] at hk
    exact ⟨b ^ e, -k, by linarith⟩
  · intro hcop
    apply prod_primes_dvd l hl hnodup
    intro p hp
    have hpp := hl p hp
    have hcp : IsCoprime b ((p : Nat) : Int) := by
      apply IsCoprime.of_isCoprime_of_dvd_right hcop
      exact Int.natCast_dvd_natCast.2 (List.dvd_prod hp)
    have hf := Int.ModEq.pow_card_sub_one_eq_one hpp hcp
    obtain ⟨k, hk⟩ := lcmPred_dvd l hl p hp
    rw [hk, pow_mul]
    have h1 := hf.pow k
    rw [one_pow] at h1
    exact (Int.modEq_iff_dvd.1 h1.symm)

theorem u_eq_zero_iff (x m : Int) : (-(x % m) + 1) % m = 0 ↔ m ∣ x - 1 := by
  have h : (-(x % m) + 1) % m = (-(x - 1)) % m := by
    have h1 : -(x % m) + 1 ≡ -x + 1 [ZMOD m] := ((Int.mod_modEq x m).neg).add_right 1
    have h2 : -x + 1 = -(x - 1) := by ring
    rw [h2] at h1
    exact h1
  rw [h]
  constructor
  · intro h0
    exact (Int.dvd_neg).1 (Int.dvd_of_emod_eq_zero h0)
  · intro hd
    exact Int.emod_eq_zero_of_dvd ((Int.dvd_neg).2 hd)

/-- The value `u` of step 2 of `genPrimeFT` for `m ≥ 1` and `lambda ≥ 0`. -/
theorem genPrimeFT_u_eq (b m : Int) (e : Nat) (hm : 0 < m) :
    genPrimeFT_u b (e : Int) m = Except.ok ((-(b ^ e % m) + 1) % m) := by
  have hne : m ≠ 0 := by omega
  unfold genPrimeFT_u mpz_powm
  rw [if_neg hne, if_pos (Int.natCast_nonneg e)]
  dsimp only
  unfold mpz_mod
  rw [if_neg hne, Int.toNat_natCast]

theorem findRSAFactorFT_u_eq (b m : Int) (e : Nat) (hm : 0 < m) :
    findRSAFactorFT_u b (e : Int) m
      = Except.ok ((-((b * (2 * b + 1)) ^ e % m) + 1) % m) := by
  have hne : m ≠ 0 := by omega
  have hr : mpz_setbit (mpz_mul_2exp b 1) 0 = 2 * b + 1 := findRSAFactorFT_p_eq b
  unfold findRSAFactorFT_u mpz_powm
  dsimp only
  rw [hr, if_neg hne, if_pos (Int.natCast_nonneg e)]
  dsimp only
  unfold mpz_mod
  rw [if_neg hne, Int.toNat_natCast]

theorem mpz_sgn_ne_zero_iff (u : Int) : mpz_sgn u ≠ 0 ↔ u ≠ 0 := by
  unfold mpz_sgn
  rw [Ne, Int.sign_eq_zero_iff_zero]

/-- The update of `b` in step 3 gives a value in `[0, m)`. -/
theorem step3_update (b r u m : Int) (hm : 0 < m) :
    ∃ b1, mpz_mod (b + (r + 1) * u) m = Except.ok b1 ∧ 0 ≤ b1 ∧ b1 < m := by
  have hne : m ≠ 0 := by omega
  refine ⟨(b + (r + 1) * u) % m, ?_, Int.emod_nonneg _ hne, Int.emod_lt_of_pos _ hm⟩
  unfold mpz_mod
  rw [if_neg hne]

/-- Steps 2 and 3 of `genPrimeFT` for a test value `u` that is zero exactly on the `b` with
the property `good`: the loop is left at once on such a `b`, and a value on which it is left
has the property and is the first one or an updated one. -/
theorem genPrimeFT_step2_spec {σ : Type} (gen : PRNG σ) (lambda m l : Int) (hm : 0 < m)
    (good : Int → Prop)
    (hu : ∀ b, ∃ u, genPrimeFT_u b lambda m = Except.ok u ∧ (u = 0 ↔ good b)) :
    (∀ fuel s b, good b →
      genPrimeFT_step2 gen lambda m l (fuel + 1) s b = Except.ok (s, b)) ∧
    (∀ fuel s b s1 b1, genPrimeFT_step2 gen lambda m l fuel s b = Except.ok (s1, b1) →
      good b1 ∧ (b1 = b ∨ (0 ≤ b1 ∧ b1 < m))) := by
  constructor
  · intro fuel s b hb
    obtain ⟨u, hu1, hu2⟩ := hu b
    rw [genPrimeFT_step2, hu1]
    dsimp only
    rw [if_neg]
    rw [mpz_sgn_ne_zero_iff]
    exact fun h => h (hu2.2 hb)
  · intro fuel
    induction fuel with
    | zero =>
      intro s b s1 b1 h
      rw [genPrimeFT_step2] at h
      exact absurd h (by simp)
    | succ fuel ih =>
      intro s b s1 b1 h
      obtain ⟨u, hu1, hu2⟩ := hu b
      rw [genPrimeFT_step2, hu1] at h
      dsimp only at h
      by_cases hz : u = 0
      · rw [if_neg (by rw [mpz_sgn_ne_zero_iff]; exact fun h => h hz)] at h
        injection h with h
        injection h with h1 h2
        rw [← h2]
        exact ⟨hu2.1 hz, Or.inl rfl⟩
      · rw [if_pos ((mpz_sgn_ne_zero_iff u).2 hz)] at h
        cases hg : gen.getRandomIntNB s l with
        | error t => rw [hg] at h; exact absurd h (by simp)
        | ok v =>
          obtain ⟨s2, r⟩ := v
          rw [hg] at h
          dsimp only at h
          obtain ⟨b2, hb2, hlo, hhi⟩ := step3_update b r u m hm
          rw [hb2] at h
          dsimp only at h
          obtain ⟨h1, h2⟩ := ih s2 b2 s1 b1 h
          refine ⟨h1, ?_⟩
          rcases h2 with h2 | h2
          · rw [h2]; exact Or.inr ⟨hlo, hhi⟩
          · exact Or.inr h2

theorem findRSAFactorFT_step2_spec {σ : Type} (gen : PRNG σ) (lambda m l : Int) (hm : 0 < m)
    (good : Int → Prop)
    (hu : ∀ b, ∃ u, findRSAFactorFT_u b lambda m = Except.ok u ∧ (u = 0 ↔ good b)) :
    (∀ fuel s b, good b →
      findRSAFactorFT_step2 gen lambda m l (fuel + 1) s b = Except.ok (s, b)) ∧
    (∀ fuel s b s1 b1, findRSAFactorFT_step2 gen lambda m l fuel s b = Except.ok (s1, b1) →
      good b1 ∧ (b1 = b ∨ (0 ≤ b1 ∧ b1 < m))) := by
  constructor
  · intro fuel s b hb
    obtain ⟨u, hu1, hu2⟩ := hu b
    rw [findRSAFactorFT_step2, hu1]
    dsimp only
    rw [if_neg]
    rw [mpz_sgn_ne_zero_iff]
    exact fun h => h (hu2.2 hb)
  · intro fuel
    induction fuel with
    | zero =>
      intro s b s1 b1 h
      rw [findRSAFactorFT_step2] at h
      exact absurd h (by simp)
    | succ fuel ih =>
      intro s b s1 b1 h
      obtain ⟨u, hu1, hu2⟩ := hu b
      rw [findRSAFactorFT_step2, hu1] at h
      dsimp only at h
      by_cases hz : u = 0
      · rw [if_neg (by rw [mpz_sgn_ne_zero_iff]; exact fun h => h hz)] at h
        injection h with h
        injection h with h1 h2
        rw [← h2]
        exact ⟨hu2.1 hz, Or.inl rfl⟩
      · rw [if_pos ((mpz_sgn_ne_zero_iff u).2 hz)] at h
        cases hg : gen.getRandomIntNB s l with
        | error t => rw [hg] at h; exact absurd h (by simp)
        | ok v =>
          obtain ⟨s2, r⟩ := v
          rw [hg] at h
          dsimp only at h
          obtain ⟨b2, hb2, hlo, hhi⟩ := step3_update b r u m hm
          rw [hb2] at h
          dsimp only at h
          obtain ⟨h1, h2⟩ := ih s2 b2 s1 b1 h
          refine ⟨h1, ?_⟩
          rcases h2 with h2 | h2
          · rw [h2]; exact Or.inr ⟨hlo, hhi⟩
          · exact Or.inr h2

/-- The two test values of step 2 for `m` a product of distinct primes and `lambda` the least
common multiple of the `p - 1`. -/
theorem step2_u_spec (L : List Nat) (hl : ∀ p ∈ L, p.Prime) (hnodup : L.Nodup) (b : Int) :
    (∃ u, genPrimeFT_u b ((lcmPred L : Nat) : Int) ((L.prod : Nat) : Int) = Except.ok u ∧
      u = (-(b ^ lcmPred L % ((L.prod : Nat) : Int)) + 1) % ((L.prod : Nat) : Int) ∧
      (u = 0 ↔ Int.gcd b ((L.prod : Nat) : Int) = 1)) ∧
    (∃ u, findRSAFactorFT_u b ((lcmPred L : Nat) : Int) ((L.prod : Nat) : Int)
        = Except.ok u ∧
      u = (-((b * (2 * b + 1)) ^ lcmPred L % ((L.prod : Nat) : Int)) + 1)
          % ((L.prod : Nat) : Int) ∧
      (u = 0 ↔ Int.gcd b ((L.prod : Nat) : Int) = 1 ∧
        Int.gcd (2 * b + 1) ((L.prod : Nat) : Int) = 1)) := by
  have hm : (0 : Int) < ((L.prod : Nat) : Int) := by
    have : 0 < L.prod := by
      apply Nat.pos_of_ne_zero
      apply List.prod_ne_zero
      intro h0
      exact Nat.not_prime_zero (hl 0 h0)
    exact_mod_cast this
  constructor
  · refine ⟨_, genPrimeFT_u_eq b _ _ hm, rfl, ?_⟩
    rw [u_eq_zero_iff, pow_lcmPred_dvd_iff L hl hnodup]
  · refine ⟨_, findRSAFactorFT_u_eq b _ _ hm, rfl, ?_⟩
    rw [u_eq_zero_iff, pow_lcmPred_dvd_iff L hl hnodup, ← Int.isCoprime_iff_gcd_eq_one,
      ← Int.isCoprime_iff_gcd_eq_one, ← Int.isCoprime_iff_gcd_eq_one, IsCoprime.mul_left_iff]

/-! ## The candidates of `findRSAFactor` -/

theorem mpz_setbit_of_set (a j : Nat) (h : (a / 2 ^ j) % 2 = 1) :
    mpz_setbit (a : Int) j = (a : Int) := by
  unfold mpz_setbit
  rw [if_pos]
  exact_mod_cast h

theorem mpz_fdiv_ui_nat (a d : Nat) (hd : d ≠ 0) : mpz_fdiv_ui (a : Int) d = Except.ok (a % d) := by
  unfold mpz_fdiv_ui
  rw [if_neg hd]
  congr 1

theorem two_pow_mod_six (k : Nat) (hk : 1 ≤ k) : 2 ^ k % 6 = 2 ∨ 2 ^ k % 6 = 4 := by
  induction k with
  | zero => omega
  | succ k ih =>
    rcases Nat.eq_zero_or_pos k with h0 | hpos
    · subst h0; left; rfl
    · rw [pow_succ]
      rcases ih hpos with h | h <;> omega

theorem findRSAFactor_adjust_nat (a nbits rem : Nat)
    (h2 : (a / 2 ^ size_t_sub nbits 2) % 2 = 1) (h3 : (a / 2 ^ size_t_sub nbits 3) % 2 = 1)
    (hrem : a % 6 = rem) :
    findRSAFactor_adjust (a : Int) nbits
      = Except.ok (((a + (5 - rem) : Nat) : Int), ((2 * (a + (5 - rem)) + 1 : Nat) : Int)) := by
  have hadd : (5 + 2 ^ 64 - rem) % 2 ^ 64 = 5 - rem := by
    have : (2 : Nat) ^ 64 = 18446744073709551616 := by norm_num
    omega
  rw [findRSAFactor_adjust]
  dsimp only
  rw [mpz_setbit_of_set _ _ h2, mpz_setbit_of_set _ _ h3, mpz_fdiv_ui_nat _ 6 (by decide), hrem]
  dsimp only
  rw [hadd]
  unfold mpz_mul_2exp
  congr 2
  push_cast
  ring

/-- The adjustment of `findRSAFactor` on the largest `m` of `nbits - 1` bits. -/
theorem findRSAFactor_adjust_top (nbits : Nat) (h4 : 4 ≤ nbits) (hsize : nbits < 2 ^ 64) :
    ∃ m n : Nat, findRSAFactor_adjust (((2 ^ (nbits - 1) - 1 : Nat)) : Int) nbits
        = Except.ok ((m : Int), (n : Int)) ∧
      m % 6 = 5 ∧ 2 ^ (nbits - 1) < m ∧ n = 2 * m + 1 ∧ 2 ^ nbits < n := by
  obtain ⟨k, rfl⟩ : ∃ k, nbits = k + 4 := ⟨nbits - 4, by omega⟩
  have e1 : k + 4 - 1 = k + 3 := rfl
  rw [e1]
  have p3 : 2 ^ (k + 3) = 8 * 2 ^ k := by rw [pow_add]; ring
  have p2 : 2 ^ (k + 2) = 4 * 2 ^ k := by rw [pow_add]; ring
  have p1 : 2 ^ (k + 1) = 2 * 2 ^ k := by rw [pow_add]; ring
  have p4 : 2 ^ (k + 4) = 16 * 2 ^ k := by rw [pow_add]; ring
  have hpos : 0 < 2 ^ k := Nat.pow_pos (by decide)
  have s2 : size_t_sub (k + 4) 2 = k + 2 := size_t_sub_small (k + 4) 2 (by omega) hsize
  have s3 : size_t_sub (k + 4) 3 = k + 1 := size_t_sub_small (k + 4) 3 (by omega) hsize
  have b2 : ((2 ^ (k + 3) - 1) / 2 ^ size_t_sub (k + 4) 2) % 2 = 1 := by
    have : (2 ^ (k + 3) - 1) / 2 ^ (k + 2) = 1 := by
      apply Nat.div_eq_of_lt_le <;> omega
    rw [s2, this]
  have b3 : ((2 ^ (k + 3) - 1) / 2 ^ size_t_sub (k + 4) 3) % 2 = 1 := by
    have : (2 ^ (k + 3) - 1) / 2 ^ (k + 1) = 3 := by
      apply Nat.div_eq_of_lt_le <;> omega
    rw [s3, this]
  have h6 := two_pow_mod_six (k + 3) (by omega)
  have hrem : (2 ^ (k + 3) - 1) % 6 = 1 ∨ (2 ^ (k + 3) - 1) % 6 = 3 := by omega
  refine ⟨2 ^ (k + 3) - 1 + (5 - (2 ^ (k + 3) - 1) % 6),
    2 * (2 ^ (k + 3) - 1 + (5 - (2 ^ (k + 3) - 1) % 6)) + 1,
    findRSAFactor_adjust_nat _ _ _ b2 b3 rfl, ?_, ?_, rfl, ?_⟩
  · omega
  · omega
  · omega

/-- The candidate of `findRSAFactor` for `nbits = 4`, whatever the generator gives. -/
theorem findRSAFactor_candidate_four {σ : Type} (gen : PRNG σ) (s s1 : σ) (c : Nat)
    (hgen : gen.getRandomBytes s [0] 1 = Except.ok (s1, [c])) (hc : c < 256) :
    findRSAFactor_candidate gen s 4 = Except.ok (s1, 11, 23) := by
  have h := getRandomInt_eq gen s s1 3 c [] (by decide) (by norm_num) hgen
    (by intro b hb; rw [List.mem_singleton] at hb; omega)
  have hlt : c % 4 < 4 := Nat.mod_lt c (by decide)
  have hv : ∀ v : Nat, v < 4 →
      findRSAFactor_adjust (((beValue [4 + v]) : Nat) : Int) 4 = Except.ok (11, 23) := by
    decide
  have e : (2 : Nat) ^ ((3 - 1) % 8) = 4 := by norm_num
  rw [e] at h
  unfold findRSAFactor_candidate
  rw [show size_t_sub 4 1 = 3 from by decide, h]
  dsimp only
  rw [hv (c % 4) hlt]

/-! ## SHA-1: the operations on words -/

theorem or_shiftLeft (a b n : Nat) : (a ||| b) <<< n = a <<< n ||| b <<< n := by
  apply Nat.eq_of_testBit_eq
  intro i
  simp only [Nat.testBit_shiftLeft, Nat.testBit_or, Bool.and_or_distrib_left]

theorem or_shiftRight (a b n : Nat) : (a ||| b) >>> n = a >>> n ||| b >>> n := by
  apply Nat.eq_of_testBit_eq
  intro i
  simp only [Nat.testBit_shiftRight, Nat.testBit_or]

theorem or_mod_two_pow (a b n : Nat) : (a ||| b) % 2 ^ n = a % 2 ^ n ||| b % 2 ^ n := by
  apply Nat.eq_of_testBit_eq
  intro i
  simp only [Nat.testBit_mod_two_pow, Nat.testBit_or, Bool.and_or_distrib_left]

theorem or_and (a b m : Nat) : (a ||| b) &&& m = a &&& m ||| b &&& m := by
  apply Nat.eq_of_testBit_eq
  intro i
  simp only [Nat.testBit_and, Nat.testBit_or, Bool.and_or_distrib_right]

theorem byteReverseValue_or (a b : Nat) :
    byteReverseValue (a ||| b) = byteReverseValue a ||| byteReverseValue b := by
  unfold byteReverseValue
  simp only [or_shiftLeft, or_shiftRight, or_mod_two_pow, or_and]
  ac_rfl

theorem byteReverseValue_byte0 : ∀ b < 256, byteReverseValue b = 2 ^ 24 * b := by decide!

theorem byteReverseValue_byte1 : ∀ b < 256, byteReverseValue (2 ^ 8 * b) = 2 ^ 16 * b := by
  decide!

theorem byteReverseValue_byte2 : ∀ b < 256, byteReverseValue (2 ^ 16 * b) = 2 ^ 8 * b := by
  decide!

theorem byteReverseValue_byte3 : ∀ b < 256, byteReverseValue (2 ^ 24 * b) = b := by decide!

theorem bytes_or (b0 b1 b2 b3 : Nat) (h0 : b0 < 256) (h1 : b1 < 256) (h2 : b2 < 256) :
    b0 + 256 * b1 + 65536 * b2 + 16777216 * b3
      = 2 ^ 24 * b3 ||| (2 ^ 16 * b2 ||| (2 ^ 8 * b1 ||| b0)) := by
  rw [← Nat.mul_add_lt_is_or (by omega : b0 < 2 ^ 8),
    ← Nat.mul_add_lt_is_or (by omega : 2 ^ 8 * b1 + b0 < 2 ^ 16),
    ← Nat.mul_add_lt_is_or (by omega : 2 ^ 16 * b2 + (2 ^ 8 * b1 + b0) < 2 ^ 24)]
  omega

/-- `byteReverse` turns the word read with the lowest byte first into the word with the
highest byte first. -/
theorem byteReverseValue_bytes (b0 b1 b2 b3 : Nat) (h0 : b0 < 256) (h1 : b1 < 256)
    (h2 : b2 < 256) (h3 : b3 < 256) :
    byteReverseValue (b0 + 256 * b1 + 65536 * b2 + 16777216 * b3)
      = 16777216 * b0 + 65536 * b1 + 256 * b2 + b3 := by
  rw [bytes_or b0 b1 b2 b3 h0 h1 h2, byteReverseValue_or, byteReverseValue_or,
    byteReverseValue_or, byteReverseValue_byte3 b3 h3, byteReverseValue_byte2 b2 h2,
    byteReverseValue_byte1 b1 h1, byteReverseValue_byte0 b0 h0]
  have e := bytes_or b3 b2 b1 b0 h3 h2 h1
  have e2 : b3 ||| (2 ^ 8 * b2 ||| (2 ^ 16 * b1 ||| 2 ^ 24 * b0))
      = 2 ^ 24 * b0 ||| (2 ^ 16 * b1 ||| (2 ^ 8 * b2 ||| b3)) := by ac_rfl
  rw [e2, ← e]
  omega

theorem testBit_of_lt_word (x i : Nat) (hx : x < 2 ^ 32) (hi : 32 ≤ i) : x.testBit i = false :=
  Nat.testBit_lt_two_pow (lt_of_lt_of_le hx (Nat.pow_le_pow_right (by decide) hi))

theorem f0_eq_Ch (x y z : Nat) (hx : x < 2 ^ 32) (hz : z < 2 ^ 32) : f0 x y z = Ch x y z := by
  unfold f0 Ch
  apply Nat.eq_of_testBit_eq
  intro i
  have hm : (0xffffffff : Nat).testBit i = decide (i < 32) := Nat.testBit_two_pow_sub_one 32 i
  simp only [Nat.testBit_xor, Nat.testBit_and, hm]
  by_cases hi : i < 32
  · rw [decide_eq_true hi]
    cases x.testBit i <;> cases y.testBit i <;> cases z.testBit i <;> rfl
  · rw [decide_eq_false hi, testBit_of_lt_word x i hx (by omega),
      testBit_of_lt_word z i hz (by omega)]
    cases y.testBit i <;> rfl

theorem f2_eq_Maj (x y z : Nat) : f2 x y z = Maj x y z := by
  unfold f2 Maj
  apply Nat.eq_of_testBit_eq
  intro i
  simp only [Nat.testBit_xor, Nat.testBit_and, Nat.testBit_or]
  cases x.testBit i <;> cases y.testBit i <;> cases z.testBit i <;> rfl

theorem S_lt (n X : Nat) (hX : X < 2 ^ 32) : S n X < 2 ^ 32 := by
  unfold S
  apply Nat.or_lt_two_pow (Nat.mod_lt _ (by norm_num))
  rw [Nat.shiftRight_eq_div_pow]
  exact lt_of_le_of_lt (Nat.div_le_self _ _) hX

theorem byteReverseValue_lt (w : Nat) : byteReverseValue w < 2 ^ 32 := by
  unfold byteReverseValue
  dsimp only
  apply Nat.or_lt_two_pow _ (Nat.mod_lt _ (by norm_num))
  rw [Nat.shiftRight_eq_div_pow]
  apply lt_of_le_of_lt (Nat.div_le_self _ _)
  exact lt_of_le_of_lt Nat.and_le_right (by norm_num)

/-! ## SHA-1: the union `longbyte` -/

theorem getD_set_eq (l : List Nat) (i j v : Nat) :
    (l.set i v).getD j 0 = if i = j ∧ i < l.length then v else l.getD j 0 := by
  rw [List.getD_eq_getElem?_getD, List.getD_eq_getElem?_getD, List.getElem?_set]
  by_cases h : i = j
  · subst h
    by_cases h2 : i < l.length
    · rw [if_pos rfl, if_pos h2, if_pos ⟨rfl, h2⟩]
      rfl
    · rw [if_pos rfl, if_neg h2, if_neg (fun h => h2 h.2)]
      rw [List.getElem?_eq_none (by omega)]
  · rw [if_neg h, if_neg (fun h2 => h h2.1)]

theorem longbyte.setW_length (d : List Nat) (i v : Nat) :
    (longbyte.setW d i v).length = d.length := by
  unfold longbyte.setW
  simp only [List.length_set]

theorem mem_set_lt (l : List Nat) (i v : Nat) (hl : ∀ b ∈ l, b < 256) (hv : v < 256) :
    ∀ b ∈ l.set i v, b < 256 := by
  intro b hb
  rcases List.mem_or_eq_of_mem_set hb with h | h
  · exact hl b h
  · rw [h]; exact hv

theorem longbyte.setW_bytes (d : List Nat) (i v : Nat) (hd : ∀ b ∈ d, b < 256) :
    ∀ b ∈ longbyte.setW d i v, b < 256 := by
  unfold longbyte.setW
  apply mem_set_lt _ _ _ _ (Nat.mod_lt _ (by decide))
  apply mem_set_lt _ _ _ _ (Nat.mod_lt _ (by decide))
  apply mem_set_lt _ _ _ _ (Nat.mod_lt _ (by decide))
  exact mem_set_lt _ _ _ hd (Nat.mod_lt _ (by decide))

theorem getD_set4 (d : List Nat) (k v0 v1 v2 v3 j : Nat) (h : k + 3 < d.length) :
    ((((d.set k v0).set (k + 1) v1).set (k + 2) v2).set (k + 3) v3).getD j 0
      = if j = k then v0 else if j = k + 1 then v1 else if j = k + 2 then v2
        else if j = k + 3 then v3 else d.getD j 0 := by
  simp only [getD_set_eq, List.length_set]
  split_ifs <;> first | rfl | omega

theorem getD_set4_other (d : List Nat) (k v0 v1 v2 v3 j : Nat) (h : j < k ∨ k + 3 < j) :
    ((((d.set k v0).set (k + 1) v1).set (k + 2) v2).set (k + 3) v3).getD j 0
      = d.getD j 0 := by
  simp only [getD_set_eq, List.length_set]
  split_ifs <;> first | rfl | omega

theorem longbyte.W_setW_same (d : List Nat) (i v : Nat) (hi : 4 * i + 3 < d.length)
    (hv : v < 2 ^ 32) : longbyte.W (longbyte.setW d i v) i = v := by
  unfold longbyte.W longbyte.setW
  rw [getD_set4 d (4 * i) _ _ _ _ _ hi, getD_set4 d (4 * i) _ _ _ _ _ hi,
    getD_set4 d (4 * i) _ _ _ _ _ hi, getD_set4 d (4 * i) _ _ _ _ _ hi]
  rw [if_pos rfl, if_neg (by omega), if_pos rfl, if_neg (by omega), if_neg (by omega),
    if_pos rfl, if_neg (by omega), if_neg (by omega), if_neg (by omega), if_pos rfl]
  have : (2 : Nat) ^ 32 = 4294967296 := by norm_num
  omega

theorem longbyte.W_setW_other (d : List Nat) (i j v : Nat) (hij : i ≠ j) :
    longbyte.W (longbyte.setW d i v) j = longbyte.W d j := by
  unfold longbyte.W longbyte.setW
  rw [getD_set4_other d (4 * i) _ _ _ _ _ (by omega),
    getD_set4_other d (4 * i) _ _ _ _ _ (by omega),
    getD_set4_other d (4 * i) _ _ _ _ _ (by omega),
    getD_set4_other d (4 * i) _ _ _ _ _ (by omega)]

theorem getD_lt_of_bytes (d : List Nat) (i : Nat) (hd : ∀ b ∈ d, b < 256) : d.getD i 0 < 256 := by
  by_cases h : i < d.length
  · rw [List.getD_eq_getElem _ _ h]
    exact hd _ (List.getElem_mem h)
  · rw [List.getD_eq_default _ _ (by omega)]
    decide

theorem longbyte.W_lt (d : List Nat) (i : Nat) (hd : ∀ b ∈ d, b < 256) :
    longbyte.W d i < 2 ^ 32 := by
  unfold longbyte.W
  have h0 := getD_lt_of_bytes d (4 * i) hd
  have h1 := getD_lt_of_bytes d (4 * i + 1) hd
  have h2 := getD_lt_of_bytes d (4 * i + 2) hd
  have h3 := getD_lt_of_bytes d (4 * i + 3) hd
  have : (2 : Nat) ^ 32 = 4294967296 := by norm_num
  omega

/-- The loop of `byteReverse` from word `count` on: the words it has turned. -/
theorem byteReverseLoop_spec (todo : Nat) :
    ∀ (count : Nat) (d : List Nat), (∀ b ∈ d, b < 256) → 4 * (count + todo) ≤ d.length →
      (byteReverseLoop todo count d).length = d.length ∧
      (∀ b ∈ byteReverseLoop todo count d, b < 256) ∧
      ∀ j, longbyte.W (byteReverseLoop todo count d) j
        = if count ≤ j ∧ j < count + todo then byteReverseValue (longbyte.W d j)
          else longbyte.W d j := by
  induction todo with
  | zero =>
    intro count d hd _
    refine ⟨rfl, hd, ?_⟩
    intro j
    rw [if_neg (by omega)]
    rfl
  | succ todo ih =>
    intro count d hd hlen
    rw [byteReverseLoop]
    have hlen1 := longbyte.setW_length d count (byteReverseValue (longbyte.W d count))
    obtain ⟨h1, h2, h3⟩ := ih (count + 1)
      (longbyte.setW d count (byteReverseValue (longbyte.W d count)))
      (longbyte.setW_bytes d count _ hd) (by rw [hlen1]; omega)
    refine ⟨by rw [h1, hlen1], h2, ?_⟩
    intro j
    rw [h3 j]
    by_cases hj : j = count
    · subst hj
      rw [if_neg (by omega), if_pos (by omega),
        longbyte.W_setW_same d j _ (by omega) (byteReverseValue_lt _)]
    · rw [longbyte.W_setW_other d count j _ (fun h => hj h.symm)]
      by_cases hj2 : count + 1 ≤ j ∧ j < count + 1 + todo
      · rw [if_pos hj2, if_pos (by omega)]
      · rw [if_neg hj2, if_neg (by omega)]

/-! ## SHA-1: the message schedule and the rounds -/

theorem fipsExtend_length (n : Nat) : ∀ W : List Nat, (fipsExtend n W).length = W.length + n := by
  induction n with
  | zero => intro W; rfl
  | succ n ih =>
    intro W
    rw [fipsExtend, ih, List.length_append, List.length_singleton]
    omega

theorem fipsExtend_getD_lt (n : Nat) :
    ∀ (W : List Nat) (j : Nat), j < W.length → (fipsExtend n W).getD j 0 = W.getD j 0 := by
  induction n with
  | zero => intro W j _; rfl
  | succ n ih =>
    intro W j hj
    rw [fipsExtend, ih _ j (by rw [List.length_append]; omega), List.getD_append _ _ _ _ hj]

/-- The recurrence of the message schedule. -/
theorem fipsExtend_rec (n : Nat) :
    ∀ (W : List Nat) (t : Nat), 16 ≤ W.length → W.length ≤ t → t < W.length + n →
      (fipsExtend n W).getD t 0
        = ROTL 1 ((fipsExtend n W).getD (t - 3) 0 ^^^ (fipsExtend n W).getD (t - 8) 0
          ^^^ (fipsExtend n W).getD (t - 14) 0 ^^^ (fipsExtend n W).getD (t - 16) 0) := by
  induction n with
  | zero => intro W t _ h1 h2; omega
  | succ n ih =>
    intro W t h16 h1 h2
    rw [fipsExtend]
    by_cases ht : t = W.length
    · have hlen : (W ++ [ROTL 1 (W.getD (W.length - 3) 0 ^^^ W.getD (W.length - 8) 0
          ^^^ W.getD (W.length - 14) 0 ^^^ W.getD (W.length - 16) 0)]).length
          = W.length + 1 := by
        rw [List.length_append, List.length_singleton]
      rw [fipsExtend_getD_lt n _ t (by rw [hlen]; omega),
        fipsExtend_getD_lt n _ (t - 3) (by rw [hlen]; omega),
        fipsExtend_getD_lt n _ (t - 8) (by rw [hlen]; omega),
        fipsExtend_getD_lt n _ (t - 14) (by rw [hlen]; omega),
        fipsExtend_getD_lt n _ (t - 16) (by rw [hlen]; omega),
        List.getD_append _ _ _ _ (by omega : t - 3 < W.length),
        List.getD_append _ _ _ _ (by omega : t - 8 < W.length),
        List.getD_append _ _ _ _ (by omega : t - 14 < W.length),
        List.getD_append _ _ _ _ (by omega : t - 16 < W.length),
        List.getD_append_right _ _ _ _ (by omega : W.length ≤ t), ht, Nat.sub_self]
      rfl
    · apply ih
      · rw [List.length_append]; omega
      · rw [List.length_append, List.length_singleton]; omega
      · rw [List.length_append, List.length_singleton]; omega

theorem fipsW_lt_16 (M : List Nat) (t : Nat) (hM : M.length = 16) (ht : t < 16) :
    fipsW M t = M.getD t 0 := by
  unfold fipsW
  exact fipsExtend_getD_lt 64 M t (by omega)

theorem fipsW_rec (M : List Nat) (t : Nat) (hM : M.length = 16) (h1 : 16 ≤ t) (h2 : t < 80) :
    fipsW M t = ROTL 1 (fipsW M (t - 3) ^^^ fipsW M (t - 8) ^^^ fipsW M (t - 14)
      ^^^ fipsW M (t - 16)) := by
  unfold fipsW
  exact fipsExtend_rec 64 M t (by omega) (by omega) (by omega)

theorem r0_step (M : List Nat) (H : sha1Accu) (t : Nat) (st : sha1Round) (ht : t < 16)
    (h : sha1RoundAt M H t st) : sha1RoundAt M H (t + 1) (r0 f0 K0 st) := by
  obtain ⟨hlen, hbytes, hp0, hW, ⟨eA, eB, eC, eD, eE⟩, ⟨bA, bB, bC, bD, bE⟩⟩ := h
  unfold r0
  refine ⟨hlen, hbytes, by dsimp only; omega, ?_, ⟨?_, eA, ?_, eC, eD⟩,
    ⟨Nat.mod_lt _ (by norm_num), bA, S_lt 30 _ bB, bC, bD⟩⟩
  · intro j hj
    apply hW j
    omega
  · dsimp only
    rw [fipsRounds]
    dsimp only
    have hf : fipsF t = Ch := by
      funext x y z
      unfold fipsF
      rw [if_pos (by omega)]
    have hk : fipsK t = K0 := by
      unfold fipsK K0
      rw [if_pos (by omega)]
    rw [hf, hk, ← eA, ← eB, ← eC, ← eD, ← eE, ← f0_eq_Ch _ _ _ bB bD, hp0,
      hW t (Or.inl ht), Nat.add_right_comm _ (fipsW M t) K0]
    rfl
  · dsimp only
    rw [fipsRounds]
    dsimp only
    rw [← eB]
    rfl

theorem r0_iterate (M : List Nat) (H : sha1Accu) (n : Nat) :
    ∀ (t : Nat) (st : sha1Round), t + n ≤ 16 → sha1RoundAt M H t st →
      sha1RoundAt M H (t + n) (Nat.iterate (r0 f0 K0) n st) := by
  induction n with
  | zero => intro t st _ h; exact h
  | succ n ih =>
    intro t st ht h
    rw [Function.iterate_succ_apply]
    have := ih (t + 1) (r0 f0 K0 st) (by omega) (r0_step M H t st (by omega) h)
    rw [show t + (n + 1) = t + 1 + n from by omega]
    exact this

theorem r1_step (M : List Nat) (H : sha1Accu) (f : Nat → Nat → Nat → Nat) (K t : Nat)
    (st : sha1Round) (hM : M.length = 16) (h16 : 16 ≤ t) (h80 : t < 80)
    (hf : ∀ x y z, x < 2 ^ 32 → z < 2 ^ 32 → f x y z = fipsF t x y z) (hK : K = fipsK t)
    (h : sha1RoundAt M H t st) (hp : sha1PointersAt t st) :
    sha1RoundAt M H (t + 1) (r1 f K st) ∧ sha1PointersAt (t + 1) (r1 f K st) := by
  obtain ⟨hlen, hbytes, hp0, hW, ⟨eA, eB, eC, eD, eE⟩, ⟨bA, bB, bC, bD, bE⟩⟩ := h
  obtain ⟨q1, q2, q3, q4⟩ := hp
  have e1 : st.p1 = t - 3 := by omega
  have e2 : st.p2 = t - 8 := by omega
  have e3 : st.p3 = t - 14 := by omega
  have e4 : st.p4 = t - 16 := by omega
  have hw : S 1 (longbyte.W st.d st.p1 ^^^ longbyte.W st.d st.p2 ^^^ longbyte.W st.d st.p3
      ^^^ longbyte.W st.d st.p4) = fipsW M t := by
    rw [fipsW_rec M t hM h16 h80, e1, e2, e3, e4, hW (t - 3) (Or.inr (by omega)),
      hW (t - 8) (Or.inr (by omega)), hW (t - 14) (Or.inr (by omega)),
      hW (t - 16) (Or.inr (by omega))]
    rfl
  have hwlt : S 1 (longbyte.W st.d st.p1 ^^^ longbyte.W st.d st.p2 ^^^ longbyte.W st.d st.p3
      ^^^ longbyte.W st.d st.p4) < 2 ^ 32 := by
    apply S_lt
    apply Nat.xor_lt_two_pow _ (longbyte.W_lt _ _ hbytes)
    apply Nat.xor_lt_two_pow _ (longbyte.W_lt _ _ hbytes)
    exact Nat.xor_lt_two_pow (longbyte.W_lt _ _ hbytes) (longbyte.W_lt _ _ hbytes)
  unfold r1
  dsimp only
  refine ⟨⟨by rw [longbyte.setW_length]; exact hlen, longbyte.setW_bytes _ _ _ hbytes,
    by dsimp only; omega, ?_, ⟨?_, eA, ?_, eC, eD⟩,
    ⟨Nat.mod_lt _ (by norm_num), bA, S_lt 30 _ bB, bC, bD⟩⟩, ⟨by dsimp only; omega,
    by dsimp only; omega, by dsimp only; omega, by dsimp only; omega⟩⟩
  · intro j hj
    dsimp only
    rw [hp0]
    by_cases hjt : j = t
    · rw [hjt, longbyte.W_setW_same _ _ _ (by omega) hwlt, hw]
    · rw [longbyte.W_setW_other _ _ _ _ (fun h => hjt h.symm)]
      apply hW j
      omega
  · dsimp only
    rw [fipsRounds]
    dsimp only
    rw [hw, hK, hf _ _ _ bB bD, ← eA, ← eB, ← eC, ← eD, ← eE,
      Nat.add_right_comm _ (fipsW M t) (fipsK t)]
    rfl
  · dsimp only
    rw [fipsRounds]
    dsimp only
    rw [← eB]
    rfl

theorem r1_iterate (M : List Nat) (H : sha1Accu) (f : Nat → Nat → Nat → Nat) (K : Nat)
    (hM : M.length = 16) (n : Nat) :
    ∀ (t : Nat) (st : sha1Round), 16 ≤ t → t + n ≤ 80 →
      (∀ u, t ≤ u → u < t + n →
        (∀ x y z, x < 2 ^ 32 → z < 2 ^ 32 → f x y z = fipsF u x y z) ∧ K = fipsK u) →
      sha1RoundAt M H t st → sha1PointersAt t st →
      sha1RoundAt M H (t + n) (Nat.iterate (r1 f K) n st) ∧
      sha1PointersAt (t + n) (Nat.iterate (r1 f K) n st) := by
  induction n with
  | zero => intro t st _ _ _ h hp; exact ⟨h, hp⟩
  | succ n ih =>
    intro t st h16 h80 hfK h hp
    rw [Function.iterate_succ_apply]
    obtain ⟨hf, hK⟩ := hfK t (le_refl t) (by omega)
    obtain ⟨h1, hp1⟩ := r1_step M H f K t st hM h16 (by omega) hf hK h hp
    have := ih (t + 1) (r1 f K st) (by omega) (by omega)
      (fun u hu1 hu2 => hfK u (by omega) (by omega)) h1 hp1
    rw [show t + (n + 1) = t + 1 + n from by omega]
    exact this

theorem fipsF_K_0 (u : Nat) (hu : u < 20) :
    (∀ x y z, x < 2 ^ 32 → z < 2 ^ 32 → f0 x y z = fipsF u x y z) ∧ K0 = fipsK u := by
  constructor
  · intro x y z hx hz
    unfold fipsF
    rw [if_pos hu]
    exact f0_eq_Ch x y z hx hz
  · unfold fipsK
    rw [if_pos hu]
    rfl

theorem fipsF_K_1 (u : Nat) (h1 : 20 ≤ u) (hu : u < 40) :
    (∀ x y z, x < 2 ^ 32 → z < 2 ^ 32 → f1 x y z = fipsF u x y z) ∧ K1 = fipsK u := by
  constructor
  · intro x y z _ _
    unfold fipsF
    rw [if_neg (by omega), if_pos hu]
    rfl
  · unfold fipsK
    rw [if_neg (by omega), if_pos hu]
    rfl

theorem fipsF_K_2 (u : Nat) (h1 : 40 ≤ u) (hu : u < 60) :
    (∀ x y z, x < 2 ^ 32 → z < 2 ^ 32 → f2 x y z = fipsF u x y z) ∧ K2 = fipsK u := by
  constructor
  · intro x y z _ _
    unfold fipsF
    rw [if_neg (by omega), if_neg (by omega), if_pos hu]
    exact f2_eq_Maj x y z
  · unfold fipsK
    rw [if_neg (by omega), if_neg (by omega), if_pos hu]
    rfl

theorem fipsF_K_3 (u : Nat) (h1 : 60 ≤ u) :
    (∀ x y z, x < 2 ^ 32 → z < 2 ^ 32 → f3 x y z = fipsF u x y z) ∧ K3 = fipsK u := by
  constructor
  · intro x y z _ _
    unfold fipsF
    rw [if_neg (by omega), if_neg (by omega), if_neg (by omega)]
    rfl
  · unfold fipsK
    rw [if_neg (by omega), if_neg (by omega), if_neg (by omega)]
    rfl

theorem sha1RoundAt_pointers (M : List Nat) (H : sha1Accu) (t : Nat) (st : sha1Round)
    (h : sha1RoundAt M H t st) :
    sha1RoundAt M H t { st with p1 := 13, p2 := 8, p3 := 2, p4 := 0 } := h

theorem sha1PointersAt_16 (st : sha1Round) :
    sha1PointersAt 16 { st with p1 := 13, p2 := 8, p3 := 2, p4 := 0 } := ⟨rfl, rfl, rfl, rfl⟩

theorem sha1Macros_spec (M : List Nat) (H : sha1Accu) (hM : M.length = 16) (st : sha1Round)
    (h : sha1RoundAt M H 0 st) : sha1RoundAt M H 80 (sha1Macros st) := by
  have h16 : sha1RoundAt M H 16 (Nat.iterate (r0 f0 K0) 16 st) :=
    r0_iterate M H 16 0 st (le_refl 16) h
  have h16b := sha1RoundAt_pointers M H 16 _ h16
  have p16 := sha1PointersAt_16 (Nat.iterate (r0 f0 K0) 16 st)
  have h20 := r1_iterate M H f0 K0 hM 4 16 _ (by omega) (by omega)
    (fun u _ hu2 => fipsF_K_0 u (by omega)) h16b p16
  have h40 := r1_iterate M H f1 K1 hM 20 20 _ (by omega) (by omega)
    (fun u hu1 hu2 => fipsF_K_1 u (by omega) (by omega)) h20.1 h20.2
  have h60 := r1_iterate M H f2 K2 hM 20 40 _ (by omega) (by omega)
    (fun u hu1 hu2 => fipsF_K_2 u (by omega) (by omega)) h40.1 h40.2
  have h80 := r1_iterate M H f3 K3 hM 20 60 _ (by omega) (by omega)
    (fun u hu1 _ => fipsF_K_3 u (by omega)) h60.1 h60.2
  exact h80.1

/-- The eighty rounds of `_sha1` on a union whose first sixteen words are the block `M`
compute the next hash value of FIPS 180. -/
theorem sha1Rounds_spec (d M : List Nat) (H : sha1Accu) (hlen : d.length = 320)
    (hbytes : ∀ b ∈ d, b < 256) (hM : M.length = 16)
    (hW : ∀ j, j < 16 → longbyte.W d j = M.getD j 0) (hH : H.isWords) :
    (sha1Rounds d H).2 = fipsCompress M H ∧ (sha1Rounds d H).1.length = 320 ∧
      (∀ b ∈ (sha1Rounds d H).1, b < 256) := by
  obtain ⟨b0, b1, b2, b3, b4⟩ := hH
  have h0 : sha1RoundAt M H 0
      { d := d, A := H.h0, B := H.h1, C := H.h2, D := H.h3, E := H.h4,
        p0 := 0, p1 := 0, p2 := 0, p3 := 0, p4 := 0 } := by
    refine ⟨hlen, hbytes, rfl, ?_, ⟨rfl, rfl, rfl, rfl, rfl⟩, ⟨b0, b1, b2, b3, b4⟩⟩
    intro j hj
    have hj16 : j < 16 := by omega
    rw [fipsW_lt_16 M j hM hj16]
    exact hW j hj16
  have h80 := sha1Macros_spec M H hM _ h0
  obtain ⟨hl, hb, _, _, ⟨eA, eB, eC, eD, eE⟩, _⟩ := h80
  unfold sha1Rounds
  dsimp only
  refine ⟨?_, hl, hb⟩
  rw [eA, eB, eC, eD, eE]
  unfold fipsCompress
  dsimp only
  rw [Nat.add_comm H.h0, Nat.add_comm H.h1, Nat.add_comm H.h2, Nat.add_comm H.h3,
    Nat.add_comm H.h4]

/-! ## SHA-1: the blocks -/

theorem getD_take_drop (l : List Nat) (a n k : Nat) (hk : k < n) :
    ((l.drop a).take n).getD k 0 = l.getD (a + k) 0 := by
  rw [List.getD_eq_getElem?_getD, List.getD_eq_getElem?_getD, List.getElem?_take_of_lt hk,
    List.getElem?_drop]

theorem getD_take_lt (l : List Nat) (n k : Nat) (hk : k < n) :
    (l.take n).getD k 0 = l.getD k 0 := by
  rw [List.getD_eq_getElem?_getD, List.getD_eq_getElem?_getD, List.getElem?_take_of_lt hk]

theorem fipsWords_length (block : List Nat) : (fipsWords block).length = 16 := by
  unfold fipsWords
  rw [List.length_map, List.length_range]

theorem fipsWords_getD (block : List Nat) (j : Nat) (hj : j < 16) :
    (fipsWords block).getD j 0
      = 16777216 * block.getD (4 * j) 0 + 65536 * block.getD (4 * j + 1) 0
        + 256 * block.getD (4 * j + 2) 0 + block.getD (4 * j + 3) 0 := by
  unfold fipsWords
  rw [List.getD_eq_getElem?_getD, List.getElem?_map, List.getElem?_range hj]
  unfold beWord
  dsimp only [Option.map, Option.getD]
  rw [getD_take_drop _ _ _ _ (by decide), getD_take_drop _ _ _ _ (by decide),
    getD_take_drop _ _ _ _ (by decide), getD_take_drop _ _ _ _ (by decide)]
  rfl

theorem byteReverse_bytes (d : List Nat) (n : Nat) (hd : ∀ b ∈ d, b < 256)
    (hn : 4 * (n / 4) ≤ d.length) :
    (byteReverse d n).length = d.length ∧ (∀ b ∈ byteReverse d n, b < 256) := by
  obtain ⟨h1, h2, _⟩ := byteReverseLoop_spec (n / 4) 0 d hd (by omega)
  exact ⟨h1, h2⟩

/-- A word of the union after `byteReverse`: its bytes read with the highest first. -/
theorem byteReverse_W (d : List Nat) (n j : Nat) (hd : ∀ b ∈ d, b < 256)
    (hn : 4 * (n / 4) ≤ d.length) (hj : j < n / 4) :
    longbyte.W (byteReverse d n) j
      = 16777216 * d.getD (4 * j) 0 + 65536 * d.getD (4 * j + 1) 0
        + 256 * d.getD (4 * j + 2) 0 + d.getD (4 * j + 3) 0 := by
  obtain ⟨_, _, h3⟩ := byteReverseLoop_spec (n / 4) 0 d hd (by omega)
  unfold byteReverse
  rw [h3 j, if_pos (by omega)]
  unfold longbyte.W
  exact byteReverseValue_bytes _ _ _ _ (getD_lt_of_bytes d _ hd) (getD_lt_of_bytes d _ hd)
    (getD_lt_of_bytes d _ hd) (getD_lt_of_bytes d _ hd)

theorem byteReverse_W_other (d : List Nat) (n j : Nat) (hd : ∀ b ∈ d, b < 256)
    (hn : 4 * (n / 4) ≤ d.length) (hj : n / 4 ≤ j) :
    longbyte.W (byteReverse d n) j = longbyte.W d j := by
  obtain ⟨_, _, h3⟩ := byteReverseLoop_spec (n / 4) 0 d hd (by omega)
  unfold byteReverse
  rw [h3 j, if_neg (by omega)]

/-- A full block: `byteReverse (d.W, 64)` and the rounds. -/
theorem sha1Rounds_full (d : List Nat) (H : sha1Accu) (hlen : d.length = 320)
    (hbytes : ∀ b ∈ d, b < 256) (hH : H.isWords) :
    (sha1Rounds (byteReverse d 64) H).2 = fipsCompress (fipsWords (d.take 64)) H ∧
      (sha1Rounds (byteReverse d 64) H).1.length = 320 ∧
      (∀ b ∈ (sha1Rounds (byteReverse d 64) H).1, b < 256) := by
  obtain ⟨h1, h2⟩ := byteReverse_bytes d 64 hbytes (by omega)
  apply sha1Rounds_spec _ _ H (by rw [h1, hlen]) h2 (fipsWords_length _) _ hH
  intro j hj
  rw [byteReverse_W d 64 j hbytes (by omega) (by omega), fipsWords_getD _ j hj,
    getD_take_lt _ _ _ (by omega), getD_take_lt _ _ _ (by omega),
    getD_take_lt _ _ _ (by omega), getD_take_lt _ _ _ (by omega)]

theorem beBytesN_8 (x : Nat) :
    beBytesN 8 x = [x / 256 / 256 / 256 / 256 / 256 / 256 / 256 % 256,
      x / 256 / 256 / 256 / 256 / 256 / 256 % 256, x / 256 / 256 / 256 / 256 / 256 % 256,
      x / 256 / 256 / 256 / 256 % 256, x / 256 / 256 / 256 % 256, x / 256 / 256 % 256,
      x / 256 % 256, x % 256] := rfl

theorem beBytesN_4 (x : Nat) :
    beBytesN 4 x = [x / 256 / 256 / 256 % 256, x / 256 / 256 % 256, x / 256 % 256, x % 256] :=
  rfl

/-- The last block: the stores of `hi_length` and `lo_length`, `byteReverse (d.W, 56)` and
the rounds. -/
theorem sha1Rounds_last (d : List Nat) (hi lo : Nat) (H : sha1Accu) (hlen : d.length = 320)
    (hbytes : ∀ b ∈ d, b < 256) (hhi : hi < 2 ^ 32) (hlo : lo < 2 ^ 32) (hH : H.isWords) :
    (sha1Rounds (byteReverse (longbyte.setW (longbyte.setW d 14 hi) 15 lo) 56) H).2
      = fipsCompress (fipsWords (d.take 56 ++ beBytesN 8 (hi * 2 ^ 32 + lo))) H := by
  have hl1 : (longbyte.setW (longbyte.setW d 14 hi) 15 lo).length = 320 := by
    rw [longbyte.setW_length, longbyte.setW_length, hlen]
  have hb1 : ∀ b ∈ longbyte.setW (longbyte.setW d 14 hi) 15 lo, b < 256 :=
    longbyte.setW_bytes _ _ _ (longbyte.setW_bytes _ _ _ hbytes)
  obtain ⟨h1, h2⟩ := byteReverse_bytes _ 56 hb1 (by omega)
  have htake : (d.take 56).length = 56 := by rw [List.length_take]; omega
  have h32 : (2 : Nat) ^ 32 = 4294967296 := by norm_num
  refine (sha1Rounds_spec _ _ H (by rw [h1, hl1]) h2 (fipsWords_length _) ?_ hH).1
  intro j hj
  rw [fipsWords_getD _ j hj]
  by_cases hj14 : j < 14
  · rw [byteReverse_W _ 56 j hb1 (by omega) (by omega)]
    unfold longbyte.setW
    rw [getD_set4_other _ _ _ _ _ _ _ (by omega), getD_set4_other _ _ _ _ _ _ _ (by omega),
      getD_set4_other _ _ _ _ _ _ _ (by omega), getD_set4_other _ _ _ _ _ _ _ (by omega),
      getD_set4_other _ _ _ _ _ _ _ (by omega), getD_set4_other _ _ _ _ _ _ _ (by omega),
      getD_set4_other _ _ _ _ _ _ _ (by omega), getD_set4_other _ _ _ _ _ _ _ (by omega),
      List.getD_append _ _ _ _ (by omega), List.getD_append _ _ _ _ (by omega),
      List.getD_append _ _ _ _ (by omega), List.getD_append _ _ _ _ (by omega),
      getD_take_lt _ _ _ (by omega), getD_take_lt _ _ _ (by omega),
      getD_take_lt _ _ _ (by omega), getD_take_lt _ _ _ (by omega)]
  · rw [byteReverse_W_other _ 56 j hb1 (by omega) (by omega),
      List.getD_append_right _ _ _ _ (by omega), List.getD_append_right _ _ _ _ (by omega),
      List.getD_append_right _ _ _ _ (by omega), List.getD_append_right _ _ _ _ (by omega),
      htake, beBytesN_8]
    have hj2 : j = 14 ∨ j = 15 := by omega
    rcases hj2 with rfl | rfl
    · rw [longbyte.W_setW_other _ _ _ _ (by decide),
        longbyte.W_setW_same _ _ _ (by omega) hhi]
      simp only [List.getD_cons_zero, List.getD_cons_succ, Nat.reduceMul, Nat.reduceAdd,
        Nat.reduceSub]
      omega
    · rw [longbyte.W_setW_same _ _ _ (by rw [longbyte.setW_length]; omega) hlo]
      simp only [List.getD_cons_zero, List.getD_cons_succ, Nat.reduceMul, Nat.reduceAdd,
        Nat.reduceSub]
      omega

/-! ## SHA-1: the loop of `_sha1` -/

theorem sha1Loop_full (fuel : Nat) (s : List Nat) (length : Nat) (d : List Nat)
    (hi lo : Nat) (padded : Bool) (h : sha1Accu) (hl : 64 ≤ length) (hs : 64 ≤ s.length) :
    sha1Loop (fuel + 1) s length d hi lo padded h
      = sha1Loop fuel (s.drop 64) (length - 64)
          (sha1Rounds (byteReverse (s.take 64 ++ d.drop 64) 64) h).1
          (if (lo + 512) % 2 ^ 32 < 512 then (hi + 1) % 2 ^ 32 else hi)
          ((lo + 512) % 2 ^ 32) padded
          (sha1Rounds (byteReverse (s.take 64 ++ d.drop 64) 64) h).2 := by
  rw [sha1Loop]
  dsimp only
  have h1 : ¬ length < 64 := by omega
  simp only [if_neg h1]
  rw [if_neg (by omega : ¬ s.length < 64), if_neg (by decide : ¬ 64 < 64)]

/-- The buffer after `memcpy`, the byte `0x80` and the zeros, for a last piece `s` of less
than 64 bytes. -/
theorem pad_buffer (s d : List Nat) (hs : s.length < 64) (hd : d.length = 320)
    (hdb : ∀ b ∈ d, b < 256) :
    ∃ tail, tail.length = 256 ∧ (∀ b ∈ tail, b < 256) ∧
      ((s.take s.length ++ d.drop s.length).set s.length 0x80).take (s.length + 1)
          ++ List.replicate (64 - (s.length + 1)) 0
          ++ ((s.take s.length ++ d.drop s.length).set s.length 0x80).drop 64
        = (s ++ 0x80 :: List.replicate (63 - s.length) 0) ++ tail := by
  have h1 : s.take s.length = s := List.take_length s
  obtain ⟨e, rest, hrest⟩ : ∃ e rest, d.drop s.length = e :: rest := by
    cases hc : d.drop s.length with
    | nil =>
      have := congrArg List.length hc
      rw [List.length_drop, List.length_nil] at this
      omega
    | cons e rest => exact ⟨e, rest, rfl⟩
  have hrl : rest.length = 319 - s.length := by
    have := congrArg List.length hrest
    rw [List.length_drop, List.length_cons] at this
    omega
  have hrb : ∀ b ∈ rest, b < 256 := by
    intro b hb
    apply hdb b
    apply List.mem_of_mem_drop (n := s.length)
    rw [hrest]
    exact List.mem_cons_of_mem e hb
  have hset : (s ++ e :: rest).set s.length 0x80 = s ++ 0x80 :: rest := by
    rw [List.set_append, if_neg (lt_irrefl _), Nat.sub_self]
    rfl
  have htake : (s ++ 0x80 :: rest).take (s.length + 1) = s ++ [0x80] := by
    rw [List.take_append_eq_append_take, List.take_of_length_le (by omega),
      show s.length + 1 - s.length = 1 from by omega]
    rfl
  have hdrop : (s ++ 0x80 :: rest).drop 64 = rest.drop (63 - s.length) := by
    rw [List.drop_append_eq_append_drop, List.drop_of_length_le (by omega), List.nil_append,
      show 64 - s.length = (63 - s.length) + 1 from by omega, List.drop_succ_cons]
  refine ⟨rest.drop (63 - s.length), by rw [List.length_drop]; omega,
    fun b hb => hrb b (List.mem_of_mem_drop hb), ?_⟩
  rw [h1, hrest, hset, htake, hdrop, show 64 - (s.length + 1) = 63 - s.length from by omega]
  simp only [List.append_assoc, List.singleton_append]

theorem mem_append_bytes (a b : List Nat) (ha : ∀ x ∈ a, x < 256) (hb : ∀ x ∈ b, x < 256) :
    ∀ x ∈ a ++ b, x < 256 := by
  intro x hx
  rcases List.mem_append.1 hx with h | h
  · exact ha x h
  · exact hb x h

theorem mem_pad_bytes (s : List Nat) (n : Nat) (hs : ∀ x ∈ s, x < 256) :
    ∀ x ∈ s ++ 0x80 :: List.replicate n 0, x < 256 := by
  apply mem_append_bytes _ _ hs
  intro x hx
  rcases List.mem_cons.1 hx with h | h
  · rw [h]; decide
  · rw [(List.mem_replicate.1 h).2]; decide

/-- The length in bits after a piece of `r < 64` bytes, with the carry into `hi_length`. -/
theorem length_carry (hi lo r : Nat) (hr : r < 64) (hlo : lo < 2 ^ 32)
    (hT : hi * 2 ^ 32 + lo + 8 * r < 2 ^ 64) :
    (if (lo + (r <<< 3) % 2 ^ 32) % 2 ^ 32 < (r <<< 3) % 2 ^ 32 then (hi + 1) % 2 ^ 32 else hi)
        * 2 ^ 32 + (lo + (r <<< 3) % 2 ^ 32) % 2 ^ 32 = hi * 2 ^ 32 + lo + 8 * r ∧
    (if (lo + (r <<< 3) % 2 ^ 32) % 2 ^ 32 < (r <<< 3) % 2 ^ 32 then (hi + 1) % 2 ^ 32 else hi)
        < 2 ^ 32 ∧ (lo + (r <<< 3) % 2 ^ 32) % 2 ^ 32 < 2 ^ 32 := by
  have e : r <<< 3 = 8 * r := by rw [Nat.shiftLeft_eq]; omega
  have h32 : (2 : Nat) ^ 32 = 4294967296 := by norm_num
  have h64 : (2 : Nat) ^ 64 = 18446744073709551616 := by norm_num
  rw [e, h32] at *
  rw [h64] at hT
  split_ifs <;> omega

/-- The last turn of the loop when the byte `0x80` fits with the length: `r ≤ 55`. -/
theorem sha1Loop_pad_end (fuel : Nat) (s d : List Nat) (hi lo : Nat) (h : sha1Accu)
    (hs : s.length ≤ 55) (hd : d.length = 320) (hsb : ∀ b ∈ s, b < 256)
    (hdb : ∀ b ∈ d, b < 256) (hlo : lo < 2 ^ 32)
    (hT : hi * 2 ^ 32 + lo + 8 * s.length < 2 ^ 64) (hH : h.isWords) :
    sha1Loop (fuel + 1) s s.length d hi lo false h
      = Except.ok (fipsCompress (fipsWords (s ++ 0x80 :: List.replicate (55 - s.length) 0
          ++ beBytesN 8 (hi * 2 ^ 32 + lo + 8 * s.length))) h) := by
  obtain ⟨tail, htl, htb, hbuf⟩ := pad_buffer s d (by omega) hd hdb
  obtain ⟨hc1, hc2, hc3⟩ := length_carry hi lo s.length (by omega) hlo hT
  rw [sha1Loop]
  dsimp only
  have h1 : s.length < 64 := by omega
  have hcond : s.length < 64 ∧ ¬ (false = true) := ⟨h1, by decide⟩
  simp only [if_pos h1, if_pos hcond]
  rw [if_neg (lt_irrefl _), hbuf]
  have h56 : s.length + 1 ≤ 56 := by omega
  simp only [if_pos h56]
  have hlen2 : ((s ++ 0x80 :: List.replicate (63 - s.length) 0) ++ tail).length = 320 := by
    rw [List.length_append, List.length_append, List.length_cons, List.length_replicate, htl]
    omega
  have hb2 : ∀ b ∈ (s ++ 0x80 :: List.replicate (63 - s.length) 0) ++ tail, b < 256 :=
    mem_append_bytes _ _ (mem_pad_bytes s _ hsb) htb
  rw [sha1Rounds_last _ _ _ h hlen2 hb2 hc2 hc3 hH, hc1]
  have htake : ((s ++ 0x80 :: List.replicate (63 - s.length) 0) ++ tail).take 56
      = s ++ 0x80 :: List.replicate (55 - s.length) 0 := by
    have e : (s ++ 0x80 :: List.replicate (63 - s.length) 0) ++ tail
        = (s ++ 0x80 :: List.replicate (55 - s.length) 0) ++ (List.replicate 8 0 ++ tail) := by
      rw [show 63 - s.length = (55 - s.length) + 8 from by omega, List.replicate_add]
      simp only [List.append_assoc, List.cons_append]
    rw [e]
    apply List.take_left'
    rw [List.length_append, List.length_cons, List.length_replicate]
    omega
  rw [htake]

/-- The turn of the loop that makes the whole last block: no input left and the byte `0x80`
written already. -/
theorem sha1Loop_final (fuel : Nat) (d : List Nat) (hi lo : Nat) (h : sha1Accu)
    (hd : d.length = 320) (hdb : ∀ b ∈ d, b < 256) (hhi : hi < 2 ^ 32) (hlo : lo < 2 ^ 32)
    (hH : h.isWords) :
    sha1Loop (fuel + 1) [] 0 d hi lo true h
      = Except.ok (fipsCompress (fipsWords (List.replicate 56 0
          ++ beBytesN 8 (hi * 2 ^ 32 + lo))) h) := by
  rw [sha1Loop]
  dsimp only
  have hcond : ¬ (0 < 64 ∧ ¬ True) := fun h => h.2 trivial
  simp only [if_pos (by decide : 0 < 64), if_neg hcond]
  rw [if_neg (by decide : ¬ ([] : List Nat).length < 0)]
  simp only [if_pos (by decide : 0 ≤ 56)]
  have e1 : (lo + (0 <<< 3) % 2 ^ 32) % 2 ^ 32 = lo := by
    rw [show (0 <<< 3) % 2 ^ 32 = 0 from rfl, Nat.add_zero, Nat.mod_eq_of_lt hlo]
  have e2 : (0 <<< 3) % 2 ^ 32 = 0 := rfl
  rw [e1, e2, if_neg (Nat.not_lt_zero lo)]
  have hbuf : List.take 0 (List.take 0 ([] : List Nat) ++ List.drop 0 d)
      ++ List.replicate (64 - 0) 0 ++ List.drop 64 (List.take 0 ([] : List Nat) ++ List.drop 0 d)
      = List.replicate 56 0 ++ (List.replicate 8 0 ++ d.drop 64) := by
    rw [List.take_zero, List.take_zero, List.nil_append, List.nil_append, List.drop_zero,
      show 64 - 0 = 56 + 8 from rfl, List.replicate_add, List.append_assoc]
  rw [hbuf]
  have hlen2 : (List.replicate 56 0 ++ (List.replicate 8 0 ++ d.drop 64)).length = 320 := by
    rw [List.length_append, List.length_append, List.length_replicate, List.length_replicate,
      List.length_drop]
    omega
  have hb2 : ∀ b ∈ List.replicate 56 0 ++ (List.replicate 8 0 ++ d.drop 64), b < 256 := by
    apply mem_append_bytes
    · intro x hx; rw [(List.mem_replicate.1 hx).2]; decide
    · apply mem_append_bytes
      · intro x hx; rw [(List.mem_replicate.1 hx).2]; decide
      · intro x hx; exact hdb x (List.mem_of_mem_drop hx)
  rw [sha1Rounds_last _ _ _ h hlen2 hb2 hhi hlo hH,
    List.take_left' (by rw [List.length_replicate])]

/-- The last two turns of the loop when the byte `0x80` leaves no room for the length:
`56 ≤ r < 64`. -/
theorem sha1Loop_pad_more (fuel : Nat) (s d : List Nat) (hi lo : Nat) (h : sha1Accu)
    (hs1 : 56 ≤ s.length) (hs : s.length < 64) (hd : d.length = 320)
    (hsb : ∀ b ∈ s, b < 256) (hdb : ∀ b ∈ d, b < 256) (hlo : lo < 2 ^ 32)
    (hT : hi * 2 ^ 32 + lo + 8 * s.length < 2 ^ 64) (hH : h.isWords) :
    sha1Loop (fuel + 2) s s.length d hi lo false h
      = Except.ok (fipsCompress (fipsWords (List.replicate 56 0
            ++ beBytesN 8 (hi * 2 ^ 32 + lo + 8 * s.length)))
          (fipsCompress (fipsWords (s ++ 0x80 :: List.replicate (63 - s.length) 0)) h)) := by
  obtain ⟨tail, htl, htb, hbuf⟩ := pad_buffer s d hs hd hdb
  obtain ⟨hc1, hc2, hc3⟩ := length_carry hi lo s.length hs hlo hT
  rw [sha1Loop]
  dsimp only
  have hcond : s.length < 64 ∧ ¬ (false = true) := ⟨hs, by decide⟩
  simp only [if_pos hs, if_pos hcond]
  rw [if_neg (lt_irrefl _), hbuf]
  have h56 : ¬ s.length + 1 ≤ 56 := by omega
  simp only [if_neg h56]
  have hlen2 : ((s ++ 0x80 :: List.replicate (63 - s.length) 0) ++ tail).length = 320 := by
    rw [List.length_append, List.length_append, List.length_cons, List.length_replicate, htl]
    omega
  have hb2 : ∀ b ∈ (s ++ 0x80 :: List.replicate (63 - s.length) 0) ++ tail, b < 256 :=
    mem_append_bytes _ _ (mem_pad_bytes s _ hsb) htb
  obtain ⟨r1, r2, r3⟩ := sha1Rounds_full _ h hlen2 hb2 hH
  have htake : ((s ++ 0x80 :: List.replicate (63 - s.length) 0) ++ tail).take 64
      = s ++ 0x80 :: List.replicate (63 - s.length) 0 := by
    apply List.take_left'
    rw [List.length_append, List.length_cons, List.length_replicate]
    omega
  rw [htake] at r1
  rw [r1, List.drop_length, Nat.sub_self]
  have hH2 : (fipsCompress (fipsWords (s ++ 0x80 :: List.replicate (63 - s.length) 0))
      h).isWords := by
    unfold fipsCompress sha1Accu.isWords
    exact ⟨Nat.mod_lt _ (by norm_num), Nat.mod_lt _ (by norm_num), Nat.mod_lt _ (by norm_num),
      Nat.mod_lt _ (by norm_num), Nat.mod_lt _ (by norm_num)⟩
  rw [sha1Loop_final fuel _ _ _ _ r2 r3 hc2 hc3 hH2, hc1]

theorem fipsZeroBytes (len : Nat) :
    (fipsZeroBits (8 * len) - 7) / 8
      = if len % 64 ≤ 55 then 55 - len % 64 else 119 - len % 64 := by
  unfold fipsZeroBits
  split_ifs <;> omega

theorem fipsCompress_isWords (M : List Nat) (H : sha1Accu) : (fipsCompress M H).isWords := by
  unfold fipsCompress sha1Accu.isWords
  exact ⟨Nat.mod_lt _ (by norm_num), Nat.mod_lt _ (by norm_num), Nat.mod_lt _ (by norm_num),
    Nat.mod_lt _ (by norm_num), Nat.mod_lt _ (by norm_num)⟩

theorem length_carry_full (hi lo : Nat) (hlo : lo < 2 ^ 32)
    (hT : hi * 2 ^ 32 + lo + 512 < 2 ^ 64) :
    (if (lo + 512) % 2 ^ 32 < 512 then (hi + 1) % 2 ^ 32 else hi) * 2 ^ 32
        + (lo + 512) % 2 ^ 32 = hi * 2 ^ 32 + lo + 512 ∧
      (lo + 512) % 2 ^ 32 < 2 ^ 32 := by
  have h32 : (2 : Nat) ^ 32 = 4294967296 := by norm_num
  have h64 : (2 : Nat) ^ 64 = 18446744073709551616 := by norm_num
  rw [h32] at *
  rw [h64] at hT
  split_ifs <;> omega

/-- The loop of `_sha1` from the start of a block: it ends, and gives the hash value of
FIPS 180 over what is left of the padded message. -/
theorem sha1Loop_spec (len : Nat) (hlen : 8 * len < 2 ^ 64) (fuel : Nat) :
    ∀ (s d : List Nat) (hi lo : Nat) (h : sha1Accu),
      s.length ≤ len → (len - s.length) % 64 = 0 → (s.length + 8) / 64 + 1 ≤ fuel →
      d.length = 320 → (∀ b ∈ d, b < 256) → (∀ b ∈ s, b < 256) → lo < 2 ^ 32 →
      hi * 2 ^ 32 + lo + 8 * s.length = 8 * len → h.isWords →
      sha1Loop fuel s s.length d hi lo false h
        = Except.ok (fipsHash ((s.length + 9 + (fipsZeroBits (8 * len) - 7) / 8) / 64)
            (s ++ 0x80 :: List.replicate ((fipsZeroBits (8 * len) - 7) / 8) 0
              ++ beBytesN 8 (8 * len)) h) := by
  induction fuel with
  | zero => intro s d hi lo h _ _ hf; omega
  | succ fuel ih =>
    intro s d hi lo h hsl hmod hfuel hd hdb hsb hlo hT hH
    have hz := fipsZeroBytes len
    by_cases hfull : 64 ≤ s.length
    · rw [sha1Loop_full fuel s s.length d hi lo false h hfull hfull]
      have hlen1 : (s.take 64 ++ d.drop 64).length = 320 := by
        rw [List.length_append, List.length_take, List.length_drop]
        omega
      have hb1 : ∀ b ∈ s.take 64 ++ d.drop 64, b < 256 :=
        mem_append_bytes _ _ (fun b hb => hsb b (List.mem_of_mem_take hb))
          (fun b hb => hdb b (List.mem_of_mem_drop hb))
      obtain ⟨r1, r2, r3⟩ := sha1Rounds_full _ h hlen1 hb1 hH
      rw [List.take_left' (by rw [List.length_take]; omega)] at r1
      obtain ⟨c1, c2⟩ := length_carry_full hi lo hlo (by omega)
      have hdl : (s.drop 64).length = s.length - 64 := List.length_drop 64 s
      rw [r1, ← hdl]
      rw [ih (s.drop 64) _ _ _ _ (by rw [hdl]; omega) (by rw [hdl]; omega)
        (by rw [hdl]; omega) r2 r3 (fun b hb => hsb b (List.mem_of_mem_drop hb)) c2
        (by rw [c1, hdl]; omega) (fipsCompress_isWords _ _)]
      rw [hdl]
      have hn : (s.length + 9 + (fipsZeroBits (8 * len) - 7) / 8) / 64
          = (s.length - 64 + 9 + (fipsZeroBits (8 * len) - 7) / 8) / 64 + 1 := by omega
      rw [hn, fipsHash]
      simp only [List.append_assoc]
      rw [List.take_append_of_le_length hfull, List.drop_append_of_le_length hfull]
    · have hr : len % 64 = s.length := by omega
      rw [hr] at hz
      by_cases h55 : s.length ≤ 55
      · rw [if_pos h55] at hz
        rw [sha1Loop_pad_end fuel s d hi lo h h55 hd hsb hdb hlo (by omega) hH, hz, hT]
        have hn : (s.length + 9 + (55 - s.length)) / 64 = 1 := by omega
        rw [hn, fipsHash, fipsHash, List.take_of_length_le]
        rw [List.length_append, List.length_append, List.length_cons, List.length_replicate,
          beBytesN_8]
        simp only [List.length_cons, List.length_nil]
        omega
      · rw [if_neg h55] at hz
        obtain ⟨fuel1, rfl⟩ : ∃ fuel1, fuel = fuel1 + 1 := ⟨fuel - 1, by omega⟩
        rw [sha1Loop_pad_more fuel1 s d hi lo h (by omega) (by omega) hd hsb hdb hlo
          (by omega) hH, hz, hT]
        have hn : (s.length + 9 + (119 - s.length)) / 64 = 2 := by omega
        have e : s ++ 0x80 :: List.replicate (119 - s.length) 0 ++ beBytesN 8 (8 * len)
            = (s ++ 0x80 :: List.replicate (63 - s.length) 0)
              ++ (List.replicate 56 0 ++ beBytesN 8 (8 * len)) := by
          rw [show 119 - s.length = (63 - s.length) + 56 from by omega, List.replicate_add]
          simp only [List.append_assoc, List.cons_append]
        have hl1 : (s ++ 0x80 :: List.replicate (63 - s.length) 0).length = 64 := by
          rw [List.length_append, List.length_cons, List.length_replicate]
          omega
        rw [hn, e, fipsHash, fipsHash, fipsHash, List.take_left' hl1, List.drop_left' hl1,
          List.take_of_length_le]
        rw [List.length_append, List.length_replicate, beBytesN_8]
        simp only [List.length_cons, List.length_nil]
        omega

theorem fipsPad_length (M : List Nat) :
    (fipsPad M).length = M.length + 9 + (fipsZeroBits (8 * M.length) - 7) / 8 := by
  unfold fipsPad
  rw [List.length_append, List.length_append, List.length_cons, List.length_replicate,
    beBytesN_8]
  simp only [List.length_cons, List.length_nil]
  omega

/-- The accumulators of `_sha1` at the end of the loop, for an input of less than `2^32`
bytes. -/
theorem sha1Loop_digest (mem d : List Nat) (fuel : Nat) (hlen : mem.length < 2 ^ 32)
    (hfuel : (mem.length + 8) / 64 + 1 ≤ fuel) (hd : d.length = 320) (hdb : ∀ b ∈ d, b < 256)
    (hmem : ∀ b ∈ mem, b < 256) :
    sha1Loop fuel mem (mem.length % 2 ^ 32) d 0 0 false fipsH0
      = Except.ok (fipsHash ((fipsPad mem).length / 64) (fipsPad mem) fipsH0) := by
  have h32 : (2 : Nat) ^ 32 = 4294967296 := by norm_num
  have h64 : (2 : Nat) ^ 64 = 18446744073709551616 := by norm_num
  rw [Nat.mod_eq_of_lt hlen, fipsPad_length]
  exact sha1Loop_spec mem.length (by omega) fuel mem d 0 0 fipsH0 (le_refl _)
    (by rw [Nat.sub_self]) hfuel hd hdb hmem (by norm_num) (by omega)
    ⟨by decide, by decide, by decide, by decide, by decide⟩

theorem fipsHash_isWords (n : Nat) :
    ∀ (P : List Nat) (H : sha1Accu), H.isWords → (fipsHash n P H).isWords := by
  induction n with
  | zero => intro P H h; exact h
  | succ n ih =>
    intro P H _
    rw [fipsHash]
    exact ih _ _ (fipsCompress_isWords _ _)

theorem fipsSHA1_length (M : List Nat) : (fipsSHA1 M).length = 20 := by
  unfold fipsSHA1
  simp only [List.length_append, beBytesN_4, List.length_cons, List.length_nil]

theorem fipsPad_blocks (M : List Nat) :
    (fipsPad M).length = 64 * (M.length / 64 + 1 + if 56 ≤ M.length % 64 then 1 else 0) := by
  rw [fipsPad_length, fipsZeroBytes]
  split_ifs <;> omega

theorem word_of_bytes (h : Nat) (hh : h < 2 ^ 32) :
    h % 256 + 256 * (h / 256 % 256) + 65536 * (h / 65536 % 256)
      + 16777216 * (h / 16777216 % 256) = h := by
  have : (2 : Nat) ^ 32 = 4294967296 := by norm_num
  omega

theorem swap_bytes (h : Nat) :
    [(h >>> 24) &&& 0xff, (h >>> 16) &&& 0xff, (h >>> 8) &&& 0xff, h &&& 0xff]
      = beBytesN 4 h := by
  rw [beBytesN_4]
  have e : ∀ x, x &&& 0xff = x % 256 := fun x => Nat.and_pow_two_sub_one_eq_mod x 8
  have e1 : h / 2 ^ 24 % 256 = h / 256 / 256 / 256 % 256 := by omega
  have e2 : h / 2 ^ 16 % 256 = h / 256 / 256 % 256 := by omega
  have e3 : h / 2 ^ 8 % 256 = h / 256 % 256 := by omega
  rw [e, e, e, e, Nat.shiftRight_eq_div_pow, Nat.shiftRight_eq_div_pow,
    Nat.shiftRight_eq_div_pow, e1, e2, e3]

theorem longbyte.setW_cons4 (x0 x1 x2 x3 : Nat) (l : List Nat) (i v : Nat) :
    longbyte.setW (x0 :: x1 :: x2 :: x3 :: l) (i + 1) v
      = x0 :: x1 :: x2 :: x3 :: longbyte.setW l i v := rfl

theorem longbyte.W_cons4 (x0 x1 x2 x3 : Nat) (l : List Nat) (i : Nat) :
    longbyte.W (x0 :: x1 :: x2 :: x3 :: l) (i + 1) = longbyte.W l i := rfl

theorem sha1SwapLoop_cons4 (todo : Nat) :
    ∀ (x0 x1 x2 x3 : Nat) (l : List Nat) (i : Nat),
      sha1SwapLoop todo (i + 1) (x0 :: x1 :: x2 :: x3 :: l)
        = x0 :: x1 :: x2 :: x3 :: sha1SwapLoop todo i l := by
  induction todo with
  | zero => intro x0 x1 x2 x3 l i; rfl
  | succ todo ih =>
    intro x0 x1 x2 x3 l i
    rw [sha1SwapLoop, sha1SwapLoop, longbyte.W_cons4, ← ih]
    rfl

theorem longbyte.setW_zero (c0 c1 c2 c3 : Nat) (l : List Nat) (v : Nat) :
    longbyte.setW (c0 :: c1 :: c2 :: c3 :: l) 0 v
      = (v % 256) :: (v / 256 % 256) :: (v / 65536 % 256) :: (v / 16777216 % 256) :: l := rfl

theorem longbyte.setW_cons4_1 (x0 x1 x2 x3 : Nat) (l : List Nat) (v : Nat) :
    longbyte.setW (x0 :: x1 :: x2 :: x3 :: l) 1 v
      = x0 :: x1 :: x2 :: x3 :: longbyte.setW l 0 v := rfl

theorem longbyte.setW_cons4_2 (x0 x1 x2 x3 : Nat) (l : List Nat) (v : Nat) :
    longbyte.setW (x0 :: x1 :: x2 :: x3 :: l) 2 v
      = x0 :: x1 :: x2 :: x3 :: longbyte.setW l 1 v := rfl

theorem longbyte.setW_cons4_3 (x0 x1 x2 x3 : Nat) (l : List Nat) (v : Nat) :
    longbyte.setW (x0 :: x1 :: x2 :: x3 :: l) 3 v
      = x0 :: x1 :: x2 :: x3 :: longbyte.setW l 2 v := rfl

theorem longbyte.setW_cons4_4 (x0 x1 x2 x3 : Nat) (l : List Nat) (v : Nat) :
    longbyte.setW (x0 :: x1 :: x2 :: x3 :: l) 4 v
      = x0 :: x1 :: x2 :: x3 :: longbyte.setW l 3 v := rfl

/-- One word stored by `_sha1` and turned by the loop of `sha1`. -/
theorem sha1SwapLoop_word (todo v : Nat) (hv : v < 2 ^ 32) (l : List Nat) :
    sha1SwapLoop (todo + 1) 0
        ((v % 256) :: (v / 256 % 256) :: (v / 65536 % 256) :: (v / 16777216 % 256) :: l)
      = beBytesN 4 v ++ sha1SwapLoop todo 0 l := by
  have hw : longbyte.W ((v % 256) :: (v / 256 % 256) :: (v / 65536 % 256)
      :: (v / 16777216 % 256) :: l) 0 = v := by
    have : longbyte.W ((v % 256) :: (v / 256 % 256) :: (v / 65536 % 256)
        :: (v / 16777216 % 256) :: l) 0
        = v % 256 + 256 * (v / 256 % 256) + 65536 * (v / 65536 % 256)
          + 16777216 * (v / 16777216 % 256) := rfl
    rw [this, word_of_bytes v hv]
  rw [sha1SwapLoop, hw]
  have hs : (((((v % 256) :: (v / 256 % 256) :: (v / 65536 % 256) :: (v / 16777216 % 256)
      :: l).set (3 + 4 * 0) (v &&& 0xff)).set (2 + 4 * 0) ((v >>> 8) &&& 0xff)).set
        (1 + 4 * 0) ((v >>> 16) &&& 0xff)).set (0 + 4 * 0) ((v >>> 24) &&& 0xff)
      = ((v >>> 24) &&& 0xff) :: ((v >>> 16) &&& 0xff) :: ((v >>> 8) &&& 0xff)
        :: (v &&& 0xff) :: l := rfl
  rw [hs, sha1SwapLoop_cons4, ← swap_bytes]
  rfl

/-- The stores of `_sha1` into `buf` followed by the loop of `sha1`: the five words with the
highest byte first, and the rest of the array as it was. -/
theorem sha1_output (buf : List Nat) (H : sha1Accu) (hbuf : 20 ≤ buf.length)
    (hH : H.isWords) :
    sha1SwapLoop (SHA1_DIGEST_LENGTH / 4) 0
        (longbyte.setW (longbyte.setW (longbyte.setW (longbyte.setW
          (longbyte.setW buf 0 H.h0) 1 H.h1) 2 H.h2) 3 H.h3) 4 H.h4)
      = beBytesN 4 H.h0 ++ beBytesN 4 H.h1 ++ beBytesN 4 H.h2 ++ beBytesN 4 H.h3
        ++ beBytesN 4 H.h4 ++ buf.drop 20 := by
  obtain ⟨b0, b1, b2, b3, b4⟩ := hH
  rcases buf with _ | ⟨a0, _ | ⟨a1, _ | ⟨a2, _ | ⟨a3, _ | ⟨a4, _ | ⟨a5, _ | ⟨a6, _ | ⟨a7, _ | ⟨a8, _ | ⟨a9, _ | ⟨a10, _ | ⟨a11, _ | ⟨a12, _ | ⟨a13, _ | ⟨a14, _ | ⟨a15, _ | ⟨a16, _ | ⟨a17, _ | ⟨a18, _ | ⟨a19, rest⟩⟩⟩⟩⟩⟩⟩⟩⟩⟩⟩⟩⟩⟩⟩⟩⟩⟩⟩⟩
  all_goals try (exfalso; simp only [List.length_cons, List.length_nil] at hbuf; omega)
  have e5 : SHA1_DIGEST_LENGTH / 4 = 4 + 1 := rfl
  rw [e5, longbyte.setW_zero, longbyte.setW_cons4_1, longbyte.setW_zero,
    longbyte.setW_cons4_2, longbyte.setW_cons4_1, longbyte.setW_zero,
    longbyte.setW_cons4_3, longbyte.setW_cons4_2, longbyte.setW_cons4_1, longbyte.setW_zero,
    longbyte.setW_cons4_4, longbyte.setW_cons4_3, longbyte.setW_cons4_2,
    longbyte.setW_cons4_1, longbyte.setW_zero,
    sha1SwapLoop_word 4 _ b0, sha1SwapLoop_word 3 _ b1, sha1SwapLoop_word 2 _ b2,
    sha1SwapLoop_word 1 _ b3, sha1SwapLoop_word 0 _ b4]
  simp only [List.append_assoc]
  rfl

/-- `sha1` on an input of less than `2^32` bytes returns 0 and writes the digest of FIPS 180
at the start of `result`. -/
theorem sha1_eq (string d result : List Nat) (fuel : Nat) (hlen : string.length < 2 ^ 32)
    (hstr : ∀ b ∈ string, b < 256) (hd : d.length = 320) (hdb : ∀ b ∈ d, b < 256)
    (hres : 20 ≤ result.length) (hfuel : (string.length + 8) / 64 + 1 ≤ fuel) :
    sha1 fuel d (some string) string.length (some result)
      = Except.ok (0, some (fipsSHA1 string ++ result.drop 20)) := by
  have h32 : (2 : Nat) ^ 32 = 4294967296 := by norm_num
  have hloop := sha1Loop_digest string d fuel hlen hfuel hd hdb hstr
  have hloop2 : sha1Loop fuel string (string.length % 2 ^ 32) d 0 0 false
      { h0 := 0x67452301, h1 := 0xefcdab89, h2 := 0x98badcfe, h3 := 0x10325476,
        h4 := 0xc3d2e1f0 }
      = Except.ok (fipsHash ((fipsPad string).length / 64) (fipsPad string) fipsH0) := hloop
  have hw : (fipsHash ((fipsPad string).length / 64) (fipsPad string) fipsH0).isWords :=
    fipsHash_isWords _ _ _ ⟨by decide, by decide, by decide, by decide, by decide⟩
  unfold sha1
  dsimp only
  unfold _sha1
  rw [if_neg (by unfold UINT_LEAST32_MAX; omega), hloop2]
  dsimp only
  rw [if_neg (by omega)]
  dsimp only
  rw [sha1_output result _ hres hw]
  rfl

/-! ## The Lucas test: square root and Jacobi symbol -/

/-- The integer drawn by `getRandomInt` has exactly `n_bits` bits, and its low bits are those
of the bytes of the generator. -/
theorem getRandomInt_bits {σ : Type} (gen : PRNG σ) (s s1 : σ) (n_bits : Nat)
    (bytes : List Nat) (hn1 : 1 ≤ n_bits) (hn2 : n_bits + 7 < 2 ^ 64)
    (hgen : gen.getRandomBytes s (List.replicate ((n_bits + 7) / 8) 0) ((n_bits + 7) / 8)
      = Except.ok (s1, bytes))
    (hlen : bytes.length = (n_bits + 7) / 8) (hb : ∀ b ∈ bytes, b < 256) :
    ∃ v : Nat, gen.getRandomInt s n_bits = Except.ok (s1, (v : Int)) ∧
      2 ^ (n_bits - 1) ≤ v ∧ v < 2 ^ n_bits ∧ mpz_sizeinbase_2 (v : Int) = n_bits ∧
      v % 2 ^ (n_bits - 1) = beValue bytes % 2 ^ (n_bits - 1) := by
  cases bytes with
  | nil => simp at hlen; omega
  | cons c rest =>
    have hrl : rest.length = (n_bits - 1) / 8 := by
      simp only [List.length_cons] at hlen; omega
    have hR : beValue rest < 256 ^ rest.length :=
      beValue_lt rest (fun x hx => hb x (by simp [hx]))
    have hpow : 2 ^ (n_bits - 1) = 2 ^ ((n_bits - 1) % 8) * 256 ^ rest.length := by
      have h256 : (256 : Nat) = 2 ^ 8 := by decide
      rw [h256, ← pow_mul, ← pow_add, hrl]
      congr 1
      omega
    have hpow2 : 2 ^ n_bits = 2 * (2 ^ ((n_bits - 1) % 8) * 256 ^ rest.length) := by
      rw [← hpow, ← pow_succ']
      congr 1
      omega
    obtain ⟨a1, a2, a3⟩ := top_byte_arith (2 ^ ((n_bits - 1) % 8)) (256 ^ rest.length) c
      (beValue rest) (Nat.pow_pos (by decide)) hR
    refine ⟨_, getRandomInt_eq gen s s1 n_bits c rest hn1 hn2 hgen hb, ?_, ?_, ?_, ?_⟩
    · rw [beValue_cons, hpow]; exact a1
    · rw [beValue_cons, hpow2]; exact a2
    · apply mpz_sizeinbase_2_unique _ _ _ _ hn1
      · rw [beValue_cons, hpow]; exact a1
      · rw [beValue_cons, hpow2]; exact a2
    · rw [beValue_cons, beValue_cons, hpow]; exact a3

theorem idOctetOf_eq (c : asn1_class) (m : asn1_method) (t : Nat) (v : String) (ht : t < 32) :
    idOctetOf ⟨c, m, t, v⟩ = ((c.toNat <<< 6) ||| (m.toNat <<< 5)) ||| t := by
  unfold idOctetOf
  simp only
  interval_cases t <;> cases c <;> cases m <;> decide

/-- C1. For every class, method, tag number `t ≤ 30` (one of the recognised universal tags
when the class is Universal) and value `v` shorter than `2^31` bytes (for an INTEGER, a
value that normalisation leaves unchanged): the node built from them is written by `toDER`
without error, and `ASN1_BASIC (const String&)` reads the result back without error,
giving the same class, method, tag number and value bytes and leaving the index of the
input at its end. -/
theorem fromDER_toDER_roundtrip (c : asn1_class) (m : asn1_method) (t : Nat) (v : String)
    (htag : t ≤ 30)
    (huniv : c = asn1_class.C_UNIV → t ∈ universalTags)
    (hlen : v.size < 2 ^ 31)
    (hnorm : c = asn1_class.C_UNIV ∧ m = asn1_method.M_PRIM ∧ t = T_INTG →
      normaliseInteger v._str = v._str) :
    ∃ (x : ASN1_BASIC) (der : String) (y : ASN1_BASIC) (der' : String),
      ASN1_BASIC.new c m t v = Except.ok x ∧
      x.toDER = Except.ok der ∧
      ASN1_BASIC.fromDER der = Except.ok (y, der') ∧
      y.classe = c ∧ y.method = m ∧ y.tagNumber = t ∧ y.value._str = v._str ∧
      der'._str = der._str ∧ der'._index = der.size ∧ der'.eof = true := by
  have hx : ASN1_BASIC.new c m t v
      = Except.ok { classe := c, method := m, tagNumber := t,
                    value := String.ofBytes v._str } := by
    by_cases hint : c = asn1_class.C_UNIV ∧ m = asn1_method.M_PRIM ∧ t = T_INTG
    · obtain ⟨h1, h2, h3⟩ := hint
      subst h1 h2 h3
      rw [ASN1_BASIC_new_integer v (by omega), hnorm ⟨rfl, rfl, rfl⟩]
    · unfold ASN1_BASIC.new
      rw [if_neg hint]
  have hsize : (String.ofBytes v._str).size = v.size := rfl
  have hspec := fromDER_spec ⟨c, m, t, String.ofBytes v._str⟩ [] [] htag huniv
    (by simpa [hsize] using hlen)
    (by
      have h5 : (lengthOctets v.size).length ≤ 5 := by
        by_cases h : v.size < 128
        · rw [lengthOctets_short _ h]; simp
        · obtain ⟨k, _, hk4, _, hlo⟩ := lengthOctets_long _ h hlen
          rw [hlo]; simp [beBytes_length]; omega
      have hsize2 : (String.ofBytes v._str)._str = v._str := rfl
      simp only [hsize, hsize2, List.nil_append, List.append_nil, List.length_cons,
        List.length_append]
      have : v._str.length = v.size := rfl
      omega)
  simp only [List.nil_append, List.append_nil, List.length_nil, Nat.zero_add] at hspec
  refine ⟨_, _, _, _, hx, toDER_eq _, hspec, rfl, rfl, rfl, rfl, rfl, ?_, ?_⟩
  · simp [String.size, String.ofBytes]
  · simp [String.eof, String.size, String.ofBytes]

theorem fromDER_toDER_roundtrip_witness :
    ∃ (x : ASN1_BASIC) (der : String) (y : ASN1_BASIC) (der' : String),
      ASN1_BASIC.new asn1_class.C_UNIV asn1_method.M_PRIM T_INTG (String.ofBytes [0x00, 0x80])
        = Except.ok x ∧
      x.toDER = Except.ok der ∧
      ASN1_BASIC.fromDER der = Except.ok (y, der') ∧
      y.classe = asn1_class.C_UNIV ∧ y.method = asn1_method.M_PRIM ∧ y.tagNumber = T_INTG ∧
      y.value._str = (String.ofBytes [0x00, 0x80])._str ∧
      der'._str = der._str ∧ der'._index = der.size ∧ der'.eof = true :=
  fromDER_toDER_roundtrip asn1_class.C_UNIV asn1_method.M_PRIM T_INTG
    (String.ofBytes [0x00, 0x80]) (by decide) (by decide) (by decide) (by decide)

/-- C2. For every node (tag number in the range `0..31` of its type, value size in the
range of `size_t`), `toDER` returns: one identifier octet
`(class << 6) | (method << 5) | tag`; then the length `L` of the value in the shortest DER
form, the single byte `L` when `L < 128`, otherwise the byte `0x80 | k` followed by `k`
bytes that read big-endian give `L` and whose first byte is not zero; then the value bytes
unchanged.  The size of the result is `1 + size of the length field + L`. -/
theorem toDER_shortest_form (x : ASN1_BASIC) (htag : x.tagNumber < 32)
    (hsize : x.value.size < 2 ^ 64) :
    ∃ lenField : List Nat,
      x.toDER = Except.ok (String.ofBytes
        ((((x.classe.toNat <<< 6) ||| (x.method.toNat <<< 5)) ||| x.tagNumber)
          :: (lenField ++ x.value._str))) ∧
      lenField = derLength x.value.size ∧
      (x.value.size < 128 → lenField = [x.value.size]) ∧
      (128 ≤ x.value.size →
        ∃ (k : Nat) (bs : List Nat), lenField = (0x80 ||| k) :: bs ∧ bs.length = k ∧
          1 ≤ k ∧ k ≤ 8 ∧ (∀ b ∈ bs, b < 256) ∧ Nat.ofDigits 256 bs.reverse = x.value.size ∧
          bs.head? ≠ some 0) ∧
      (∀ der, x.toDER = Except.ok der → der.size = 1 + lenField.length + x.value.size) := by
  obtain ⟨c, m, t, v⟩ := x
  simp only at htag hsize
  refine ⟨derLength v.size, ?_, rfl, ?_, ?_, ?_⟩
  · rw [toDER_eq, idOctetOf_eq c m t v htag, lengthOctets_eq_derLength _ hsize]
  · intro h
    unfold derLength
    rw [if_pos h]
  · intro h
    simp only at h
    have hne : v.size ≠ 0 := by omega
    have hnil : Nat.digits 256 v.size ≠ [] := Nat.digits_ne_nil_iff_ne_zero.mpr hne
    refine ⟨(Nat.digits 256 v.size).length, (Nat.digits 256 v.size).reverse, ?_, ?_, ?_, ?_,
      ?_, ?_, ?_⟩
    · unfold derLength
      rw [if_neg (by omega)]
    · simp
    · exact List.length_pos.mpr hnil
    · exact digits256_length_le _ 8 (by simpa using hsize)
    · intro b hb
      exact Nat.digits_lt_base (by decide) (List.mem_reverse.mp hb)
    · rw [List.reverse_reverse, Nat.ofDigits_digits]
    · rw [List.head?_reverse, List.getLast?_eq_getLast _ hnil]
      intro h0
      exact Nat.getLast_digit_ne_zero 256 hne (Option.some.inj h0)
  · intro der hder
    rw [toDER_eq, lengthOctets_eq_derLength _ hsize] at hder
    have := Except.ok.inj hder
    rw [← this]
    simp [String.size, String.ofBytes]
    omega

theorem toDER_shortest_form_witness :
    ∃ lenField : List Nat,
      ASN1_BASIC.toDER ⟨asn1_class.C_CSPE, asn1_method.M_CONS, 3, String.ofBytes [1, 2]⟩
        = Except.ok (String.ofBytes
          ((((asn1_class.C_CSPE.toNat <<< 6) ||| (asn1_method.M_CONS.toNat <<< 5)) ||| 3)
            :: (lenField ++ [1, 2]))) ∧
      lenField = derLength 2 ∧
      ((2 : Nat) < 128 → lenField = [2]) ∧
      (128 ≤ (2 : Nat) →
        ∃ (k : Nat) (bs : List Nat), lenField = (0x80 ||| k) :: bs ∧ bs.length = k ∧
          1 ≤ k ∧ k ≤ 8 ∧ (∀ b ∈ bs, b < 256) ∧ Nat.ofDigits 256 bs.reverse = 2 ∧
          bs.head? ≠ some 0) ∧
      (∀ der,
        ASN1_BASIC.toDER ⟨asn1_class.C_CSPE, asn1_method.M_CONS, 3, String.ofBytes [1, 2]⟩
          = Except.ok der → der.size = 1 + lenField.length + 2) :=
  toDER_shortest_form ⟨asn1_class.C_CSPE, asn1_method.M_CONS, 3, String.ofBytes [1, 2]⟩
    (by decide) (by decide)

/-- C3. For every byte string `v` (of a size in the range of `size_t`), the constructor
`ASN1_BASIC (Universal, Primitive, INTEGER, v)` stores as value: `v` with all leading zero
bytes removed, preceded by exactly one zero byte if and only if the first remaining byte
has its high bit set; for every other (class, method, tag) the value stored is `v`
unchanged.  The constructor does not throw. -/
theorem ASN1_BASIC_new_value (c : asn1_class) (m : asn1_method) (t : Nat) (v : String)
    (hsz : v.size < 2 ^ 64) :
    ASN1_BASIC.new c m t v
      = Except.ok { classe := c, method := m, tagNumber := t,
                    value := String.ofBytes
                      (if c = asn1_class.C_UNIV ∧ m = asn1_method.M_PRIM ∧ t = T_INTG then
                         signPad (stripLeadingZeros v._str) ++ stripLeadingZeros v._str
                       else v._str) } := by
  by_cases hint : c = asn1_class.C_UNIV ∧ m = asn1_method.M_PRIM ∧ t = T_INTG
  · rw [if_pos hint]
    obtain ⟨h1, h2, h3⟩ := hint
    subst h1 h2 h3
    exact ASN1_BASIC_new_integer v hsz
  · rw [if_neg hint]
    unfold ASN1_BASIC.new
    rw [if_neg hint]

theorem ASN1_BASIC_new_value_witness :
    ASN1_BASIC.new asn1_class.C_UNIV asn1_method.M_PRIM T_INTG (String.ofBytes [0, 0, 0x81, 0])
      = Except.ok { classe := asn1_class.C_UNIV, method := asn1_method.M_PRIM,
                    tagNumber := T_INTG,
                    value := String.ofBytes
                      (if asn1_class.C_UNIV = asn1_class.C_UNIV
                          ∧ asn1_method.M_PRIM = asn1_method.M_PRIM ∧ T_INTG = T_INTG then
                         signPad (stripLeadingZeros [0, 0, 0x81, 0])
                           ++ stripLeadingZeros [0, 0, 0x81, 0]
                       else [0, 0, 0x81, 0]) } :=
  ASN1_BASIC_new_value asn1_class.C_UNIV asn1_method.M_PRIM T_INTG
    (String.ofBytes [0, 0, 0x81, 0]) (by decide)

/-- C4. For every big integer `n ≥ 0`, `ASN1_INTEGER (n)` is a universal primitive INTEGER
whose value is not empty, reads big-endian as `n`, and is the magnitude of `n` (its
base-256 digits without leading zero byte, the single byte `0x00` for `n = 0`) preceded by
one `0x00` byte if and only if the most significant byte of the magnitude has its high bit
set; no other leading zero byte occurs.  For `n < 0` the construction fails with
`E_NEGATIVE_BIGNUM`. -/
theorem ASN1_INTEGER_minimal_encoding (n : Int) :
    (0 ≤ n →
      ∃ x : ASN1_BASIC, ASN1_INTEGER.ofMpz n = Except.ok x ∧
        x.classe = asn1_class.C_UNIV ∧ x.method = asn1_method.M_PRIM ∧ x.tagNumber = T_INTG ∧
        x.value._str ≠ [] ∧
        (∀ b ∈ x.value._str, b < 256) ∧
        Nat.ofDigits 256 x.value._str.reverse = n.toNat ∧
        x.value._str = signPad (magnitudeBytes n.toNat) ++ magnitudeBytes n.toNat ∧
        (n ≠ 0 → (magnitudeBytes n.toNat).head? ≠ some 0) ∧
        (n = 0 → x.value._str = [0])) ∧
    (n < 0 → ASN1_INTEGER.ofMpz n = raise exception_t.E_NEGATIVE_BIGNUM) := by
  refine ⟨?_, ASN1_INTEGER_ofMpz_neg n⟩
  intro hn
  obtain ⟨k, rfl⟩ := Int.eq_ofNat_of_zero_le hn
  refine ⟨_, ASN1_INTEGER_ofMpz_nat k, rfl, rfl, rfl, ?_, ?_, ?_, ?_, ?_, ?_⟩
  · simp [String.ofBytes, magnitudeBytes_ne_nil]
  · intro b hb
    simp only [String.ofBytes, List.mem_append] at hb
    rcases hb with h | h
    · unfold signPad at h
      split at h
      · simp at h
      · split at h <;> simp at h
        omega
    · exact magnitudeBytes_lt k b h
  · simp only [String.ofBytes, Int.toNat_ofNat, List.reverse_append, Nat.ofDigits_append,
      magnitudeBytes_value]
    have hpad : Nat.ofDigits 256 (signPad (magnitudeBytes k)).reverse = 0 := by
      unfold signPad
      split
      · simp
      · split <;> simp
    rw [hpad]
    simp
  · simp [String.ofBytes]
  · intro h0
    apply magnitudeBytes_head
    simpa using h0
  · intro h0
    have : k = 0 := by exact_mod_cast h0
    subst this
    decide

theorem ASN1_INTEGER_minimal_encoding_witness :
    (∃ x : ASN1_BASIC, ASN1_INTEGER.ofMpz 255 = Except.ok x ∧
        x.classe = asn1_class.C_UNIV ∧ x.method = asn1_method.M_PRIM ∧ x.tagNumber = T_INTG ∧
        x.value._str ≠ [] ∧
        (∀ b ∈ x.value._str, b < 256) ∧
        Nat.ofDigits 256 x.value._str.reverse = (255 : Int).toNat ∧
        x.value._str = signPad (magnitudeBytes (255 : Int).toNat)
          ++ magnitudeBytes (255 : Int).toNat ∧
        ((255 : Int) ≠ 0 → (magnitudeBytes (255 : Int).toNat).head? ≠ some 0) ∧
        ((255 : Int) = 0 → x.value._str = [0])) ∧
    ASN1_INTEGER.ofMpz (-1) = raise exception_t.E_NEGATIVE_BIGNUM :=
  ⟨(ASN1_INTEGER_minimal_encoding 255).1 (by decide),
   (ASN1_INTEGER_minimal_encoding (-1)).2 (by decide)⟩

/-- C5, counterexample.  The key with `n = 256 ^ (2 ^ 32)`, `e = 1`, `d = 0`, `p = 3`,
`q = 5` satisfies the hypotheses of the claim, `ASN1PrivateKey` succeeds on it, and
`setFromASN1PrivateKey` on a fresh key returns `false` and leaves the key untouched: the
size field of the outer SEQUENCE has five bytes, which `getSize` refuses. -/
theorem setFromASN1PrivateKey_huge_key_rejected :
    0 ≤ hugeKey._n ∧ 0 ≤ hugeKey._e ∧ 0 ≤ hugeKey._d ∧ 0 ≤ hugeKey._p ∧ 0 ≤ hugeKey._q ∧
    (mpz_invert hugeKey._e (hugeKey._p - 1)).isSome = true ∧
    (mpz_invert hugeKey._e (hugeKey._q - 1)).isSome = true ∧
    (mpz_invert hugeKey._q hugeKey._p).isSome = true ∧
    ∃ der : String, hugeKey.ASN1PrivateKey = Except.ok der ∧
      RSAKey.setFromASN1PrivateKey RSAKey.new der = Except.ok (false, RSAKey.new) := by
  refine ⟨Int.ofNat_nonneg _, by decide, by decide, by decide, by decide, by decide, by decide,
    by decide, ?_⟩
  have hder := ASN1PrivateKey_eq hugeModulus 1 0 3 5 1 1 2 false (by decide) (by decide)
    (by decide)
  rw [← hugeKey_eq] at hder
  obtain ⟨rest, hrest⟩ := privateKeyBytes_huge_header
  refine ⟨_, hder, ?_⟩
  rw [hrest]
  exact setFromASN1PrivateKey_long_size rest

/-- C5, amended.  For every key `k = (n, e, d, p, q)` of non-negative integers with `e`
invertible modulo `p - 1` and modulo `q - 1` and `q` invertible modulo `p`,
`ASN1PrivateKey (k)` succeeds; and when its result is shorter than `2^31` bytes,
`setFromASN1PrivateKey` of it on a fresh uninitialised key returns `true`, sets the same
five integers and marks the key initialised, and `ASN1PrivateKey` of the re-imported key is
byte-identical. -/
theorem setFromASN1PrivateKey_roundtrip (k : RSAKey)
    (hn : 0 ≤ k._n) (he : 0 ≤ k._e) (hd : 0 ≤ k._d) (hp : 0 ≤ k._p) (hq : 0 ≤ k._q)
    (h1 : (mpz_invert k._e (k._p - 1)).isSome = true)
    (h2 : (mpz_invert k._e (k._q - 1)).isSome = true)
    (h3 : (mpz_invert k._q k._p).isSome = true) :
    ∃ der : String, k.ASN1PrivateKey = Except.ok der ∧
      (der.size < 2 ^ 31 →
        RSAKey.setFromASN1PrivateKey RSAKey.new der
          = Except.ok (true, { _initialized := true, _n := k._n, _d := k._d, _p := k._p,
                               _q := k._q, _e := k._e }) ∧
        RSAKey.ASN1PrivateKey { _initialized := true, _n := k._n, _d := k._d, _p := k._p,
                                _q := k._q, _e := k._e } = Except.ok der) := by
  obtain ⟨b, n, d, p, q, e⟩ := k
  simp only at hn he hd hp hq h1 h2 h3 ⊢
  obtain ⟨n, rfl⟩ := Int.eq_ofNat_of_zero_le hn
  obtain ⟨e, rfl⟩ := Int.eq_ofNat_of_zero_le he
  obtain ⟨d, rfl⟩ := Int.eq_ofNat_of_zero_le hd
  obtain ⟨p, rfl⟩ := Int.eq_ofNat_of_zero_le hp
  obtain ⟨q, rfl⟩ := Int.eq_ofNat_of_zero_le hq
  obtain ⟨x1, hx1⟩ := Option.isSome_iff_exists.mp h1
  obtain ⟨x2, hx2⟩ := Option.isSome_iff_exists.mp h2
  obtain ⟨x3, hx3⟩ := Option.isSome_iff_exists.mp h3
  obtain ⟨dp, rfl⟩ := mpz_invert_nat _ _ _ hx1
  obtain ⟨dq, rfl⟩ := mpz_invert_nat _ _ _ hx2
  obtain ⟨qi, rfl⟩ := mpz_invert_nat _ _ _ hx3
  refine ⟨_, ASN1PrivateKey_eq n e d p q dp dq qi b hx1 hx2 hx3, ?_⟩
  intro hsz
  exact ⟨setFromASN1PrivateKey_privateKeyBytes n e d p q dp dq qi hsz,
    ASN1PrivateKey_eq n e d p q dp dq qi true hx1 hx2 hx3⟩

theorem setFromASN1PrivateKey_roundtrip_witness :
    RSAKey.ASN1PrivateKey
        { _initialized := false, _n := 3233, _d := 2753, _p := 61, _q := 53, _e := 17 }
      = Except.ok (String.ofBytes
          [0x30, 29, 2, 1, 0, 2, 2, 12, 161, 2, 1, 17, 2, 2, 10, 193, 2, 1, 61, 2, 1, 53,
           2, 1, 53, 2, 1, 49, 2, 1, 38]) ∧
    RSAKey.setFromASN1PrivateKey RSAKey.new (String.ofBytes
          [0x30, 29, 2, 1, 0, 2, 2, 12, 161, 2, 1, 17, 2, 2, 10, 193, 2, 1, 61, 2, 1, 53,
           2, 1, 53, 2, 1, 49, 2, 1, 38])
      = Except.ok (true, { _initialized := true, _n := 3233, _d := 2753, _p := 61,
                           _q := 53, _e := 17 }) ∧
    RSAKey.ASN1PrivateKey { _initialized := true, _n := 3233, _d := 2753, _p := 61,
                            _q := 53, _e := 17 }
      = Except.ok (String.ofBytes
          [0x30, 29, 2, 1, 0, 2, 2, 12, 161, 2, 1, 17, 2, 2, 10, 193, 2, 1, 61, 2, 1, 53,
           2, 1, 53, 2, 1, 49, 2, 1, 38]) := by
  obtain ⟨der, h1, h2⟩ := setFromASN1PrivateKey_roundtrip
    { _initialized := false, _n := 3233, _d := 2753, _p := 61, _q := 53, _e := 17 }
    (by decide) (by decide) (by decide) (by decide) (by decide) (by decide) (by decide)
    (by decide)
  have hc : RSAKey.ASN1PrivateKey
        { _initialized := false, _n := 3233, _d := 2753, _p := 61, _q := 53, _e := 17 }
      = Except.ok (String.ofBytes
          [0x30, 29, 2, 1, 0, 2, 2, 12, 161, 2, 1, 17, 2, 2, 10, 193, 2, 1, 61, 2, 1, 53,
           2, 1, 53, 2, 1, 49, 2, 1, 38]) := by decide
  rw [hc] at h1
  cases h1
  exact ⟨hc, h2 (by decide)⟩

/-- C6. For every key with non-negative `n` and `e` (whose encoding has a size in the range
of `size_t`), `ASN1PubKeyInfo ()` succeeds and equals the DER bytes of
`SEQUENCE { SEQUENCE { OID 1.2.840.113549.1.1.1, NULL }, BIT STRING }` where the content of
the BIT STRING is one `0x00` unused-bits byte followed by `SEQUENCE { INTEGER n, INTEGER e }`,
and that inner SEQUENCE is what `ASN1PublicKey ()` returns. -/
theorem ASN1PubKeyInfo_structure (k : RSAKey) (hn : 0 ≤ k._n) (he : 0 ≤ k._e)
    (hfit : ∀ der, k.ASN1PubKeyInfo = Except.ok der → der.size < 2 ^ 64) :
    ∃ pk : List Nat,
      k.ASN1PublicKey = Except.ok (String.ofBytes pk) ∧
      pk = derRSAPublicKey k._n.toNat k._e.toNat ∧
      k.ASN1PubKeyInfo = Except.ok (String.ofBytes (derSubjectPublicKeyInfo pk)) := by
  obtain ⟨b, n, d, p, q, e⟩ := k
  simp only at hn he hfit ⊢
  obtain ⟨n, rfl⟩ := Int.eq_ofNat_of_zero_le hn
  obtain ⟨e, rfl⟩ := Int.eq_ofNat_of_zero_le he
  have hinfo := ASN1PubKeyInfo_eq n e d p q b
  have hpub := ASN1PublicKey_eq (n : Int) (e : Int) d p q b n e rfl rfl
  have hsz := hfit _ hinfo
  simp only [String.size, ofBytes_str] at hsz
  generalize hA : derTLV 0x06 (derOIDContent rsaEncryptionArcs) ++ derTLV 0x05 [] = A at *
  have l1 := tlv_length 0x02 (intContent n)
  have l2 := tlv_length 0x02 (intContent e)
  have l3 := tlv_length 0x30 (tlv 0x02 (intContent n) ++ tlv 0x02 (intContent e))
  have l4 := tlv_length 0x03
    (0x00 :: tlv 0x30 (tlv 0x02 (intContent n) ++ tlv 0x02 (intContent e)))
  have l5 := tlv_length 0x30 A
  have l6 := tlv_length 0x30 (tlv 0x30 A ++ tlv 0x03
    (0x00 :: tlv 0x30 (tlv 0x02 (intContent n) ++ tlv 0x02 (intContent e))))
  simp only [List.length_append, List.length_cons] at l3 l4 l6
  rw [l6] at hsz
  have e1 := tlv_eq_derTLV 0x02 (intContent n) (by omega)
  have e2 := tlv_eq_derTLV 0x02 (intContent e) (by omega)
  have e3 := tlv_eq_derTLV 0x30 (tlv 0x02 (intContent n) ++ tlv 0x02 (intContent e))
    (by simp only [List.length_append]; omega)
  have e4 := tlv_eq_derTLV 0x03
    (0x00 :: tlv 0x30 (tlv 0x02 (intContent n) ++ tlv 0x02 (intContent e)))
    (by simp only [List.length_cons]; omega)
  have e5 := tlv_eq_derTLV 0x30 A (by omega)
  have e6 := tlv_eq_derTLV 0x30 (tlv 0x30 A ++ tlv 0x03
    (0x00 :: tlv 0x30 (tlv 0x02 (intContent n) ++ tlv 0x02 (intContent e))))
    (by simp only [List.length_append, List.length_cons]; omega)
  refine ⟨derRSAPublicKey n e, ?_, ?_, ?_⟩
  · rw [hpub, e3, e1, e2]
    rfl
  · simp
  · rw [hinfo, e6, e5, e4, e3, e1, e2]
    simp only [derSubjectPublicKeyInfo, derRSAPublicKey, derInteger, intContent, hA]

theorem ASN1PubKeyInfo_structure_witness :
    ∃ pk : List Nat,
      RSAKey.ASN1PublicKey
          { _initialized := true, _n := 3233, _d := 2753, _p := 61, _q := 53, _e := 17 }
        = Except.ok (String.ofBytes pk) ∧
      pk = derRSAPublicKey (3233 : Int).toNat (17 : Int).toNat ∧
      RSAKey.ASN1PubKeyInfo
          { _initialized := true, _n := 3233, _d := 2753, _p := 61, _q := 53, _e := 17 }
        = Except.ok (String.ofBytes (derSubjectPublicKeyInfo pk)) :=
  ASN1PubKeyInfo_structure
    { _initialized := true, _n := 3233, _d := 2753, _p := 61, _q := 53, _e := 17 }
    (by decide) (by decide)
    (by
      intro der h
      have hc : RSAKey.ASN1PubKeyInfo
            { _initialized := true, _n := 3233, _d := 2753, _p := 61, _q := 53, _e := 17 }
          = Except.ok (String.ofBytes
              [48, 27, 48, 13, 6, 9, 42, 134, 72, 134, 247, 13, 1, 1, 1, 5, 0, 3, 10, 0, 48, 7,
               2, 2, 12, 161, 2, 1, 17]) := by decide
      rw [hc] at h
      cases h
      decide)

/-- C7, the code at the failing input.  With `emLen = 40`, the 20-byte SHA-1 digest of
"abc" as `data` and `hashFunc = sha1`, `pkcs1_v1_5_encode` returns 0 and the 40 bytes
written are `0x00 0x01 0xFF 0xFF 0x00`, the 15-byte SHA-1 DigestInfo header and the data:
the padding string has 2 bytes, not at least 8. -/
theorem pkcs1_v1_5_encode_short_padding :
    pkcs1_v1_5_encode (List.replicate 40 0) 40 (some sha1_abc) ANSSIPKI_HASH.sha1
      = Except.ok (0, [0x00, 0x01] ++ List.replicate 2 0xFF ++ [0x00]
          ++ ANSSIPKI_HASH.digestInfoHeader_sha1 ++ sha1_abc) := by
  decide

/-- C8, the code at failing inputs.  (1) With a hash identifier that is none of `invalid`,
`sha1`, `sha256`, `sha384`, `sha512` (here 5), `pkcs1_v1_5_encode` returns 0 and writes a
block without header.  (2) With `emLen = 54`, 32 bytes of data and `sha256`
(`54 < 32 + 19 + 11`), it returns 0 and writes a block with an empty padding string.
(3) With `emLen = 43` for the same data and hash, `psLen` wraps around and the padding
loop writes outside the 43-byte array; no negative code is returned. -/
theorem pkcs1_v1_5_encode_no_negative_code :
    pkcs1_v1_5_encode (List.replicate 11 0) 11 (some []) 5
      = Except.ok (0, [0x00, 0x01] ++ List.replicate 8 0xFF ++ [0x00]) ∧
    pkcs1_v1_5_encode (List.replicate 54 0) 54 (some data32) ANSSIPKI_HASH.sha256
      = Except.ok (0, [0x00, 0x01, 0x00] ++ ANSSIPKI_HASH.digestInfoHeader_sha256 ++ data32) ∧
    pkcs1_v1_5_encode (List.replicate 43 0) 43 (some data32) ANSSIPKI_HASH.sha256
      = Except.error Thrown.fault := by
  refine ⟨by decide, by decide, by decide⟩

/-- C9. For the pointer forms of `private_exponentiation` and `public_exponentiation`: the
result is -3 if either pointer is null; otherwise -1 if `data ≥ n`; otherwise 0 with
`*res = data ^ d mod n` (private) or `data ^ e mod n` (public), for a non-zero modulus and a
non-negative exponent, as they are for the non-negative big integers of the data model
(where `data < n` gives `n > 0`).  The key is unchanged in all cases, and `*res` is
unchanged when the result is not 0. -/
theorem exponentiation_result_codes (k : RSAKey) (res data : Option Int) :
    (res = none ∨ data = none →
      k.private_exponentiation res data = Except.ok (-3, k, res) ∧
      k.public_exponentiation res data = Except.ok (-3, k, res)) ∧
    (∀ r a : Int, res = some r → data = some a → k._n ≤ a →
      k.private_exponentiation res data = Except.ok (-1, k, some r) ∧
      k.public_exponentiation res data = Except.ok (-1, k, some r)) ∧
    (∀ r a : Int, res = some r → data = some a → a < k._n → k._n ≠ 0 →
      (0 ≤ k._d →
        k.private_exponentiation res data
          = Except.ok (0, k, some ((a ^ k._d.toNat) % k._n))) ∧
      (0 ≤ k._e →
        k.public_exponentiation res data
          = Except.ok (0, k, some ((a ^ k._e.toNat) % k._n)))) := by
  refine ⟨?_, ?_, ?_⟩
  · intro h
    rcases h with h | h
    · subst h
      cases data <;> exact ⟨rfl, rfl⟩
    · subst h
      cases res <;> exact ⟨rfl, rfl⟩
  · intro r a hr ha hge
    subst hr ha
    unfold RSAKey.private_exponentiation RSAKey.public_exponentiation
    simp only [ge_iff_le, hge, if_true, and_self]
  · intro r a hr ha hlt hn0
    subst hr ha
    have hnge : ¬ (a ≥ k._n) := by omega
    unfold RSAKey.private_exponentiation RSAKey.public_exponentiation mpz_powm
    simp only [hnge, hn0, if_false]
    constructor
    · intro hd
      simp only [hd, if_true]
    · intro he
      simp only [he, if_true]

theorem exponentiation_result_codes_witness :
    RSAKey.private_exponentiation
        { _initialized := true, _n := 15, _d := 3, _p := 3, _q := 5, _e := 3 } (some 0) (some 2)
      = Except.ok (0, { _initialized := true, _n := 15, _d := 3, _p := 3, _q := 5, _e := 3 },
          some (((2 : Int) ^ (3 : Int).toNat) % 15)) ∧
    RSAKey.public_exponentiation
        { _initialized := true, _n := 15, _d := 3, _p := 3, _q := 5, _e := 3 } (some 0) (some 8)
      = Except.ok (0, { _initialized := true, _n := 15, _d := 3, _p := 3, _q := 5, _e := 3 },
          some (((8 : Int) ^ (3 : Int).toNat) % 15)) ∧
    RSAKey.private_exponentiation
        { _initialized := true, _n := 15, _d := 3, _p := 3, _q := 5, _e := 3 } (some 0) (some 15)
      = Except.ok (-1, { _initialized := true, _n := 15, _d := 3, _p := 3, _q := 5, _e := 3 },
          some 0) ∧
    RSAKey.private_exponentiation
        { _initialized := true, _n := 15, _d := 3, _p := 3, _q := 5, _e := 3 } none (some 2)
      = Except.ok (-3, { _initialized := true, _n := 15, _d := 3, _p := 3, _q := 5, _e := 3 },
          none) :=
  ⟨((exponentiation_result_codes
        { _initialized := true, _n := 15, _d := 3, _p := 3, _q := 5, _e := 3 }
        (some 0) (some 2)).2.2 0 2 rfl rfl (by decide) (by decide)).1 (by decide),
   ((exponentiation_result_codes
        { _initialized := true, _n := 15, _d := 3, _p := 3, _q := 5, _e := 3 }
        (some 0) (some 8)).2.2 0 8 rfl rfl (by decide) (by decide)).2 (by decide),
   ((exponentiation_result_codes
        { _initialized := true, _n := 15, _d := 3, _p := 3, _q := 5, _e := 3 }
        (some 0) (some 15)).2.1 0 15 rfl rfl (by decide)).1,
   ((exponentiation_result_codes
        { _initialized := true, _n := 15, _d := 3, _p := 3, _q := 5, _e := 3 }
        none (some 2)).1 (Or.inl rfl)).1⟩

/-- C10, the code at the failing input.  On a key object that is not initialised (`RSAKey ()`
then `setN (15)`, `setE (3)`, `setD (3)`, never `setInitialized`), the pointer forms of the
exponentiations return 0 and compute a result (`2^3 mod 15 = 8`), and on the key just built
by `RSAKey ()` they return -1: in neither case -2. -/
theorem exponentiation_uninitialised_key :
    uninitialisedKey._initialized = false ∧
    uninitialisedKey.private_exponentiation (some 0) (some 2)
      = Except.ok (0, uninitialisedKey, some 8) ∧
    uninitialisedKey.public_exponentiation (some 0) (some 2)
      = Except.ok (0, uninitialisedKey, some 8) ∧
    RSAKey.new._initialized = false ∧
    RSAKey.new.private_exponentiation (some 0) (some 5) = Except.ok (-1, RSAKey.new, some 0) ∧
    RSAKey.new.public_exponentiation (some 0) (some 5) = Except.ok (-1, RSAKey.new, some 0) := by
  refine ⟨by decide, by decide, by decide, by decide, by decide, by decide⟩

/-- C11.  With the hash an arbitrary function `H` to 32 bytes, for every 32-byte state `S0`
and every `n` (the caller's array holding at least `n` bytes), `getRandomBytes (output, n)`
returns after exactly `⌈n/32⌉` turns of its loop, the state being replaced by
`H (0x01 ‖ state)` at each turn; it overwrites the first `n` bytes of the array with the
first `n` bytes of `H (0x00 ‖ S_0) ‖ H (0x00 ‖ S_1) ‖ ...` and leaves the rest of the array
as it was; the state left is `S_⌈n/32⌉`, which for `n > 0` is the last 32 bytes of the last
output of `G`, and for `n = 0` is `S0`. -/
theorem getRandomBytes_blocks (H : List Nat → List Nat) (hH : ∀ x, (H x).length = 32)
    (S0 : List Nat) (hS : S0.length = 32) (output : List Nat) (n : Nat)
    (hn : n ≤ output.length) :
    BarakHaleviPRNG.getRandomBytes H { _state := S0 } output n
      = Except.ok ({ _state := stateAfter H S0 ((n + 31) / 32) },
          (outputBlocks H S0 ((n + 31) / 32)).take n ++ output.drop n,
          (n + 31) / 32) ∧
    ((outputBlocks H S0 ((n + 31) / 32)).take n).length = n ∧
    (0 < n → stateAfter H S0 ((n + 31) / 32)
        = (outputOfG H (stateAfter H S0 ((n + 31) / 32 - 1))).drop 32) ∧
    (n = 0 → stateAfter H S0 ((n + 31) / 32) = S0) := by
  refine ⟨?_, ?_, ?_, ?_⟩
  · unfold BarakHaleviPRNG.getRandomBytes
    have h := getRandomBytesLoop_eq H hH n (n + 1) S0
      (List.replicate (2 * BARAK_HALEVI_STATE_BYTE_SIZE) 0) [] (output.take n) (output.drop n) 0
      (le_refl _) hS (by simp [BARAK_HALEVI_STATE_BYTE_SIZE, BARAK_HALEVI_ONE_BLOCK_SIZE])
      (by rw [List.length_take]; omega)
    simp only [List.nil_append, List.length_nil, List.take_append_drop, Nat.zero_add] at h
    exact h
  · rw [List.length_take, outputBlocks_length H hH]
    omega
  · intro hpos
    obtain ⟨k, hk⟩ : ∃ k, (n + 31) / 32 = k + 1 := ⟨(n + 31) / 32 - 1, by omega⟩
    rw [hk, Nat.add_sub_cancel]
    show nextState H (stateAfter H S0 k) = _
    unfold outputOfG nextState
    rw [← hH (0 :: stateAfter H S0 k)]
    exact (List.drop_left _ _).symm
  · intro hz
    subst hz
    rfl

theorem getRandomBytes_blocks_witness :
    BarakHaleviPRNG.getRandomBytes toyHash { _state := List.replicate 32 0 }
        (List.replicate 40 0) 40
      = Except.ok ({ _state := stateAfter toyHash (List.replicate 32 0) ((40 + 31) / 32) },
          (outputBlocks toyHash (List.replicate 32 0) ((40 + 31) / 32)).take 40
            ++ (List.replicate 40 0).drop 40,
          (40 + 31) / 32) :=
  (getRandomBytes_blocks toyHash toyHash_length (List.replicate 32 0) (by decide)
    (List.replicate 40 0) 40 (by decide)).1

/-- C12.  A newly constructed `BarakHaleviPRNG` has the all-zero 32-byte state, and for every
32-byte state `S` and every input `x`, the empty one included, `refresh (x)` returns with the
state `H (0x03 ‖ (S xor H (0x02 ‖ x)))`, `H` being an arbitrary function to 32 bytes; the
call yields nothing but the new state, which is this function of `S` and `x`. -/
theorem refresh_state (H : List Nat → List Nat) (hH : ∀ x, (H x).length = 32)
    (S x : List Nat) (hS : S.length = 32) :
    BarakHaleviPRNG.new._state = List.replicate 32 0 ∧
    BarakHaleviPRNG.refresh H { _state := S } x
      = Except.ok { _state := H (3 :: xorBytes S (H (2 :: x))) } ∧
    BarakHaleviPRNG.refresh H { _state := S } []
      = Except.ok { _state := H (3 :: xorBytes S (H [2])) } :=
  ⟨rfl, refresh_eq H hH S x hS, refresh_eq H hH S [] hS⟩

theorem refresh_state_witness :
    BarakHaleviPRNG.refresh toyHash BarakHaleviPRNG.new [0x61, 0x62, 0x63]
      = Except.ok { _state := toyHash (3 :: xorBytes (List.replicate 32 0)
                                              (toyHash [2, 0x61, 0x62, 0x63])) } :=
  (refresh_state toyHash toyHash_length (List.replicate 32 0) [0x61, 0x62, 0x63]
    (by decide)).2.1

/-- C13, the claim as stated fails.  `output_nbits = 2^64 - 1` is a `size_t` not below 1, but
`size = (output_nbits + 7) / 8` is computed in `size_t` and is 0 there: no byte is drawn and
`raw_output[0]` is an access outside the empty allocation, so no integer of `2^64 - 1` bits
is returned. -/
theorem getRandomInt_size_wraps :
    1 ≤ 2 ^ 64 - 1 ∧ 2 ^ 64 - 1 < SIZE_T_RANGE ∧
    ((2 ^ 64 - 1 + 7) % SIZE_T_RANGE) / 8 = 0 ∧
    (BarakHaleviPRNG.toPRNG toyHash).getRandomInt BarakHaleviPRNG.new (2 ^ 64 - 1)
      = Except.error Thrown.fault := by
  refine ⟨by decide, by decide, by decide, by decide⟩

/-- C13, amended.  For every `n_bits` with `1 ≤ n_bits ≤ 2^64 - 8` and every byte sequence
returned by the underlying generator, `getRandomInt (n_bits)` asks the generator once, for
`⌈n_bits/8⌉` bytes, and returns an integer `v` with `2^(n_bits-1) ≤ v < 2^n_bits` (its bit
length is exactly `n_bits`), whose low `n_bits - 1` bits are those of the bytes read
big-endian. -/
theorem getRandomInt_exact_bits {σ : Type} (gen : PRNG σ) (s s1 : σ) (n_bits : Nat)
    (bytes : List Nat) (hn1 : 1 ≤ n_bits) (hn2 : n_bits + 7 < 2 ^ 64)
    (hgen : gen.getRandomBytes s (List.replicate ((n_bits + 7) / 8) 0) ((n_bits + 7) / 8)
      = Except.ok (s1, bytes))
    (hlen : bytes.length = (n_bits + 7) / 8) (hb : ∀ b ∈ bytes, b < 256) :
    ∃ v : Nat, gen.getRandomInt s n_bits = Except.ok (s1, (v : Int)) ∧
      2 ^ (n_bits - 1) ≤ v ∧ v < 2 ^ n_bits ∧ mpz_sizeinbase_2 (v : Int) = n_bits ∧
      v % 2 ^ (n_bits - 1) = beValue bytes % 2 ^ (n_bits - 1) :=
  getRandomInt_bits gen s s1 n_bits bytes hn1 hn2 hgen hlen hb

theorem getRandomInt_exact_bits_witness :
    ∃ v : Nat, (BarakHaleviPRNG.toPRNG toyHash).getRandomInt BarakHaleviPRNG.new 12
        = Except.ok ({ _state := toyHash (1 :: List.replicate 32 0) }, (v : Int)) ∧
      2 ^ (12 - 1) ≤ v ∧ v < 2 ^ 12 ∧ mpz_sizeinbase_2 (v : Int) = 12 ∧
      v % 2 ^ (12 - 1) = beValue [33, 40] % 2 ^ (12 - 1) :=
  getRandomInt_exact_bits (BarakHaleviPRNG.toPRNG toyHash) BarakHaleviPRNG.new
    { _state := toyHash (1 :: List.replicate 32 0) } 12 [33, 40] (by decide) (by decide)
    (by decide) (by decide) (by decide)

/-- C14.  For every `q > 0` (an `mpz_t`, so of at most `2^31` limbs of 64 bits) and every
output of the underlying generator, `getRandomIntNB (q)` returns `w mod q`, where `w` is the
integer of exactly `bitlen (q) + 64` bits drawn by `getRandomInt`; the value returned is in
`[0, q)`. -/
theorem getRandomIntNB_range {σ : Type} (gen : PRNG σ) (s s1 : σ) (q : Int)
    (bytes : List Nat) (hq : 0 < q) (hq2 : mpz_sizeinbase_2 q ≤ 2 ^ 37)
    (hgen : gen.getRandomBytes s (List.replicate ((mpz_sizeinbase_2 q + 64 + 7) / 8) 0)
        ((mpz_sizeinbase_2 q + 64 + 7) / 8) = Except.ok (s1, bytes))
    (hlen : bytes.length = (mpz_sizeinbase_2 q + 64 + 7) / 8) (hb : ∀ b ∈ bytes, b < 256) :
    ∃ w : Nat, gen.getRandomInt s (mpz_sizeinbase_2 q + 64) = Except.ok (s1, (w : Int)) ∧
      mpz_sizeinbase_2 (w : Int) = mpz_sizeinbase_2 q + 64 ∧
      gen.getRandomIntNB s q = Except.ok (s1, (w : Int) % q) ∧
      0 ≤ (w : Int) % q ∧ (w : Int) % q < q := by
  obtain ⟨w, hw, _, _, hbits, _⟩ := getRandomInt_bits gen s s1 (mpz_sizeinbase_2 q + 64)
    bytes (by omega) (by omega) hgen hlen hb
  refine ⟨w, hw, hbits, ?_, Int.emod_nonneg _ (by omega), Int.emod_lt_of_pos _ hq⟩
  unfold PRNG.getRandomIntNB
  have hsize : (mpz_sizeinbase_2 q + 64) % SIZE_T_RANGE = mpz_sizeinbase_2 q + 64 :=
    Nat.mod_eq_of_lt (by unfold SIZE_T_RANGE; omega)
  have hne : q ≠ 0 := by omega
  simp only [hsize, hw, mpz_mod, hne, if_false]

theorem getRandomIntNB_range_witness :
    ∃ w : Nat, (BarakHaleviPRNG.toPRNG toyHash).getRandomInt BarakHaleviPRNG.new
        (mpz_sizeinbase_2 1000 + 64)
        = Except.ok ({ _state := toyHash (1 :: List.replicate 32 0) }, (w : Int)) ∧
      mpz_sizeinbase_2 (w : Int) = mpz_sizeinbase_2 1000 + 64 ∧
      (BarakHaleviPRNG.toPRNG toyHash).getRandomIntNB BarakHaleviPRNG.new 1000
        = Except.ok ({ _state := toyHash (1 :: List.replicate 32 0) }, (w : Int) % 1000) ∧
      0 ≤ (w : Int) % 1000 ∧ (w : Int) % 1000 < 1000 :=
  getRandomIntNB_range (BarakHaleviPRNG.toPRNG toyHash) BarakHaleviPRNG.new
    { _state := toyHash (1 :: List.replicate 32 0) } 1000
    [33, 40, 47, 54, 61, 68, 75, 82, 89, 96] (by decide) (by decide) (by decide) (by decide)
    (by decide)

/-- C15.  For every even `n_bits ≥ 8` and all integers `p`, `q` with
`3 * 2^(n_bits/2 - 2) ≤ p, q < 2^(n_bits/2)`, the product satisfies
`2^(n_bits-1) < p * q < 2^n_bits`, its bit length `mpz_sizeinbase (p * q, 2)` is `n_bits`,
and `checkKey (n_bits, ..)` on a key whose modulus is `p * q` never throws "le module RSA n'a
pas la bonne taille". -/
theorem checkKey_modulus_size (n_bits : Nat) (heven : n_bits % 2 = 0) (h8 : 8 ≤ n_bits)
    (p q : Int)
    (hp1 : 3 * 2 ^ (n_bits / 2 - 2) ≤ p) (hp2 : p < 2 ^ (n_bits / 2))
    (hq1 : 3 * 2 ^ (n_bits / 2 - 2) ≤ q) (hq2 : q < 2 ^ (n_bits / 2)) :
    (2 : Int) ^ (n_bits - 1) < p * q ∧ p * q < 2 ^ n_bits ∧
    mpz_sizeinbase_2 (p * q) = n_bits ∧
    ∀ (k : RSAKey) (urandomm : Nat → Int), k._n = p * q →
      k.checkKey n_bits urandomm
        ≠ Except.error (checkKey_thrown.CryptoInternalMayhem
            checkKey_details.wrong_modulus_size) := by
  have hn : 2 * (n_bits / 2) = n_bits := by omega
  obtain ⟨hlo, hhi⟩ := factor_product_bounds (n_bits / 2) (by omega) p q hp1 hp2 hq1 hq2
  rw [hn] at hlo hhi
  have hpos : 0 ≤ p * q := le_of_lt (lt_trans (by positivity) hlo)
  obtain ⟨N, hN⟩ := Int.eq_ofNat_of_zero_le hpos
  have hsize : mpz_sizeinbase_2 (p * q) = n_bits := by
    rw [hN] at hlo hhi ⊢
    exact mpz_sizeinbase_2_unique N n_bits (le_of_lt (by exact_mod_cast hlo))
      (by exact_mod_cast hhi) (by omega)
  refine ⟨hlo, hhi, hsize, ?_⟩
  intro k urandomm hk
  unfold RSAKey.checkKey
  rw [hk]
  split_ifs with h1 h2 h3 h4 h5 h6 h7
  · simp
  · simp
  · simp
  · simp
  · simp
  · exact absurd hsize h6
  · simp
  · have := checkKeyLoop_ne_size k urandomm nEncryptionDecryptionVerif 0
    exact this

theorem checkKey_modulus_size_witness :
    (2 : Int) ^ (8 - 1) < 13 * 15 ∧ (13 : Int) * 15 < 2 ^ 8 ∧
    mpz_sizeinbase_2 (13 * 15) = 8 ∧
    ∀ (k : RSAKey) (urandomm : Nat → Int), k._n = 13 * 15 →
      k.checkKey 8 urandomm
        ≠ Except.error (checkKey_thrown.CryptoInternalMayhem
            checkKey_details.wrong_modulus_size) :=
  checkKey_modulus_size 8 (by decide) (by decide) 13 15 (by decide) (by decide) (by decide)
    (by decide)

/-- C16.  The factor search and the generator being oracles (`find`, `prng`) and `nBits` a
`size_t`: whenever the generation loop of `RSAKey (prng, nBits, useF4)` is left, the stored
values satisfy `n = p * q`, `e * d ≡ 1 (mod (p-1)(q-1))`, `|p - q| > 2^(nBits/2 - 20)`, and
with `useF4` `e = 65537` and `d > 2^(nBits/2)`, otherwise `e` is odd, `e < n`,
`e > 2^(nBits-10)` and `d > 2^(nBits-10)`.  (For `nBits/2 < 20` or `nBits < 10` the exponent
written here is 0, which bounds the claim's power of two from above.) -/
theorem generationLoop_postconditions {σ : Type} (prng : PRNG σ) (find : FactorSearch σ)
    (nBits : Nat) (useF4 : Bool) (fuel turns : Nat) (s s' : σ) (key : RSAKey)
    (hsz : nBits < 2 ^ 64)
    (h : RSAKey.generationLoop prng find nBits useF4 fuel turns s = Except.ok (key, s')) :
    key._n = key._p * key._q ∧
    key._e * key._d ≡ 1 [ZMOD (key._p - 1) * (key._q - 1)] ∧
    2 ^ (nBits / 2 - 20) < |key._p - key._q| ∧
    (useF4 = true → key._e = 65537 ∧ 2 ^ (nBits / 2) < key._d) ∧
    (useF4 = false → key._e % 2 = 1 ∧ key._e < key._n ∧ 2 ^ (nBits - 10) < key._e ∧
      2 ^ (nBits - 10) < key._d) :=
  generationLoop_exit prng find nBits useF4 fuel hsz turns s s' key h

theorem generationLoop_postconditions_witness :
    exampleKey._n = exampleKey._p * exampleKey._q ∧
    exampleKey._e * exampleKey._d ≡ 1 [ZMOD (exampleKey._p - 1) * (exampleKey._q - 1)] ∧
    2 ^ (40 / 2 - 20) < |exampleKey._p - exampleKey._q| ∧
    (true = true → exampleKey._e = 65537 ∧ 2 ^ (40 / 2) < exampleKey._d) ∧
    (true = false → exampleKey._e % 2 = 1 ∧ exampleKey._e < exampleKey._n ∧
      2 ^ (40 - 10) < exampleKey._e ∧ 2 ^ (40 - 10) < exampleKey._d) :=
  generationLoop_postconditions nullSource twoFactors 40 true 1 1 0 2 exampleKey (by decide)
    generationLoop_example

/-- C17.  For all distinct primes `p`, `q`, `n = p * q`, all exponents `e`, `d` with
`e * d ≡ 1 (mod (p-1)(q-1))` and every `m` with `0 ≤ m < n`, `((m^e mod n)^d mod n) = m`:
`mpz_powm` with `e` and then with `d` gives `m` back, so on a key with these values the ten
round trips of `checkKey` all pass and `checkKey` never throws "la succession chiffrement /
déchiffrement n'est pas l'identité", whatever messages `mpz_urandomm` draws in `[0, n)`. -/
theorem rsa_round_trip_identity (p q : Nat) (hp : p.Prime) (hq : q.Prime) (hpq : p ≠ q)
    (e d : Nat) (hed : e * d ≡ 1 [MOD (p - 1) * (q - 1)]) (m : Nat) (hm : m < p * q) :
    (m ^ e % (p * q)) ^ d % (p * q) = m ∧
    (∃ c : Int, mpz_powm (m : Int) (e : Int) ((p * q : Nat) : Int) = Except.ok c ∧
      mpz_powm c (d : Int) ((p * q : Nat) : Int) = Except.ok (m : Int)) ∧
    ∀ (k : RSAKey) (nBits : Nat) (urandomm : Nat → Int),
      k._n = ((p * q : Nat) : Int) → k._e = (e : Int) → k._d = (d : Int) →
      (∀ i, 0 ≤ urandomm i ∧ urandomm i < k._n) →
      checkKeyLoop k urandomm nEncryptionDecryptionVerif 0 = Except.ok () ∧
      k.checkKey nBits urandomm
        ≠ Except.error (checkKey_thrown.CryptoInternalMayhem
            checkKey_details.round_trip_failed) := by
  have hn0 : p * q ≠ 0 := Nat.mul_ne_zero hp.ne_zero hq.ne_zero
  have hrt := rsa_round_trip p q hp hq hpq e d hed m hm
  refine ⟨hrt, ⟨_, mpz_powm_nat m e (p * q) hn0, ?_⟩, ?_⟩
  · rw [mpz_powm_nat _ d (p * q) hn0, hrt]
  · intro k nBits urandomm hn he hd hu
    have hloop := checkKeyLoop_ok k p q e d hp hq hpq hed hn he hd urandomm hu
      nEncryptionDecryptionVerif 0
    refine ⟨hloop, ?_⟩
    unfold RSAKey.checkKey
    split_ifs
    · simp
    · simp
    · simp
    · simp
    · simp
    · simp
    · simp
    · rw [hloop]; simp

theorem rsa_round_trip_identity_witness :
    (65 ^ 17 % (61 * 53)) ^ 2753 % (61 * 53) = 65 :=
  (rsa_round_trip_identity 61 53 (by norm_num) (by norm_num) (by decide) 17 2753 (by decide)
    65 (by decide)).1

/-- C18, as claimed, fails at `n = 1`: its cofactor is `c = 1`, and
`bitlen (c) = 1 > bitlen (n) - 128 = -127` in integer arithmetic, yet `isSmooth (1)` returns
`true` (smooth), through the test `mpz_cmp_ui (cofac, 1) == 0`. -/
theorem isSmooth_one_returns_true : ∃ T, initPrimes = Except.ok T ∧
    (1 : Nat) = 1 * 1 ∧ (∀ p : Nat, p.Prime → p ∣ 1 → p ≤ 65521) ∧
    (∀ p : Nat, p.Prime → p ∣ 1 → 65521 < p) ∧
    (mpz_sizeinbase_2 1 : Int) > (mpz_sizeinbase_2 1 : Int) - 128 ∧
    isSmooth T 1 = Except.ok true ∧ isSmooth T 1 ≠ Except.ok false := by
  have h1 : ∀ p : Nat, p.Prime → ¬ p ∣ 1 := fun p hp h => hp.ne_one (Nat.dvd_one.mp h)
  obtain ⟨T, hT, h⟩ := isSmooth_of_cofactor 1 1 1 (le_refl 1) rfl
    (fun p hp h => absurd h (h1 p hp)) (fun p hp h => absurd h (h1 p hp))
  rw [if_pos rfl] at h
  have h2 : isSmooth T 1 = Except.ok true := h
  refine ⟨T, hT, rfl, fun p hp h => absurd h (h1 p hp), fun p hp h => absurd h (h1 p hp),
    by omega, h2, ?_⟩
  rw [h2]
  exact fun h => Bool.noConfusion (Except.ok.inj h)

/-- C18, amended.  For every `n ≥ 1` (an `mpz_t`, so of a bit length below `2^64`), with `c`
the cofactor of `n` left after removing every factor 2 and every factor equal to a table
prime (all primes up to 65521) with multiplicity, that is `n = c * m` where every prime factor
of `m` is at most 65521 and every prime factor of `c` is above: `isSmooth (n)`, on the tables
that `initPrimes` computes, returns `true` when `c = 1`; and when `c ≠ 1` and
`bitlen (n) ≥ 128` it returns `false` (non-smooth) if and only if
`bitlen (c) > bitlen (n) - 128`, and `true` otherwise. -/
theorem isSmooth_cofactor_rule (n c m : Nat) (hn : 1 ≤ n)
    (hbits : mpz_sizeinbase_2 (n : Int) < 2 ^ 64) (hnc : n = c * m)
    (hm : ∀ p : Nat, p.Prime → p ∣ m → p ≤ 65521)
    (hc : ∀ p : Nat, p.Prime → p ∣ c → 65521 < p) :
    ∃ T, initPrimes = Except.ok T ∧
      (c = 1 → isSmooth T (n : Int) = Except.ok true) ∧
      (c ≠ 1 → 128 ≤ mpz_sizeinbase_2 (n : Int) →
        isSmooth T (n : Int) = Except.ok (decide
          (¬ ((mpz_sizeinbase_2 (c : Int) : Int) > (mpz_sizeinbase_2 (n : Int) : Int) - 128)))) := by
  obtain ⟨T, hT, h⟩ := isSmooth_of_cofactor n c m hn hnc hm hc
  refine ⟨T, hT, ?_, ?_⟩
  · intro h1
    rw [h, if_pos h1]
  · intro h1 h128
    have hsub : size_t_sub (mpz_sizeinbase_2 (n : Int)) SMOOTH_PART_SIZE_LIMIT
        = mpz_sizeinbase_2 (n : Int) - 128 := by
      unfold size_t_sub SIZE_T_RANGE SMOOTH_PART_SIZE_LIMIT
      omega
    rw [h, if_neg h1, hsub]
    by_cases hgt : mpz_sizeinbase_2 (c : Int) > mpz_sizeinbase_2 (n : Int) - 128
    · rw [if_pos hgt]
      have : (mpz_sizeinbase_2 (c : Int) : Int) > (mpz_sizeinbase_2 (n : Int) : Int) - 128 := by
        omega
      simp [this]
    · rw [if_neg hgt]
      have : ¬ ((mpz_sizeinbase_2 (c : Int) : Int) > (mpz_sizeinbase_2 (n : Int) : Int) - 128) := by
        omega
      simp [this]

theorem isSmooth_cofactor_rule_witness :
    ∃ T, initPrimes = Except.ok T ∧
      (65537 = 1 → isSmooth T ((65537 * 2 ^ 112 : Nat) : Int) = Except.ok true) ∧
      (65537 ≠ 1 → 128 ≤ mpz_sizeinbase_2 ((65537 * 2 ^ 112 : Nat) : Int) →
        isSmooth T ((65537 * 2 ^ 112 : Nat) : Int) = Except.ok (decide
          (¬ ((mpz_sizeinbase_2 ((65537 : Nat) : Int) : Int)
            > (mpz_sizeinbase_2 ((65537 * 2 ^ 112 : Nat) : Int) : Int) - 128)))) :=
  isSmooth_cofactor_rule (65537 * 2 ^ 112) 65537 (2 ^ 112) (by norm_num)
    (by
      rw [mpz_sizeinbase_2_unique (65537 * 2 ^ 112) 129 (by norm_num) (by norm_num)
        (by norm_num)]
      norm_num)
    rfl
    (fun p hp h => by
      have := (Nat.prime_dvd_prime_iff_eq hp Nat.prime_two).mp (hp.dvd_of_dvd_pow h)
      omega)
    (fun p hp h => by
      have := (Nat.prime_dvd_prime_iff_eq hp (by norm_num : Nat.Prime 65537)).mp h
      omega)

/-- C19, the claim as stated fails.  The table gives 12 iterations for 512 bits (entry
`{479, 12}`, the next entry being `{517, 11}`), 6 for 1024 bits, 3 for 2048 bits and 2 for
3072 bits: the values 11, 7, 4 and 3 of the claim are not the ones selected. -/
theorem nb_iter_MR_claimed_values_fail :
    ¬ (nb_iter_MR 40 = Except.ok 200 ∧ nb_iter_MR 512 = Except.ok 11 ∧
       nb_iter_MR 1024 = Except.ok 7 ∧ nb_iter_MR 2048 = Except.ok 4 ∧
       nb_iter_MR 3072 = Except.ok 3) := by
  decide

/-- C19, amended.  The number of Miller-Rabin rounds selected by `nb_iter_MR` from the
compiled table is 200 for a 40-bit input, 12 for a 512-bit input, 6 for a 1024-bit input,
3 for a 2048-bit input and 2 for a 3072-bit input. -/
theorem nb_iter_MR_selected_values :
    nb_iter_MR 40 = Except.ok 200 ∧ nb_iter_MR 512 = Except.ok 12 ∧
    nb_iter_MR 1024 = Except.ok 6 ∧ nb_iter_MR 2048 = Except.ok 3 ∧
    nb_iter_MR 3072 = Except.ok 2 := by
  decide

/-- C20, the code at the failing inputs.  A SET (`0x31 0x00`) given to
`decapsulate (.., T_SEQU)` and a SEQUENCE (`0x30 0x00`) given to `decapsulate (.., T_SETS)`
both end in `UnexpectedError` (`E_UNEXPECTED_ERROR`): the `DERSequenceExpected` and
`DERSetExpected` objects thrown inside the `try` block are caught by the handler of the same
function, which rethrows every library exception other than an out-of-bounds one as
`UnexpectedError`. -/
theorem decapsulate_mismatch_unexpected_error :
    decapsulate (String.ofBytes [0x31, 0x00]) T_SEQU
      = Except.error (Thrown.ANSSIPKIException exception_t.E_UNEXPECTED_ERROR) ∧
    decapsulate (String.ofBytes [0x30, 0x00]) T_SETS
      = Except.error (Thrown.ANSSIPKIException exception_t.E_UNEXPECTED_ERROR) ∧
    decapsulate (String.ofBytes [0x31, 0x00]) T_SEQU
      ≠ Except.error (Thrown.ANSSIPKIException exception_t.E_DER_SEQUENCE_EXPECTED) ∧
    decapsulate (String.ofBytes [0x30, 0x00]) T_SETS
      ≠ Except.error (Thrown.ANSSIPKIException exception_t.E_DER_SET_EXPECTED) := by
  refine ⟨by decide, by decide, by decide, by decide⟩

/-- C21, the claim as stated fails.  The element `0x1F 0x00`, whose identifier octet has its
low five bits all set, is refused with `UnexpectedError`, not `NotImplemented`: the
`NotImplemented` of `getTagNumber` is caught by the handler of `ASN1_BASIC (const String&)`,
which rethrows it as `UnexpectedError`.  And the element `0x0A 0x01 0x00` (universal class,
tag 10), whose low five bits are not all set, is refused as well. -/
theorem fromDER_high_tag_unexpected_error :
    ASN1_BASIC.fromDER (String.ofBytes [0x1F, 0x00])
      = Except.error (Thrown.ANSSIPKIException exception_t.E_UNEXPECTED_ERROR) ∧
    ASN1_BASIC.fromDER (String.ofBytes [0x1F, 0x00])
      ≠ Except.error (Thrown.ANSSIPKIException exception_t.E_NOT_IMPLEMENTED) ∧
    ASN1_BASIC.fromDER (String.ofBytes [0x0A, 0x01, 0x00])
      = Except.error (Thrown.ANSSIPKIException exception_t.E_UNEXPECTED_ERROR) := by
  refine ⟨by decide, by decide, by decide⟩

/-- C21, amended.  Parsing a DER node whose identifier octet `id` has its low five bits all
set, or is of universal class with low five bits that are not one of the universal tags the
library knows, fails with the error kind `UnexpectedError`.  For every other identifier
octet, a node that is parsed has for class the top two bits, for method the next bit and for
tag number the low five bits; and the node is parsed whenever a length field in the form
written by `toDER` and the content it announces (shorter than `2^31` bytes) follow. -/
theorem fromDER_identifier_octet (pre rest : List Nat) (id : Nat) (hid : id < 256) :
    ((id % 32 = 31 ∨ (id / 64 = 0 ∧ id % 32 ∉ universalTags)) →
      ASN1_BASIC.fromDER { _str := pre ++ id :: rest, _index := pre.length }
        = Except.error (Thrown.ANSSIPKIException exception_t.E_UNEXPECTED_ERROR)) ∧
    (¬ (id % 32 = 31 ∨ (id / 64 = 0 ∧ id % 32 ∉ universalTags)) →
      (∀ (x : ASN1_BASIC) (s : String),
        ASN1_BASIC.fromDER { _str := pre ++ id :: rest, _index := pre.length }
          = Except.ok (x, s) →
        x.classe.toNat = id / 64 ∧ x.method.toNat = id / 32 % 2 ∧ x.tagNumber = id % 32) ∧
      (∀ v tail : List Nat, v.length < 2 ^ 31 → rest = lengthOctets v.length ++ v ++ tail →
        (pre ++ id :: rest).length < 2 ^ 64 →
        ∃ (x : ASN1_BASIC) (s : String),
          ASN1_BASIC.fromDER { _str := pre ++ id :: rest, _index := pre.length }
            = Except.ok (x, s) ∧ x.value = String.ofBytes v)) := by
  have hc : (asn1_class.cast (id / 64)).toNat = id / 64 := by
    have h4 : id / 64 < 4 := by omega
    interval_cases (id / 64) <;> rfl
  have hm : (asn1_method.cast (id / 32 % 2)).toNat = id / 32 % 2 := by
    have h2 : id / 32 % 2 < 2 := by omega
    interval_cases (id / 32 % 2) <;> rfl
  refine ⟨fun hbad => fromDER_rejected_tag pre rest id hid hbad, fun hgood => ⟨?_, ?_⟩⟩
  · intro x s h
    obtain ⟨h1, h2, h3⟩ := fromDER_fields pre rest id hid x s h
    rw [h1, h2, hc, hm]
    exact ⟨rfl, rfl, h3⟩
  · intro v tail hv hrest hsz
    have h31 : id % 32 ≠ 31 := fun h => hgood (Or.inl h)
    have hcu : asn1_class.cast (id / 64) = asn1_class.C_UNIV → id / 64 = 0 := by
      intro h
      have := congrArg asn1_class.toNat h
      rw [hc] at this
      exact this
    have hspec := fromDER_spec
      ⟨asn1_class.cast (id / 64), asn1_method.cast (id / 32 % 2), id % 32, String.ofBytes v⟩
      pre tail (by simp only; omega)
      (by
        intro hu
        by_contra hnot
        exact hgood (Or.inr ⟨hcu hu, hnot⟩))
      (by simpa [String.size, String.ofBytes] using hv)
      (by
        rw [idOctetOf_cast id hid h31]
        simp only [String.size, String.ofBytes]
        rw [hrest] at hsz
        simpa using hsz)
    rw [idOctetOf_cast id hid h31] at hspec
    simp only [String.size, String.ofBytes] at hspec
    have hS : pre ++ id :: rest = pre ++ id :: (lengthOctets v.length ++ v) ++ tail := by
      rw [hrest]; simp
    rw [hS, hspec]
    exact ⟨_, _, rfl, rfl⟩

theorem fromDER_identifier_octet_witness :
    (((0xA3 % 32 = 31 ∨ (0xA3 / 64 = 0 ∧ 0xA3 % 32 ∉ universalTags)) →
      ASN1_BASIC.fromDER { _str := [] ++ 0xA3 :: [0x01, 0x07], _index := ([] : List Nat).length }
        = Except.error (Thrown.ANSSIPKIException exception_t.E_UNEXPECTED_ERROR)) ∧
    (¬ (0xA3 % 32 = 31 ∨ (0xA3 / 64 = 0 ∧ 0xA3 % 32 ∉ universalTags)) →
      (∀ (x : ASN1_BASIC) (s : String),
        ASN1_BASIC.fromDER
            { _str := [] ++ 0xA3 :: [0x01, 0x07], _index := ([] : List Nat).length }
          = Except.ok (x, s) →
        x.classe.toNat = 0xA3 / 64 ∧ x.method.toNat = 0xA3 / 32 % 2 ∧ x.tagNumber = 0xA3 % 32) ∧
      (∀ v tail : List Nat, v.length < 2 ^ 31 →
        [0x01, 0x07] = lengthOctets v.length ++ v ++ tail →
        ([] ++ 0xA3 :: [0x01, 0x07]).length < 2 ^ 64 →
        ∃ (x : ASN1_BASIC) (s : String),
          ASN1_BASIC.fromDER
              { _str := [] ++ 0xA3 :: [0x01, 0x07], _index := ([] : List Nat).length }
            = Except.ok (x, s) ∧ x.value = String.ofBytes v))) ∧
    ASN1_BASIC.fromDER (String.ofBytes [0xA3, 0x01, 0x07])
      = Except.ok ({ classe := asn1_class.C_CSPE, method := asn1_method.M_CONS, tagNumber := 3,
                     value := String.ofBytes [0x07] },
                   { _str := [0xA3, 0x01, 0x07], _index := 3 }) :=
  ⟨fromDER_identifier_octet [] [0x01, 0x07] 0xA3 (by decide), by decide⟩

/-- C22, the claim as stated fails.  A length field made of the single octet `0x80` (the
indefinite form) is accepted: `getSize` reads it as the length 0, and `0x04 0x80` is parsed
as an OCTET STRING with an empty value.  And the inputs `0x30` and `0x30 0x82 0x01`, which
end inside the header, fail with `UnexpectedError`, not `DerInvalidFile`: the
`DerInvalidFile` that `getSize` raises is caught by the handler of `ASN1_BASIC (const
String&)`, which rethrows it as `UnexpectedError`. -/
theorem fromDER_accepts_indefinite_length :
    ASN1_BASIC.fromDER (String.ofBytes [0x04, 0x80])
      = Except.ok ({ classe := asn1_class.C_UNIV, method := asn1_method.M_PRIM,
                     tagNumber := T_OSTR, value := String.empty },
                   { _str := [0x04, 0x80], _index := 2 }) ∧
    ASN1_BASIC.fromDER (String.ofBytes [0x30])
      = Except.error (Thrown.ANSSIPKIException exception_t.E_UNEXPECTED_ERROR) ∧
    ASN1_BASIC.fromDER (String.ofBytes [0x30, 0x82, 0x01])
      = Except.error (Thrown.ANSSIPKIException exception_t.E_UNEXPECTED_ERROR) := by
  refine ⟨by decide, by decide, by decide⟩

/-- C22, amended.  After an identifier octet that the parser accepts: a length field made of
the single octet `0x80` is read as the length 0 and the element is parsed with an empty
value; a long-form length with 5 or more length bytes (first octet `0x85` or above) is
refused, with `UnexpectedError`; and an input that holds fewer bytes than the length it
announces (a length below `2^31`) fails with `DerInvalidFile`, as does an input that ends
before the identifier octet. -/
theorem fromDER_length_rules (pre rest : List Nat) (id : Nat) (hid : id < 256)
    (htag : ¬ (id % 32 = 31 ∨ (id / 64 = 0 ∧ id % 32 ∉ universalTags)))
    (hsz : (pre ++ id :: rest).length < 2 ^ 63) :
    (∀ tail, rest = 0x80 :: tail →
      ASN1_BASIC.fromDER { _str := pre ++ id :: rest, _index := pre.length }
        = Except.ok ({ classe := asn1_class.cast (id / 64),
                       method := asn1_method.cast (id / 32 % 2), tagNumber := id % 32,
                       value := String.empty },
                     { _str := pre ++ id :: rest, _index := pre.length + 2 })) ∧
    (∀ c tail, rest = c :: tail → 0x85 ≤ c → c < 256 →
      ASN1_BASIC.fromDER { _str := pre ++ id :: rest, _index := pre.length }
        = Except.error (Thrown.ANSSIPKIException exception_t.E_UNEXPECTED_ERROR)) ∧
    (∀ (L : Nat) (s2 : String),
      getSize { _str := pre ++ id :: rest, _index := pre.length + 1 } = Except.ok (L, s2) →
      L < 2 ^ 31 → (pre ++ id :: rest).length < s2._index + L →
      ASN1_BASIC.fromDER { _str := pre ++ id :: rest, _index := pre.length }
        = Except.error (Thrown.ANSSIPKIException exception_t.E_DER_INVALID_FILE)) ∧
    ASN1_BASIC.fromDER { _str := pre ++ id :: rest, _index := (pre ++ id :: rest).length }
      = Except.error (Thrown.ANSSIPKIException exception_t.E_DER_INVALID_FILE) := by
  refine ⟨?_, ?_, ?_, fromDER_at_end _⟩
  · intro tail hrest
    subst hrest
    exact fromDER_indefinite pre tail id hid htag (by omega)
  · intro c tail hrest h1 h2
    subst hrest
    exact fromDER_too_long pre tail id c hid h1 h2
  · intro L s2 hg hL hshort
    exact fromDER_truncated_content pre rest id hid htag hsz L s2 hg hL hshort

theorem fromDER_length_rules_witness :
    ((∀ tail, [0x82, 0x01, 0x00, 0x41] = 0x80 :: tail →
      ASN1_BASIC.fromDER
          { _str := [] ++ 0x04 :: [0x82, 0x01, 0x00, 0x41], _index := ([] : List Nat).length }
        = Except.ok ({ classe := asn1_class.cast (0x04 / 64),
                       method := asn1_method.cast (0x04 / 32 % 2), tagNumber := 0x04 % 32,
                       value := String.empty },
                     { _str := [] ++ 0x04 :: [0x82, 0x01, 0x00, 0x41],
                       _index := ([] : List Nat).length + 2 })) ∧
    (∀ c tail, [0x82, 0x01, 0x00, 0x41] = c :: tail → 0x85 ≤ c → c < 256 →
      ASN1_BASIC.fromDER
          { _str := [] ++ 0x04 :: [0x82, 0x01, 0x00, 0x41], _index := ([] : List Nat).length }
        = Except.error (Thrown.ANSSIPKIException exception_t.E_UNEXPECTED_ERROR)) ∧
    (∀ (L : Nat) (s2 : String),
      getSize { _str := [] ++ 0x04 :: [0x82, 0x01, 0x00, 0x41],
                _index := ([] : List Nat).length + 1 } = Except.ok (L, s2) →
      L < 2 ^ 31 → ([] ++ 0x04 :: [0x82, 0x01, 0x00, 0x41]).length < s2._index + L →
      ASN1_BASIC.fromDER
          { _str := [] ++ 0x04 :: [0x82, 0x01, 0x00, 0x41], _index := ([] : List Nat).length }
        = Except.error (Thrown.ANSSIPKIException exception_t.E_DER_INVALID_FILE)) ∧
    ASN1_BASIC.fromDER
        { _str := [] ++ 0x04 :: [0x82, 0x01, 0x00, 0x41],
          _index := ([] ++ 0x04 :: [0x82, 0x01, 0x00, 0x41]).length }
      = Except.error (Thrown.ANSSIPKIException exception_t.E_DER_INVALID_FILE)) ∧
    getSize { _str := [0x04, 0x82, 0x01, 0x00, 0x41], _index := 1 }
      = Except.ok (256, { _str := [0x04, 0x82, 0x01, 0x00, 0x41], _index := 4 }) ∧
    ASN1_BASIC.fromDER (String.ofBytes [0x04, 0x82, 0x01, 0x00, 0x41])
      = Except.error (Thrown.ANSSIPKIException exception_t.E_DER_INVALID_FILE) ∧
    ASN1_BASIC.fromDER (String.ofBytes [0x04, 0x85, 0x01, 0x00, 0x00, 0x00, 0x00])
      = Except.error (Thrown.ANSSIPKIException exception_t.E_UNEXPECTED_ERROR) :=
  ⟨fromDER_length_rules [] [0x82, 0x01, 0x00, 0x41] 0x04 (by decide) (by decide) (by decide),
    by decide, by decide, by decide⟩

/-- C23, the claim as stated fails.  A SEQUENCE of six NULL elements (`05 00`), which holds
no integer, is imported with the result `true`: the key becomes initialised with
`n = e = d = p = q = 0`.  `getNextInt` does not look at the tag of the element it reads. -/
theorem setFromASN1PrivateKey_accepts_nulls :
    RSAKey.new.setFromASN1PrivateKey
        (String.ofBytes [0x30, 0x0C, 0x05, 0x00, 0x05, 0x00, 0x05, 0x00, 0x05, 0x00, 0x05, 0x00,
          0x05, 0x00])
      = Except.ok (true, { _initialized := true, _n := 0, _d := 0, _p := 0, _q := 0, _e := 0 }) := by
  decide

/-- C23, amended.  For every input, `setFromASN1PrivateKey` and `setFromASN1PrivateKeyInfo`
called on an already initialised key return `false` and leave `n`, `e`, `d`, `p`, `q` and the
initialised flag unchanged.  On an uninitialised key `setFromASN1PrivateKey` returns `true`
only if the input parses as a SEQUENCE of (at least) six DER elements, whatever their tags,
in which case the contents of the elements that follow the first (the version) are read as
integers in the order `n`, `e`, `d`, `p`, `q` and the key becomes initialised;
`setFromASN1PrivateKeyInfo` returns `true` only if the input parses as a SEQUENCE of an
element, a SEQUENCE and an OCTET STRING, on the content of which `setFromASN1PrivateKey`
returns `true`, with the same key.  No library exception (`ANSSIPKIException`) escapes them
on malformed DER. -/
theorem setFromASN1_contract (k : RSAKey) (DERString : String) :
    (k._initialized = true →
      k.setFromASN1PrivateKey DERString = Except.ok (false, k) ∧
      k.setFromASN1PrivateKeyInfo DERString = Except.ok (false, k)) ∧
    (k._initialized = false → ∀ k1 : RSAKey,
      k.setFromASN1PrivateKey DERString = Except.ok (true, k1) →
      ∃ (content s0 : String) (version : ASN1_BASIC) (c1 : String) (n : Int) (c2 : String)
        (e : Int) (c3 : String) (d : Int) (c4 : String) (p : Int) (c5 : String) (q : Int)
        (c6 : String),
        decapsulate DERString T_SEQU = Except.ok (content, s0) ∧
        ASN1_BASIC.fromDER (String.ofBytes content._str) = Except.ok (version, c1) ∧
        getNextInt c1 = Except.ok (n, c2) ∧ getNextInt c2 = Except.ok (e, c3) ∧
        getNextInt c3 = Except.ok (d, c4) ∧ getNextInt c4 = Except.ok (p, c5) ∧
        getNextInt c5 = Except.ok (q, c6) ∧
        k1 = { _initialized := true, _n := n, _d := d, _p := p, _q := q, _e := e }) ∧
    (k._initialized = false → ∀ k1 : RSAKey,
      k.setFromASN1PrivateKeyInfo DERString = Except.ok (true, k1) →
      ∃ (content s0 : String) (version : ASN1_BASIC) (c1 oid c2 prkey c3 : String),
        decapsulate DERString T_SEQU = Except.ok (content, s0) ∧
        ASN1_BASIC.fromDER (String.ofBytes content._str) = Except.ok (version, c1) ∧
        decapsulate c1 T_SEQU = Except.ok (oid, c2) ∧
        decapsulate c2 T_OSTR = Except.ok (prkey, c3) ∧
        k.setFromASN1PrivateKey (String.ofBytes prkey._str) = Except.ok (true, k1)) ∧
    (∀ e : exception_t,
      k.setFromASN1PrivateKey DERString ≠ Except.error (Thrown.ANSSIPKIException e) ∧
      k.setFromASN1PrivateKeyInfo DERString ≠ Except.error (Thrown.ANSSIPKIException e)) := by
  refine ⟨fun hk => ⟨?_, ?_⟩, fun hk k1 h => setFromASN1PrivateKey_true k k1 DERString hk h,
    fun hk k1 h => setFromASN1PrivateKeyInfo_true k k1 DERString hk h,
    fun e => ⟨setFromASN1PrivateKey_no_exception k DERString e,
      setFromASN1PrivateKeyInfo_no_exception k DERString e⟩⟩
  · unfold RSAKey.setFromASN1PrivateKey
    rw [if_pos hk]
  · unfold RSAKey.setFromASN1PrivateKeyInfo
    rw [if_pos hk]

/-- C24, counterexample: the modulus `256 ^ (2 ^ 32)` has `k = 2 ^ 32 + 1` bytes and the
DigestInfo block of the example has 51 bytes, so that `|B| + 11 ≤ k`; `modulusSize`, an
`unsigned int`, is 1 and `sign` fails with `UnexpectedError`. -/
theorem sign_rejects_huge_modulus :
    (digestInfo (digestOID exampleTBS.get_sign_algo)
        (digestOf exampleDigests exampleTBS.get_sign_algo
          (String.ofBytes [0x30, 0x00])._str)).length + 11
      ≤ modulusBytes hugeModulus ∧
    hugeKey._n = ((hugeModulus : Nat) : Int) ∧
    RSAKey.sign exampleDigests hugeKey exampleTBS = raise exception_t.E_UNEXPECTED_ERROR := by
  refine ⟨?_, rfl, ?_⟩
  · rw [exampleTBS_digestInfo_length, modulusBytes_hugeModulus]
    norm_num
  · apply sign_block_too_long exampleDigests hugeKey exampleTBS (String.ofBytes [0x30, 0x00]) rfl
      (by decide) (by decide)
    rw [modulusSize_hugeKey]
    exact Nat.lt_add_left _ (by decide)

/-- C24 (amended): with the hash abstract (a digest of the length of its algorithm, made of
bytes), for every key whose modulus `n` has `k = ceil (bitlen (n) / 8) < 2 ^ 32` bytes and
every TBS with DigestInfo block `B`: if `|B| + 11 ≤ k`, the block
`EM = 0x00 ‖ 0x01 ‖ (k - |B| - 3 bytes 0xFF) ‖ 0x00 ‖ B` has exactly `k` bytes, and `sign`
returns `SEQUENCE { tbs, SEQUENCE { OID signAlg, NULL }, BIT STRING (0x00 ‖ sig) }` where
`sig` is `s = EM ^ d mod n` left-padded with zero bytes to exactly `k` bytes, so that the
content of the BIT STRING has `k + 1` bytes; if `|B| + 11 > k`, `sign` fails with
`UnexpectedError`. -/
theorem sign_pkcs1_v1_5 (sha : Digests) (n d : Nat) (e p q : Int) (b : Bool) (tbs : TBS)
    (t : String) (ht : tbs.toDER = Except.ok t)
    (hsa : tbs.get_sign_algo ≠ sign_algo.nSignAlgos)
    (hlen : (digestOf sha tbs.get_sign_algo t._str).length = digestLength tbs.get_sign_algo)
    (hbytes : ∀ x ∈ digestOf sha tbs.get_sign_algo t._str, x < 256)
    (hk : modulusBytes n < 2 ^ 32) :
    ((digestInfo (digestOID tbs.get_sign_algo)
          (digestOf sha tbs.get_sign_algo t._str)).length + 11 ≤ modulusBytes n →
      (signatureBlock (modulusBytes n)
          (digestInfo (digestOID tbs.get_sign_algo)
            (digestOf sha tbs.get_sign_algo t._str))).length = modulusBytes n ∧
      ∃ (sig : List Nat) (z : Nat),
        sig = List.replicate z 0
                ++ magnitudeBytes
                    (beValue (signatureBlock (modulusBytes n)
                      (digestInfo (digestOID tbs.get_sign_algo)
                        (digestOf sha tbs.get_sign_algo t._str))) ^ d % n) ∧
        sig.length = modulusBytes n ∧
        beValue sig
          = beValue (signatureBlock (modulusBytes n)
              (digestInfo (digestOID tbs.get_sign_algo)
                (digestOf sha tbs.get_sign_algo t._str))) ^ d % n ∧
        (0x00 :: sig).length = modulusBytes n + 1 ∧
        RSAKey.sign sha { _initialized := b, _n := (n : Int), _d := (d : Int), _p := p,
                          _q := q, _e := e } tbs
          = Except.ok (String.ofBytes
              (signedBytes t._str (signatureOID tbs.get_sign_algo) sig))) ∧
    ((digestInfo (digestOID tbs.get_sign_algo)
          (digestOf sha tbs.get_sign_algo t._str)).length + 11 > modulusBytes n →
      RSAKey.sign sha { _initialized := b, _n := (n : Int), _d := (d : Int), _p := p,
                        _q := q, _e := e } tbs
        = raise exception_t.E_UNEXPECTED_ERROR) := by
  constructor
  · intro hfit
    have hn : 0 < n := by
      rcases Nat.eq_zero_or_pos n with h0 | h0
      · rw [h0] at hfit
        have : modulusBytes 0 = 0 := by simp [modulusBytes]
        omega
      · exact h0
    have hsig := magnitudeBytes_length_le _ n
      (Nat.mod_lt (beValue (signatureBlock (modulusBytes n)
        (digestInfo (digestOID tbs.get_sign_algo)
          (digestOf sha tbs.get_sign_algo t._str))) ^ d) hn)
    have hl : (List.replicate
        (modulusBytes n - (magnitudeBytes
          (beValue (signatureBlock (modulusBytes n)
            (digestInfo (digestOID tbs.get_sign_algo)
              (digestOf sha tbs.get_sign_algo t._str))) ^ d % n)).length) 0
        ++ magnitudeBytes
            (beValue (signatureBlock (modulusBytes n)
              (digestInfo (digestOID tbs.get_sign_algo)
                (digestOf sha tbs.get_sign_algo t._str))) ^ d % n)).length
        = modulusBytes n := by
      rw [List.length_append, List.length_replicate]
      omega
    refine ⟨signatureBlock_length _ _ hfit, _, _, rfl, hl, ?_, ?_,
      sign_eq sha n d e p q b tbs t ht hsa hlen hbytes hk hfit⟩
    · rw [beValue_zeros, beValue_magnitudeBytes]
    · rw [List.length_cons, hl]
  · intro hlong
    apply sign_block_too_long sha _ tbs t ht hsa hlen
    dsimp only
    rcases Nat.eq_zero_or_pos n with h0 | h0
    · have hz : ((mpz_sizeinbase_16 ((0 : Nat) : Int) + 1) / 2) % 2 ^ 32 = 1 := by decide
      rw [h0, hz]
      exact Nat.lt_add_left _ (by decide)
    · have hms : ((mpz_sizeinbase_16 (n : Int) + 1) / 2) % 2 ^ 32 = modulusBytes n := by
        rw [modulusSize_eq n h0, Nat.mod_eq_of_lt hk]
      rw [hms]
      exact hlong

/-- C24, example: the empty SEQUENCE signed with SHA-256 and RSA under the modulus `2 ^ 504`
of 64 bytes and `d = 3`; the DigestInfo block has 51 bytes, and the signature 64. -/
theorem sign_pkcs1_v1_5_witness :
    ∃ sig : List Nat,
      sig.length = modulusBytes (2 ^ 504) ∧
      beValue sig
        = beValue (signatureBlock (modulusBytes (2 ^ 504))
            (digestInfo (digestOID exampleTBS.get_sign_algo)
              (digestOf exampleDigests exampleTBS.get_sign_algo
                (String.ofBytes [0x30, 0x00])._str))) ^ 3
            % 2 ^ 504 ∧
      RSAKey.sign exampleDigests
          { _initialized := true, _n := ((2 ^ 504 : Nat) : Int), _d := ((3 : Nat) : Int),
            _p := 0, _q := 0, _e := 0 } exampleTBS
        = Except.ok (String.ofBytes
            (signedBytes (String.ofBytes [0x30, 0x00])._str
              (signatureOID exampleTBS.get_sign_algo) sig)) := by
  have hfit : (digestInfo (digestOID exampleTBS.get_sign_algo)
      (digestOf exampleDigests exampleTBS.get_sign_algo
                (String.ofBytes [0x30, 0x00])._str)).length + 11
        ≤ modulusBytes (2 ^ 504) := by
    rw [exampleTBS_digestInfo_length, modulusBytes_example]
    norm_num
  obtain ⟨_, sig, _, _, h2, h3, _, h5⟩ :=
    (sign_pkcs1_v1_5 exampleDigests (2 ^ 504) 3 0 0 0 true exampleTBS
      (String.ofBytes [0x30, 0x00]) rfl (by decide) (by decide) (by decide)
      (by rw [modulusBytes_example]; norm_num)).1 hfit
  exact ⟨sig, h2, h3, h5⟩

/-- C25: for every flags word and every `length ≤ 32`, `INTtoASN1_BSTR (flags, length)`
returns a String made of a leading octet `unused` in `0..7` and of content octets such that
the number of content bits less `unused` is the number of bits of `flags % 2 ^ length` up to
and including the highest one set (0 when none is set, so that trailing zero bits are
removed); flag bit `j` is bit `7 - j % 8` of content octet `j / 8` (flag bit 0 is the most
significant bit of the first content octet) and the unused bits are zero; `ASN1_BSTRtoINT`
applied to that String returns `flags % 2 ^ length` and reports that number of bits as the
bit-field length.  For `length > 32` the encoding fails with `UnexpectedError`. -/
theorem bit_string_flags_round_trip (flags length : Nat) :
    (length ≤ 32 →
      ∃ (unused index : Nat) (content : List Nat),
        INTtoASN1_BSTR flags length
          = Except.ok { _str := unused :: content, _index := index } ∧
        unused < 8 ∧
        8 * content.length = Nat.size (flags % 2 ^ length) + unused ∧
        (∀ b ∈ content, b < 256) ∧
        (∀ j, j < 8 * content.length →
          (content.getD (j / 8) 0).testBit (7 - j % 8) = (flags % 2 ^ length).testBit j) ∧
        (∀ j, Nat.size (flags % 2 ^ length) ≤ j → j < 8 * content.length →
          (content.getD (j / 8) 0).testBit (7 - j % 8) = false) ∧
        ASN1_BSTRtoINT { _str := unused :: content, _index := index }
          = Except.ok (flags % 2 ^ length, Nat.size (flags % 2 ^ length))) ∧
    (32 < length → INTtoASN1_BSTR flags length = raise exception_t.E_UNEXPECTED_ERROR) := by
  constructor
  · intro h
    have hsz := newLengthLoop_eq_size flags length h
    have hL := (newLengthLoop_spec flags length h).1
    obtain ⟨hp, hnb⟩ := padding_fills_octets (newLengthLoop flags length)
    have hbits := fun j => INTtoASN1_BSTR_content_bits flags length j h
    have hlen := beBytes_length
      ((newLengthLoop flags length + (8 - newLengthLoop flags length % 8) % 8) / 8)
      (ibstrLoop flags ((8 - newLengthLoop flags length % 8) % 8)
        (newLengthLoop flags length) (newLengthLoop flags length) 0)
    have hlt := beBytes_lt
      (ibstrLoop flags ((8 - newLengthLoop flags length % 8) % 8)
        (newLengthLoop flags length) (newLengthLoop flags length) 0)
      ((newLengthLoop flags length + (8 - newLengthLoop flags length % 8) % 8) / 8)
    have hcontent : ∀ j, j < 8 * (beBytes
        ((newLengthLoop flags length + (8 - newLengthLoop flags length % 8) % 8) / 8)
        (ibstrLoop flags ((8 - newLengthLoop flags length % 8) % 8)
          (newLengthLoop flags length) (newLengthLoop flags length) 0)).length →
        ((beBytes
          ((newLengthLoop flags length + (8 - newLengthLoop flags length % 8) % 8) / 8)
          (ibstrLoop flags ((8 - newLengthLoop flags length % 8) % 8)
            (newLengthLoop flags length) (newLengthLoop flags length) 0)).getD (j / 8) 0).testBit
          (7 - j % 8) = (flags % 2 ^ length).testBit j := by
      intro j hj
      rw [hlen, hnb] at hj
      exact hbits j hj
    refine ⟨_, _, _, INTtoASN1_BSTR_eq flags length h, hp, ?_, hlt, hcontent, ?_, ?_⟩
    · rw [hlen, hnb, hsz]
    · intro j hj1 hj2
      rw [hcontent j hj2]
      exact testBit_of_size_le _ _ hj1
    · rw [ASN1_BSTRtoINT_eq _ _ _ (by rw [hlen, hnb]; omega) (by rw [hlen]; omega)
        (by rw [hlen, hnb]; omega)]
      have e : 8 * (beBytes
        ((newLengthLoop flags length + (8 - newLengthLoop flags length % 8) % 8) / 8)
        (ibstrLoop flags ((8 - newLengthLoop flags length % 8) % 8)
          (newLengthLoop flags length) (newLengthLoop flags length) 0)).length
          - (8 - newLengthLoop flags length % 8) % 8 = Nat.size (flags % 2 ^ length) := by
        rw [hlen, hnb, hsz]; omega
      rw [e]
      congr 2
      apply Nat.eq_of_testBit_eq
      intro j
      rw [bitFieldLoop_testBit _ _ _ _ (by omega), Nat.zero_testBit, Bool.false_or]
      by_cases hj : j < Nat.size (flags % 2 ^ length)
      · have hj8 : j / 8 < (beBytes
          ((newLengthLoop flags length + (8 - newLengthLoop flags length % 8) % 8) / 8)
          (ibstrLoop flags ((8 - newLengthLoop flags length % 8) % 8)
            (newLengthLoop flags length) (newLengthLoop flags length) 0)).length := by
          rw [hlen]; omega
        rw [decide_eq_true hj, Bool.true_and, List.getD_append _ _ _ _ hj8]
        exact hcontent j (by omega)
      · rw [decide_eq_false hj, Bool.false_and]
        exact (testBit_of_size_le _ _ (by omega)).symm
  · intro h
    unfold INTtoASN1_BSTR
    rw [if_pos h]

/-- C26, the code at the failing input.  On the String `"abcd"`, `substring (2^64 - 1, 2)`
is out of bounds (`start + len = 2^64 + 1` exceeds the size 4), yet no
`OutOfBoundsStringOperation` is raised: `start + len` is computed in `size_t` and wraps around
to 1, the test `start + len > _size` passes, and `String (_str+start, len)` copies two bytes
from outside the buffer. -/
theorem substring_wraps_around :
    (String.ofBytes [97, 98, 99, 100]).size < (2 ^ 64 - 1) + 2 ∧
    String.substring (String.ofBytes [97, 98, 99, 100]) (2 ^ 64 - 1) 2
      = Except.error Thrown.fault ∧
    String.substring (String.ofBytes [97, 98, 99, 100]) (2 ^ 64 - 1) 2
      ≠ Except.error (Thrown.ANSSIPKIException exception_t.E_OUT_OF_BOUNDS_STRING_OPERATION) := by
  refine ⟨by decide, by decide, by decide⟩

/-- C27, the code at the failing inputs.  With the index at the end of the String (`eof ()`
is true), `getChar` raises nothing: its test is `_index > _size`, so on `"a"` with index 1
it returns the terminating zero of the buffer, and on the empty String, which has no buffer,
it reads through the null pointer. -/
theorem getChar_at_end_of_string :
    String.eof { _str := [97], _index := 1 } = true ∧
    String.getChar { _str := [97], _index := 1 } = Except.ok 0 ∧
    String.getChar { _str := [97], _index := 1 }
      ≠ Except.error (Thrown.ANSSIPKIException exception_t.E_OUT_OF_BOUNDS_STRING_OPERATION) ∧
    String.eof String.empty = true ∧
    String.getChar String.empty = Except.error Thrown.fault ∧
    String.popChar { _str := [97], _index := 1 }
      = Except.error (Thrown.ANSSIPKIException exception_t.E_OUT_OF_BOUNDS_STRING_OPERATION) := by
  refine ⟨by decide, by decide, by decide, by decide, by decide, by decide⟩

/-- C28.  For every byte string `bs`, `bignumToAsciiHexa ()` (no delimiter) gives a string
of `2 * size` characters among `0-9A-F`, which `asciiHexaToBignum` turns back into `bs`;
`asciiHexaToBignum` accepts every string `cs` of digits `0-9`, `A-F`, `a-f`, of which it
returns the bytes, an odd-length string being read with a zero digit in front; and it raises
`InvalidHexString` if and only if `cs` holds a character that is not a hexadecimal digit. -/
theorem hexadecimal_round_trip (bs cs : List Nat) (hb : ∀ b ∈ bs, b < 256) :
    (∃ h : String, (String.ofBytes bs).bignumToAsciiHexa 0 = Except.ok h ∧
      h.size = 2 * bs.length ∧
      (∀ c ∈ h._str, (48 ≤ c ∧ c ≤ 57) ∨ (65 ≤ c ∧ c ≤ 70)) ∧
      h.asciiHexaToBignum = Except.ok (String.ofBytes bs)) ∧
    ((∀ c ∈ cs, isHexDigit c) →
      (String.ofBytes cs).asciiHexaToBignum = Except.ok (String.ofBytes (hexDecode cs))) ∧
    ((String.ofBytes cs).asciiHexaToBignum
        = Except.error (Thrown.ANSSIPKIException exception_t.E_INVALID_HEXA_STRING)
      ↔ ∃ c ∈ cs, ¬ isHexDigit c) := by
  obtain ⟨h1, h2, h3⟩ := bignumToAsciiHexaLoop_spec bs hb
  refine ⟨⟨String.ofBytes (bignumToAsciiHexaLoop 0 bs), ?_, h1, h2, ?_⟩,
    asciiHexaToBignum_valid cs, ?_, asciiHexaToBignum_invalid cs⟩
  · unfold String.bignumToAsciiHexa
    rw [if_neg (by simp)]
    rfl
  · have hvalid : ∀ c ∈ bignumToAsciiHexaLoop 0 bs, isHexDigit c := by
      intro c hc
      rcases h2 c hc with h | h
      · exact Or.inl h
      · exact Or.inr (Or.inl h)
    rw [asciiHexaToBignum_valid _ hvalid]
    unfold hexDecode
    rw [if_neg (by rw [h1]; omega), h3]
  · intro h
    by_contra hall
    have hv : ∀ c ∈ cs, isHexDigit c := by
      intro c hc
      by_contra hn
      exact hall ⟨c, hc, hn⟩
    rw [asciiHexaToBignum_valid cs hv] at h
    exact absurd h (by simp)

theorem hexadecimal_round_trip_witness :
    (∃ h : String, (String.ofBytes [0x12, 0xAB, 0x00]).bignumToAsciiHexa 0 = Except.ok h ∧
      h.size = 2 * [0x12, 0xAB, 0x00].length ∧
      (∀ c ∈ h._str, (48 ≤ c ∧ c ≤ 57) ∨ (65 ≤ c ∧ c ≤ 70)) ∧
      h.asciiHexaToBignum = Except.ok (String.ofBytes [0x12, 0xAB, 0x00])) ∧
    ((∀ c ∈ [97, 66, 99], isHexDigit c) →
      (String.ofBytes [97, 66, 99]).asciiHexaToBignum
        = Except.ok (String.ofBytes (hexDecode [97, 66, 99]))) ∧
    ((String.ofBytes [97, 66, 99]).asciiHexaToBignum
        = Except.error (Thrown.ANSSIPKIException exception_t.E_INVALID_HEXA_STRING)
      ↔ ∃ c ∈ [97, 66, 99], ¬ isHexDigit c) :=
  hexadecimal_round_trip [0x12, 0xAB, 0x00] [97, 66, 99] (by decide)

/-- C29, the claim as stated fails.  The date `abcdefghijZ` holds no decimal digit, so it is
not of the form `YYMMDDhhmmZ`; yet `dateToString` returns the reformatted string
`le ef/cd/20ab à gh:ij:00`, and `ASN1_VALIDITY (sd, ed)` accepts it for both dates. -/
theorem dateToString_reformats_letters :
    ¬ isUTCTime [97, 98, 99, 100, 101, 102, 103, 104, 105, 106, 90] ∧
    dateToString (String.ofBytes [97, 98, 99, 100, 101, 102, 103, 104, 105, 106, 90])
      = Except.ok (String.ofBytes [108, 101, 32, 101, 102, 47, 99, 100, 47, 50, 48, 97, 98,
          32, 0xC3, 0xA0, 32, 103, 104, 58, 105, 106, 58, 48, 48]) ∧
    ASN1_VALIDITY.new (String.ofBytes [97, 98, 99, 100, 101, 102, 103, 104, 105, 106, 90])
        (String.ofBytes [97, 98, 99, 100, 101, 102, 103, 104, 105, 106, 90])
      = Except.ok
          { startDate := String.ofBytes [97, 98, 99, 100, 101, 102, 103, 104, 105, 106, 90],
            endDate := String.ofBytes [97, 98, 99, 100, 101, 102, 103, 104, 105, 106, 90] } := by
  refine ⟨by decide, by decide, by decide⟩

/-- C29, amended.  For every byte string `date`, `dateToString` returns the reformatted
string `le DD/MM/20YY à hh:mm:ss` (which differs from `date`) only when `date` is made of
ten bytes followed by `Z`, or of ten bytes, two more bytes of which the first is not `Z`, and
`Z` (the bytes are not checked to be decimal digits, and every date of the form `YYMMDDhhmmZ`
or `YYMMDDhhmmssZ` is of that shape); any other input is returned unchanged.  Consequently
`ASN1_VALIDITY (sd, ed)` raises `UnexpectedError` exactly when `sd` or `ed` is not of that
shape. -/
theorem dateToString_shape (date sd ed : String) (hdate : date.size < 2 ^ 64)
    (hsd : sd.size < 2 ^ 64) (hed : ed.size < 2 ^ 64) :
    dateToString date
      = Except.ok (String.ofBytes
          (if hasDateShape date._str then readableDate date._str else date._str)) ∧
    (hasDateShape date._str → readableDate date._str ≠ date._str) ∧
    (isUTCTime date._str → hasDateShape date._str) ∧
    (ASN1_VALIDITY.new sd ed
        = Except.error (Thrown.ANSSIPKIException exception_t.E_UNEXPECTED_ERROR)
      ↔ ¬ hasDateShape sd._str ∨ ¬ hasDateShape ed._str) ∧
    (hasDateShape sd._str ∧ hasDateShape ed._str →
      ASN1_VALIDITY.new sd ed
        = Except.ok { startDate := String.ofBytes sd._str,
                      endDate := String.ofBytes ed._str }) := by
  refine ⟨dateToString_eq date._str date._index hdate, ?_, hasDateShape_of_isUTCTime _, ?_, ?_⟩
  · intro h heq
    have hl : 11 ≤ date._str.length := by unfold hasDateShape at h; omega
    have := readableDate_length _ hl
    rw [heq] at this
    unfold hasDateShape at h
    omega
  · rw [ASN1_VALIDITY_new_eq sd ed hsd hed]
    by_cases h : hasDateShape sd._str ∧ hasDateShape ed._str
    · rw [if_pos h]
      constructor
      · intro h2; exact absurd h2 (by simp)
      · intro h2
        rcases h2 with h2 | h2
        · exact absurd h.1 h2
        · exact absurd h.2 h2
    · rw [if_neg h]
      constructor
      · intro _
        by_cases h1 : hasDateShape sd._str
        · exact Or.inr (fun h2 => h ⟨h1, h2⟩)
        · exact Or.inl h1
      · intro _; rfl
  · intro h
    rw [ASN1_VALIDITY_new_eq sd ed hsd hed, if_pos h]

theorem dateToString_shape_witness :
    dateToString (String.ofBytes [50, 53, 48, 49, 51, 49, 50, 51, 53, 57, 51, 48, 90])
      = Except.ok (String.ofBytes
          (if hasDateShape (String.ofBytes [50, 53, 48, 49, 51, 49, 50, 51, 53, 57, 51, 48, 90])._str
           then readableDate
             (String.ofBytes [50, 53, 48, 49, 51, 49, 50, 51, 53, 57, 51, 48, 90])._str
           else (String.ofBytes [50, 53, 48, 49, 51, 49, 50, 51, 53, 57, 51, 48, 90])._str)) ∧
    (hasDateShape (String.ofBytes [50, 53, 48, 49, 51, 49, 50, 51, 53, 57, 51, 48, 90])._str →
      readableDate (String.ofBytes [50, 53, 48, 49, 51, 49, 50, 51, 53, 57, 51, 48, 90])._str
        ≠ (String.ofBytes [50, 53, 48, 49, 51, 49, 50, 51, 53, 57, 51, 48, 90])._str) ∧
    (isUTCTime (String.ofBytes [50, 53, 48, 49, 51, 49, 50, 51, 53, 57, 51, 48, 90])._str →
      hasDateShape (String.ofBytes [50, 53, 48, 49, 51, 49, 50, 51, 53, 57, 51, 48, 90])._str) ∧
    (ASN1_VALIDITY.new (String.ofBytes [50, 53, 48, 49, 48, 49, 48, 48, 48, 48, 90])
          (String.ofBytes [50, 53, 49, 50])
        = Except.error (Thrown.ANSSIPKIException exception_t.E_UNEXPECTED_ERROR)
      ↔ ¬ hasDateShape (String.ofBytes [50, 53, 48, 49, 48, 49, 48, 48, 48, 48, 90])._str
        ∨ ¬ hasDateShape (String.ofBytes [50, 53, 49, 50])._str) ∧
    (hasDateShape (String.ofBytes [50, 53, 48, 49, 48, 49, 48, 48, 48, 48, 90])._str
        ∧ hasDateShape (String.ofBytes [50, 53, 49, 50])._str →
      ASN1_VALIDITY.new (String.ofBytes [50, 53, 48, 49, 48, 49, 48, 48, 48, 48, 90])
          (String.ofBytes [50, 53, 49, 50])
        = Except.ok
            { startDate := String.ofBytes
                (String.ofBytes [50, 53, 48, 49, 48, 49, 48, 48, 48, 48, 90])._str,
              endDate := String.ofBytes (String.ofBytes [50, 53, 49, 50])._str }) :=
  dateToString_shape (String.ofBytes [50, 53, 48, 49, 51, 49, 50, 51, 53, 57, 51, 48, 90])
    (String.ofBytes [50, 53, 48, 49, 48, 49, 48, 48, 48, 48, 90])
    (String.ofBytes [50, 53, 49, 50]) (by decide) (by decide) (by decide)

/-- C30, the code at the failing input.  `forgetKey` shreds `_n`, `_d` and `_e` and resets
the flag, and leaves the prime factors `_p` and `_q` as they are: so on the example key, and
on every key. -/
theorem forgetKey_keeps_prime_factors :
    (RSAKey.forgetKey exampleKey.setInitialized)._p = 1048343 ∧
    (RSAKey.forgetKey exampleKey.setInitialized)._q = 1048127 ∧
    (RSAKey.forgetKey exampleKey.setInitialized)._d = 0 ∧
    (RSAKey.forgetKey exampleKey.setInitialized)._initialized = false ∧
    ∀ k : RSAKey, k.forgetKey._p = k._p ∧ k.forgetKey._q = k._q := by
  refine ⟨by decide, by decide, by decide, by decide, fun k => ⟨rfl, rfl⟩⟩

/-- C31.  For every byte string of length below `2^32`, `sha1` returns 0 and writes the
20-byte FIPS 180 SHA-1 digest of the input (each word with its highest byte first) at the
start of `result`, whatever the union `d` holds at first and as soon as the loop may take one
turn per block; the padded message has one block more than the input has full blocks, and a
second one exactly when `length mod 64 ≥ 56`; for "abc" the digest is
`a9993e36 4706816a ba3e2571 7850c26c 9cd0d89d`; and `sha1` returns -1, leaving `result`
as it is, when either pointer is null. -/
theorem sha1_fips180 (string d result : List Nat) (fuel : Nat)
    (hlen : string.length < 2 ^ 32) (hstr : ∀ b ∈ string, b < 256) (hd : d.length = 320)
    (hdb : ∀ b ∈ d, b < 256) (hres : 20 ≤ result.length)
    (hfuel : (string.length + 8) / 64 + 1 ≤ fuel) :
    sha1 fuel d (some string) string.length (some result)
      = Except.ok (0, some (fipsSHA1 string ++ result.drop 20)) ∧
    (fipsSHA1 string).length = 20 ∧
    (fipsPad string).length
      = 64 * (string.length / 64 + 1 + if 56 ≤ string.length % 64 then 1 else 0) ∧
    (string.length + 8) / 64 + 1
      = string.length / 64 + 1 + (if 56 ≤ string.length % 64 then 1 else 0) ∧
    sha1 fuel d (some [0x61, 0x62, 0x63]) 3 (some result)
      = Except.ok (0, some (sha1_abc ++ result.drop 20)) ∧
    sha1 fuel d none string.length (some result) = Except.ok (-1, some result) ∧
    sha1 fuel d (some string) string.length none = Except.ok (-1, none) ∧
    sha1 fuel d none string.length none = Except.ok (-1, none) := by
  refine ⟨sha1_eq string d result fuel hlen hstr hd hdb hres hfuel, fipsSHA1_length string,
    fipsPad_blocks string, by split_ifs <;> omega, ?_, rfl, rfl, rfl⟩
  have habc : fipsSHA1 [0x61, 0x62, 0x63] = sha1_abc := by decide!
  have h := sha1_eq [0x61, 0x62, 0x63] d result fuel (by norm_num) (by decide) hd hdb hres
    (by have : ([0x61, 0x62, 0x63] : List Nat).length = 3 := rfl; omega)
  rw [habc] at h
  exact h

theorem sha1_fips180_witness :
    ([0x61, 0x62, 0x63] : List Nat).length < 2 ^ 32 ∧
    (∀ b ∈ ([0x61, 0x62, 0x63] : List Nat), b < 256) ∧
    (List.replicate 320 0).length = 320 ∧ (∀ b ∈ List.replicate 320 0, b < 256) ∧
    20 ≤ (List.replicate 20 0).length ∧
    (([0x61, 0x62, 0x63] : List Nat).length + 8) / 64 + 1 ≤ 1 ∧
    (sha1 1 (List.replicate 320 0) (some [0x61, 0x62, 0x63])
        ([0x61, 0x62, 0x63] : List Nat).length (some (List.replicate 20 0))
      = Except.ok (0, some (fipsSHA1 [0x61, 0x62, 0x63] ++ (List.replicate 20 0).drop 20)) ∧
    (fipsSHA1 [0x61, 0x62, 0x63]).length = 20 ∧
    (fipsPad [0x61, 0x62, 0x63]).length
      = 64 * (([0x61, 0x62, 0x63] : List Nat).length / 64 + 1
          + if 56 ≤ ([0x61, 0x62, 0x63] : List Nat).length % 64 then 1 else 0) ∧
    (([0x61, 0x62, 0x63] : List Nat).length + 8) / 64 + 1
      = ([0x61, 0x62, 0x63] : List Nat).length / 64 + 1
        + (if 56 ≤ ([0x61, 0x62, 0x63] : List Nat).length % 64 then 1 else 0) ∧
    sha1 1 (List.replicate 320 0) (some [0x61, 0x62, 0x63]) 3 (some (List.replicate 20 0))
      = Except.ok (0, some (sha1_abc ++ (List.replicate 20 0).drop 20)) ∧
    sha1 1 (List.replicate 320 0) none ([0x61, 0x62, 0x63] : List Nat).length
        (some (List.replicate 20 0)) = Except.ok (-1, some (List.replicate 20 0)) ∧
    sha1 1 (List.replicate 320 0) (some [0x61, 0x62, 0x63])
        ([0x61, 0x62, 0x63] : List Nat).length none = Except.ok (-1, none) ∧
    sha1 1 (List.replicate 320 0) none ([0x61, 0x62, 0x63] : List Nat).length none
      = Except.ok (-1, none)) :=
  ⟨by norm_num, by decide, List.length_replicate _ _,
    fun b hb => by rw [(List.mem_replicate.1 hb).2]; decide, by decide, by decide,
    sha1_fips180 [0x61, 0x62, 0x63] (List.replicate 320 0) (List.replicate 20 0) 1
      (by norm_num) (by decide) (List.length_replicate _ _)
      (fun b hb => by rw [(List.mem_replicate.1 hb).2]; decide) (by decide) (by decide)⟩

/-- C33, the claim as stated fails.  With a bound above the largest table prime
(`bound = 65522`), `isPrime_Sieve (9, bound)` raises nothing and returns `false`: the
remainder of 9 by `PP` is divisible by 3, and this test comes before the one on the bound;
so does the test of parity, and `isPrime_Sieve (4, bound)` returns `false` too. -/
theorem isPrime_Sieve_returns_before_bound_test :
    ∃ T, initPrimes = Except.ok T ∧
      isPrime_Sieve T 9 65522 = Except.ok false ∧
      isPrime_Sieve T 4 65522 = Except.ok false := by
  obtain ⟨T, hT, h, _⟩ := isPrime_Sieve_spec
  refine ⟨T, hT, ?_, ?_⟩
  · have h9 := h 9 65522
    rw [if_neg (by decide), if_pos ⟨3, by decide, by decide⟩] at h9
    exact h9
  · have h4 := h 4 65522
    rw [if_pos (by decide)] at h4
    exact h4

/-- C33, amended.  After `initPrimes`, for every `n ≥ 0` and every bound:
`isPrime_Sieve (n, bound)` returns `false` if `n` is even; it raises `CryptoBadParameter`
whenever the requested bound exceeds the largest table prime (65521) and `n` is odd and
divisible by no prime `p` with `3 ≤ p ≤ 53`; and with the default bound it returns `true` if
and only if `n` is odd and divisible by no prime `p` with `3 ≤ p ≤ 65521`. -/
theorem isPrime_Sieve_contract :
    ∃ T, initPrimes = Except.ok T ∧ ∀ (n bound : Nat),
      (n % 2 = 0 → isPrime_Sieve T (n : Int) bound = Except.ok false) ∧
      (65521 < bound → n % 2 = 1 → (∀ p : Nat, p.Prime → 3 ≤ p → p ≤ 53 → ¬ p ∣ n) →
        isPrime_Sieve T (n : Int) bound = raise exception_t.E_CRYPTO_BAD_PARAMETER) ∧
      (∃ b, isPrime_Sieve T (n : Int) 0 = Except.ok b ∧
        (b = true ↔ n % 2 = 1 ∧ ∀ p : Nat, p.Prime → 3 ≤ p → p ≤ 65521 → ¬ p ∣ n)) := by
  obtain ⟨T, hT, h, hmem⟩ := isPrime_Sieve_spec
  refine ⟨T, hT, ?_⟩
  intro n bound
  have h53 : ∀ d ∈ firstGroup, 3 ≤ d ∧ d ≤ 53 := by decide
  refine ⟨?_, ?_, ?_⟩
  · intro heven
    rw [h n bound, if_pos heven]
  · intro hbig hodd hsmall
    have hno : ¬ ∃ d ∈ firstGroup, d ∣ n := by
      rintro ⟨d, hd, hdvd⟩
      exact hsmall d (firstGroup_prime d hd) (h53 d hd).1 (h53 d hd).2 hdvd
    rw [h n bound, if_neg (by omega), if_neg hno, if_neg (by omega), if_pos hbig]
  · by_cases heven : n % 2 = 0
    · refine ⟨false, by rw [h n 0, if_pos heven], ?_⟩
      constructor
      · intro hf; exact absurd hf (by decide)
      · rintro ⟨hodd, _⟩; omega
    · by_cases hsmall : ∃ d ∈ firstGroup, d ∣ n
      · refine ⟨false, by rw [h n 0, if_neg heven, if_pos hsmall], ?_⟩
        constructor
        · intro hf; exact absurd hf (by decide)
        · rintro ⟨_, hall⟩
          obtain ⟨d, hd, hdvd⟩ := hsmall
          exact absurd hdvd
            (hall d (firstGroup_prime d hd) (h53 d hd).1 (by have := (h53 d hd).2; omega))
      · refine ⟨decide (∀ d ∈ T.primes.drop 16, ¬ d ∣ n),
          by rw [h n 0, if_neg heven, if_neg hsmall, if_pos rfl], ?_⟩
        rw [decide_eq_true_iff]
        constructor
        · intro hQ
          refine ⟨by omega, ?_⟩
          intro p hp h3 hle
          by_cases h59 : p < 59
          · exact fun hd => hsmall ⟨p, firstGroup_complete p hp h3 h59, hd⟩
          · exact hQ p ((hmem p).mpr ⟨hp, by omega, hle⟩)
        · rintro ⟨_, hall⟩ d hd
          have := (hmem d).mp hd
          exact hall d this.1 (by omega) this.2.2

/-- C34, where the code departs from the claim and from the header of `findRSAFactor`
(`3 x 2^(nbits-2) <= n < 2^nbits`).  The adjustment `m + (5 - m mod 6)` can carry out of the
`nbits - 1` bits of `m`: for `nbits = 4` every output of the generator gives the candidate
`m = 11`, `n = 23`, and `23 ≥ 2^4`; for `nbits = 1024` a generator that gives bytes `0xff`
leads to `n = 2^1024 + 7`; and for every `nbits ≥ 4` the largest draw `m = 2^(nbits-1) - 1`
is adjusted to an `m = 5 mod 6` above `2^(nbits-1)`, so that `n = 2m + 1` is above
`2^nbits`. -/
theorem findRSAFactor_candidate_too_long :
    (∀ (σ : Type) (gen : PRNG σ) (s s1 : σ) (c : Nat),
      gen.getRandomBytes s [0] 1 = Except.ok (s1, [c]) → c < 256 →
        findRSAFactor_candidate gen s 4 = Except.ok (s1, 11, 23)) ∧
    ¬ ((23 : Int) < 2 ^ 4) ∧
    findRSAFactor_candidate onesSource 0 1024 = Except.ok (0, 2 ^ 1023 + 3, 2 ^ 1024 + 7) ∧
    (∀ nbits : Nat, 4 ≤ nbits → nbits < 2 ^ 64 →
      ∃ m n : Nat, findRSAFactor_adjust (((2 ^ (nbits - 1) - 1 : Nat)) : Int) nbits
          = Except.ok ((m : Int), (n : Int)) ∧
        m % 6 = 5 ∧ 2 ^ (nbits - 1) < m ∧ n = 2 * m + 1 ∧ 2 ^ nbits < n) := by
  refine ⟨?_, by decide, by decide!, ?_⟩
  · intro σ gen s s1 c hgen hc
    exact findRSAFactor_candidate_four gen s s1 c hgen hc
  · intro nbits h4 hsize
    exact findRSAFactor_adjust_top nbits h4 hsize

/-- C35.  For every `m` and `lambda` produced by `genParamFT` (called with `65 ≤ k < 2^64`;
`m` is a product of distinct primes, `lambda` the least common multiple of the `p - 1` over
them): in `genPrimeFT` the value `u = (1 - b^lambda) mod m` is 0 if and only if
`gcd (b, m) = 1`, so the loop of step 2 is left at once on such a `b` and on leaving it the
residue `b` is coprime to `m`; in `findRSAFactorFT` the value `u` is 0, and the loop is left,
if and only if both `b` and `2b + 1` are coprime to `m`.  Every update gives
`0 ≤ b < m`. -/
theorem step2_coprime (k : Nat) (hk1 : 65 ≤ k) (hk : k < 2 ^ 64) :
    ∃ T, initPrimes = Except.ok T ∧ ∃ m lambda pmax,
      genParamFT T.primes FT_ALGO_PARAM_L k = Except.ok (m, lambda, pmax) ∧ 1 ≤ m ∧
      (∀ b : Int, ∃ u, genPrimeFT_u b lambda m = Except.ok u ∧
        u = (-(b ^ lambda.toNat % m) + 1) % m ∧ (u = 0 ↔ Int.gcd b m = 1)) ∧
      (∀ b : Int, ∃ u, findRSAFactorFT_u b lambda m = Except.ok u ∧
        u = (-((b * (2 * b + 1)) ^ lambda.toNat % m) + 1) % m ∧
        (u = 0 ↔ Int.gcd b m = 1 ∧ Int.gcd (2 * b + 1) m = 1)) ∧
      (∀ (σ : Type) (gen : PRNG σ) (l : Int) (fuel : Nat) (s : σ) (b : Int),
        (Int.gcd b m = 1 →
          genPrimeFT_step2 gen lambda m l (fuel + 1) s b = Except.ok (s, b)) ∧
        (∀ s1 b1, genPrimeFT_step2 gen lambda m l fuel s b = Except.ok (s1, b1) →
          Int.gcd b1 m = 1 ∧ (b1 = b ∨ (0 ≤ b1 ∧ b1 < m)))) ∧
      (∀ (σ : Type) (gen : PRNG σ) (l : Int) (fuel : Nat) (s : σ) (b : Int),
        (Int.gcd b m = 1 ∧ Int.gcd (2 * b + 1) m = 1 →
          findRSAFactorFT_step2 gen lambda m l (fuel + 1) s b = Except.ok (s, b)) ∧
        (∀ s1 b1, findRSAFactorFT_step2 gen lambda m l fuel s b = Except.ok (s1, b1) →
          (Int.gcd b1 m = 1 ∧ Int.gcd (2 * b1 + 1) m = 1) ∧
          (b1 = b ∨ (0 ≤ b1 ∧ b1 < m)))) ∧
      (∀ b r u : Int, ∃ b1, mpz_mod (b + (r + 1) * u) m = Except.ok b1 ∧ 0 ≤ b1 ∧ b1 < m) := by
  obtain ⟨T, hT, hprimes, i, _, _, hgen, _, _⟩ := genParamFT_spec k hk1 hk
  have hl : ∀ p ∈ T.primes.take i, p.Prime := by
    intro p hp
    have := List.mem_of_mem_take hp
    rw [hprimes] at this
    exact ((mem_primesLt 65522 p).1 this).2
  have hnodup : (T.primes.take i).Nodup := by
    apply List.Nodup.sublist (List.take_sublist i T.primes)
    rw [hprimes]
    exact (primesLt_sorted 65522).imp (fun h => ne_of_lt h)
  have hm : (0 : Int) < (((T.primes.take i).prod : Nat) : Int) := by
    have : 0 < (T.primes.take i).prod := by
      apply Nat.pos_of_ne_zero
      apply List.prod_ne_zero
      intro h0
      exact Nat.not_prime_zero (hl 0 h0)
    exact_mod_cast this
  have hu1 : ∀ b : Int, ∃ u, genPrimeFT_u b ((lcmPred (T.primes.take i) : Nat) : Int)
      (((T.primes.take i).prod : Nat) : Int) = Except.ok u ∧
      (u = 0 ↔ Int.gcd b (((T.primes.take i).prod : Nat) : Int) = 1) := by
    intro b
    obtain ⟨⟨u, h1, _, h2⟩, _⟩ := step2_u_spec _ hl hnodup b
    exact ⟨u, h1, h2⟩
  have hu2 : ∀ b : Int, ∃ u, findRSAFactorFT_u b ((lcmPred (T.primes.take i) : Nat) : Int)
      (((T.primes.take i).prod : Nat) : Int) = Except.ok u ∧
      (u = 0 ↔ Int.gcd b (((T.primes.take i).prod : Nat) : Int) = 1 ∧
        Int.gcd (2 * b + 1) (((T.primes.take i).prod : Nat) : Int) = 1) := by
    intro b
    obtain ⟨_, u, h1, _, h2⟩ := step2_u_spec _ hl hnodup b
    exact ⟨u, h1, h2⟩
  refine ⟨T, hT, _, _, _, hgen, by omega, ?_, ?_, ?_, ?_, ?_⟩
  · intro b
    obtain ⟨h, _⟩ := step2_u_spec _ hl hnodup b
    rw [Int.toNat_natCast]
    exact h
  · intro b
    obtain ⟨_, h⟩ := step2_u_spec _ hl hnodup b
    rw [Int.toNat_natCast]
    exact h
  · intro σ gen l fuel s b
    obtain ⟨h1, h2⟩ := genPrimeFT_step2_spec gen _ _ l hm _ hu1
    exact ⟨h1 fuel s b, h2 fuel s b⟩
  · intro σ gen l fuel s b
    obtain ⟨h1, h2⟩ := findRSAFactorFT_step2_spec gen _ _ l hm _ hu2
    exact ⟨h1 fuel s b, h2 fuel s b⟩
  · intro b r u
    exact step3_update b r u _ hm

theorem step2_coprime_witness :
    65 ≤ 70 ∧ 70 < 2 ^ 64 ∧
    ∃ T, initPrimes = Except.ok T ∧ ∃ m lambda pmax,
      genParamFT T.primes FT_ALGO_PARAM_L 70 = Except.ok (m, lambda, pmax) ∧ 1 ≤ m ∧
      (∀ b : Int, ∃ u, genPrimeFT_u b lambda m = Except.ok u ∧
        u = (-(b ^ lambda.toNat % m) + 1) % m ∧ (u = 0 ↔ Int.gcd b m = 1)) ∧
      (∀ b : Int, ∃ u, findRSAFactorFT_u b lambda m = Except.ok u ∧
        u = (-((b * (2 * b + 1)) ^ lambda.toNat % m) + 1) % m ∧
        (u = 0 ↔ Int.gcd b m = 1 ∧ Int.gcd (2 * b + 1) m = 1)) ∧
      (∀ (σ : Type) (gen : PRNG σ) (l : Int) (fuel : Nat) (s : σ) (b : Int),
        (Int.gcd b m = 1 →
          genPrimeFT_step2 gen lambda m l (fuel + 1) s b = Except.ok (s, b)) ∧
        (∀ s1 b1, genPrimeFT_step2 gen lambda m l fuel s b = Except.ok (s1, b1) →
          Int.gcd b1 m = 1 ∧ (b1 = b ∨ (0 ≤ b1 ∧ b1 < m)))) ∧
      (∀ (σ : Type) (gen : PRNG σ) (l : Int) (fuel : Nat) (s : σ) (b : Int),
        (Int.gcd b m = 1 ∧ Int.gcd (2 * b + 1) m = 1 →
          findRSAFactorFT_step2 gen lambda m l (fuel + 1) s b = Except.ok (s, b)) ∧
        (∀ s1 b1, findRSAFactorFT_step2 gen lambda m l fuel s b = Except.ok (s1, b1) →
          (Int.gcd b1 m = 1 ∧ Int.gcd (2 * b1 + 1) m = 1) ∧
          (b1 = b ∨ (0 ≤ b1 ∧ b1 < m)))) ∧
      (∀ b r u : Int, ∃ b1, mpz_mod (b + (r + 1) * u) m = Except.ok b1 ∧ 0 ≤ b1 ∧ b1 < m) :=
  ⟨by decide, by norm_num, step2_coprime 70 (by decide) (by norm_num)⟩

/-- C36.  For every `n` with `1 ≤ n < 2^64`, every `m ≥ 1` and every `0 ≤ b < m`, the range
computed by `genPrimeFT (n)` is such that, when it is non-empty (`l > 0`), every candidate
`p = b + a * m` built in the loop satisfies `2^(n-1) ≤ p < 2^n` (bit length exactly `n`) and
`p = b mod m`; and for `n ≥ 3` every candidate `pdemi = b + a * m` built by
`findRSAFactorFT (n)` satisfies `3 * 2^(n-3) ≤ pdemi < 2^(n-1)` and `pdemi = b mod m`, so
that `p = 2 * pdemi + 1` has exactly `n` bits with its top two bits set
(`3 * 2^(n-2) ≤ p < 2^n`). -/
theorem candidateFT_range (n : Nat) (b m : Int) (hn : 1 ≤ n) (hn2 : n < 2 ^ 64)
    (hm : 1 ≤ m) (hb : 0 ≤ b) (hbm : b < m) :
    (∃ r l, genPrimeFT_range n b m = Except.ok (r, l) ∧
      (0 < l → ∀ (σ : Type) (gen : PRNG σ) (s s1 : σ) (p : Int),
        candidateFT gen s r l b m = Except.ok (s1, p) →
          2 ^ (n - 1) ≤ p ∧ p < 2 ^ n ∧ mpz_sizeinbase_2 p = n ∧ p % m = b)) ∧
    (3 ≤ n → ∃ r l, findRSAFactorFT_range n b m = Except.ok (r, l) ∧
      (0 < l → ∀ (σ : Type) (gen : PRNG σ) (s s1 : σ) (pdemi : Int),
        candidateFT gen s r l b m = Except.ok (s1, pdemi) →
          3 * 2 ^ (n - 3) ≤ pdemi ∧ pdemi < 2 ^ (n - 1) ∧ pdemi % m = b ∧
          findRSAFactorFT_p pdemi = 2 * pdemi + 1 ∧
          3 * 2 ^ (n - 2) ≤ findRSAFactorFT_p pdemi ∧ findRSAFactorFT_p pdemi < 2 ^ n ∧
          mpz_sizeinbase_2 (findRSAFactorFT_p pdemi) = n)) := by
  have hm0 : 0 < m := by omega
  constructor
  · obtain ⟨r, l, hrl, hlo, hhi⟩ := genPrimeFT_range_spec n b m hn hn2 hm0
    refine ⟨r, l, hrl, ?_⟩
    intro hl σ gen s s1 p hp
    obtain ⟨h1, h2, h3⟩ := candidateFT_spec gen s s1 r l b m _ _ p hm0 hb hbm hl hlo hhi hp
    exact ⟨h1, h2, mpz_sizeinbase_2_int p n hn h1 h2, h3⟩
  · intro hn3
    obtain ⟨r, l, hrl, hlo, hhi⟩ := findRSAFactorFT_range_spec n b m hn3 hn2 hm0
    refine ⟨r, l, hrl, ?_⟩
    intro hl σ gen s s1 pdemi hp
    obtain ⟨h1, h2, h3⟩ := candidateFT_spec gen s s1 r l b m _ _ pdemi hm0 hb hbm hl hlo hhi hp
    have e1 : (2 : Int) ^ (n - 2) = 2 * 2 ^ (n - 3) := by
      rw [← pow_succ']
      congr 1
      omega
    have e2 : (2 : Int) ^ n = 2 * 2 ^ (n - 1) := by
      rw [← pow_succ']
      congr 1
      omega
    have hp2 := findRSAFactorFT_p_eq pdemi
    have h4 : 3 * 2 ^ (n - 2) ≤ findRSAFactorFT_p pdemi := by rw [hp2, e1]; linarith
    have h5 : findRSAFactorFT_p pdemi < 2 ^ n := by rw [hp2, e2]; linarith
    refine ⟨h1, h2, h3, hp2, h4, h5, ?_⟩
    apply mpz_sizeinbase_2_int _ n hn _ h5
    have e3 : (2 : Int) ^ (n - 1) = 2 * 2 ^ (n - 2) := by
      rw [← pow_succ']
      congr 1
      omega
    have : (0 : Int) < 2 ^ (n - 2) := by positivity
    rw [e3]
    linarith

theorem candidateFT_range_witness :
    (1 ≤ 8 ∧ 8 < 2 ^ 64 ∧ (1 : Int) ≤ 6 ∧ (0 : Int) ≤ 5 ∧ (5 : Int) < 6) ∧
    genPrimeFT_range 8 5 6 = Except.ok (21, 20) ∧
    candidateFT nullSource 0 21 20 5 6 = Except.ok (0, 227) ∧
    findRSAFactorFT_range 8 5 6 = Except.ok (16, 4) ∧
    candidateFT nullSource 0 16 4 5 6 = Except.ok (0, 101) ∧
    findRSAFactorFT_p 101 = 203 ∧
    ((∃ r l, genPrimeFT_range 8 5 6 = Except.ok (r, l) ∧
      (0 < l → ∀ (σ : Type) (gen : PRNG σ) (s s1 : σ) (p : Int),
        candidateFT gen s r l 5 6 = Except.ok (s1, p) →
          2 ^ (8 - 1) ≤ p ∧ p < 2 ^ 8 ∧ mpz_sizeinbase_2 p = 8 ∧ p % 6 = 5)) ∧
    (3 ≤ 8 → ∃ r l, findRSAFactorFT_range 8 5 6 = Except.ok (r, l) ∧
      (0 < l → ∀ (σ : Type) (gen : PRNG σ) (s s1 : σ) (pdemi : Int),
        candidateFT gen s r l 5 6 = Except.ok (s1, pdemi) →
          3 * 2 ^ (8 - 3) ≤ pdemi ∧ pdemi < 2 ^ (8 - 1) ∧ pdemi % 6 = 5 ∧
          findRSAFactorFT_p pdemi = 2 * pdemi + 1 ∧
          3 * 2 ^ (8 - 2) ≤ findRSAFactorFT_p pdemi ∧ findRSAFactorFT_p pdemi < 2 ^ 8 ∧
          mpz_sizeinbase_2 (findRSAFactorFT_p pdemi) = 8))) :=
  ⟨⟨by decide, by norm_num, by decide, by decide, by decide⟩, by decide, by decide, by decide,
    by decide, by decide,
    candidateFT_range 8 5 6 (by decide) (by norm_num) (by decide) (by decide) (by decide)⟩

/-- C37, the claim as stated fails.  For `n_bits = 71` the parameter build, called with
`k = n_bits - 1 = 70` as `genPrimeFT` does, takes the four primes 2, 3, 5, 7: it returns
`m = 210` and `lambda = 12`, and `bitlen (m) + 64 = 72` is above `n_bits`.  The loop tests the
size of the product before it multiplies by the next prime. -/
theorem genParamFT_exceeds_size :
    ∃ T, initPrimes = Except.ok T ∧
      genParamFT T.primes FT_ALGO_PARAM_L (size_t_sub 71 1) = Except.ok (210, 12, 7) ∧
      (210 : Int) = (([2, 3, 5, 7] : List Nat).prod : Nat) ∧
      (12 : Int) = (lcmPred [2, 3, 5, 7] : Nat) ∧
      T.primes.take 4 = [2, 3, 5, 7] ∧
      mpz_sizeinbase_2 210 = 8 ∧ ¬ (mpz_sizeinbase_2 210 + FT_ALGO_PARAM_L ≤ 71) := by
  obtain ⟨Q, _, _, _, _, _, _, hT⟩ := initPrimes_spec
  refine ⟨_, hT, ?_, by decide, by decide, rfl, by decide, by decide⟩
  have h := genParamFTLoop_small ([11, 13, 17, 19, 23, 29, 31, 37, 41, 43, 47, 53] ++ Q) 6537
  have h2 : genParamFTLoop (2 :: firstGroup ++ Q) 70 64 PRIMES_SIZE 1 1 0 = (210, 12, 4) := h
  have e : size_t_sub 71 1 = 70 := by decide
  have e2 : FT_ALGO_PARAM_L = 64 := rfl
  rw [e, e2]
  exact genParamFT_of_loop _ _ _ _ _ _ h2 (by decide)

/-- C37, amended.  For every requested size `n_bits` with `66 ≤ n_bits < 2^64`, the
Fouque-Tibouchi parameter build, called with `k = n_bits - 1` as `genPrimeFT` does, returns
`m`, the product of the first `i ≥ 1` table primes, `lambda`, the least common multiple of the
`p - 1` over those primes, and the last of them; the product `m'` of the first `i - 1` primes
has `bitlen (m') + 64 ≤ n_bits - 1`, and when the prime table is not exhausted
`n_bits - 1 < bitlen (m) + 64`. -/
theorem genParamFT_size (n_bits : Nat) (h66 : 66 ≤ n_bits) (hsize : n_bits < 2 ^ 64) :
    ∃ T, initPrimes = Except.ok T ∧ ∃ i, 1 ≤ i ∧ i ≤ PRIMES_SIZE ∧
      genParamFT T.primes FT_ALGO_PARAM_L (size_t_sub n_bits 1)
        = Except.ok ((((T.primes.take i).prod : Nat) : Int),
            ((lcmPred (T.primes.take i) : Nat) : Int), T.primes.getD (i - 1) 0) ∧
      mpz_sizeinbase_2 ((T.primes.take (i - 1)).prod : Nat) + FT_ALGO_PARAM_L ≤ n_bits - 1 ∧
      (i < PRIMES_SIZE →
        n_bits - 1 < mpz_sizeinbase_2 ((T.primes.take i).prod : Nat) + FT_ALGO_PARAM_L) := by
  have e : size_t_sub n_bits 1 = n_bits - 1 := by
    unfold size_t_sub SIZE_T_RANGE
    have : (2 : Nat) ^ 64 = 18446744073709551616 := by norm_num
    omega
  have e2 : FT_ALGO_PARAM_L = 64 := rfl
  rw [e, e2]
  obtain ⟨T, hT, _, h⟩ := genParamFT_spec (n_bits - 1) (by omega) (by omega)
  exact ⟨T, hT, h⟩

theorem genParamFT_size_witness :
    66 ≤ 1024 ∧ 1024 < 2 ^ 64 ∧
    ∃ T, initPrimes = Except.ok T ∧ ∃ i, 1 ≤ i ∧ i ≤ PRIMES_SIZE ∧
      genParamFT T.primes FT_ALGO_PARAM_L (size_t_sub 1024 1)
        = Except.ok ((((T.primes.take i).prod : Nat) : Int),
            ((lcmPred (T.primes.take i) : Nat) : Int), T.primes.getD (i - 1) 0) ∧
      mpz_sizeinbase_2 ((T.primes.take (i - 1)).prod : Nat) + FT_ALGO_PARAM_L ≤ 1024 - 1 ∧
      (i < PRIMES_SIZE →
        1024 - 1 < mpz_sizeinbase_2 ((T.primes.take i).prod : Nat) + FT_ALGO_PARAM_L) :=
  ⟨by decide, by norm_num, genParamFT_size 1024 (by decide) (by norm_num)⟩

/-- C38.  On the first call of `initPrimes` the table `primes` is filled with the primes below
65522, which are 6542, in increasing order, from 2, 3, 5 up to 65521, and with no other
number.  During the construction the table holds the primes below the candidate `t` when `t`
is tested (`t` odd, from 5 on, in steps 2 and 4): there the trial division
`isSmallPrime_Sieve (t)` returns whether `t` is prime, so it neither divides by an entry that
is not yet written (a division by zero in the model) nor reaches its `throw`; and from every
such state the loop runs to its end without the `throw` of a candidate counter that wraps
around. -/
theorem initPrimes_table :
    (∃ T, initPrimes = Except.ok T ∧ T.primes = primesLt 65522) ∧
    (primesLt 65522).length = 6542 ∧
    (primesLt 65522).Pairwise (· < ·) ∧
    (∀ p, p ∈ primesLt 65522 ↔ p.Prime ∧ p ≤ 65521) ∧
    (primesLt 65522).take 3 = [2, 3, 5] ∧
    (primesLt 65522).getLast? = some 65521 ∧
    (∀ t, 5 ≤ t → t ≤ 65525 → t % 2 = 1 →
      isSmallPrime_Sieve (primesLt t) t 0 = Except.ok (decide t.Prime)) ∧
    (∀ t delta, 5 ≤ t → t ≤ 65525 → ((t % 6 = 5 ∧ delta = 2) ∨ (t % 6 = 1 ∧ delta = 4)) →
      (t + delta) % 2 ^ 32 = t + delta ∧
      initPrimesLoop (2 ^ 32) (primesLt t) (primesLt t).length t delta
        = Except.ok (primesLt 65522)) ∧
    initPrimesLoop (2 ^ 32) (primesLt 5) (primesLt 5).length 5 2
      = initPrimesLoop (2 ^ 32) [2, 3] 2 5 2 := by
  obtain ⟨Q, hQ, _, _, _, _, _, hinit⟩ := initPrimes_spec
  have hlast : primesLt 65522 = primesLt 65521 ++ [65521] := by
    rw [primesLt_succ, if_pos (by norm_num)]
  refine ⟨⟨_, hinit, hQ.symm⟩, primesLt_count, primesLt_sorted _, ?_, ?_, ?_, ?_, ?_, ?_⟩
  · intro p
    rw [mem_primesLt]
    constructor
    · rintro ⟨h1, h2⟩; exact ⟨h2, by omega⟩
    · rintro ⟨h1, h2⟩; exact ⟨by omega, h1⟩
  · rw [hQ]; rfl
  · rw [hlast, List.getLast?_append]
    rfl
  · intro t h5 hle hodd
    apply isSmallPrime_Sieve_correct t h5 hle hodd
    obtain ⟨l, hl, _⟩ := primesLt_add t (65525 - t)
    have ht : t + (65525 - t) = 65525 := by omega
    rw [ht, primesLt_65525] at hl
    have := primesLt_count
    rw [hl, List.length_append] at this
    omega
  · intro t delta h5 hle hpat
    refine ⟨Nat.mod_eq_of_lt (by rcases hpat with ⟨_, h⟩ | ⟨_, h⟩ <;> omega), ?_⟩
    exact initPrimesLoop_correct primesLt_count (2 ^ 32) t delta h5 hle hpat (by omega)
  · rw [primesLt_five]
    rfl

/-- C39.  After `initPrimes` (64-bit limbs): `primesProductsIndices` and `primesProducts`
have 1576 entries; the groups `[start_j, end_j)` are contiguous, `start_0 = 16` being the
index of 59 in `primes`, `end_j = start_(j+1)` and `end_1575 = 6542`, the size of `primes`, so
that they cover every index from that of 59 on and no index past the table; each
`primesProducts[j]` is the product of `primes[start_j .. end_j)` and is below `2^64`; and the
constant `PP` is `3 * 5 * 7 * ... * 53`. -/
theorem initPrimes_groups :
    ∃ T, initPrimes = Except.ok T ∧
      T.primes.length = 6542 ∧
      T.primesProductsIndices.length = 1576 ∧ T.primesProducts.length = 1576 ∧
      T.primes.getD 16 0 = 59 ∧
      (T.primesProductsIndices.getD 0 (0, 0)).1 = 16 ∧
      (∀ j, j + 1 < 1576 →
        (T.primesProductsIndices.getD j (0, 0)).2
          = (T.primesProductsIndices.getD (j + 1) (0, 0)).1) ∧
      (T.primesProductsIndices.getD 1575 (0, 0)).2 = 6542 ∧
      (∀ j, j < 1576 →
        (T.primesProductsIndices.getD j (0, 0)).1 ≤ (T.primesProductsIndices.getD j (0, 0)).2 ∧
        T.primesProducts.getD j 0
          = ((T.primes.drop (T.primesProductsIndices.getD j (0, 0)).1).take
              ((T.primesProductsIndices.getD j (0, 0)).2
                - (T.primesProductsIndices.getD j (0, 0)).1)).prod ∧
        T.primesProducts.getD j 0 < 2 ^ 64) ∧
      PP = 3 * 5 * 7 * 11 * 13 * 17 * 19 * 23 * 29 * 31 * 37 * 41 * 43 * 47 * 53 := by
  obtain ⟨Q, hQ, hlen, _, _, hcover, _, hinit⟩ := initPrimes_spec
  obtain ⟨l, hl⟩ := primes_split_head Q hQ
  have hidx : ∀ j, ((productsLoop PRIMES_PRODUCTS_SIZE Q 16).map (fun g => g.1)).getD j (0, 0)
      = ((productsLoop PRIMES_PRODUCTS_SIZE Q 16).getD j ((0, 0), 0)).1 :=
    fun j => List.getD_map _ ((0, 0), 0) (fun g => g.1)
  have hprod : ∀ j, ((productsLoop PRIMES_PRODUCTS_SIZE Q 16).map (fun g => g.2)).getD j 0
      = ((productsLoop PRIMES_PRODUCTS_SIZE Q 16).getD j ((0, 0), 0)).2 :=
    fun j => List.getD_map _ ((0, 0), 0) (fun g => g.2)
  refine ⟨_, hinit, ?_, ?_, ?_, ?_, ?_, ?_, ?_, ?_, by decide⟩
  · dsimp only
    rw [← hQ]; exact primesLt_count
  · dsimp only
    rw [List.length_map, productsLoop_length]; rfl
  · dsimp only
    rw [List.length_map, productsLoop_length]; rfl
  · dsimp only
    rw [hl]; rfl
  · dsimp only
    rw [hidx]
    exact productsLoop_first 1575 Q 16
  · intro j hj
    dsimp only
    rw [hidx, hidx]
    exact productsLoop_chain PRIMES_PRODUCTS_SIZE Q 16 j hj
  · dsimp only
    rw [hidx]
    have hsz : PRIMES_PRODUCTS_SIZE = 1575 + 1 := rfl
    have hps : PRIMES_SIZE = 6542 := rfl
    rw [hsz] at hcover ⊢
    rw [productsLoop_last 1575 Q 16 hlen hcover, hps]
  · intro j hj
    dsimp only
    obtain ⟨pre, grp, post, hsplit, hG, hlt⟩ :=
      productsLoop_groups PRIMES_PRODUCTS_SIZE Q 16 hlen j hj
    rw [hidx, hprod, hG]
    dsimp only
    refine ⟨by omega, ?_, hlt⟩
    have hd : (2 :: firstGroup ++ Q).drop (16 + pre.length) = grp ++ post := by
      have e : 2 :: firstGroup ++ Q = ((2 :: firstGroup) ++ pre) ++ (grp ++ post) := by
        rw [hsplit, List.append_assoc]
      rw [e]
      exact List.drop_left' (by rw [List.length_append]; rfl)
    have hn : 16 + pre.length + grp.length - (16 + pre.length) = grp.length := by omega
    rw [hd, hn, List.take_left]

/-- C40.  For every `n ≥ 1`, on the tables that `initPrimes` computes, the cofactor left by
the grouped loops of `isSmooth` (one remainder by `PP` or by a group product, then divisions
by the members of the group) is the cofactor left by the loop of the source comment, which
divides by one table prime at a time: both are the number `c` with `n = c * m`, where every
prime factor of `m` is a table prime (at most 65521) and no table prime divides `c`;
`isSmooth` then decides on that cofactor. -/
theorem isSmooth_grouped_eq_naive (n : Nat) (hn : 1 ≤ n) :
    ∃ T c m, initPrimes = Except.ok T ∧
      isSmoothCofactor T (n : Int) = Except.ok c ∧
      naiveSmoothCofactor T (n : Int) = Except.ok c ∧
      n = c * m ∧ 1 ≤ c ∧
      (∀ p : Nat, p.Prime → p ∣ m → p ∈ T.primes) ∧
      (∀ p ∈ T.primes, ¬ p ∣ c) ∧
      isSmooth T (n : Int)
        = (if c = 1 then Except.ok true
           else if mpz_sizeinbase_2 c > size_t_sub (mpz_sizeinbase_2 n) SMOOTH_PART_SIZE_LIMIT
             then Except.ok false
           else Except.ok true) := by
  obtain ⟨T, c, m, hT, hnc, hc1, hm, hc, hprimes, hgrouped⟩ := isSmoothCofactor_spec n hn
  have hmem : ∀ p, p ∈ T.primes ↔ p.Prime ∧ p ≤ 65521 := by
    intro p
    rw [hprimes, mem_primesLt]
    constructor
    · rintro ⟨h1, h2⟩; exact ⟨h2, by omega⟩
    · rintro ⟨h1, h2⟩; exact ⟨by omega, h1⟩
  obtain ⟨c2, m2, hloop, hnc2, hc2, hnd2, hq2⟩ :=
    naiveSmoothLoop_spec T.primes n (fun d hd => ((hmem d).mp hd).1) hn
  have heq : c2 = c :=
    cofactor_unique 65521 c2 m2 c m (by rw [← hnc2, ← hnc])
      (fun p hp h => ((hmem p).mp (hq2 p hp h)).2)
      (fun p hp h => by
        by_contra hle
        exact hnd2 p ((hmem p).mpr ⟨hp, by omega⟩) h)
      hm hc
  have htake : T.primes.take NB_PRIMES_TO_CHECK_SMOOTHNESS = T.primes := by
    apply List.take_of_length_le
    rw [hprimes, primesLt_count]
    decide
  refine ⟨T, c, m, hT, hgrouped, ?_, hnc, hc1, ?_, ?_, ?_⟩
  · unfold naiveSmoothCofactor
    rw [if_neg (by omega), htake, Int.natAbs_ofNat, hloop, heq]
  · intro p hp h
    exact (hmem p).mpr ⟨hp, hm p hp h⟩
  · intro p hp h
    have := hc p ((hmem p).mp hp).1 h
    have := ((hmem p).mp hp).2
    omega
  · rw [isSmooth_eq_cofactor, hgrouped]

theorem isSmooth_grouped_eq_naive_witness :
    ∃ T c m, initPrimes = Except.ok T ∧
      isSmoothCofactor T ((360 : Nat) : Int) = Except.ok c ∧
      naiveSmoothCofactor T ((360 : Nat) : Int) = Except.ok c ∧
      360 = c * m ∧ 1 ≤ c ∧
      (∀ p : Nat, p.Prime → p ∣ m → p ∈ T.primes) ∧
      (∀ p ∈ T.primes, ¬ p ∣ c) ∧
      isSmooth T ((360 : Nat) : Int)
        = (if c = 1 then Except.ok true
           else if mpz_sizeinbase_2 c
               > size_t_sub (mpz_sizeinbase_2 ((360 : Nat) : Int)) SMOOTH_PART_SIZE_LIMIT
             then Except.ok false
           else Except.ok true) :=
  isSmooth_grouped_eq_naive 360 (by decide)

end ANSSIPKI
